import Mathlib

/-!
# Access-pattern machinery of the dense tensor library

A shallow embedding of `tensor/i/matop.go` (the `int` instantiation of the
tensor methods) and `tensor/f32/tensor.go` (the tensor value type, construction,
`setShape`, `sanity`, `Reshape`, `Eq`, `Clone`, slice descriptors).  Go `int`
values are Lean `Int`; the additions of `Apply` on elements wrap at 64 bits.
The buffer is one list of `Int` for both files: for the methods of `matop.go`
an entry is a Go `int`; for `Eq` of `tensor.go`, the one place where
`float32` elements are compared, an entry stands for the `float32` with that
IEEE-754 bit pattern, so that a NaN differs from itself and the two zeros are
equal.  The `uint64` bitmap of `Transpose` is a `Nat` reduced modulo `2^64`.
Fallible code returns `Except Err`; a Go run-time panic is `Err.goPanic`.
Where two buffers may share memory (`CopyTo`, `Clone`), the layout is made
explicit: `CopyTo` is told how the two buffers lie to each other and returns
both tensors, and `CloneIn` runs `Clone` on a memory of backing arrays.

The package `tensor/types` (shapes, access patterns, `Ltoi`, `Itol`,
`Permute`, the error kinds) is not part of the sources at hand; its
operations are modelled from the specification and marked as such.
-/

namespace Gorgonia

/-! ## Error kinds -/

/-- The error kinds of the library, together with the two ways a Go call can
fail to return: a run-time panic, and a loop that has not finished within the
fuel granted to the model. -/
inductive Err where
  | shapeMismatch
  | sizeMismatch
  | dimMismatch
  | indexError
  | emptyTensor
  | noOp
  | notYetImplemented
  | invalidAxes
  | goPanic
  | outOfFuel
deriving DecidableEq, Repr

/-- An error value handed back to the caller (as opposed to a panic or a
computation that does not finish). -/
def Err.isReturned : Err → Bool
  | .goPanic => false
  | .outOfFuel => false
  | _ => true

/-! ## Go slices of `int` -/

/-- Go `xs[i]`: panics when `i` is out of range. -/
def getAt (xs : List Int) (i : Int) : Except Err Int :=
  if 0 ≤ i then
    match xs[i.toNat]? with
    | some v => .ok v
    | none => .error .goPanic
  else .error .goPanic

/-- Go `xs[i] = v`: panics when `i` is out of range. -/
def setAt (xs : List Int) (i : Int) (v : Int) : Except Err (List Int) :=
  if 0 ≤ i ∧ i.toNat < xs.length then .ok (xs.set i.toNat v) else .error .goPanic

/-- Go `xs[a:b]` for a slice whose capacity equals its length: panics unless
`0 ≤ a ≤ b ≤ len(xs)`. -/
def subSlice (xs : List Int) (a b : Int) : Except Err (List Int) :=
  if 0 ≤ a ∧ a ≤ b ∧ b ≤ (xs.length : Int) then
    .ok ((xs.drop a.toNat).take (b.toNat - a.toNat))
  else .error .goPanic

/-- Go `len(xs)` as an `int`. -/
def len (xs : List Int) : Int := (xs.length : Int)

/-! ## Shapes (package `types`, modelled from the specification) -/

/-- A shape: the sizes of the axes, as Go `int`s. -/
abbrev Shape := List Int

/-- Modelled from the spec: `types.Shape.TotalSize` is missing from the
sources; "total_size = ∏ dims, with empty shape denoting a scalar (size 1)". -/
def Shape.TotalSize (s : Shape) : Int := s.prod

/-- Modelled from the spec: `types.Shape.IsScalar` is missing from the
sources; "is_scalar (rank 0)". -/
def Shape.IsScalar (s : Shape) : Bool := s.length == 0

/-- Modelled from the spec: `types.Shape.IsRowVec` is missing from the
sources; "is_row_vec (shape = (1,n))". -/
def Shape.IsRowVec (s : Shape) : Bool :=
  match s with
  | [a, _] => a == 1
  | _ => false

/-- Modelled from the spec: `types.Shape.IsColVec` is missing from the
sources; "is_col_vec (shape = (n,1))". -/
def Shape.IsColVec (s : Shape) : Bool :=
  match s with
  | [_, b] => b == 1
  | _ => false

/-- Modelled from the spec: `types.Shape.IsVector` is missing from the
sources; "is_vector (rank 1, OR rank 2 with a 1 in one axis)". -/
def Shape.IsVector (s : Shape) : Bool :=
  s.length == 1 || s.IsRowVec || s.IsColVec

/-- Modelled from the spec: `types.Shape.Dims` is missing from the sources.
Strides are kept "one per non-trivial axis", a scalar has none and every vector
has the single stride `[1]`; `Slice` relies on `Dims()` being smaller than
`len(Shape())` exactly for row and column vectors. -/
def Shape.Dims (s : Shape) : Int :=
  if s.IsScalar then 0 else if s.IsVector then 1 else (s.length : Int)

/-- Row-major strides of a list of sizes: `stride_i = ∏_{j>i} d_j`. -/
def rowMajor : List Int → List Int
  | [] => []
  | _ :: ds => ds.prod :: rowMajor ds

/-- Modelled from the spec: `types.Shape.CalcStrides` is missing from the
sources; "row-major strides", "Vectors carry strides `[1]`. Scalars carry no
strides." (`Repeat` notes that `CalcStrides()` returns `[]int{1}` for a
vector.) -/
def Shape.CalcStrides (s : Shape) : List Int :=
  if s.IsScalar then [] else if s.IsVector then [1] else rowMajor s

/-- Modelled from the spec: `types.SumInts` is missing from the sources;
"`new_shape[axis] = Σ repeats`". -/
def SumInts (a : List Int) : Int := a.sum

/-- Modelled from the spec: `types.ProdInts` is missing from the sources;
"`outers = ∏ shape[0..axis]`". -/
def ProdInts (a : List Int) : Int := a.prod

/-- The sentinel axis meaning "all axes". -/
def AllAxes : Int := -1

/-! ## Coordinate algebra (package `types`, modelled from the specification) -/

/-- The list `0, 1, .., n-1` as Go `int`s. -/
def iota (n : Nat) : List Int := (List.range n).map (fun (k : Nat) => (k : Int))

/-- Every value of `0..n-1` appears exactly once in `pat`, and `pat` has
length `n`. -/
def isPermutation (pat : List Int) (n : Nat) : Bool :=
  pat.length == n && (iota n).all (fun v => pat.count v == 1)

/-- The reordering `out[i] = xs[pat[i]]`. -/
def permuteList (pat : List Int) (xs : List Int) : List Int :=
  pat.map (fun a => xs.getD a.toNat 0)

/-- Modelled from the spec: `types.Permute` is missing from the sources;
"returns xs reordered so that `out[i] = xs[pat[i]]`. Fails if `pat` is not a
permutation of `0..len(xs)`." -/
def Permute (pat : List Int) (xs : List Int) : Except Err (List Int) :=
  if isPermutation pat xs.length then .ok (permuteList pat xs) else .error .invalidAxes

/-- The sum `Σ coords_i · strides_i` over the common length. -/
def dot : List Int → List Int → Int
  | c :: cs, s :: ss => c * s + dot cs ss
  | _, _ => 0

/-- Every coordinate lies in `[0, shape_i)`, and there is one per axis. -/
def inRange : List Int → Shape → Bool
  | [], [] => true
  | c :: cs, d :: ds => decide (0 ≤ c) && decide (c < d) && inRange cs ds
  | _, _ => false

/-- Modelled from the spec: `types.Ltoi` is missing from the sources; "linear
offset = Σ coords_i·strides_i. Fails with IndexError if any coord ≥ shape_i or
negative, or arity ≠ rank."  A row or column vector keeps its single stride for
its non-trivial axis. -/
def Ltoi (shape : Shape) (strides : List Int) (coords : List Int) : Except Err Int :=
  if inRange coords shape then
    if shape.IsRowVec then .ok (coords.getD 1 0 * strides.getD 0 0)
    else if shape.IsColVec then .ok (coords.getD 0 0 * strides.getD 0 0)
    else .ok (dot coords strides)
  else .error .indexError

/-- Successive division of an offset by the strides. -/
def itolAux : Int → List Int → List Int
  | _, [] => []
  | i, s :: ss => (i / s) :: itolAux (i % s) ss

/-- Modelled from the spec: `types.Itol` is missing from the sources; "inverse
of `ltoi` when the layout is contiguous row-major; produces the coordinates that
`ltoi` would map back to `i`. Fails if `i ≥ total_size`." -/
def Itol (i : Int) (shape : Shape) (strides : List Int) : Except Err (List Int) :=
  if i ≥ shape.TotalSize then .error .indexError else .ok (itolAux i strides)

/-! ## Access patterns (package `types`, modelled from the specification) -/

/-- The access pattern: "the pair (shape, strides) plus a boolean locked
flag". A Go nil shape is the empty list. -/
structure AP where
  shape : Shape
  strides : List Int
  fin : Bool
deriving DecidableEq, Repr

/-- A fresh access pattern (`new(types.AP)`). -/
def AP.new : AP := { shape := [], strides := [], fin := false }

/-- Modelled from the spec: `types.AP.Lock` is missing from the sources. -/
def AP.Lock (ap : AP) : AP := { ap with fin := true }

/-- Modelled from the spec: `types.AP.Unlock` is missing from the sources. -/
def AP.Unlock (ap : AP) : AP := { ap with fin := false }

/-- Modelled from the spec: `types.AP.SetShape` is missing from the sources;
"replaces shape; recomputes strides as row-major; trivial (empty) dims yield
scalar", "Locked APs reject in-place shape mutation". -/
def AP.SetShape (ap : AP) (s : List Int) : AP :=
  if ap.fin then ap else { ap with shape := s, strides := Shape.CalcStrides s }

/-- Modelled from the spec: `types.NewAP` is missing from the sources;
"construction locks after initialisation". -/
def NewAP (shape : Shape) (strides : List Int) : AP :=
  { shape := shape, strides := strides, fin := true }

/-- Modelled from the spec: `types.AP.Clone` is missing from the sources;
"AP is a pure value; cloning is deep". -/
def AP.Clone (ap : AP) : AP := ap

/-- The axes of a transposition after filling in the default: "If omitted,
reverse all axes". -/
def normAxes (rank : Nat) (axes : List Int) : List Int :=
  if axes.isEmpty then (iota rank).reverse else axes

/-- Modelled from the spec: `types.AP.T` is missing from the sources; it
"produce[s] a transformed AP under `axes`, which also normalises `axes`
(filling defaults) and validates them": omitted axes reverse all axes; the
length must equal the rank and every value of `[0, rank)` must appear exactly
once; the identity is reported as `NoOp`.  The transformed AP holds the
permuted shape and the permuted strides ("the logical post-transpose
shape/strides"); a vector, whose single stride is not one per axis, keeps its
strides ("purely shape bookkeeping"). -/
def AP.T (ap : AP) (axes : List Int) : Except Err (AP × List Int) :=
  let rank := ap.shape.length
  let axes1 := normAxes rank axes
  if isPermutation axes1 rank then
    if axes1 = iota rank then .error .noOp
    else
      .ok ({ shape := permuteList axes1 ap.shape,
             strides := if ap.strides.length = rank then permuteList axes1 ap.strides
                        else ap.strides,
             fin := true }, axes1)
  else .error .invalidAxes

/-! ## The tensor value (`tensor.go`) -/

/-- The tensor: access pattern, linear buffer, the saved access pattern and
permutation of a thunked transpose, and the parent of a view. -/
structure Tensor where
  ap : AP
  data : List Int
  old : Option AP
  transposeWith : Option (List Int)
  viewOf : Option Tensor
deriving Repr

namespace Tensor

/-- The promoted `Shape()` of the embedded access pattern. -/
def Shape (t : Tensor) : Shape := t.ap.shape

/-- The promoted `Strides()` of the embedded access pattern. -/
def Strides (t : Tensor) : List Int := t.ap.strides

/-- The promoted `Dims()`. -/
def Dims (t : Tensor) : Int := Shape.Dims t.ap.shape

/-- The promoted `IsScalar()`. -/
def IsScalar (t : Tensor) : Bool := Shape.IsScalar t.ap.shape

/-- The promoted `IsVector()`. -/
def IsVector (t : Tensor) : Bool := Shape.IsVector t.ap.shape

/-- The promoted `IsRowVec()`. -/
def IsRowVec (t : Tensor) : Bool := Shape.IsRowVec t.ap.shape

/-- The promoted `IsColVec()`. -/
def IsColVec (t : Tensor) : Bool := Shape.IsColVec t.ap.shape

/-- Go `setShape`: unlock, set the shape, lock. -/
def setShape (t : Tensor) (s : List Int) : Tensor :=
  { t with ap := ((t.ap.Unlock).SetShape s).Lock }

/-- Go `oshape`: the saved shape when a thunk is pending, else the shape. -/
def oshape (t : Tensor) : Gorgonia.Shape :=
  match t.old with
  | some o => o.shape
  | none => t.ap.shape

/-- Go `ostrides`: the saved strides when a thunk is pending, else the
strides. -/
def ostrides (t : Tensor) : List Int :=
  match t.old with
  | some o => o.strides
  | none => t.ap.strides

/-- Go `Size`. -/
def Size (t : Tensor) : Int := Shape.TotalSize t.ap.shape

/-- Go `DataSize`. -/
def DataSize (t : Tensor) : Int := len t.data

/-- Go `IsView`. -/
def IsView (t : Tensor) : Bool := t.viewOf.isSome

/-! ## Transposition (`matop.go`) -/

end Tensor

/-- The `uint64` value `1 << uint64(i)`: the shift yields zero once the count
reaches 64, and a negative `int` converts to a count far above 64. -/
def bit64 (i : Int) : Nat := if 0 ≤ i ∧ i < 64 then 2 ^ i.toNat else 0

/-- The seed `(1 << 0) + (1 << (uint64(size) - 1))` of the bitmap. -/
def trackInit (size : Int) : Nat := (1 + bit64 (size - 1)) % 2 ^ 64

/-- The value `(1 << uint64(size)) - 1` the bitmap is compared with. -/
def trackFull (size : Int) : Nat := (bit64 size + 2 ^ 64 - 1) % 2 ^ 64

/-- The test `track & (1 << uint64(i)) > 0`. -/
def isSet (track : Nat) (i : Int) : Bool := decide (track &&& bit64 i > 0)

/-- The inner loop `for track&(1<<uint64(i)) > 0 { i++ }`. No bit is set from
position 64 on, so the loop has ended when the counter runs out. -/
def advanceLoop (track : Nat) : Nat → Int → Int
  | 0, i => i
  | n + 1, i => if isSet track i then advanceLoop track n (i + 1) else i

/-- The inner loop with a counter that is never exhausted. -/
def advance (track : Nat) (i : Int) : Int := advanceLoop track 65 i

/-- The loop of `transposeIndex`: `index += oldCoord[axis] * strides[i]`. -/
def transposeIndexLoop (oldCoord : List Int) : List Int → List Int → Int → Except Err Int
  | [], _, index => .ok index
  | axis :: pat, strides, index =>
    match getAt oldCoord axis, strides with
    | .ok c, s :: ss => transposeIndexLoop oldCoord pat ss (index + c * s)
    | _, _ => .error .goPanic

namespace Tensor

/-- Go `transposeIndex`: the new index of the element at old index `i`. -/
def transposeIndex (t : Tensor) (i : Int) (transposePat strides : List Int) : Except Err Int :=
  match Itol i t.oshape t.ostrides with
  | .error _ => .error .goPanic
  | .ok oldCoord => transposeIndexLoop oldCoord transposePat strides 0

/-- Go `transposeCoord`: the old coordinate of index `i` and its permutation. -/
def transposeCoord (t : Tensor) (i : Int) (transposePat : List Int) :
    Except Err (List Int × List Int) :=
  match Itol i t.oshape t.ostrides with
  | .error _ => .error .goPanic
  | .ok oldCoord =>
    match Permute transposePat oldCoord with
    | .error _ => .error .goPanic
    | .ok coords => .ok (oldCoord, coords)

/-- The cycle-following loop of `Transpose`. The state is the bitmap, the saved
element, the index and the buffer; the result is the state at loop exit. -/
def transposeLoop (t : Tensor) (axes expStrides : List Int) (size : Int) :
    Nat → Nat → Int → Int → List Int → Except Err (Int × Int × List Int)
  | 0, _, _, _, _ => .error .outOfFuel
  | fuel + 1, track, saved, i, data =>
    if track = trackFull size then .ok (saved, i, data)
    else
      match t.transposeIndex i axes expStrides with
      | .error e => .error e
      | .ok dest =>
        if isSet track i && isSet track dest then
          match setAt data i saved with
          | .error e => .error e
          | .ok data1 =>
            let i1 := advance track i
            if i1 ≥ len data1 then .ok (0, i1, data1)
            else transposeLoop t axes expStrides size fuel track 0 i1 data1
        else
          match getAt data i with
          | .error e => .error e
          | .ok tmp =>
            match setAt data i saved with
            | .error e => .error e
            | .ok data1 =>
              transposeLoop t axes expStrides size fuel (track ||| bit64 i) tmp dest data1

/-- Go `Transpose`: physically permutes the buffer of a thunked tensor. The
deferred function clears `old` and `transposeWith` on return; the result of the
closing `sanity()` call is discarded by the code. The loop has no bound of its
own, so the model takes the number of iterations it may run as `fuel`. -/
def Transpose (fuel : Nat) (t : Tensor) : Except Err Tensor :=
  match t.old with
  | none => .ok t
  | some _ =>
    if t.IsScalar then .ok t
    else
      let expShape := t.Shape
      let expStrides := Shape.CalcStrides expShape
      let size := t.Size
      let axes := t.transposeWith.getD []
      if t.IsVector then
        .ok { t.setShape expShape with old := none, transposeWith := none }
      else
        match transposeLoop t axes expStrides size fuel (trackInit size) 0 1 t.data with
        | .error e => .error e
        | .ok (saved, i, data) =>
          match setAt data i saved with
          | .error e => .error e
          | .ok data1 =>
            .ok { ({ t with data := data1 } : Tensor).setShape expShape with
                  old := none, transposeWith := none }

/-- The loop of `T` that compares the transformed shape with the saved one. -/
def isReversedLoop : List Int → List Int → Except Err Bool
  | [], _ => .ok true
  | s :: os, ts =>
    match ts with
    | [] => .error .goPanic
    | x :: xs => if x ≠ s then .ok false else isReversedLoop os xs

/-- Go `T`: the thunked transpose. -/
def T (fuel : Nat) (t : Tensor) (axes : List Int) : Except Err Tensor :=
  match t.ap.T axes with
  | .error e => if e = .noOp then .ok t else .error e
  | .ok (transform, axes1) =>
    match t.old with
    | some o =>
      if t.IsVector then
        .ok { t with ap := o, old := none, transposeWith := none }
      else
        match isReversedLoop t.oshape transform.shape with
        | .error e => .error e
        | .ok true => .ok { t with ap := o, old := none, transposeWith := none }
        | .ok false =>
          match t.Transpose fuel with
          | .error e => .error e
          | .ok t1 =>
            .ok { t1 with old := some t1.ap, transposeWith := some axes1, ap := transform }
    | none => .ok { t with old := some t.ap, transposeWith := some axes1, ap := transform }

/-! ## Element access -/

/-- Go `at`: the offset a coordinate refers to. -/
def atOffset (t : Tensor) (coords : List Int) : Except Err Int :=
  Ltoi t.Shape t.Strides coords

/-- Go `itol`: the inverse of `at`. -/
def itol (t : Tensor) (i : Int) : Except Err (List Int) :=
  let oShape := match t.old with
    | some o => o.shape
    | none => t.Shape
  let oStrides := match t.old with
    | some o => o.strides
    | none => t.Strides
  match Itol i oShape oStrides with
  | .error e => .error e
  | .ok coords =>
    match t.transposeWith with
    | some tw =>
      match Permute tw coords with
      | .ok res => .ok res
      | .error e => .error e
    | none => .ok coords

/-- Go `At`: panics on a wrong number of coordinates and on an offset error. -/
def At (t : Tensor) (coords : List Int) : Except Err Int :=
  if (coords.length : Int) ≠ t.Dims then .error .goPanic
  else
    match t.atOffset coords with
    | .error _ => .error .goPanic
    | .ok a => getAt t.data a

end Tensor

/-! ## Construction (`tensor.go`) -/

/-- A construction option of `NewTensor`. The buffer of `WithBacking` is a
non-nil slice; a nil slice leaves the buffer nil, as leaving the option out
does. -/
inductive ConsOpt where
  | WithBacking (a : List Int)
  | WithShape (dims : List Int)
  | AsScalar (s : Int)
deriving DecidableEq, Repr

/-- The tensor under construction: the buffer is nil until an option or `fix`
provides one. -/
structure Cons where
  ap : AP
  data : Option (List Int)
deriving DecidableEq, Repr

/-- Runs one construction option (`WithBacking`, `WithShape`, `AsScalar`). -/
def ConsOpt.run (o : ConsOpt) (c : Cons) : Cons :=
  match o with
  | .WithBacking a => { c with data := some a }
  | .WithShape dims => { c with ap := ((c.ap.Unlock).SetShape dims).Lock }
  | .AsScalar s => { ap := ((c.ap.Unlock).SetShape []).Lock, data := some [s] }

/-- Go `fix`: fills in the shape or the buffer the options left out. A negative
size makes `make` panic. -/
def Cons.fix (c : Cons) : Except Err Cons :=
  let c1 : Option Cons :=
    if c.ap.shape = [] then
      match c.data with
      | none => none
      | some d =>
        if len d = 1 then some { c with ap := c.ap.SetShape [] }
        else some { c with ap := c.ap.SetShape [len d] }
    else some c
  match c1 with
  | none => .ok c
  | some c2 =>
    match c2.data with
    | none =>
      let size := Shape.TotalSize c2.ap.shape
      if size < 0 then .error .goPanic
      else .ok { ap := c2.ap.Lock, data := some (List.replicate size.toNat 0) }
    | some _ => .ok { c2 with ap := c2.ap.Lock }

/-- Go `sanity` on an access pattern, a possibly nil buffer and the view
flag. -/
def sanityCheck (ap : AP) (data : Option (List Int)) (isView : Bool) : Except Err Unit :=
  if ap.shape = [] ∧ data = none then .error .emptyTensor
  else
    let size := len (data.getD [])
    let expected := Shape.TotalSize ap.shape
    if !isView ∧ size ≠ expected ∧ !(Shape.IsScalar ap.shape) then .error .shapeMismatch
    else .ok ()

/-- Go `NewTensor`: runs the options, fixes the tensor and panics when the
sanity check fails. -/
def NewTensor (opts : List ConsOpt) : Except Err Tensor :=
  let c := opts.foldl (fun c o => o.run c) { ap := AP.new, data := none }
  match c.fix with
  | .error e => .error e
  | .ok c1 =>
    match sanityCheck c1.ap c1.data false with
    | .error _ => .error .goPanic
    | .ok _ =>
      .ok { ap := c1.ap, data := c1.data.getD [], old := none, transposeWith := none,
            viewOf := none }

/-- Go `sanity` on a constructed tensor, whose buffer is never nil. -/
def Tensor.sanity (t : Tensor) : Except Err Unit :=
  sanityCheck t.ap (some t.data) t.IsView

/-! ## Slice descriptors (`tensor.go`) -/

/-- The two slice descriptors; a nil slice is `none : Option Slice`. -/
inductive Slice where
  | rangedSlice (start stop : Int)
  | singleSlice (s : Int)
deriving DecidableEq, Repr

/-- Go `Start()`. -/
def Slice.Start : Slice → Int
  | .rangedSlice start _ => start
  | .singleSlice s => s

/-- Go `End()`. -/
def Slice.End : Slice → Int
  | .rangedSlice _ stop => stop
  | .singleSlice s => s + 1

/-! ## Slicing (`matop.go`) -/

/-- Go `append(xs[:d], xs[d+1:]...)`: panics unless `d + 1 ≤ len(xs)`. -/
def removeAt (xs : List Int) (d : Nat) : Except Err (List Int) :=
  if d < xs.length then .ok (xs.eraseIdx d) else .error .goPanic

/-- The loop of `Slice` that drops the axes of size 1 while more than two axes
remain. The body ends with `d--; dims--` and the loop header with `d++`, so
`d` stays in place after a removal. The counter bounds the iterations by
`dims - d`. -/
def dropLoop : Nat → Nat → Int → List Int → List Int → Except Err (List Int × List Int)
  | 0, _, _, newShape, newStrides => .ok (newShape, newStrides)
  | n + 1, d, dims, newShape, newStrides =>
    if (d : Int) < dims then
      match getAt newShape d with
      | .error e => .error e
      | .ok x =>
        if x = 1 ∧ dims > 2 then
          match removeAt newShape d, removeAt newStrides d with
          | .ok sh, .ok st => dropLoop n d (dims - 1) sh st
          | _, _ => .error .goPanic
        else dropLoop n (d + 1) dims newShape newStrides
    else .ok (newShape, newStrides)

/-- The start and end `Slice` uses on an axis of the given size: a nil slice
is `[0, size)`; a given slice is validated (`start ≥ 0`, `end ≤ size`). -/
def sliceBounds (sl : Option Slice) (size : Int) : Except Err (Int × Int) :=
  match sl with
  | none => .ok (0, size)
  | some s =>
    if s.Start < 0 then .error .indexError
    else if s.End > size then .error .indexError
    else .ok (s.Start, s.End)

/-- The strides of a view after the drop loop ("fix up strides"): a column
vector keeps its first stride, a row vector gets `[1]`. -/
def fixStrides (newShape newStrides : List Int) : Except Err AP :=
  if Shape.IsColVec newShape then
    match getAt newStrides 0 with
    | .error e => .error e
    | .ok s0 => .ok (NewAP newShape [s0])
  else if Shape.IsRowVec newShape then .ok (NewAP newShape [1])
  else .ok (NewAP newShape newStrides)

/-- The access pattern of the view: a scalar when the window has one element,
else the new shape and the recomputed strides after dropping axes of size 1. -/
def sliceAP (dims ndStart ndEnd : Int) (newShape strides : List Int) : Except Err AP :=
  if ndEnd - ndStart = 1 then .ok (((AP.new).SetShape []).Lock)
  else
    match dropLoop dims.toNat 0 dims newShape strides with
    | .error e => .error e
    | .ok (newShape1, newStrides) => fixStrides newShape1 newStrides

namespace Tensor

/-- The first loop of `Slice`, from axis `i` on for `n` more axes: validates
each slice and accumulates the window and the new shape. -/
def sliceLoop (t : Tensor) (slices : List (Option Slice)) (opDims : Int) (dims : Int) :
    Nat → Nat → Int → Int → List Int → Except Err (Int × Int × List Int)
  | 0, _, ndStart, ndEnd, newShape => .ok (ndStart, ndEnd, newShape)
  | n + 1, i, ndStart, ndEnd, newShape =>
    let sl : Option Slice := slices.getD i none
    match getAt t.oshape i with
    | .error e => .error e
    | .ok size =>
      let strideE : Except Err Int :=
        if dims < opDims ∧ t.IsVector then .ok 1 else getAt t.ostrides i
      match strideE with
      | .error e => .error e
      | .ok stride =>
        match sliceBounds sl size with
        | .error e => .error e
        | .ok (start, stop) =>
          match setAt newShape i (stop - start) with
          | .error e => .error e
          | .ok newShape1 =>
            sliceLoop t slices opDims dims n (i + 1) (ndStart + start * stride)
              (ndEnd - (size - stop) * stride) newShape1

/-- Go `Slice`: the view on the window selected by the slices. -/
def Slice (t : Tensor) (slices : List (Option Gorgonia.Slice)) : Except Err Tensor :=
  if slices.length > t.Shape.length then .error .dimMismatch
  else
    let opDims := t.Shape.length
    let dims := t.Dims
    match sliceLoop t slices opDims dims opDims 0 0 (len t.data) t.Shape with
    | .error e => .error e
    | .ok (ndStart, ndEnd, newShape) =>
      match sliceAP dims ndStart ndEnd newShape (Shape.CalcStrides t.oshape) with
      | .error e => .error e
      | .ok ap =>
        match subSlice t.data ndStart ndEnd with
        | .error e => .error e
        | .ok d =>
          .ok { ap := ap, data := d, old := none, transposeWith := none, viewOf := some t }

end Tensor

/-! ## Repeat (`matop.go`) -/

/-- Go `copy(dst[destStart:], src[srcStart:])` on the whole of `dst`: copies as
many elements as both tails hold. Panics when a start lies outside its
slice. -/
def copyTail (dst : List Int) (destStart : Int) (src : List Int) (srcStart : Int) :
    Except Err (List Int) :=
  if 0 ≤ destStart ∧ destStart ≤ len dst ∧ 0 ≤ srcStart ∧ srcStart ≤ len src then
    let n := min (dst.length - destStart.toNat) (src.length - srcStart.toNat)
    .ok (dst.take destStart.toNat ++ (src.drop srcStart.toNat).take n
          ++ dst.drop (destStart.toNat + n))
  else .error .goPanic

/-- The innermost loop of `Repeat` (`for k := 0; k < tmp; k++`), with its
`break`. The state is the destination buffer and `destStart`. -/
def repeatK (src : List Int) (srcStart stride newStride : Int) :
    Nat → List Int → Int → Except Err (List Int × Int)
  | 0, dst, destStart => .ok (dst, destStart)
  | k + 1, dst, destStart =>
    if srcStart ≥ len src ∨ destStart + stride > len dst then .ok (dst, destStart)
    else
      match copyTail dst destStart src srcStart with
      | .error e => .error e
      | .ok dst1 => repeatK src srcStart stride newStride k dst1 (destStart + newStride)

/-- The middle loop of `Repeat` (`for j := 0; j < size; j++`), from `j` on for
`n` more rounds. The state is the buffer, `destStart` and `srcStart`. -/
def repeatJ (src : List Int) (repeats : List Int) (stride newStride : Int) :
    Nat → Nat → List Int → Int → Int → Except Err (List Int × Int × Int)
  | 0, _, dst, destStart, srcStart => .ok (dst, destStart, srcStart)
  | n + 1, j, dst, destStart, srcStart =>
    match getAt repeats j with
    | .error e => .error e
    | .ok tmp =>
      match repeatK src srcStart stride newStride tmp.toNat dst destStart with
      | .error e => .error e
      | .ok (dst1, destStart1) =>
        repeatJ src repeats stride newStride n (j + 1) dst1 destStart1 (srcStart + stride)

/-- The outer loop of `Repeat` (`for i := 0; i < outers; i++`). -/
def repeatI (src : List Int) (repeats : List Int) (size : Nat) (stride newStride : Int) :
    Nat → List Int → Int → Int → Except Err (List Int × Int × Int)
  | 0, dst, destStart, srcStart => .ok (dst, destStart, srcStart)
  | n + 1, dst, destStart, srcStart =>
    match repeatJ src repeats stride newStride size 0 dst destStart srcStart with
    | .error e => .error e
    | .ok (dst1, destStart1, srcStart1) =>
      repeatI src repeats size stride newStride n dst1 destStart1 srcStart1

namespace Tensor

/-- The first `switch` of `Repeat`: the size of the repeated axis, the shape to
fill in and the axis to use. -/
def repeatPrep (t : Tensor) (axis : Int) : Except Err (Int × List Int × Int) :=
  if axis = AllAxes then
    .ok (Shape.TotalSize t.Shape, [Shape.TotalSize t.Shape], 0)
  else if t.IsScalar then
    if axis = 1 then .ok (1, [1, 0], axis) else .ok (1, [0], axis)
  else if t.IsVector ∧ !t.IsRowVec ∧ !t.IsColVec ∧ axis = 1 then
    .ok (1, t.Shape ++ [1], axis)
  else
    match getAt t.Shape axis with
    | .error e => .error e
    | .ok size => .ok (size, t.Shape, axis)

/-- Go `Repeat`: repeats the slabs along an axis into a new tensor. -/
def Repeat (t : Tensor) (axis : Int) (repeats : List Int) : Except Err Tensor :=
  match t.repeatPrep axis with
  | .error e => .error e
  | .ok (size, newShape0, axis1) =>
    let repeatsE : Except Err (List Int) :=
      if repeats.length = 1 then
        if size < 0 then .error .goPanic
        else .ok (List.replicate size.toNat (repeats.getD 0 0))
      else .ok repeats
    match repeatsE with
    | .error e => .error e
    | .ok repeats1 =>
      if len repeats1 ≠ size then .error .shapeMismatch
      else
        let newSize := SumInts repeats1
        match setAt newShape0 axis1 newSize with
        | .error e => .error e
        | .ok newShape =>
          match NewTensor [.WithShape newShape] with
          | .error e => .error e
          | .ok retVal =>
            let outersE : Except Err Int :=
              if t.IsScalar then .ok 1
              else
                match subSlice t.Shape 0 axis1 with
                | .error e => .error e
                | .ok pre => .ok (if ProdInts pre = 0 then 1 else ProdInts pre)
            let strideE : Except Err Int :=
              if Shape.IsVector newShape then .ok 1
              else if t.IsVector then .ok 1
              else getAt t.ostrides axis1
            let newStrideE : Except Err Int :=
              if Shape.IsVector newShape then .ok 1 else getAt retVal.ostrides axis1
            match outersE, strideE, newStrideE with
            | .ok outers, .ok stride, .ok newStride =>
              match repeatI t.data repeats1 size.toNat stride newStride outers.toNat
                      retVal.data 0 0 with
              | .error e => .error e
              | .ok (dst, _, _) => .ok { retVal with data := dst }
            | _, _, _ => .error .goPanic

end Tensor

/-! ## Reshape, equality and cloning (`tensor.go`), `CopyTo` (`matop.go`) -/

/-- Go `copy(dst, src)` on whole slices: overwrites the first
`min(len(dst), len(src))` elements of `dst`. -/
def goCopy (dst src : List Int) : List Int :=
  src.take (min dst.length src.length) ++ dst.drop (min dst.length src.length)

/-- What the elements `xs` of a buffer are after Go `copy` has written the
first `k` of them, as they were before the call, to a destination buffer.
`shift` tells how the destination lies to `xs`: `none` when it is in another
backing array, which leaves `xs` as it is; `some d` when it is in the same
backing array and starts `d` elements after the start of `xs`, in which case
position `x` holds the old element `x - d` when `d ≤ x < d + k`, and is
untouched otherwise. -/
def copyOverlap (xs : List Int) (shift : Option Int) (k : Nat) : List Int :=
  match shift with
  | none => xs
  | some d =>
    (List.range xs.length).map (fun (x : Nat) =>
      if d ≤ (x : Int) ∧ (x : Int) < d + (k : Int) then xs.getD ((x : Int) - d).toNat 0
      else xs.getD x 0)

/-- The memory that holds the backing arrays of the buffers, one list per
array; an array is addressed by its position. -/
structure Heap where
  arrays : List (List Int)
deriving Repr

/-- A Go slice value: the backing array it points into, the offset of its first
element there, and its length. -/
structure Buf where
  arr : Nat
  off : Nat
  len : Nat
deriving DecidableEq, Repr

namespace Heap

/-- The slice value lies within an array of the memory. -/
def holds (h : Heap) (b : Buf) : Prop :=
  b.arr < h.arrays.length ∧ b.off + b.len ≤ (h.arrays.getD b.arr []).length

/-- The elements of a slice value. -/
def read (h : Heap) (b : Buf) : List Int :=
  ((h.arrays.getD b.arr []).drop b.off).take b.len

/-- Go `make([]T, n)`: a new array of `n` zeros, and the slice value over the
whole of it. -/
def make (h : Heap) (n : Nat) : Heap × Buf :=
  ({ arrays := h.arrays ++ [List.replicate n 0] },
   { arr := h.arrays.length, off := 0, len := n })

/-- Go `copy(dst, src)`: writes the first `min(len(dst), len(src))` elements of
`src`, as they are before the call, to the start of `dst`. -/
def copy (h : Heap) (dst src : Buf) : Heap :=
  let k := min dst.len src.len
  let a := h.arrays.getD dst.arr []
  { arrays := h.arrays.set dst.arr
      (a.take dst.off ++ (h.read src).take k ++ a.drop (dst.off + k)) }

/-- Go `b[i] = v`: panics when `i` is not below the length of the slice. -/
def store (h : Heap) (b : Buf) (i : Nat) (v : Int) : Except Err Heap :=
  if i < b.len then
    .ok { arrays := h.arrays.set b.arr ((h.arrays.getD b.arr []).set (b.off + i) v) }
  else .error .goPanic

end Heap

/-- Modelled from the spec: `types.Shape.Eq` is missing from the sources; two
tensors are equal when they have, among other things, the "same shape". -/
def Shape.Eq (s other : Shape) : Bool := decide (s = other)

/-- The bit pattern of a `float32` element: sign bit, 8 exponent bits, 23
fraction bits. -/
def f32Bits (x : Int) : Nat := (x % 2 ^ 32).toNat

/-- The element is a NaN: every exponent bit is set and the fraction is not
zero. -/
def f32IsNaN (x : Int) : Bool :=
  decide ((f32Bits x / 2 ^ 23) % 2 ^ 8 = 255) && decide (f32Bits x % 2 ^ 23 ≠ 0)

/-- The element is a zero, of either sign. -/
def f32IsZero (x : Int) : Bool := decide (f32Bits x % 2 ^ 31 = 0)

/-- Go `a != b` on `float32`: a NaN is unequal to everything, itself included;
the two zeros are equal; apart from that two values are unequal exactly when
their bit patterns differ. -/
def f32Ne (a b : Int) : Bool :=
  f32IsNaN a || f32IsNaN b ||
    !((f32IsZero a && f32IsZero b) || decide (f32Bits a = f32Bits b))

/-- The loop `for i, v := range t.data { if ot.data[i] != v { return false } }`
of `Eq`, from index `i` on; the result is whether the loop ran to its end. The
elements are `float32` values and `!=` is the comparison of that type. -/
def eqLoop (od : List Int) : Nat → List Int → Except Err Bool
  | _, [] => .ok true
  | i, v :: vs =>
    match getAt od i with
    | .error e => .error e
    | .ok o => if f32Ne o v then .ok false else eqLoop od (i + 1) vs

namespace Tensor

/-- Go `Reshape`: unlock, set the shape, lock, and return what `sanity` reports.
The receiver is changed in place: the result is the tensor after the call and
the returned error. -/
def Reshape (t : Tensor) (dims : List Int) : Tensor × Except Err Unit :=
  let t1 : Tensor := { t with ap := ((t.ap.Unlock).SetShape dims).Lock }
  (t1, t1.sanity)

/-- Go `Eq` against another tensor of this element type (the type assertion
succeeds); `same` tells whether `other` is the receiver itself (`ot == t`). The
elements are compared as `float32` values, in the loop `eqLoop`. -/
def Eq (t other : Tensor) (same : Bool) : Except Err Bool :=
  if same then .ok true
  else if len other.data ≠ len t.data then .ok false
  else
    match eqLoop other.data 0 t.data with
    | .error e => .error e
    | .ok false => .ok false
    | .ok true => if !(Shape.Eq t.Shape other.Shape) then .ok false else .ok true

/-- Go `Clone`: clones the access pattern and the saved one, copies the buffer
into a new one of the same length and locks the result. The permutation of a
pending thunk and the parent of a view are not carried over. -/
def Clone (t : Tensor) : Tensor :=
  { ap := (t.ap.Clone).Lock,
    data := goCopy (List.replicate t.data.length 0) t.data,
    old := t.old.map AP.Clone,
    transposeWith := none,
    viewOf := none }

/-- Go `CopyTo`. `same` tells whether `other` is the receiver itself
(`other == t`). `shift` tells how the two buffers lie in memory: `none` when
they are in different backing arrays, `some d` when both are slices of one
backing array and `other.data` starts `d` elements after `t.data` (before it
for a negative `d`). `copy` writes the backing array under `other.data`, so the
elements of `t.data` that lie there change with it: the result is the receiver
and `other` after the call. No other field of either tensor is written. -/
def CopyTo (t other : Tensor) (same : Bool) (shift : Option Int) :
    Except Err (Tensor × Tensor) :=
  if same then .ok (t, other)
  else if other.Size ≠ t.Size then .error .sizeMismatch
  else if t.viewOf.isNone ∧ other.viewOf.isNone then
    .ok ({ t with data := copyOverlap t.data shift (min other.data.length t.data.length) },
         { other with data := goCopy other.data t.data })
  else .error .notYetImplemented

/-- Go `Clone` with the memory made explicit: `tb` is the slice value `t.data`
in the memory `h`. The result is the memory after the call, the clone, and the
slice value of the clone's buffer. -/
def CloneIn (t : Tensor) (h : Heap) (tb : Buf) : Heap × Tensor × Buf :=
  let m := h.make tb.len
  let h2 := (m.1).copy m.2 tb
  (h2,
   { ap := (t.ap.Clone).Lock, data := h2.read m.2, old := t.old.map AP.Clone,
     transposeWith := none, viewOf := none },
   m.2)

end Tensor

/-! ## Apply (`matop.go`) -/

/-- What a call of `Apply` leaves behind: the returned tensor and error (nil is
`none`), the receiver after the call and the reuse tensor after the call. -/
structure ApplyResult where
  retVal : Option Tensor
  err : Option Err
  recv : Tensor
  reuse : Option Tensor

/-- The type assertion `_, noop := err.(NoOpError)`: it fails on a nil error. -/
def isNoOp (err : Option Err) : Bool :=
  match err with
  | some .noOp => true
  | _ => false

/-- Go `int` arithmetic (64 bits): a sum is reduced into `[-2^63, 2^63)`. -/
def wrapInt (x : Int) : Int := (x + 2 ^ 63) % 2 ^ 64 - 2 ^ 63

/-- The loops `for i, v := range t.data { res[i] = fn(v) }` and
`{ res[i] += fn(v) }` of `Apply`, from index `i` on. -/
def applyLoop (fn : Int → Int) (incr : Bool) : Nat → List Int → List Int → Except Err (List Int)
  | _, [], res => .ok res
  | i, v :: vs, res =>
    if incr then
      match getAt res i with
      | .error e => .error e
      | .ok x =>
        match setAt res i (wrapInt (x + fn v)) with
        | .error e => .error e
        | .ok res1 => applyLoop fn incr (i + 1) vs res1
    else
      match setAt res i (fn v) with
      | .error e => .error e
      | .ok res1 => applyLoop fn incr (i + 1) vs res1

/-- The loops of `Apply` over a view,
`for next, err = it.next(); err == nil; next, err = it.next() { .. }`. The
iterator is not part of the sources at hand: `it k` is what its call number `k`
returns. The state is the last offset and error and the buffer; the result
tells whether the body left through its `return`, and holds the buffer and the
error at that point. -/
def applyViewLoop (fn : Int → Int) (incr : Bool) (it : Nat → Int × Option Err) :
    Nat → Nat → Int → Option Err → List Int → Except Err (Bool × List Int × Option Err)
  | 0, _, _, _, _ => .error .outOfFuel
  | fuel + 1, k, next, err, res =>
    if err.isSome then .ok (false, res, err)
    else if !(isNoOp err) then .ok (true, res, err)
    else
      match getAt res next with
      | .error e => .error e
      | .ok x =>
        match setAt res next (if incr then wrapInt (x + fn x) else fn x) with
        | .error e => .error e
        | .ok res1 => applyViewLoop fn incr it fuel (k + 1) (it k).1 (it k).2 res1

namespace Tensor

/-- Go `Apply`. The options are given as what `parseSafeReuse` makes of them
(`safe`, `incr` and the reuse tensor, which is another tensor than the
receiver, with a buffer that shares no element with the receiver's); `it` is
the iterator of the receiver, call by call, and `fuel` bounds the iterations
over a view. -/
def Apply (t : Tensor) (fn : Int → Int) (safe incr : Bool) (reuse : Option Tensor)
    (it : Nat → Int × Option Err) (fuel : Nat) : Except Err ApplyResult :=
  let res0 : List Int :=
    match reuse with
    | some r => r.data
    | none => if !safe then t.data else List.replicate t.data.length 0
  if reuse.isSome ∧ len res0 ≠ t.Size then
    .ok { retVal := none, err := some .shapeMismatch, recv := t, reuse := reuse }
  else
    let doE : Except Err (Bool × List Int × Option Err) :=
      if t.viewOf.isNone then
        match applyLoop fn incr 0 t.data res0 with
        | .error e => .error e
        | .ok res => .ok (false, res, none)
      else applyViewLoop fn incr it fuel 1 (it 0).1 (it 0).2 res0
    match doE with
    | .error e => .error e
    | .ok (returned, res, err) =>
      match reuse with
      | some r =>
        if returned then
          .ok { retVal := none, err := err, recv := t, reuse := some { r with data := res } }
        else
          let rr := ({ r with data := res } : Tensor).Reshape t.Shape
          match rr.2 with
          | .error e => .ok { retVal := none, err := some e, recv := t, reuse := some rr.1 }
          | .ok _ => .ok { retVal := some rr.1, err := none, recv := t, reuse := some rr.1 }
      | none =>
        if !safe then
          if returned then
            .ok { retVal := none, err := err, recv := { t with data := res }, reuse := none }
          else
            .ok { retVal := some { t with data := res }, err := err,
                  recv := { t with data := res }, reuse := none }
        else if returned then .ok { retVal := none, err := err, recv := t, reuse := none }
        else
          match NewTensor [.WithBacking res, .WithShape t.Shape] with
          | .error e => .error e
          | .ok n => .ok { retVal := some n, err := err, recv := t, reuse := none }

end Tensor

/-! ## Notions used to state the properties -/

/-- The inverse of a permutation of `0..n-1`: the position of each value. -/
def invPerm (pat : List Int) : List Int :=
  (iota pat.length).map (fun v => (pat.indexOf v : Int))

/-- The contiguous row-major tensor over a buffer, as
`NewTensor(WithShape(shape...), WithBacking(data))` returns it when the sizes
agree. -/
def Tensor.ofData (shape : Gorgonia.Shape) (data : List Int) : Tensor :=
  { ap := { shape := shape, strides := Shape.CalcStrides shape, fin := true },
    data := data, old := none, transposeWith := none, viewOf := none }

/-- The data-model facts about ranks that the methods rely on: a saved access
pattern has the rank of the current one, and a tensor that is not a row or
column vector has one stride per axis. -/
def Tensor.WellFormed (t : Tensor) : Prop :=
  t.oshape.length = t.Shape.length ∧
  ((t.IsVector = false ∨ t.Shape.length = 1) → t.ostrides.length = t.Shape.length)

/-- The strides the first loop of `Slice` steps with: 1 on both axes of a row
or column vector, the saved strides otherwise. -/
def Tensor.sliceStrides (t : Tensor) : List Int :=
  if t.Dims < (t.Shape.length : Int) ∧ t.IsVector then List.replicate t.Shape.length 1
  else t.ostrides

/-- The slice for the first axis: nil when none is given. -/
def headSlice (sls : List (Option Slice)) : Option Slice :=
  match sls with
  | [] => none
  | sl :: _ => sl

/-- The first loop of `Slice` as a recursion over the axes: sizes, strides and
slices are consumed together (missing trailing slices are nil); the result is
the window and the list of extents. -/
def sliceWalk : List Int → List Int → List (Option Slice) → Int → Int →
    Except Err (Int × Int × List Int)
  | [], _, _, a, b => .ok (a, b, [])
  | size :: sizes, es, sls, a, b =>
    match es with
    | [] => .error .goPanic
    | stride :: es1 =>
      match sliceBounds (headSlice sls) size with
      | .error e => .error e
      | .ok (start, stop) =>
        match sliceWalk sizes es1 sls.tail (a + start * stride) (b - (size - stop) * stride) with
        | .error e => .error e
        | .ok (a1, b1, ext) => .ok (a1, b1, (stop - start) :: ext)

/-- The start of a slice on its axis (0 for a nil slice). -/
def sliceStart (sl : Option Slice) : Int :=
  match sl with
  | none => 0
  | some s => s.Start

/-- The end of a slice on an axis of the given size (the size for a nil
slice). -/
def sliceStop (sl : Option Slice) (size : Int) : Int :=
  match sl with
  | none => size
  | some s => s.End

/-- The starts of the slices, one per axis; missing trailing slices are nil. -/
def sliceStarts : List Int → List (Option Slice) → List Int
  | [], _ => []
  | _ :: sizes, sls => sliceStart (headSlice sls) :: sliceStarts sizes sls.tail

/-- The extents `end_i - start_i`, one per axis (the full size for a nil
slice). -/
def sliceExtents : List Int → List (Option Slice) → List Int
  | [], _ => []
  | size :: sizes, sls =>
    (sliceStop (headSlice sls) size - sliceStart (headSlice sls)) :: sliceExtents sizes sls.tail

/-- The amounts `size_i - end_i` cut off at the end of each axis. -/
def sliceCuts : List Int → List (Option Slice) → List Int
  | [], _ => []
  | size :: sizes, sls => (size - sliceStop (headSlice sls) size) :: sliceCuts sizes sls.tail

/-- Every slice selects `0 ≤ start < end ≤ size` on its axis (a nil slice the
full axis, which must then be non-empty). -/
def slicesProper : List Int → List (Option Slice) → Prop
  | [], _ => True
  | size :: sizes, sls =>
    (0 ≤ sliceStart (headSlice sls) ∧ sliceStart (headSlice sls) < sliceStop (headSlice sls) size
      ∧ sliceStop (headSlice sls) size ≤ size) ∧ slicesProper sizes sls.tail

/-- The shape left when axes of size 1 are removed, scanning left to right, for
as long as more than two axes remain; `kept` counts the axes already kept. -/
def dropOnes (kept : Nat) : List Int → List Int
  | [] => []
  | x :: xs =>
    if x = 1 ∧ kept + (xs.length + 1) > 2 then dropOnes kept xs
    else x :: dropOnes (kept + 1) xs

/-- The strides of the axes that `dropOnes` keeps. -/
def dropOnesStrides (kept : Nat) : List Int → List Int → List Int
  | x :: xs, s :: ss =>
    if x = 1 ∧ kept + (xs.length + 1) > 2 then dropOnesStrides kept xs ss
    else s :: dropOnesStrides (kept + 1) xs ss
  | _, _ => []

/-- The parent coordinate of a view coordinate: the start of the slice on a
dropped axis, the start plus the view coordinate on a retained axis. -/
def liftCoord (kept : Nat) : List Int → List Int → List Int → List Int
  | x :: xs, st :: sts, c =>
    if x = 1 ∧ kept + (xs.length + 1) > 2 then st :: liftCoord kept xs sts c
    else
      match c with
      | [] => st :: liftCoord (kept + 1) xs sts []
      | c0 :: cs => (st + c0) :: liftCoord (kept + 1) xs sts cs
  | _, _, _ => []

/-- Every slice passes the validation of `Slice` on its axis: `0 ≤ start` and
`end ≤ size` (a nil slice always does). -/
def slicesValid : List Int → List (Option Slice) → Prop
  | [], _ => True
  | size :: sizes, sls =>
    (0 ≤ sliceStart (headSlice sls) ∧ sliceStop (headSlice sls) size ≤ size)
      ∧ slicesValid sizes sls.tail

/-- The contiguous run of `p` elements of the buffer that starts at `s`. -/
def slab (src : List Int) (s p : Nat) : List Int := (src.drop s).take p

/-- The runs of one outer block, each repeated its count times, in order. -/
def expandAxis (src : List Int) (p : Nat) : Nat → List Int → List Int
  | _, [] => []
  | s, r :: rs => (List.replicate r.toNat (slab src s p)).flatten ++ expandAxis src p (s + p) rs

/-- The expanded outer blocks, one after the other. -/
def expandOuter (src : List Int) (p : Nat) (rs : List Int) : Nat → Nat → List Int
  | 0, _ => []
  | o + 1, s => expandAxis src p s rs ++ expandOuter src p rs o (s + rs.length * p)


/-- The size `Repeat` compares the number of repeats with: the total size for
`AllAxes`, 1 for a scalar and for axis 1 of a rank-1 vector, else the size of
the axis. -/
def Tensor.axisSize (t : Tensor) (axis : Int) : Int :=
  if axis = AllAxes then Shape.TotalSize t.Shape
  else if t.IsScalar then 1
  else if t.Shape.length = 1 ∧ axis = 1 then 1
  else t.Shape.getD axis.toNat 0

/-- The axis exists for `Repeat` on a tensor that is not a scalar: `AllAxes`,
an index into the shape, or axis 1 of a rank-1 vector. -/
def Tensor.axisExists (t : Tensor) (axis : Int) : Prop :=
  axis = AllAxes ∨ (0 ≤ axis ∧ axis < (t.Shape.length : Int)) ∨ (t.Shape.length = 1 ∧ axis = 1)

/-- Each element of the buffer repeated its count times, in buffer order. -/
def repeatEach (d : List Int) (rs : List Int) : List Int :=
  (List.zipWith (fun x r => List.replicate r.toNat x) d rs).flatten

/-- The invariant of the data model that pairs the two fields of a thunk: `old`
is set exactly when `transposeWith` is. -/
def Tensor.thunkPaired (t : Tensor) : Prop :=
  t.old.isSome = t.transposeWith.isSome

/-- The destination of index `i` under a transposition, in the "conceptual"
formulation: the coordinate of `i` in the saved layout, permuted, and taken
through `Ltoi` on the new shape and strides. -/
def conceptualIndex (oldShape oldStrides axes newShape expStrides : List Int) (i : Int) :
    Except Err Int :=
  match Itol i oldShape oldStrides with
  | .error e => .error e
  | .ok oldCoord =>
    match Permute axes oldCoord with
    | .error e => .error e
    | .ok coords => Ltoi newShape expStrides coords

/-- The number of indices below `n` whose bit is not set in the bitmap. -/
def unsetCount (track n : Nat) : Nat :=
  ((Finset.range n).filter (fun j => track.testBit j = false)).card

/-- The invariant of the cycle-following loop of `Transpose` over the indices
below `n`, for the map `f` of an index to its destination: the bits set in
`track` are those of the cycles already completed (`C`) and of the part of the
current cycle already visited (`R`); the current cycle starts at `s`, every
index below `s` lies in a completed cycle, and `k` is the index the loop stands
at, reached from the last visited index of the current cycle. -/
structure CycleInv (n : Nat) (f : Nat → Nat) (track k s : Nat) (C R : Nat → Prop) : Prop where
  lt_pow : track < 2 ^ n
  k_lt : k < n
  s_lt : s < n
  bits : ∀ j, j < n → (track.testBit j = true ↔ C j ∨ R j)
  c_fwd : ∀ j, C j → j < n ∧ C (f j)
  c_bwd : ∀ j, j < n → C (f j) → C j
  s_out : ¬ C s
  k_out : ¬ C k
  below : ∀ j, j < s → C j
  r_lt : ∀ j, R j → j < n
  r_empty : (∀ j, ¬ R j) → k = s
  r_start : (∃ j, R j) → R s ∧ ∃ l, R l ∧ f l = k
  r_pred : ∀ x, R x → x ≠ s → ∃ y, R y ∧ f y = x
  r_tip : R k → k = s
  r_fwd : ∀ x, R x → R (f x) ∨ f x = k
/-! ## Basic facts -/

/-! ## Basic facts -/

theorem inRange_iff (c : List Int) (s : Shape) :
    inRange c s = true ↔ List.Forall₂ (fun x d => 0 ≤ x ∧ x < d) c s := by
  induction c generalizing s with
  | nil => cases s <;> simp [inRange]
  | cons x xs ih =>
    cases s with
    | nil => simp [inRange]
    | cons d ds => simp [inRange, ih, and_assoc]

theorem inRange_length {c : List Int} {s : Shape} (h : inRange c s = true) :
    c.length = s.length :=
  ((inRange_iff c s).1 h).length_eq

theorem getAt_of_le (xs : List Int) (n : Nat) (h : xs.length ≤ n) :
    getAt xs (n : Int) = .error .goPanic := by
  simp [getAt, List.getElem?_eq_none h]

theorem getAt_neg (xs : List Int) (i : Int) (h : i < 0) :
    getAt xs i = .error .goPanic := by
  simp [getAt, not_le.2 h]

theorem getAt_of_lt (xs : List Int) (n : Nat) (h : n < xs.length) :
    getAt xs (n : Int) = .ok xs[n] := by
  simp [getAt, h]

theorem getAt_eq_ok {xs : List Int} {i v : Int} :
    getAt xs i = .ok v ↔ 0 ≤ i ∧ xs[i.toNat]? = some v := by
  unfold getAt
  split
  · rename_i h
    cases hx : xs[i.toNat]? <;> simp [h]
  · rename_i h
    simp [h]

theorem Shape.dims_of_not_vector {s : Shape} (h : Shape.IsVector s = false) :
    Shape.Dims s = (s.length : Int) := by
  unfold Shape.Dims
  by_cases hs : Shape.IsScalar s = true
  · simp only [Shape.IsScalar, beq_iff_eq] at hs
    simp [Shape.IsScalar, hs]
  · simp [hs, h]

theorem Shape.not_rowVec_of_not_vector {s : Shape} (h : Shape.IsVector s = false) :
    Shape.IsRowVec s = false := by
  unfold Shape.IsVector at h
  cases hr : Shape.IsRowVec s <;> simp_all

theorem Shape.not_colVec_of_not_vector {s : Shape} (h : Shape.IsVector s = false) :
    Shape.IsColVec s = false := by
  unfold Shape.IsVector at h
  cases hr : Shape.IsColVec s <;> simp_all

/-- Offsets of in-range coordinates under row-major strides lie in the buffer. -/
theorem dot_rowMajor_bounds (c : List Int) (s : Shape) (h : inRange c s = true) :
    0 ≤ dot c (rowMajor s) ∧ dot c (rowMajor s) < s.prod := by
  induction c generalizing s with
  | nil => cases s <;> simp_all [inRange, dot, rowMajor]
  | cons x xs ih =>
    cases s with
    | nil => simp [inRange] at h
    | cons d ds =>
      simp only [inRange, Bool.and_eq_true, decide_eq_true_eq] at h
      obtain ⟨⟨h0, h1⟩, h2⟩ := h
      obtain ⟨b0, b1⟩ := ih ds h2
      simp only [dot, rowMajor, List.prod_cons]
      have hp : 0 < ds.prod := lt_of_le_of_lt b0 b1
      constructor
      · positivity
      · nlinarith

theorem Ltoi_of_not_vector {shape : Shape} (strides coords : List Int)
    (hv : Shape.IsVector shape = false) :
    Ltoi shape strides coords =
      if inRange coords shape then .ok (dot coords strides) else .error .indexError := by
  unfold Ltoi
  simp [Shape.not_rowVec_of_not_vector hv, Shape.not_colVec_of_not_vector hv]

/-! ## C1: materialised transposition -/

/-- C1 (failing input): on the rank-3 tensor of shape (1,1,2) over [1,2], which
is not a vector and has total size 2, `T(1,0,2)` followed by `Transpose()`
returns with the buffer [1,0]: the bitmap is full before the loop starts, and
the final write `data[i] = saved` stores the zero of `saved` at index 1. The
element at old coordinate (0,0,1) was 2; the element at the permuted coordinate
is 0 afterwards. -/
theorem C1_transpose_size_two_overwrites (fuel : Nat) :
    ∃ t0 t1 t2, NewTensor [.WithShape [1, 1, 2], .WithBacking [1, 2]] = .ok t0 ∧
      t0.T (fuel + 1) [1, 0, 2] = .ok t1 ∧ t1.Transpose (fuel + 1) = .ok t2 ∧
      t2.Shape = [1, 1, 2] ∧ t2.data = [1, 0] ∧
      t0.At [0, 0, 1] = .ok 2 ∧ t2.At (permuteList [1, 0, 2] [0, 0, 1]) = .ok 0 :=
  ⟨_, _, _, rfl, rfl, rfl, rfl, rfl, rfl, rfl⟩

/-- The transpositions of the test suite: 2x2, 4x2 and (2,3,4) with axes
(2,0,1). -/
theorem Transpose_test_vectors :
    (∃ t0 t1 t2, NewTensor [.WithShape [2, 2], .WithBacking [1, 2, 3, 4]] = .ok t0 ∧
      t0.T 8 [] = .ok t1 ∧ t1.Transpose 8 = .ok t2 ∧
      t2.data = [1, 3, 2, 4] ∧ t2.old = none ∧ t2.transposeWith = none) ∧
    (∃ t0 t1 t2, NewTensor [.WithShape [4, 2], .WithBacking (iota 8)] = .ok t0 ∧
      t0.T 16 [] = .ok t1 ∧ t1.Transpose 16 = .ok t2 ∧
      t2.data = [0, 2, 4, 6, 1, 3, 5, 7]) ∧
    (∃ t0 t1 t2, NewTensor [.WithShape [2, 3, 4], .WithBacking (iota 24)] = .ok t0 ∧
      t0.T 48 [2, 0, 1] = .ok t1 ∧ t1.Transpose 48 = .ok t2 ∧ t2.Shape = [4, 2, 3] ∧
      t2.data = [0, 4, 8, 12, 16, 20, 1, 5, 9, 13, 17, 21, 2, 6, 10, 14, 18, 22,
                 3, 7, 11, 15, 19, 23]) :=
  ⟨⟨_, _, _, rfl, rfl, rfl, rfl, rfl, rfl⟩, ⟨_, _, _, rfl, rfl, rfl, rfl⟩,
   ⟨_, _, _, rfl, rfl, rfl, rfl, rfl⟩⟩

/-! ## C4: element access -/

/-- C4: for a tensor of rank at least 2 that is not a vector, `At` returns
`data[Σ c_i·strides_i]` when there is one coordinate per axis and each lies in
`[0, shape_i)`, and panics otherwise (wrong number of coordinates, a negative
coordinate or one that reaches the size of its axis). When the tensor is
contiguous row-major the indexed element exists. -/
theorem C4_at_returns_or_panics (t : Tensor) (coords : List Int)
    (_hrank : 2 ≤ t.Shape.length) (hvec : t.IsVector = false) :
    (List.Forall₂ (fun c d => 0 ≤ c ∧ c < d) coords t.Shape →
        t.At coords = getAt t.data (dot coords t.Strides)) ∧
    (¬ List.Forall₂ (fun c d => 0 ≤ c ∧ c < d) coords t.Shape →
        t.At coords = .error .goPanic) ∧
    (List.Forall₂ (fun c d => 0 ≤ c ∧ c < d) coords t.Shape →
        t.Strides = rowMajor t.Shape → len t.data = Shape.TotalSize t.Shape →
        ∃ v, t.At coords = .ok v ∧ t.data[(dot coords t.Strides).toNat]? = some v) := by
  have hd : t.Dims = (t.Shape.length : Int) := Shape.dims_of_not_vector hvec
  have hv0 : Shape.IsVector t.Shape = false := hvec
  have hL := Ltoi_of_not_vector t.Strides coords hv0
  have key : List.Forall₂ (fun c d => 0 ≤ c ∧ c < d) coords t.Shape →
      t.At coords = getAt t.data (dot coords t.Strides) := by
    intro h
    have hlen : coords.length = t.Shape.length := h.length_eq
    have hin : inRange coords t.Shape = true := (inRange_iff _ _).2 h
    simp [Tensor.At, hd, hlen, Tensor.atOffset, hL, hin]
  refine ⟨key, ?_, ?_⟩
  · intro h
    have hin : inRange coords t.Shape = false := by
      cases hi : inRange coords t.Shape
      · rfl
      · exact absurd ((inRange_iff _ _).1 hi) h
    unfold Tensor.At
    split
    · rfl
    · simp [Tensor.atOffset, hL, hin]
  · intro h hs hl
    have hin : inRange coords t.Shape = true := (inRange_iff _ _).2 h
    obtain ⟨b0, b1⟩ := dot_rowMajor_bounds coords t.Shape hin
    rw [key h, hs]
    have hlt : (dot coords (rowMajor t.Shape)).toNat < t.data.length := by
      have : (t.data.length : Int) = t.Shape.prod := hl
      omega
    refine ⟨t.data[(dot coords (rowMajor t.Shape)).toNat], ?_, ?_⟩
    · simp [getAt, b0, hlt]
    · simp [hlt]

/-- C4 (witness): shape (2,3) over 0..5. -/
theorem C4_at_witness :
    (2 ≤ ([2, 3] : List Int).length ∧ Shape.IsVector [2, 3] = false) ∧
    (⟨NewAP [2, 3] [3, 1], [0, 1, 2, 3, 4, 5], none, none, none⟩ : Tensor).At [1, 1]
      = getAt [0, 1, 2, 3, 4, 5] (dot [1, 1] [3, 1]) :=
  ⟨⟨by decide, by decide⟩,
   (C4_at_returns_or_panics ⟨NewAP [2, 3] [3, 1], [0, 1, 2, 3, 4, 5], none, none, none⟩ [1, 1]
      (by decide) (by decide)).1 (by
        refine List.Forall₂.cons ?_ (List.Forall₂.cons ?_ List.Forall₂.nil) <;> decide)⟩

/-! ## Permutations of the axes -/

theorem iota_length (n : Nat) : (iota n).length = n := by simp [iota]

theorem iota_nodup (n : Nat) : (iota n).Nodup := by
  unfold iota
  exact (List.nodup_range n).map (fun a b h => by simpa using h)

theorem mem_iota {n : Nat} {v : Int} : v ∈ iota n ↔ 0 ≤ v ∧ v < n := by
  unfold iota
  simp only [List.mem_map, List.mem_range]
  constructor
  · rintro ⟨a, ha, rfl⟩
    exact ⟨Int.ofNat_nonneg a, by exact_mod_cast ha⟩
  · rintro ⟨h0, h1⟩
    refine ⟨v.toNat, by omega, ?_⟩
    simp [Int.toNat_of_nonneg h0]

theorem iota_getElem? (n i : Nat) (h : i < n) : (iota n)[i]? = some (i : Int) := by
  simp [iota, List.getElem?_range h]

theorem isPermutation_iff_perm (pat : List Int) (n : Nat) :
    isPermutation pat n = true ↔ pat.Perm (iota n) := by
  unfold isPermutation
  simp only [Bool.and_eq_true, beq_iff_eq, List.all_eq_true]
  constructor
  · rintro ⟨hl, hc⟩
    have hsub : iota n ⊆ pat := by
      intro v hv
      have := hc v hv
      exact List.count_pos_iff.1 (by omega)
    have hsp : (iota n).Subperm pat := List.subperm_of_subset (iota_nodup n) hsub
    exact (hsp.perm_of_length_le (by simp [iota_length, hl])).symm
  · intro hp
    refine ⟨by simpa [iota_length] using hp.length_eq, ?_⟩
    intro v hv
    rw [hp.count_eq]
    exact List.count_eq_one_of_mem (iota_nodup n) hv

theorem iota_reverse_perm (n : Nat) : ((iota n).reverse).Perm (iota n) :=
  List.reverse_perm _

/-! ## C7: validation of the axes by `T` -/

theorem setAt_error {xs : List Int} {i v : Int} {e : Err} (h : setAt xs i v = .error e) :
    e = .goPanic := by
  unfold setAt at h
  split at h <;> simp_all

theorem getAt_error {xs : List Int} {i : Int} {e : Err} (h : getAt xs i = .error e) :
    e = .goPanic := by
  unfold getAt at h
  split at h
  · split at h <;> simp_all
  · simp_all

theorem Tensor.transposeIndex_error {t : Tensor} {i : Int} {p s : List Int} {e : Err}
    (h : t.transposeIndex i p s = .error e) : e = .goPanic := by
  unfold Tensor.transposeIndex at h
  split at h
  · simp_all
  · rename_i oldCoord _
    clear * - h
    generalize (0 : Int) = acc at h
    induction p generalizing s acc with
    | nil => simp [transposeIndexLoop] at h
    | cons a p ih =>
      unfold transposeIndexLoop at h
      split at h
      · exact ih _ h
      · simp_all

theorem Tensor.transposeLoop_error {t : Tensor} {axes es : List Int} {size : Int} {fuel : Nat}
    {track : Nat} {saved i : Int} {data : List Int} {e : Err}
    (h : t.transposeLoop axes es size fuel track saved i data = .error e) :
    e.isReturned = false := by
  induction fuel generalizing track saved i data with
  | zero => simp [Tensor.transposeLoop] at h; subst h; rfl
  | succ n ih =>
    unfold Tensor.transposeLoop at h
    split at h
    · simp at h
    · split at h
      · rename_i e1 he1
        simp at h; subst h
        rw [Tensor.transposeIndex_error he1]; rfl
      · split at h
        · split at h
          · rename_i e1 he1
            simp at h; subst h
            rw [setAt_error he1]; rfl
          · simp only at h
            split at h
            · simp at h
            · exact ih h
        · split at h
          · rename_i e1 he1
            simp at h; subst h
            rw [getAt_error he1]; rfl
          · split at h
            · rename_i e1 he1
              simp at h; subst h
              rw [setAt_error he1]; rfl
            · exact ih h

theorem Tensor.Transpose_error {t : Tensor} {fuel : Nat} {e : Err}
    (h : t.Transpose fuel = .error e) : e.isReturned = false := by
  unfold Tensor.Transpose at h
  split at h
  · simp at h
  · split at h
    · simp at h
    · simp only at h
      split at h
      · simp at h
      · split at h
        · rename_i e1 he1
          simp at h; subst h
          exact Tensor.transposeLoop_error he1
        · split at h
          · rename_i e1 he1
            simp at h; subst h
            rw [setAt_error he1]; rfl
          · simp at h

theorem Tensor.isReversedLoop_error {os ts : List Int} {e : Err}
    (h : Tensor.isReversedLoop os ts = .error e) : e = .goPanic := by
  induction os generalizing ts with
  | nil => simp [Tensor.isReversedLoop] at h
  | cons s os ih =>
    unfold Tensor.isReversedLoop at h
    split at h
    · simp_all
    · split at h
      · simp at h
      · exact ih h

theorem normAxes_perm (n : Nat) (axes : List Int)
    (hp : axes = [] ∨ axes.Perm (iota n)) : (normAxes n axes).Perm (iota n) := by
  unfold normAxes
  by_cases h : axes.isEmpty = true
  · simp only [h, if_true]; exact iota_reverse_perm _
  · simp only [h]
    rcases hp with rfl | hp
    · simp at h
    · exact hp

theorem normAxes_of_ne_nil (n : Nat) {axes : List Int} (h : axes ≠ []) :
    normAxes n axes = axes := by
  cases axes <;> simp_all [normAxes]

theorem normAxes_iota (n : Nat) : normAxes n (iota n) = iota n := by
  cases n with
  | zero => rfl
  | succ k =>
    apply normAxes_of_ne_nil
    intro h
    have := congrArg List.length h
    simp [iota_length] at this

theorem AP.T_invalid (ap : AP) (axes : List Int) (hne : axes ≠ [])
    (hp : ¬ axes.Perm (iota ap.shape.length)) : ap.T axes = .error .invalidAxes := by
  have h2 : isPermutation axes ap.shape.length = false := by
    cases h : isPermutation axes ap.shape.length
    · rfl
    · exact absurd ((isPermutation_iff_perm _ _).1 h) hp
  simp [AP.T, normAxes_of_ne_nil _ hne, h2]

theorem AP.T_of_perm (ap : AP) (axes : List Int)
    (hp : (normAxes ap.shape.length axes).Perm (iota ap.shape.length)) :
    ap.T axes =
      if normAxes ap.shape.length axes = iota ap.shape.length then .error .noOp
      else .ok ({ shape := permuteList (normAxes ap.shape.length axes) ap.shape,
                  strides := if ap.strides.length = ap.shape.length then
                      permuteList (normAxes ap.shape.length axes) ap.strides
                    else ap.strides,
                  fin := true }, normAxes ap.shape.length axes) := by
  have h2 := (isPermutation_iff_perm _ _).2 hp
  simp [AP.T, h2]

theorem AP.T_valid (ap : AP) (axes : List Int)
    (hp : axes = [] ∨ axes.Perm (iota ap.shape.length)) :
    ap.T axes = .error .noOp ∨ ∃ r, ap.T axes = .ok r := by
  rw [AP.T_of_perm ap axes (normAxes_perm _ _ hp)]
  by_cases h : normAxes ap.shape.length axes = iota ap.shape.length
  · simp [h]
  · simp [h]

theorem AP.T_identity (ap : AP) : ap.T (iota ap.shape.length) = .error .noOp := by
  rw [AP.T_of_perm ap _ (by rw [normAxes_iota]), normAxes_iota]
  simp

/-- C7: `T(axes)` returns an error exactly when `axes` is non-empty and is not
a permutation of `0..rank-1`; the error is returned before the receiver is
written (the model yields the new receiver only on success). With the identity
permutation `T` returns no error and the tensor is unchanged. -/
theorem C7_T_error_iff_invalid_axes (fuel : Nat) (t : Tensor) (axes : List Int) :
    ((∃ e, e.isReturned = true ∧ t.T fuel axes = .error e) ↔
        (axes ≠ [] ∧ ¬ axes.Perm (iota t.Shape.length))) ∧
    (axes = iota t.Shape.length → t.T fuel axes = .ok t) := by
  constructor
  · constructor
    · rintro ⟨e, he, hT⟩
      by_contra hcon
      have hv : axes = [] ∨ axes.Perm (iota t.ap.shape.length) := by
        by_cases h : axes = []
        · exact Or.inl h
        · right
          by_contra h2
          exact hcon ⟨h, h2⟩
      rcases AP.T_valid t.ap axes hv with h | ⟨r, h⟩
      · simp [Tensor.T, h] at hT
      · unfold Tensor.T at hT
        rw [h] at hT
        simp only at hT
        split at hT
        · split at hT
          · simp at hT
          · split at hT
            · rename_i e1 he1
              simp at hT; subst hT
              rw [Tensor.isReversedLoop_error he1] at he
              simp [Err.isReturned] at he
            · simp at hT
            · split at hT
              · rename_i e1 he1
                simp at hT; subst hT
                rw [Tensor.Transpose_error he1] at he
                simp at he
              · simp at hT
        · simp at hT
    · rintro ⟨hne, hp⟩
      refine ⟨.invalidAxes, rfl, ?_⟩
      simp [Tensor.T, AP.T_invalid t.ap axes hne hp]
  · intro h
    subst h
    simp [Tensor.T, Tensor.Shape, AP.T_identity]

/-! ## C6: a thunked transpose followed by its inverse -/

theorem permuteList_length (p xs : List Int) : (permuteList p xs).length = p.length := by
  simp [permuteList]

theorem permuteList_iota {n : Nat} (xs : List Int) (h : xs.length = n) :
    permuteList (iota n) xs = xs := by
  subst h
  apply List.ext_getElem
  · simp [permuteList, iota_length]
  · intro i h1 h2
    simp [permuteList, iota, List.getD_eq_getElem?_getD, h2]

theorem permuteList_reverse (p xs : List Int) :
    permuteList p.reverse xs = (permuteList p xs).reverse := by
  simp [permuteList]

theorem Perm.mem_range {p : List Int} {n : Nat} (hp : p.Perm (iota n)) {a : Int} (ha : a ∈ p) :
    0 ≤ a ∧ a < n := mem_iota.1 (hp.mem_iff.1 ha)

theorem permuteList_self_iota {p : List Int} {n : Nat} (hp : p.Perm (iota n)) :
    permuteList p (iota n) = p := by
  unfold permuteList
  conv_rhs => rw [← List.map_id p]
  apply List.map_congr_left
  intro a ha
  obtain ⟨h0, h1⟩ := Perm.mem_range hp ha
  have h2 : a.toNat < n := by omega
  simp [List.getD_eq_getElem?_getD, iota_getElem? n a.toNat h2, Int.toNat_of_nonneg h0]

theorem invPerm_length (p : List Int) : (invPerm p).length = p.length := by
  simp [invPerm, iota_length]

theorem invPerm_perm {p : List Int} {n : Nat} (hp : p.Perm (iota n)) :
    (invPerm p).Perm (iota n) := by
  have hl : p.length = n := by simpa [iota_length] using hp.length_eq
  have hnd : (invPerm p).Nodup := by
    unfold invPerm
    apply List.Nodup.map_on _ (iota_nodup _)
    intro x hx y hy hxy
    rw [hl] at hx hy
    have hx1 : x ∈ p := hp.mem_iff.2 hx
    have hy1 : y ∈ p := hp.mem_iff.2 hy
    have : List.indexOf x p = List.indexOf y p := by exact_mod_cast hxy
    exact (List.indexOf_inj hx1 hy1).1 this
  have hsub : invPerm p ⊆ iota n := by
    intro v hv
    unfold invPerm at hv
    obtain ⟨w, hw, rfl⟩ := List.mem_map.1 hv
    rw [hl] at hw
    have hw1 : w ∈ p := hp.mem_iff.2 hw
    have := List.indexOf_lt_length.2 hw1
    exact mem_iota.2 ⟨Int.ofNat_nonneg _, by rw [hl] at this; exact_mod_cast this⟩
  exact (List.subperm_of_subset hnd hsub).perm_of_length_le
    (by simp [iota_length, invPerm_length, hl])

theorem permuteList_invPerm {p : List Int} {n : Nat} (hp : p.Perm (iota n)) (xs : List Int)
    (hx : xs.length = n) : permuteList (invPerm p) (permuteList p xs) = xs := by
  have hl : p.length = n := by simpa [iota_length] using hp.length_eq
  apply List.ext_getElem
  · simp [permuteList_length, invPerm_length, hl, hx]
  · intro i h1 h2
    have hi : i < n := by rw [← hx]; exact h2
    have hmem : (i : Int) ∈ p := hp.mem_iff.2 (mem_iota.2 ⟨Int.ofNat_nonneg _, by exact_mod_cast hi⟩)
    have hk : List.indexOf (i : Int) p < p.length := List.indexOf_lt_length.2 hmem
    have hget : p[List.indexOf (i : Int) p] = (i : Int) := List.getElem_indexOf hk
    simp only [permuteList, invPerm, iota, List.getD_eq_getElem?_getD, hl, List.getElem_map,
      List.map_map, List.getElem_range, Function.comp, Int.toNat_ofNat, List.getElem?_map,
      List.getElem?_eq_getElem hk, hget, Option.map_some', Option.getD_some,
      List.getElem?_eq_getElem h2]

theorem invPerm_ne_iota {p : List Int} {n : Nat} (hp : p.Perm (iota n)) (hid : p ≠ iota n) :
    invPerm p ≠ iota n := by
  intro h
  apply hid
  have h1 := permuteList_invPerm hp (iota n) (iota_length n)
  rw [h, permuteList_self_iota hp] at h1
  have h2 : permuteList (iota n) p = p := by
    have hl : p.length = n := by simpa [iota_length] using hp.length_eq
    exact permuteList_iota p hl
  rw [h2] at h1
  exact h1

theorem iota_reverse_ne {n : Nat} (h : 2 ≤ n) : (iota n).reverse ≠ iota n := by
  intro he
  have h0 : (iota n).reverse[0]? = (iota n)[0]? := by rw [he]
  rw [List.getElem?_reverse (by simp [iota_length]; omega), iota_length,
    iota_getElem? n 0 (by omega), iota_getElem? n (n - 1 - 0) (by omega)] at h0
  simp at h0
  omega

theorem Tensor.isReversedLoop_self (s : List Int) : Tensor.isReversedLoop s s = .ok true := by
  induction s with
  | nil => rfl
  | cons a s ih => simp [Tensor.isReversedLoop, ih]

theorem Tensor.T_install (fuel : Nat) (t : Tensor) (axes : List Int) (tr : AP) (a1 : List Int)
    (h : t.ap.T axes = .ok (tr, a1)) (hold : t.old = none) :
    t.T fuel axes = .ok { t with old := some t.ap, transposeWith := some a1, ap := tr } := by
  unfold Tensor.T
  rw [h]
  simp only [hold]

theorem Tensor.T_restore (fuel : Nat) (t : Tensor) (axes : List Int) (tr o : AP) (a1 : List Int)
    (h : t.ap.T axes = .ok (tr, a1)) (hold : t.old = some o) (hs : tr.shape = o.shape) :
    t.T fuel axes = .ok { t with ap := o, old := none, transposeWith := none } := by
  unfold Tensor.T
  rw [h]
  simp only [hold, Tensor.oshape, hs, Tensor.isReversedLoop_self]
  split <;> rfl

/-- A thunk installed on a clean tensor is undone by a second `T` whose
transformed shape is the saved shape. -/
theorem Tensor.T_T_cancel (fuel : Nat) (t : Tensor) (p q : List Int)
    (hold : t.old = none) (htw : t.transposeWith = none)
    (hp : (normAxes t.ap.shape.length p).Perm (iota t.ap.shape.length))
    (hpid : normAxes t.ap.shape.length p ≠ iota t.ap.shape.length)
    (hq : (normAxes t.ap.shape.length q).Perm (iota t.ap.shape.length))
    (hqid : normAxes t.ap.shape.length q ≠ iota t.ap.shape.length)
    (hinv : permuteList (normAxes t.ap.shape.length q)
      (permuteList (normAxes t.ap.shape.length p) t.ap.shape) = t.ap.shape) :
    ∃ t1, t.T fuel p = .ok t1 ∧ t1.data = t.data ∧ t1.T fuel q = .ok t := by
  have hl : (normAxes t.ap.shape.length p).length = t.ap.shape.length := by
    simpa [iota_length] using hp.length_eq
  have e1 := AP.T_of_perm t.ap p hp
  simp only [hpid, if_false] at e1
  have e2 := AP.T_of_perm
    { shape := permuteList (normAxes t.ap.shape.length p) t.ap.shape,
      strides := if t.ap.strides.length = t.ap.shape.length then
          permuteList (normAxes t.ap.shape.length p) t.ap.strides
        else t.ap.strides,
      fin := true } q (by simpa [permuteList_length, hl] using hq)
  simp only [permuteList_length, hl, hqid, if_false, hinv] at e2
  refine ⟨_, Tensor.T_install fuel t p _ _ e1 hold, rfl, ?_⟩
  have h3 := Tensor.T_restore fuel
    { ap := { shape := permuteList (normAxes t.ap.shape.length p) t.ap.shape,
              strides := if t.ap.strides.length = t.ap.shape.length then
                  permuteList (normAxes t.ap.shape.length p) t.ap.strides
                else t.ap.strides,
              fin := true },
      data := t.data, old := some t.ap,
      transposeWith := some (normAxes t.ap.shape.length p), viewOf := t.viewOf }
    q _ t.ap _ e2 rfl rfl
  refine h3.trans ?_
  cases t with
  | mk ap data old tw vo =>
    simp only at hold htw
    subst hold htw
    rfl

/-- C6: on a tensor of rank at least 2 without a pending thunk, `T(axes)` for a
valid non-identity permutation followed by `T` of the inverse permutation
returns no error both times, never writes the buffer, and leaves the tensor
exactly as it started (shape, strides, `old`, `transposeWith`, data); the same
holds for `T()` applied twice. -/
theorem C6_T_then_inverse_is_identity (fuel : Nat) (t : Tensor) (axes : List Int)
    (hrank : 2 ≤ t.Shape.length) (hold : t.old = none) (htw : t.transposeWith = none)
    (hp : axes.Perm (iota t.Shape.length)) (hid : axes ≠ iota t.Shape.length) :
    (∃ t1, t.T fuel axes = .ok t1 ∧ t1.data = t.data ∧ t1.T fuel (invPerm axes) = .ok t) ∧
    (∃ t1, t.T fuel [] = .ok t1 ∧ t1.data = t.data ∧ t1.T fuel [] = .ok t) := by
  have hl : axes.length = t.ap.shape.length := by simpa [iota_length] using hp.length_eq
  have hne : axes ≠ [] := by
    intro h; subst h
    simp only [List.length_nil, Tensor.Shape] at hl hrank
    omega
  have hine : invPerm axes ≠ [] := by
    intro h
    have := congrArg List.length h
    simp only [invPerm_length, List.length_nil, Tensor.Shape] at this hrank
    omega
  constructor
  · apply Tensor.T_T_cancel fuel t axes (invPerm axes) hold htw
    · rw [normAxes_of_ne_nil _ hne]; exact hp
    · rw [normAxes_of_ne_nil _ hne]; exact hid
    · rw [normAxes_of_ne_nil _ hine]; exact invPerm_perm hp
    · rw [normAxes_of_ne_nil _ hine]; exact invPerm_ne_iota hp hid
    · rw [normAxes_of_ne_nil _ hine, normAxes_of_ne_nil _ hne]
      exact permuteList_invPerm hp _ rfl
  · have hn : normAxes t.ap.shape.length [] = (iota t.ap.shape.length).reverse := rfl
    apply Tensor.T_T_cancel fuel t [] [] hold htw
    · rw [hn]; exact iota_reverse_perm _
    · rw [hn]; exact iota_reverse_ne hrank
    · rw [hn]; exact iota_reverse_perm _
    · rw [hn]; exact iota_reverse_ne hrank
    · rw [hn, permuteList_reverse, permuteList_reverse,
        permuteList_iota (n := t.ap.shape.length) t.ap.shape rfl,
        permuteList_iota (n := t.ap.shape.length) _ (by simp), List.reverse_reverse]

/-- C6 (witness): shape (2,3,4) with `T(2,0,1)` then `T(1,2,0)`. -/
theorem C6_T_then_inverse_witness :
    invPerm [2, 0, 1] = [1, 2, 0] ∧
    ∃ t1, (Tensor.ofData [2, 3, 4] (iota 24)).T 0 [2, 0, 1] = .ok t1 ∧
      t1.data = (Tensor.ofData [2, 3, 4] (iota 24)).data ∧
      t1.T 0 (invPerm [2, 0, 1]) = .ok (Tensor.ofData [2, 3, 4] (iota 24)) :=
  ⟨by decide,
   (C6_T_then_inverse_is_identity 0 (Tensor.ofData [2, 3, 4] (iota 24)) [2, 0, 1]
      (by decide) rfl rfl ((isPermutation_iff_perm _ _).1 (by decide)) (by decide)).1⟩

/-! ## C5: `at` and `itol` -/

theorem permuteList_perm {p xs : List Int} (hp : p.Perm (iota xs.length)) :
    (permuteList p xs).Perm xs := by
  have h1 : (permuteList p xs).Perm (permuteList (iota xs.length) xs) := by
    unfold permuteList
    exact hp.map _
  rwa [permuteList_iota xs rfl] at h1

theorem dot_map_map (p : List Int) (f g : Int → Int) :
    dot (p.map f) (p.map g) = (p.map (fun a => f a * g a)).sum := by
  induction p with
  | nil => rfl
  | cons a p ih => simp [dot, ih]

theorem dot_permuteList {p x y : List Int} {n : Nat} (hp : p.Perm (iota n))
    (hx : x.length = n) (hy : y.length = n) :
    dot (permuteList p x) (permuteList p y) = dot x y := by
  have h1 : dot (permuteList p x) (permuteList p y)
      = dot (permuteList (iota n) x) (permuteList (iota n) y) := by
    unfold permuteList
    rw [dot_map_map, dot_map_map]
    exact (hp.map _).sum_eq
  rw [h1, permuteList_iota x hx, permuteList_iota y hy]

theorem inRange_map_map (p : List Int) (f g : Int → Int) :
    inRange (p.map f) (p.map g) = p.all (fun a => decide (0 ≤ f a) && decide (f a < g a)) := by
  induction p with
  | nil => rfl
  | cons a p ih => simp [inRange, ih]

theorem inRange_permuteList {p x s : List Int} {n : Nat} (hp : p.Perm (iota n))
    (hx : x.length = n) (hs : s.length = n) :
    inRange (permuteList p x) (permuteList p s) = inRange x s := by
  have h1 : inRange (permuteList p x) (permuteList p s)
      = inRange (permuteList (iota n) x) (permuteList (iota n) s) := by
    unfold permuteList
    rw [inRange_map_map, inRange_map_map]
    rw [Bool.eq_iff_iff]
    simp only [List.all_eq_true]
    constructor
    · intro h a ha; exact h a (hp.mem_iff.2 ha)
    · intro h a ha; exact h a (hp.mem_iff.1 ha)
  rw [h1, permuteList_iota x hx, permuteList_iota s hs]

theorem permuteList_invPerm_right {p : List Int} {n : Nat} (hp : p.Perm (iota n))
    (xs : List Int) (hx : xs.length = n) :
    permuteList p (permuteList (invPerm p) xs) = xs := by
  have hl : p.length = n := by simpa [iota_length] using hp.length_eq
  have hnd : p.Nodup := hp.nodup_iff.2 (iota_nodup n)
  apply List.ext_getElem
  · simp [permuteList_length, hl, hx]
  · intro i h1 h2
    have hi : i < p.length := by rw [hl, ← hx]; exact h2
    obtain ⟨h0, hb⟩ := Perm.mem_range hp (List.getElem_mem hi)
    have hb2 : (p[i]).toNat < p.length := by omega
    have hidx : List.indexOf p[i] p = i := List.indexOf_getElem hnd i hi
    have hcast : ((p[i]).toNat : Int) = p[i] := Int.toNat_of_nonneg h0
    simp only [permuteList, invPerm, iota, List.getD_eq_getElem?_getD, List.getElem_map,
      List.map_map, List.getElem?_map, Function.comp, List.getElem?_range hb2,
      Option.map_some', Option.getD_some, hcast, hidx, Int.toNat_ofNat,
      List.getElem?_eq_getElem h2]

theorem rowMajor_length (s : List Int) : (rowMajor s).length = s.length := by
  induction s with
  | nil => rfl
  | cons a s ih => simp [rowMajor, ih]

/-- Division by the row-major strides recovers in-range coordinates. -/
theorem itolAux_dot_rowMajor (c : List Int) (s : Shape) (h : inRange c s = true) :
    itolAux (dot c (rowMajor s)) (rowMajor s) = c := by
  induction c generalizing s with
  | nil => cases s <;> simp_all [inRange, dot, rowMajor, itolAux]
  | cons x xs ih =>
    cases s with
    | nil => simp [inRange] at h
    | cons d ds =>
      simp only [inRange, Bool.and_eq_true, decide_eq_true_eq] at h
      obtain ⟨⟨h0, h1⟩, h2⟩ := h
      obtain ⟨b0, b1⟩ := dot_rowMajor_bounds xs ds h2
      have hp : 0 < ds.prod := lt_of_le_of_lt b0 b1
      simp only [dot, rowMajor, itolAux]
      have e1 : (x * ds.prod + dot xs (rowMajor ds)) / ds.prod = x := by
        rw [add_comm, Int.add_mul_ediv_right _ _ (ne_of_gt hp), Int.ediv_eq_zero_of_lt b0 b1]
        simp
      have e2 : (x * ds.prod + dot xs (rowMajor ds)) % ds.prod = dot xs (rowMajor ds) := by
        rw [add_comm, Int.add_mul_emod_self, Int.emod_eq_of_lt b0 b1]
      rw [e1, e2, ih ds h2]

theorem Shape.isVector_iff (s : Shape) :
    Shape.IsVector s = true ↔ s.length = 1 ∨ (s.length = 2 ∧ (1 : Int) ∈ s) := by
  unfold Shape.IsVector Shape.IsRowVec Shape.IsColVec
  match s with
  | [] => simp
  | [a] => simp
  | [a, b] =>
    simp only [Bool.or_eq_true, beq_iff_eq, List.length_cons, List.length_nil, List.mem_cons]
    constructor
    · rintro ((h | h) | h)
      · omega
      · exact Or.inr ⟨trivial, Or.inl h.symm⟩
      · exact Or.inr ⟨trivial, Or.inr (Or.inl h.symm)⟩
    · rintro (h | ⟨_, h | h | h⟩)
      · omega
      · exact Or.inl (Or.inr h.symm)
      · exact Or.inr h.symm
      · simp at h
  | a :: b :: c :: r => simp

theorem Shape.isVector_permuteList {p : List Int} {s : Shape} (hp : p.Perm (iota s.length)) :
    Shape.IsVector (permuteList p s) = Shape.IsVector s := by
  have h := permuteList_perm hp
  rw [Bool.eq_iff_iff, Shape.isVector_iff, Shape.isVector_iff, h.length_eq, h.mem_iff]


/-- The round trip on a clean contiguous row-major tensor. -/
theorem Tensor.itol_atOffset_clean (t : Tensor) (hvec : t.IsVector = false)
    (hold : t.old = none) (htw : t.transposeWith = none)
    (hstr : t.Strides = rowMajor t.Shape) (c : List Int)
    (hc : inRange c t.Shape = true) :
    ∃ i, t.atOffset c = .ok i ∧ t.itol i = .ok c := by
  obtain ⟨_, b1⟩ := dot_rowMajor_bounds c t.Shape hc
  refine ⟨dot c (rowMajor t.Shape), ?_, ?_⟩
  · have hv : Shape.IsVector t.Shape = false := hvec
    rw [Tensor.atOffset, Ltoi_of_not_vector _ _ hv, hstr]
    simp [hc]
  · have hlt : ¬ (dot c (rowMajor t.Shape) ≥ Shape.TotalSize t.Shape) := by
      simp only [Shape.TotalSize]; omega
    simp only [Tensor.itol, hold, htw, Itol, hlt, if_false, hstr,
      itolAux_dot_rowMajor c t.Shape hc]

/-- The round trip on a tensor with a thunk installed on a clean contiguous
row-major access pattern. -/
theorem Tensor.itol_atOffset_thunked (ap : AP) (data : List Int) (vo : Option Tensor)
    (p : List Int) (hvec : Shape.IsVector ap.shape = false)
    (hstr : ap.strides = rowMajor ap.shape) (hp : p.Perm (iota ap.shape.length))
    (c : List Int) (hc : inRange c (permuteList p ap.shape) = true) :
    ∃ i, (⟨⟨permuteList p ap.shape, permuteList p ap.strides, true⟩, data, some ap, some p,
            vo⟩ : Tensor).atOffset c = .ok i ∧
         (⟨⟨permuteList p ap.shape, permuteList p ap.strides, true⟩, data, some ap, some p,
            vo⟩ : Tensor).itol i = .ok c := by
  have hl : p.length = ap.shape.length := by simpa [iota_length] using hp.length_eq
  have hcl : c.length = ap.shape.length := by
    rw [inRange_length hc, permuteList_length, hl]
  have hsl : ap.strides.length = ap.shape.length := by rw [hstr, rowMajor_length]
  have hoc : permuteList p (permuteList (invPerm p) c) = c :=
    permuteList_invPerm_right hp c hcl
  have hocl : (permuteList (invPerm p) c).length = ap.shape.length := by
    rw [permuteList_length, invPerm_length, hl]
  have hin : inRange (permuteList (invPerm p) c) ap.shape = true := by
    rw [← inRange_permuteList hp hocl rfl, hoc]; exact hc
  have hdot : dot c (permuteList p (rowMajor ap.shape))
      = dot (permuteList (invPerm p) c) (rowMajor ap.shape) := by
    conv_lhs => rw [← hoc]
    rw [dot_permuteList hp hocl (rowMajor_length _)]
  obtain ⟨_, b1⟩ := dot_rowMajor_bounds _ ap.shape hin
  have hv2 : Shape.IsVector (permuteList p ap.shape) = false := by
    rw [Shape.isVector_permuteList hp]; exact hvec
  refine ⟨dot c (permuteList p ap.strides), ?_, ?_⟩
  · simp only [Tensor.atOffset, Tensor.Shape, Tensor.Strides]
    rw [Ltoi_of_not_vector _ _ hv2]
    simp [hc]
  · have hlt : ¬ (dot (permuteList (invPerm p) c) (rowMajor ap.shape)
        ≥ Shape.TotalSize ap.shape) := by
      simp only [Shape.TotalSize]; omega
    have hperm : isPermutation p (permuteList (invPerm p) c).length = true := by
      rw [hocl]; exact (isPermutation_iff_perm _ _).2 hp
    simp only [Tensor.itol, Itol, hdot, hlt, if_false, hstr,
      itolAux_dot_rowMajor _ ap.shape hin, Permute, hperm, if_true, hoc]

/-- C5: on a contiguous row-major tensor of rank at least 2 that is not a
vector, `itol(at(c))` returns `c` without error for every in-range coordinate
`c`; and the same round trip holds on the tensor that `T(axes)` returns, for
every valid permutation `axes` (or no axes: all axes reversed). -/
theorem C5_itol_inverts_at (fuel : Nat) (t : Tensor) (axes : List Int)
    (_hrank : 2 ≤ t.Shape.length) (hvec : t.IsVector = false)
    (hold : t.old = none) (htw : t.transposeWith = none)
    (hstr : t.Strides = Shape.CalcStrides t.Shape)
    (hax : axes = [] ∨ axes.Perm (iota t.Shape.length)) :
    (∀ c, List.Forall₂ (fun x d => 0 ≤ x ∧ x < d) c t.Shape →
        ∃ i, t.atOffset c = .ok i ∧ t.itol i = .ok c) ∧
    ∃ t1, t.T fuel axes = .ok t1 ∧
      ∀ c, List.Forall₂ (fun x d => 0 ≤ x ∧ x < d) c t1.Shape →
        ∃ i, t1.atOffset c = .ok i ∧ t1.itol i = .ok c := by
  have hsc : Shape.IsScalar t.Shape = false := by
    simp only [Shape.IsScalar, beq_eq_false_iff_ne, ne_eq, Tensor.Shape] at _hrank ⊢
    omega
  have hstr1 : t.Strides = rowMajor t.Shape := by
    rw [hstr]
    have hv : Shape.IsVector t.Shape = false := hvec
    simp [Shape.CalcStrides, hsc, hv]
  have clean : ∀ c, List.Forall₂ (fun x d => 0 ≤ x ∧ x < d) c t.Shape →
      ∃ i, t.atOffset c = .ok i ∧ t.itol i = .ok c := fun c hc =>
    Tensor.itol_atOffset_clean t hvec hold htw hstr1 c ((inRange_iff _ _).2 hc)
  refine ⟨clean, ?_⟩
  have hp := normAxes_perm t.ap.shape.length axes hax
  have e1 := AP.T_of_perm t.ap axes hp
  by_cases hid : normAxes t.ap.shape.length axes = iota t.ap.shape.length
  · simp only [hid, if_true] at e1
    exact ⟨t, by simp [Tensor.T, e1], clean⟩
  · simp only [hid, if_false] at e1
    have hsl : t.ap.strides.length = t.ap.shape.length := by
      have := congrArg List.length hstr1
      simpa [Tensor.Strides, Tensor.Shape, rowMajor_length] using this
    simp only [hsl, if_true] at e1
    refine ⟨_, Tensor.T_install fuel t axes _ _ e1 hold, ?_⟩
    intro c hc
    exact Tensor.itol_atOffset_thunked t.ap t.data t.viewOf _ hvec hstr1 hp c
      ((inRange_iff _ _).2 hc)

/-- C5 (witness): shape (2,3) over 0..5 with `T()`. -/
theorem C5_itol_inverts_at_witness :
    ∃ t1, (Tensor.ofData [2, 3] (iota 6)).T 0 [] = .ok t1 ∧
      ∀ c, List.Forall₂ (fun x d => 0 ≤ x ∧ x < d) c t1.Shape →
        ∃ i, t1.atOffset c = .ok i ∧ t1.itol i = .ok c :=
  (C5_itol_inverts_at 0 (Tensor.ofData [2, 3] (iota 6)) [] (by decide) (by decide) rfl rfl rfl
    (Or.inl rfl)).2

/-! ## The first loop of `Slice` -/

theorem getD_eq_headSlice_drop (xs : List (Option Slice)) (i : Nat) :
    xs.getD i none = headSlice (xs.drop i) := by
  induction xs generalizing i with
  | nil => simp [headSlice]
  | cons x xs ih =>
    cases i with
    | zero => simp [headSlice]
    | succ k => simpa using ih k

theorem List.tail_drop_eq {α : Type} (xs : List α) (i : Nat) :
    (xs.drop i).tail = xs.drop (i + 1) := by
  rw [List.tail_drop]

theorem take_set_succ (sh : List Int) (i : Nat) (v : Int) (h : i < sh.length) :
    (sh.set i v).take (i + 1) = sh.take i ++ [v] := by
  induction sh generalizing i with
  | nil => simp at h
  | cons x xs ih =>
    cases i with
    | zero => simp
    | succ k =>
      simp only [List.length_cons, Nat.succ_lt_succ_iff] at h
      simp [ih k h]

theorem setAt_of_lt (xs : List Int) (i : Nat) (v : Int) (h : i < xs.length) :
    setAt xs (i : Int) v = .ok (xs.set i v) := by
  simp [setAt, h]

theorem Tensor.sliceStrides_length {t : Tensor} (hwf : t.WellFormed) :
    t.sliceStrides.length = t.Shape.length := by
  unfold Tensor.sliceStrides
  split
  · simp
  · rename_i h
    apply hwf.2
    by_cases hv : t.IsVector = true
    · right
      have hv1 : Shape.IsVector t.Shape = true := hv
      have hd : t.Dims = 1 := by
        have hs : Shape.IsScalar t.Shape = false := by
          rcases (Shape.isVector_iff _).1 hv1 with h1 | ⟨h1, _⟩ <;>
            simp [Shape.IsScalar, h1]
        simp only [Tensor.Shape] at hs hv1
        simp [Tensor.Dims, Shape.Dims, hs, hv1]
      rw [hd] at h
      rcases (Shape.isVector_iff _).1 hv1 with h1 | ⟨h1, _⟩
      · exact h1
      · exact absurd ⟨by rw [h1]; decide, hv⟩ h
    · left
      simpa using hv

theorem Tensor.sliceStride_eq (t : Tensor) (i : Nat) (h : i < t.sliceStrides.length) :
    (if t.Dims < (t.Shape.length : Int) ∧ t.IsVector then (.ok 1 : Except Err Int)
      else getAt t.ostrides i) = .ok t.sliceStrides[i] := by
  unfold Tensor.sliceStrides at h ⊢
  split
  · simp
  · rename_i hc
    simp only [hc, if_false] at h ⊢
    exact getAt_of_lt _ _ h

/-- The index loop of `Slice` agrees with the recursion over the axes. -/
theorem Tensor.sliceLoop_eq_walk (t : Tensor) (slices : List (Option Gorgonia.Slice))
    (n i : Nat) (a b : Int) (sh : List Int)
    (hin : i + n = t.Shape.length) (hsz : t.oshape.length = t.Shape.length)
    (hes : t.sliceStrides.length = t.Shape.length) (hsh : sh.length = t.Shape.length) :
    t.sliceLoop slices t.Shape.length t.Dims n i a b sh =
      match sliceWalk (t.oshape.drop i) (t.sliceStrides.drop i) (slices.drop i) a b with
      | .error e => .error e
      | .ok (a1, b1, ext) => .ok (a1, b1, sh.take i ++ ext) := by
  induction n generalizing i a b sh with
  | zero =>
    have hi : i = t.Shape.length := by omega
    have h1 : t.oshape.drop i = [] := List.drop_of_length_le (by omega)
    have h2 : sh.take i = sh := List.take_of_length_le (by omega)
    simp [Tensor.sliceLoop, h1, sliceWalk, h2]
  | succ n ih =>
    have hi : i < t.Shape.length := by omega
    have h1 : t.oshape.drop i = t.oshape[i] :: t.oshape.drop (i + 1) :=
      List.drop_eq_getElem_cons (by omega)
    have h2 : t.sliceStrides.drop i = t.sliceStrides[i] :: t.sliceStrides.drop (i + 1) :=
      List.drop_eq_getElem_cons (by omega)
    have h3 : getAt t.oshape (i : Int) = .ok t.oshape[i] := getAt_of_lt _ _ (by omega)
    have h4 := Tensor.sliceStride_eq t i (by omega)
    unfold Tensor.sliceLoop
    simp only [Nat.cast_inj, h3, h4, h1, h2, sliceWalk, getD_eq_headSlice_drop,
      List.tail_drop_eq]
    cases hb : sliceBounds (headSlice (List.drop i slices)) t.oshape[i] with
    | error e => rfl
    | ok r =>
      obtain ⟨start, stop⟩ := r
      simp only [setAt_of_lt sh i _ (by omega)]
      rw [ih (i + 1) _ _ _ (by omega) (by simp [hsh])]
      cases sliceWalk (List.drop (i + 1) t.oshape) (List.drop (i + 1) t.sliceStrides)
        (List.drop (i + 1) slices) (a + start * t.sliceStrides[i])
        (b - (t.oshape[i] - stop) * t.sliceStrides[i]) with
      | error e => rfl
      | ok r2 =>
        obtain ⟨a1, b1, ext⟩ := r2
        simp [take_set_succ sh i _ (by omega)]

theorem sliceBounds_ok (sl : Option Slice) (size : Int)
    (h0 : 0 ≤ sliceStart sl) (h1 : sliceStop sl size ≤ size) :
    sliceBounds sl size = .ok (sliceStart sl, sliceStop sl size) := by
  cases sl with
  | none => rfl
  | some s =>
    simp only [sliceStart, sliceStop] at h0 h1
    simp [sliceBounds, sliceStart, sliceStop, not_lt.2 h0, not_lt.2 h1]

theorem sliceBounds_eq_ok {sl : Option Slice} {size start stop : Int}
    (h : sliceBounds sl size = .ok (start, stop)) :
    start = sliceStart sl ∧ stop = sliceStop sl size ∧ 0 ≤ start ∧ stop ≤ size := by
  cases sl with
  | none =>
    simp only [sliceBounds, Except.ok.injEq, Prod.mk.injEq] at h
    obtain ⟨rfl, rfl⟩ := h
    simp [sliceStart, sliceStop]
  | some s =>
    unfold sliceBounds at h
    simp only at h
    split at h
    · simp at h
    · split at h
      · simp at h
      · simp only [Except.ok.injEq, Prod.mk.injEq] at h
        obtain ⟨rfl, rfl⟩ := h
        refine ⟨rfl, rfl, ?_, ?_⟩ <;> omega

/-- The window and the extents computed for slices that pass validation. -/
theorem sliceWalk_ok (sizes es : List Int) (sls : List (Option Slice)) (a b : Int)
    (hes : es.length = sizes.length) (hv : slicesValid sizes sls) :
    sliceWalk sizes es sls a b =
      .ok (a + dot (sliceStarts sizes sls) es, b - dot (sliceCuts sizes sls) es,
           sliceExtents sizes sls) := by
  induction sizes generalizing es sls a b with
  | nil => simp [sliceWalk, sliceStarts, sliceCuts, sliceExtents, dot]
  | cons size sizes ih =>
    cases es with
    | nil => simp at hes
    | cons stride es1 =>
      obtain ⟨⟨h0, h1⟩, hv2⟩ := hv
      simp only [sliceWalk, sliceBounds_ok _ _ h0 h1,
        ih es1 sls.tail _ _ (by simpa using hes) hv2, sliceStarts, sliceCuts, sliceExtents, dot]
      simp only [Except.ok.injEq, Prod.mk.injEq, and_true]
      constructor <;> ring

/-- A successful walk means every slice passed validation. -/
theorem sliceWalk_valid {sizes es : List Int} {sls : List (Option Slice)} {a b : Int}
    {r : Int × Int × List Int} (h : sliceWalk sizes es sls a b = .ok r) :
    slicesValid sizes sls ∧ sizes.length ≤ es.length := by
  induction sizes generalizing es sls a b r with
  | nil => simp [slicesValid]
  | cons size sizes ih =>
    cases es with
    | nil => simp [sliceWalk] at h
    | cons stride es1 =>
      simp only [sliceWalk] at h
      cases hb : sliceBounds (headSlice sls) size with
      | error e => simp [hb] at h
      | ok p =>
        obtain ⟨start, stop⟩ := p
        simp only [hb] at h
        cases hw : sliceWalk sizes es1 sls.tail (a + start * stride)
            (b - (size - stop) * stride) with
        | error e => simp [hw] at h
        | ok r2 =>
          obtain ⟨h1, h2, h3, h4⟩ := sliceBounds_eq_ok hb
          obtain ⟨iv, il⟩ := ih hw
          refine ⟨⟨⟨by rw [← h1]; exact h3, by rw [← h2]; exact h4⟩, iv⟩, ?_⟩
          simp only [List.length_cons]
          omega

/-- A slice that fails validation makes the walk return an IndexError. -/
theorem sliceWalk_indexError (sizes es : List Int) (sls : List (Option Slice)) (a b : Int)
    (hes : es.length = sizes.length) (i : Nat) (s : Slice)
    (hs : sls[i]? = some (some s)) (hi : i < sizes.length)
    (hbad : s.Start < 0 ∨ s.End > sizes.getD i 0) :
    sliceWalk sizes es sls a b = .error .indexError := by
  induction sizes generalizing es sls a b i with
  | nil => simp at hi
  | cons size sizes ih =>
    cases es with
    | nil => simp at hes
    | cons stride es1 =>
      cases sls with
      | nil => simp at hs
      | cons sl sls1 =>
        cases i with
        | zero =>
          simp only [List.getElem?_cons_zero, Option.some.injEq] at hs
          subst hs
          simp only [List.getD_cons_zero] at hbad
          simp only [sliceWalk, headSlice, sliceBounds]
          rcases hbad with h | h
          · simp [h]
          · by_cases h0 : s.Start < 0
            · simp [h0]
            · simp [h0, h]
        | succ k =>
          simp only [List.getElem?_cons_succ] at hs
          simp only [List.getD_cons_succ] at hbad
          simp only [List.length_cons, Nat.succ_lt_succ_iff] at hi
          simp only [sliceWalk, headSlice, List.tail_cons]
          cases hb : sliceBounds sl size with
          | error e =>
            cases sl with
            | none => simp [sliceBounds] at hb
            | some s0 =>
              unfold sliceBounds at hb
              simp only at hb
              split at hb
              · simp at hb; subst hb; rfl
              · split at hb
                · simp at hb; subst hb; rfl
                · simp at hb
          | ok p =>
            obtain ⟨start, stop⟩ := p
            simp only [ih es1 sls1 _ _ (by simpa using hes) k hs hi hbad]

/-! ## C8: the errors of `Slice` -/

theorem Tensor.sliceLoop_congr (t : Tensor) (s1 s2 : List (Option Gorgonia.Slice))
    (h : ∀ j, s1.getD j none = s2.getD j none) (opDims dims : Int) (n i : Nat) (a b : Int)
    (sh : List Int) :
    t.sliceLoop s1 opDims dims n i a b sh = t.sliceLoop s2 opDims dims n i a b sh := by
  induction n generalizing i a b sh with
  | zero => rfl
  | succ n ih =>
    unfold Tensor.sliceLoop
    simp only [h i, ih]

theorem getD_append_replicate_none (sls : List (Option Slice)) (k j : Nat) :
    (sls ++ List.replicate k none).getD j none = sls.getD j none := by
  simp only [List.getD_eq_getElem?_getD]
  by_cases hj : j < sls.length
  · rw [List.getElem?_append_left hj]
  · rw [List.getElem?_append_right (by omega), List.getElem?_eq_none (by omega : sls.length ≤ j)]
    cases h : (List.replicate k (none : Option Slice))[j - sls.length]? with
    | none => rfl
    | some v =>
      obtain ⟨hlt, hv⟩ := List.getElem?_eq_some_iff.1 h
      simp only [List.getElem_replicate] at hv
      simp [← hv]

/-- `Slice` on a well-formed tensor, with the first loop replaced by the
recursion over the axes. -/
theorem Tensor.Slice_eq (t : Tensor) (slices : List (Option Gorgonia.Slice))
    (hwf : t.WellFormed) (hlen : slices.length ≤ t.Shape.length) :
    t.Slice slices =
      match sliceWalk t.oshape t.sliceStrides slices 0 (len t.data) with
      | .error e => .error e
      | .ok (ndStart, ndEnd, newShape) =>
        match sliceAP t.Dims ndStart ndEnd newShape (Shape.CalcStrides t.oshape) with
        | .error e => .error e
        | .ok ap =>
          match subSlice t.data ndStart ndEnd with
          | .error e => .error e
          | .ok d =>
            .ok { ap := ap, data := d, old := none, transposeWith := none, viewOf := some t } := by
  have h1 := Tensor.sliceLoop_eq_walk t slices t.Shape.length 0 0 (len t.data) t.Shape
    (by simp) hwf.1 (Tensor.sliceStrides_length hwf) rfl
  simp only [List.drop_zero, List.take_zero, List.nil_append] at h1
  unfold Tensor.Slice
  simp only [not_lt.2 hlen, if_false, h1]
  cases sliceWalk t.oshape t.sliceStrides slices 0 (len t.data) with
  | error e => rfl
  | ok r => rfl

/-- C8 (counterexample): the 2x3 matrix over 0..5 after `T()` has the shape
(3,2), so its axis 1 has size 2; `Slice(nil, 0:3)`, whose end 3 is greater than
that size, returns a view (of shape (2,3)) and no IndexError, because the end
is checked against `oshape()[1] = 3`. After `T()` and `Reshape(3,2,1)`, which
returns no error, the slice `0:5` on axis 2 of size 1 gives a panic, not an
IndexError: the saved shape has no third entry. -/
theorem C8_counterexample :
    ∃ t t1 v, NewTensor [.WithShape [2, 3], .WithBacking (iota 6)] = .ok t ∧
      t.T 0 [] = .ok t1 ∧ t1.Shape = [3, 2] ∧ t1.oshape = [2, 3] ∧
      (Slice.rangedSlice 0 3).End > t1.Shape.getD 1 0 ∧
      t1.Slice [none, some (.rangedSlice 0 3)] = .ok v ∧ v.Shape = [2, 3] ∧
      (t1.Reshape [3, 2, 1]).2 = .ok () ∧ (t1.Reshape [3, 2, 1]).1.Shape = [3, 2, 1] ∧
      (Slice.rangedSlice 0 5).End > (t1.Reshape [3, 2, 1]).1.Shape.getD 2 0 ∧
      (t1.Reshape [3, 2, 1]).1.Slice [none, none, some (.rangedSlice 0 5)]
        = .error .goPanic :=
  ⟨_, _, _, rfl, rfl, rfl, rfl, by decide, rfl, rfl, rfl, rfl, by decide, rfl⟩

/-- C8 (as amended): for every tensor, `Slice` returns a DimMismatch error (and
no view) when given more slices than there are axes, and with fewer slices than
axes the result is that of the call with the missing trailing slices written as
nil. For every well-formed tensor (the saved shape has the rank of the shape,
and there is one stride per axis unless the tensor is a row or column vector),
`Slice` returns an IndexError (and no view) when some given slice has a
negative start or an end beyond the size `Slice` reads for its axis,
`oshape()[i]`: the size of the axis when no thunk is pending, the size in the
saved shape under a pending `T()`. `Slice` never writes its receiver. -/
theorem C8_slice_errors (t : Tensor) (slices : List (Option Gorgonia.Slice)) :
    (t.Shape.length < slices.length → t.Slice slices = .error .dimMismatch) ∧
    (t.WellFormed → slices.length ≤ t.Shape.length →
      (∃ i s, slices[i]? = some (some s) ∧ (s.Start < 0 ∨ s.End > t.oshape.getD i 0)) →
      t.Slice slices = .error .indexError) ∧
    (slices.length ≤ t.Shape.length →
      t.Slice slices =
        t.Slice (slices ++ List.replicate (t.Shape.length - slices.length) none)) := by
  refine ⟨?_, ?_, ?_⟩
  · intro h
    simp [Tensor.Slice, h]
  · rintro hwf hlen ⟨i, s, hs, hbad⟩
    have hi : i < slices.length := by
      by_contra hc
      rw [List.getElem?_eq_none (by omega)] at hs
      simp at hs
    rw [Tensor.Slice_eq t slices hwf hlen,
      sliceWalk_indexError t.oshape t.sliceStrides slices 0 (len t.data)
        (by rw [Tensor.sliceStrides_length hwf, hwf.1]) i s hs (by rw [hwf.1]; omega) hbad]
  · intro hlen
    unfold Tensor.Slice
    have h1 : ¬ (slices.length > t.Shape.length) := by omega
    have h2 : ¬ ((slices ++ List.replicate (t.Shape.length - slices.length) none).length
        > t.Shape.length) := by
      simp only [List.length_append, List.length_replicate]; omega
    simp only [h1, h2, if_false]
    rw [Tensor.sliceLoop_congr t slices
      (slices ++ List.replicate (t.Shape.length - slices.length) none)
      (fun j => (getD_append_replicate_none slices _ j).symm)]

/-- C8 (witness): shape (2,3,4) with four single slices, with the range 1:5 on
axis 0, and with the single slice `T[1]`. -/
theorem C8_slice_errors_witness :
    (Tensor.ofData [2, 3, 4] (iota 24)).Slice
        [some (.singleSlice 1), some (.singleSlice 2), some (.singleSlice 3),
         some (.singleSlice 4)] = .error .dimMismatch ∧
    (Tensor.ofData [2, 3, 4] (iota 24)).Slice [some (.rangedSlice 1 5)] = .error .indexError ∧
    (Tensor.ofData [2, 3, 4] (iota 24)).Slice [some (.singleSlice 1)] =
      (Tensor.ofData [2, 3, 4] (iota 24)).Slice
        ([some (.singleSlice 1)] ++ List.replicate (3 - 1) none) :=
  ⟨(C8_slice_errors (Tensor.ofData [2, 3, 4] (iota 24)) _).1 (by decide),
   (C8_slice_errors (Tensor.ofData [2, 3, 4] (iota 24)) _).2.1 ⟨rfl, fun _ => rfl⟩ (by decide)
      ⟨0, .rangedSlice 1 5, rfl, Or.inr (by decide)⟩,
   (C8_slice_errors (Tensor.ofData [2, 3, 4] (iota 24)) [some (.singleSlice 1)]).2.2
      (by decide)⟩

/-! ## C9: slices that select a single element -/

/-- The slices `T[c_0, c_1, ..]`. -/
theorem singles_valid (idx : List Int) (shape : Shape) (h : inRange idx shape = true) :
    slicesValid shape (idx.map (fun c => some (Slice.singleSlice c))) ∧
    sliceStarts shape (idx.map (fun c => some (Slice.singleSlice c))) = idx := by
  induction idx generalizing shape with
  | nil => cases shape <;> simp_all [inRange, slicesValid, sliceStarts]
  | cons c cs ih =>
    cases shape with
    | nil => simp [inRange] at h
    | cons d ds =>
      simp only [inRange, Bool.and_eq_true, decide_eq_true_eq] at h
      obtain ⟨⟨h0, h1⟩, h2⟩ := h
      obtain ⟨i1, i2⟩ := ih ds h2
      simp only [List.map_cons, slicesValid, headSlice, sliceStart, sliceStop, Slice.Start,
        Slice.End, List.tail_cons, sliceStarts, i2, and_true]
      exact ⟨⟨h0, by omega⟩, i1⟩

theorem singles_rowMajor (idx : List Int) (shape : Shape) (h : inRange idx shape = true) :
    dot (sliceCuts shape (idx.map (fun c => some (Slice.singleSlice c)))) (rowMajor shape)
      + dot idx (rowMajor shape) = shape.prod - 1 := by
  induction idx generalizing shape with
  | nil => cases shape <;> simp_all [inRange, sliceCuts, dot, rowMajor]
  | cons c cs ih =>
    cases shape with
    | nil => simp [inRange] at h
    | cons d ds =>
      simp only [inRange, Bool.and_eq_true, decide_eq_true_eq] at h
      obtain ⟨_, h2⟩ := h
      have := ih ds h2
      simp only [List.map_cons, sliceCuts, headSlice, sliceStop, Slice.End, List.tail_cons,
        rowMajor, dot, List.prod_cons]
      linear_combination this

theorem subSlice_single (xs : List Int) (a : Int) (h0 : 0 ≤ a) (h1 : a < xs.length) :
    ∃ x, subSlice xs a (a + 1) = .ok [x] ∧ getAt xs a = .ok x := by
  have hlt : a.toNat < xs.length := by omega
  refine ⟨xs[a.toNat], ?_, ?_⟩
  · have e1 : (a + 1).toNat - a.toNat = 1 := by omega
    have hc : 0 ≤ a ∧ a ≤ a + 1 ∧ a + 1 ≤ (xs.length : Int) := by omega
    simp only [subSlice, hc, and_self, if_true, e1]
    rw [List.drop_eq_getElem_cons hlt]
    rfl
  · simp [getAt, h0, hlt]

/-- The strides `Slice` steps with on a clean contiguous tensor of the given
shape. -/
theorem Tensor.sliceStrides_clean (t : Tensor) (hold : t.old = none)
    (hstr : t.Strides = Shape.CalcStrides t.Shape) :
    t.sliceStrides =
      if Shape.Dims t.Shape < (t.Shape.length : Int) ∧ Shape.IsVector t.Shape then
        List.replicate t.Shape.length 1
      else Shape.CalcStrides t.Shape := by
  have host : t.ostrides = Shape.CalcStrides t.Shape := by
    simp only [Tensor.ostrides, hold]; exact hstr
  simp only [Tensor.sliceStrides, host]
  rfl

/-- Single-index slices on a shape with at least two elements: the offset of
the selected coordinate, under the strides `Slice` steps with, is the start of
a window of one element. -/
theorem singles_offset (shape : Shape) (idx : List Int) (hidx : inRange idx shape = true)
    (h2 : 2 ≤ shape.prod) :
    ∃ a, 0 ≤ a ∧ a < shape.prod ∧
      dot idx (if Shape.Dims shape < (shape.length : Int) ∧ Shape.IsVector shape then
          List.replicate shape.length 1 else Shape.CalcStrides shape) = a ∧
      dot (sliceCuts shape (idx.map (fun c => some (Slice.singleSlice c))))
        (if Shape.Dims shape < (shape.length : Int) ∧ Shape.IsVector shape then
          List.replicate shape.length 1 else Shape.CalcStrides shape) + a = shape.prod - 1 ∧
      Ltoi shape (Shape.CalcStrides shape) idx = .ok a := by
  have hil : idx.length = shape.length := inRange_length hidx
  by_cases hv : Shape.IsVector shape = true
  · rcases (Shape.isVector_iff shape).1 hv with h1 | ⟨h1, hone⟩
    · obtain ⟨d, rfl⟩ := List.length_eq_one.1 h1
      obtain ⟨c, rfl⟩ := List.length_eq_one.1 (hil.trans h1)
      simp only [inRange, Bool.and_eq_true, decide_eq_true_eq, and_true] at hidx
      have hes : (if Shape.Dims [d] < (([d] : List Int).length : Int) ∧ Shape.IsVector [d]
          then List.replicate ([d] : List Int).length 1 else Shape.CalcStrides [d]) = [1] := by
        simp [Shape.Dims, Shape.IsScalar, Shape.IsVector, Shape.CalcStrides]
      rw [hes]
      refine ⟨c, hidx.1, by simpa using hidx.2, ?_, ?_, ?_⟩
      · simp [dot]
      · simp only [dot, List.map_cons, List.map_nil, sliceCuts, headSlice, sliceStop, Slice.End,
          List.prod_cons, List.prod_nil]
        ring
      · simp [Ltoi, inRange, hidx, Shape.IsRowVec, Shape.IsColVec, Shape.CalcStrides,
          Shape.IsScalar, Shape.IsVector, dot]
    · obtain ⟨d0, d1, rfl⟩ := List.length_eq_two.1 h1
      obtain ⟨c0, c1, rfl⟩ := List.length_eq_two.1 (hil.trans h1)
      simp only [inRange, Bool.and_eq_true, decide_eq_true_eq, and_true] at hidx
      obtain ⟨⟨hc0, hc0d⟩, hc1, hc1d⟩ := hidx
      simp only [List.prod_cons, List.prod_nil, mul_one] at h2 ⊢
      simp only [List.mem_cons, List.mem_singleton, List.not_mem_nil, or_false] at hone
      have hes : (if Shape.Dims [d0, d1] < (([d0, d1] : List Int).length : Int)
          ∧ Shape.IsVector [d0, d1]
          then List.replicate ([d0, d1] : List Int).length 1 else Shape.CalcStrides [d0, d1])
          = [1, 1] := by
        simp [Shape.Dims, Shape.IsScalar, hv, List.replicate]
      rw [hes]
      simp only [dot, List.map_cons, List.map_nil, sliceCuts, headSlice, sliceStop, Slice.End,
        List.tail_cons]
      have hin : inRange [c0, c1] [d0, d1] = true := by
        simp [inRange, hc0, hc0d, hc1, hc1d]
      rcases hone with h | h
      · subst h
        have e0 : c0 = 0 := by omega
        subst e0
        refine ⟨c1, hc1, by omega, by ring, by ring, ?_⟩
        simp [Ltoi, hin, Shape.IsRowVec, Shape.CalcStrides, Shape.IsScalar, hv]
      · subst h
        have e1 : c1 = 0 := by omega
        subst e1
        refine ⟨c0, hc0, by omega, by ring, by ring, ?_⟩
        by_cases hr : d0 = 1
        · subst hr
          have e0 : c0 = 0 := by omega
          subst e0
          simp [Ltoi, hin, Shape.IsRowVec, Shape.CalcStrides, Shape.IsScalar, hv]
        · simp [Ltoi, hin, Shape.IsRowVec, Shape.IsColVec, Shape.CalcStrides, Shape.IsScalar,
            hv, hr]
  · have hnv : Shape.IsVector shape = false := by simpa using hv
    have hns : Shape.IsScalar shape = false := by
      cases shape with
      | nil => simp at h2
      | cons d ds => simp [Shape.IsScalar]
    have hcs : Shape.CalcStrides shape = rowMajor shape := by
      simp [Shape.CalcStrides, hns, hnv]
    obtain ⟨b0, b1⟩ := dot_rowMajor_bounds idx _ hidx
    have hsum := singles_rowMajor idx _ hidx
    refine ⟨dot idx (rowMajor shape), b0, b1, ?_, ?_, ?_⟩
    · simp [hnv, hcs]
    · simp only [hnv, Bool.false_eq_true, and_false, if_false, hcs]
      exact hsum
    · rw [Ltoi_of_not_vector _ _ hnv, hcs]
      simp [hidx]

/-- C9: on a contiguous row-major tensor with at least two elements, single-index
slices, one per axis and each within range, make `Slice` return without error a
view for which `IsScalar()` holds (empty shape), whose data has exactly one
element, and that element is the parent element at the selected coordinate. -/
theorem C9_slice_singles_is_scalar (t : Tensor) (idx : List Int)
    (hold : t.old = none) (hstr : t.Strides = Shape.CalcStrides t.Shape)
    (hdata : len t.data = Shape.TotalSize t.Shape) (h2 : 2 ≤ t.data.length)
    (hidx : List.Forall₂ (fun c d => 0 ≤ c ∧ c < d) idx t.Shape) :
    ∃ v x a, t.Slice (idx.map (fun c => some (Slice.singleSlice c))) = .ok v ∧
      v.IsScalar = true ∧ v.Shape = [] ∧ v.viewOf = some t ∧ v.data = [x] ∧
      t.atOffset idx = .ok a ∧ getAt t.data a = .ok x := by
  have hin : inRange idx t.Shape = true := (inRange_iff _ _).2 hidx
  have hlen : (t.data.length : Int) = t.Shape.prod := hdata
  have hos : t.oshape = t.Shape := by simp [Tensor.oshape, hold, Tensor.Shape]
  have host : t.ostrides = Shape.CalcStrides t.Shape := by
    simp only [Tensor.ostrides, hold]; exact hstr
  obtain ⟨a, ha0, ha1, hdot, hcut, hL⟩ := singles_offset t.Shape idx hin (by omega)
  obtain ⟨hv, hst⟩ := singles_valid idx t.Shape hin
  have hwf : t.WellFormed := by
    refine ⟨by rw [hos], ?_⟩
    intro h
    rw [host]
    rcases h with h | h
    · have hv0 : Shape.IsVector t.Shape = false := h
      by_cases hs : Shape.IsScalar t.Shape = true
      · have : t.Shape.length = 0 := by simpa [Shape.IsScalar] using hs
        simp [Shape.CalcStrides, hs, this]
      · simp [Shape.CalcStrides, hs, hv0, rowMajor_length]
    · have hv0 : Shape.IsVector t.Shape = true := by simp [Shape.IsVector, h]
      have hs : Shape.IsScalar t.Shape = false := by simp [Shape.IsScalar, h]
      simp [Shape.CalcStrides, hs, hv0, h]
  have hes := Tensor.sliceStrides_length hwf
  obtain ⟨x, hx1, hx2⟩ := subSlice_single t.data a ha0 (by omega)
  have hw := sliceWalk_ok t.oshape t.sliceStrides _ 0 (len t.data)
    (by rw [hes, hos]) (by rw [hos]; exact hv)
  rw [hos, hst, Tensor.sliceStrides_clean t hold hstr, hdot] at hw
  have hb : len t.data - dot (sliceCuts t.Shape (idx.map (fun c => some (Slice.singleSlice c))))
      (if Shape.Dims t.Shape < (t.Shape.length : Int) ∧ Shape.IsVector t.Shape then
          List.replicate t.Shape.length 1 else Shape.CalcStrides t.Shape) = a + 1 := by
    simp only [len]; omega
  rw [hb, zero_add, ← Tensor.sliceStrides_clean t hold hstr, ← hos] at hw
  refine ⟨⟨((AP.new).SetShape []).Lock, [x], none, none, some t⟩, x, a, ?_, rfl, rfl, rfl, rfl,
    hL ▸ (by rw [Tensor.atOffset, hstr]), hx2⟩
  rw [Tensor.Slice_eq t _ hwf (by simp [hidx.length_eq]), hw]
  simp [sliceAP, hx1]

/-- C9 (witness): shape (2,3,4) over 0..23 sliced `T[0,1,2]`. -/
theorem C9_slice_singles_witness :
    ∃ v x a, (Tensor.ofData [2, 3, 4] (iota 24)).Slice
        ([0, 1, 2].map (fun c => some (Slice.singleSlice c))) = .ok v ∧
      v.IsScalar = true ∧ v.Shape = [] ∧ v.viewOf = some (Tensor.ofData [2, 3, 4] (iota 24)) ∧
      v.data = [x] ∧
      (Tensor.ofData [2, 3, 4] (iota 24)).atOffset [0, 1, 2] = .ok a ∧
      getAt (Tensor.ofData [2, 3, 4] (iota 24)).data a = .ok x :=
  C9_slice_singles_is_scalar (Tensor.ofData [2, 3, 4] (iota 24)) [0, 1, 2] rfl rfl rfl
    (by decide) ((inRange_iff _ _).1 (by decide))

/-! ## The loop of `Slice` that drops axes of size 1 -/

theorem getAt_append_length (kept rest : List Int) (x : Int) :
    getAt (kept ++ x :: rest) (kept.length : Int) = .ok x := by
  rw [getAt_of_lt _ _ (by simp)]
  congr 1
  rw [List.getElem_append_right (by simp)]
  simp

theorem removeAt_append_length (kept rest : List Int) (x : Int) :
    removeAt (kept ++ x :: rest) kept.length = .ok (kept ++ rest) := by
  have h : kept.length < (kept ++ x :: rest).length := by simp
  simp only [removeAt, h, if_true]
  congr 1
  induction kept with
  | nil => rfl
  | cons k ks ih =>
    simp only [List.cons_append, List.length_cons, List.eraseIdx_cons_succ]
    rw [ih (by simp)]

/-- The shape a successful run of the drop loop returns. -/
theorem dropLoop_shape (rest kept : List Int) (n : Nat) (dims : Int) (st : List Int)
    (hn : n = rest.length) (hd : dims = (kept.length : Int) + (rest.length : Int))
    {sh1 st1 : List Int}
    (h : dropLoop n kept.length dims (kept ++ rest) st = .ok (sh1, st1)) :
    sh1 = kept ++ dropOnes kept.length rest := by
  induction rest generalizing kept n dims st with
  | nil =>
    subst hn
    simp only [List.length_nil, dropLoop, List.append_nil, Except.ok.injEq,
      Prod.mk.injEq] at h
    rw [← h.1]
    simp [dropOnes]
  | cons x xs ih =>
    obtain rfl : n = xs.length + 1 := by simpa using hn
    simp only [List.length_cons] at hd
    have hlt : (kept.length : Int) < dims := by
      rw [hd]; push_cast; omega
    unfold dropLoop at h
    simp only [hlt, if_true, getAt_append_length] at h
    have hcond : (x = 1 ∧ dims > 2) ↔ (x = 1 ∧ kept.length + (xs.length + 1) > 2) := by
      rw [hd]
      constructor
      · rintro ⟨h1, h2⟩; exact ⟨h1, by push_cast at h2; omega⟩
      · rintro ⟨h1, h2⟩; exact ⟨h1, by push_cast; omega⟩
    by_cases hc : x = 1 ∧ dims > 2
    · simp only [hc, and_self, if_true, removeAt_append_length] at h
      cases hr : removeAt st kept.length with
      | error e => simp [hr] at h
      | ok st2 =>
        simp only [hr] at h
        have := ih kept xs.length (dims - 1) st2 rfl (by rw [hd]; push_cast; ring) h
        rw [this]
        simp only [dropOnes, hcond.1 hc, and_self, if_true]
    · simp only [hc, if_false] at h
      have e1 : kept ++ x :: xs = (kept ++ [x]) ++ xs := by simp
      have e2 : kept.length + 1 = (kept ++ [x]).length := by simp
      rw [e1, e2] at h
      have := ih (kept ++ [x]) xs.length dims st rfl
        (by rw [hd]; simp only [List.length_append, List.length_singleton]; push_cast; ring) h
      rw [this]
      have hc2 : ¬ (x = 1 ∧ kept.length + (xs.length + 1) > 2) := fun h3 => hc (hcond.2 h3)
      simp [dropOnes, hc2]

/-- The drop loop succeeds when there is one stride per axis. -/
theorem dropLoop_ok (rest kept srest skept : List Int) (n : Nat) (dims : Int)
    (hn : n = rest.length) (hd : dims = (kept.length : Int) + (rest.length : Int))
    (hs : srest.length = rest.length) (hk : skept.length = kept.length) :
    dropLoop n kept.length dims (kept ++ rest) (skept ++ srest) =
      .ok (kept ++ dropOnes kept.length rest,
           skept ++ dropOnesStrides kept.length rest srest) := by
  induction rest generalizing kept skept srest n dims with
  | nil =>
    subst hn
    have : srest = [] := List.length_eq_zero.1 (by simpa using hs)
    subst this
    simp [dropLoop, dropOnes, dropOnesStrides]
  | cons x xs ih =>
    obtain rfl : n = xs.length + 1 := by simpa using hn
    cases srest with
    | nil => simp at hs
    | cons s ss =>
      simp only [List.length_cons] at hd hs
      have hlt : (kept.length : Int) < dims := by
        rw [hd]; push_cast; omega
      unfold dropLoop
      simp only [hlt, if_true, getAt_append_length]
      have hcond : (x = 1 ∧ dims > 2) ↔ (x = 1 ∧ kept.length + (xs.length + 1) > 2) := by
        rw [hd]
        constructor
        · rintro ⟨h1, h2⟩; exact ⟨h1, by push_cast at h2; omega⟩
        · rintro ⟨h1, h2⟩; exact ⟨h1, by push_cast; omega⟩
      by_cases hc : x = 1 ∧ dims > 2
      · have hr : removeAt (skept ++ s :: ss) kept.length = .ok (skept ++ ss) := by
          rw [← hk]; exact removeAt_append_length _ _ _
        simp only [hc, and_self, if_true, removeAt_append_length, hr]
        rw [ih kept ss skept xs.length (dims - 1) rfl (by rw [hd]; push_cast; ring)
          (by omega) hk]
        simp only [dropOnes, dropOnesStrides, hcond.1 hc, and_self, if_true]
      · simp only [hc, if_false]
        have e1 : kept ++ x :: xs = (kept ++ [x]) ++ xs := by simp
        have e2 : kept.length + 1 = (kept ++ [x]).length := by simp
        have e3 : skept ++ s :: ss = (skept ++ [s]) ++ ss := by simp
        rw [e1, e2, e3]
        rw [ih (kept ++ [x]) ss (skept ++ [s]) xs.length dims rfl
          (by rw [hd]; simp only [List.length_append, List.length_singleton]; push_cast; ring)
          (by omega) (by simp [hk])]
        have hc2 : ¬ (x = 1 ∧ kept.length + (xs.length + 1) > 2) := fun h3 => hc (hcond.2 h3)
        simp [dropOnes, dropOnesStrides, hc2]

theorem dropOnes_of_le_two (k : Nat) (xs : List Int) (h : k + xs.length ≤ 2) :
    dropOnes k xs = xs := by
  induction xs generalizing k with
  | nil => rfl
  | cons x xs ih =>
    simp only [List.length_cons] at h
    have hc : ¬ (x = 1 ∧ k + (xs.length + 1) > 2) := by omega
    simp only [dropOnes, hc, if_false]
    rw [ih (k + 1) (by omega)]

theorem dropOnes_length_ge (k : Nat) (xs : List Int) (h : 2 ≤ k + xs.length) :
    2 ≤ k + (dropOnes k xs).length := by
  induction xs generalizing k with
  | nil => simpa [dropOnes] using h
  | cons x xs ih =>
    simp only [List.length_cons] at h
    by_cases hc : x = 1 ∧ k + (xs.length + 1) > 2
    · simp only [dropOnes, hc, and_self, if_true]
      exact ih k (by omega)
    · simp only [dropOnes, hc, if_false, List.length_cons]
      have := ih (k + 1) (by omega)
      omega

theorem sliceExtents_length (sizes : List Int) (sls : List (Option Slice)) :
    (sliceExtents sizes sls).length = sizes.length := by
  induction sizes generalizing sls with
  | nil => rfl
  | cons d ds ih => simp [sliceExtents, ih]

theorem subSlice_length {xs d : List Int} {a b : Int} (h : subSlice xs a b = .ok d) :
    0 ≤ a ∧ a ≤ b ∧ b ≤ (xs.length : Int) ∧ (d.length : Int) = b - a := by
  unfold subSlice at h
  split at h
  · rename_i hc
    simp only [Except.ok.injEq] at h
    subst h
    refine ⟨hc.1, hc.2.1, hc.2.2, ?_⟩
    simp only [List.length_take, List.length_drop]
    omega
  · simp at h

/-! ## C10: the shape of a view -/

theorem sliceWalk_extents {sizes es : List Int} {sls : List (Option Slice)} {a b : Int}
    {a1 b1 : Int} {ext : List Int} (h : sliceWalk sizes es sls a b = .ok (a1, b1, ext)) :
    ext = sliceExtents sizes sls := by
  induction sizes generalizing es sls a b a1 b1 ext with
  | nil =>
    simp only [sliceWalk, Except.ok.injEq, Prod.mk.injEq] at h
    rw [← h.2.2]; rfl
  | cons size sizes ih =>
    cases es with
    | nil => simp [sliceWalk] at h
    | cons stride es1 =>
      simp only [sliceWalk] at h
      cases hb : sliceBounds (headSlice sls) size with
      | error e => simp [hb] at h
      | ok p =>
        obtain ⟨start, stop⟩ := p
        simp only [hb] at h
        cases hw : sliceWalk sizes es1 sls.tail (a + start * stride)
            (b - (size - stop) * stride) with
        | error e => simp [hw] at h
        | ok r2 =>
          obtain ⟨a2, b2, ext2⟩ := r2
          simp only [hw, Except.ok.injEq, Prod.mk.injEq] at h
          obtain ⟨h1, h2, _, _⟩ := sliceBounds_eq_ok hb
          rw [← h.2.2, ih hw, h1, h2]
          rfl

theorem fixStrides_shape {sh st : List Int} {ap : AP} (h : fixStrides sh st = .ok ap) :
    ap.shape = sh := by
  unfold fixStrides at h
  split at h
  · split at h
    · simp at h
    · simp only [Except.ok.injEq] at h
      rw [← h]; rfl
  · split at h
    · simp only [Except.ok.injEq] at h
      rw [← h]; rfl
    · simp only [Except.ok.injEq] at h
      rw [← h]; rfl

/-- The shape of the view a successful `Slice` returns on a parent that is not
a vector, outside the scalar branch. -/
theorem Tensor.Slice_shape (t : Tensor) (slices : List (Option Gorgonia.Slice)) (v : Tensor)
    (hwf : t.WellFormed) (hvec : t.IsVector = false)
    (hsc : t.IsScalar = true → t.data.length = 1)
    (h : t.Slice slices = .ok v) (hwin : 1 < v.data.length) :
    v.Shape = dropOnes 0 (sliceExtents t.oshape slices) ∧ 2 ≤ t.Shape.length := by
  have hlen : slices.length ≤ t.Shape.length := by
    by_contra hc
    simp [Tensor.Slice, not_le.1 hc] at h
  rw [Tensor.Slice_eq t slices hwf hlen] at h
  cases hw : sliceWalk t.oshape t.sliceStrides slices 0 (len t.data) with
  | error e => simp [hw] at h
  | ok r =>
    obtain ⟨a, b, ext⟩ := r
    have hext := sliceWalk_extents hw
    simp only [hw] at h
    cases hap : sliceAP t.Dims a b ext (Shape.CalcStrides t.oshape) with
    | error e => simp [hap] at h
    | ok ap =>
      cases hs : subSlice t.data a b with
      | error e => simp [hap, hs] at h
      | ok d =>
        simp only [hap, hs, Except.ok.injEq] at h
        have hdl := (subSlice_length hs).2.2.2
        have hvd : v.data = d := by rw [← h]
        have hvs : v.Shape = ap.shape := by rw [← h]; rfl
        rw [hvd] at hwin
        have hone : ¬ (b - a = 1) := by omega
        have hv0 : Shape.IsVector t.Shape = false := hvec
        have hd : t.Dims = (t.Shape.length : Int) := Shape.dims_of_not_vector hv0
        have hel : ext.length = t.Shape.length := by
          rw [hext, sliceExtents_length, hwf.1]
        have hrank : 2 ≤ t.Shape.length := by
          by_contra hc
          have h01 : t.Shape.length = 0 ∨ t.Shape.length = 1 := by omega
          rcases h01 with h0 | h1
          · have hos : t.oshape = [] := List.length_eq_zero.1 (by rw [hwf.1, h0])
            rw [hos] at hw
            simp only [sliceWalk, Except.ok.injEq, Prod.mk.injEq] at hw
            have hl := hsc (by
              simp only [Tensor.IsScalar, Shape.IsScalar, beq_iff_eq]; exact h0)
            apply hone
            rw [← hw.1, ← hw.2.1]
            simp [len, hl]
          · have : Shape.IsVector t.Shape = true := by simp [Shape.IsVector, h1]
            simp [this] at hv0
        refine ⟨?_, hrank⟩
        rw [hvs, ← hext]
        simp only [sliceAP, hone, if_false] at hap
        cases hdr : dropLoop t.Dims.toNat 0 t.Dims ext (Shape.CalcStrides t.oshape) with
        | error e => simp [hdr] at hap
        | ok r2 =>
          obtain ⟨sh1, st1⟩ := r2
          have hsh1 : sh1 = dropOnes 0 ext := by
            have := dropLoop_shape ext [] t.Dims.toNat t.Dims (Shape.CalcStrides t.oshape)
              (by rw [hd, hel]; simp) (by rw [hd, hel]; simp) (by simpa using hdr)
            simpa using this
          simp only [hdr] at hap
          rw [← hsh1]
          exact fixStrides_shape hap

/-- C10 (counterexample): the 2x3 matrix over 0..5 after `T()` has the shape
(3,2) and is not a vector; `Slice()` succeeds with a window of six elements,
and the view has the shape (2,3), while the extents of the parent's axes are
(3,2). The same matrix after `Reshape()`, which returns no error, has an empty
shape and is not a vector; `Slice()` succeeds with a window of six elements and
the view has no axis at all. The tensor of shape (2,3,4) over 0..23 after `T()`
and `Reshape(6,4)`, which returns no error, has the shape (6,4) and a saved
shape of another rank; `Slice()` succeeds with a window of 24 elements and the
view has the shape (2,3). -/
theorem C10_counterexample :
    (∃ t t1 v v2, NewTensor [.WithShape [2, 3], .WithBacking (iota 6)] = .ok t ∧
      t.T 0 [] = .ok t1 ∧ t1.Shape = [3, 2] ∧ t1.IsVector = false ∧
      t1.Slice [] = .ok v ∧ v.data.length = 6 ∧ v.Shape = [2, 3] ∧
      dropOnes 0 (sliceExtents t1.Shape []) = [3, 2] ∧
      (t.Reshape []).2 = .ok () ∧ (t.Reshape []).1.Shape = [] ∧
      (t.Reshape []).1.IsVector = false ∧
      (t.Reshape []).1.Slice [] = .ok v2 ∧ v2.data.length = 6 ∧ v2.Shape = []) ∧
    (∃ c c1 v3, NewTensor [.WithShape [2, 3, 4], .WithBacking (iota 24)] = .ok c ∧
      c.T 0 [] = .ok c1 ∧ (c1.Reshape [6, 4]).2 = .ok () ∧
      (c1.Reshape [6, 4]).1.Shape = [6, 4] ∧ (c1.Reshape [6, 4]).1.oshape = [2, 3, 4] ∧
      (c1.Reshape [6, 4]).1.IsVector = false ∧
      (c1.Reshape [6, 4]).1.Slice [] = .ok v3 ∧ v3.data.length = 24 ∧ v3.Shape = [2, 3] ∧
      dropOnes 0 (sliceExtents (c1.Reshape [6, 4]).1.Shape []) = [6, 4]) :=
  ⟨⟨_, _, _, _, rfl, rfl, rfl, rfl, rfl, rfl, rfl, rfl, rfl, rfl, rfl, rfl, rfl, rfl⟩,
   ⟨_, _, _, rfl, rfl, rfl, rfl, rfl, rfl, rfl, rfl, rfl, rfl⟩⟩

/-- C10 (as amended): for a successful `Slice` on a well-formed parent (the
saved shape has the rank of the shape, one stride per axis) that is not a
vector and that holds one element if it is a scalar, and whose window holds
more than one element, the view's shape is the list of extents
`end_i - start_i` (for an absent slice the full size that `Slice` reads,
`oshape()[i]`: the size of the axis when no thunk is pending, the size in the
saved shape under a pending `T()`) from which axes of size 1 are removed,
scanning left to right, for as long as more than two axes remain; a parent of
rank at most 2 keeps its size-1 axes, and the result never has fewer than two
axes. -/
theorem C10_slice_drops_unit_axes (t : Tensor) (slices : List (Option Gorgonia.Slice))
    (v : Tensor) (hwf : t.WellFormed) (hvec : t.IsVector = false)
    (hsc : t.IsScalar = true → t.data.length = 1)
    (h : t.Slice slices = .ok v) (hwin : 1 < v.data.length) :
    v.Shape = dropOnes 0 (sliceExtents t.oshape slices) ∧
    (t.Shape.length ≤ 2 → v.Shape = sliceExtents t.oshape slices) ∧
    2 ≤ v.Shape.length := by
  obtain ⟨h1, h2⟩ := Tensor.Slice_shape t slices v hwf hvec hsc h hwin
  have hl : (sliceExtents t.oshape slices).length = t.Shape.length := by
    rw [sliceExtents_length, hwf.1]
  refine ⟨h1, ?_, ?_⟩
  · intro h3
    rw [h1, dropOnes_of_le_two 0 _ (by omega)]
  · rw [h1]
    have := dropOnes_length_ge 0 (sliceExtents t.oshape slices) (by omega)
    omega

/-- C10 (witness): shape (2,3,4) over 0..23 sliced `T[1, 0:2, 1:3]` has shape
(2,2). -/
theorem C10_slice_drops_unit_axes_witness :
    dropOnes 0 (sliceExtents [2, 3, 4]
      [some (.singleSlice 1), some (.rangedSlice 0 2), some (.rangedSlice 1 3)]) = [2, 2] ∧
    ((⟨NewAP [2, 2] [4, 1], [13, 14, 15, 16, 17, 18], none, none,
        some (Tensor.ofData [2, 3, 4] (iota 24))⟩ : Tensor).Shape =
      dropOnes 0 (sliceExtents (Tensor.ofData [2, 3, 4] (iota 24)).oshape
        [some (.singleSlice 1), some (.rangedSlice 0 2), some (.rangedSlice 1 3)])) :=
  ⟨by decide,
   (C10_slice_drops_unit_axes (Tensor.ofData [2, 3, 4] (iota 24))
      [some (.singleSlice 1), some (.rangedSlice 0 2), some (.rangedSlice 1 3)]
      ⟨NewAP [2, 2] [4, 1], [13, 14, 15, 16, 17, 18], none, none,
        some (Tensor.ofData [2, 3, 4] (iota 24))⟩
      ⟨rfl, fun _ => rfl⟩ (by decide) (fun h => absurd h (by decide)) rfl (by decide)).1⟩

/-! ## C2: the view returned by `Slice` -/

theorem slicesProper_valid {shape : List Int} {sls : List (Option Slice)}
    (h : slicesProper shape sls) : slicesValid shape sls := by
  induction shape generalizing sls with
  | nil => trivial
  | cons d ds ih =>
    obtain ⟨⟨h0, _, h2⟩, h3⟩ := h
    exact ⟨⟨h0, h2⟩, ih h3⟩

theorem slicesProper_prod_pos {shape : List Int} {sls : List (Option Slice)}
    (h : slicesProper shape sls) : 1 ≤ shape.prod := by
  induction shape generalizing sls with
  | nil => simp
  | cons d ds ih =>
    obtain ⟨⟨h0, h1, h2⟩, h3⟩ := h
    have := ih h3
    simp only [List.prod_cons]
    nlinarith

/-- Starts, extents and cut-offs add up to the whole buffer. -/
theorem proper_identity {shape : List Int} {sls : List (Option Slice)}
    (_h : slicesProper shape sls) :
    dot (sliceStarts shape sls) (rowMajor shape)
      + dot ((sliceExtents shape sls).map (· - 1)) (rowMajor shape)
      + dot (sliceCuts shape sls) (rowMajor shape) = shape.prod - 1 := by
  induction shape generalizing sls with
  | nil => simp [sliceStarts, sliceExtents, sliceCuts, dot, rowMajor]
  | cons d ds ih =>
    obtain ⟨_, h3⟩ := _h
    have := ih h3
    simp only [sliceStarts, sliceExtents, sliceCuts, rowMajor, dot, List.map_cons,
      List.prod_cons]
    linear_combination this

theorem proper_starts_nonneg {shape : List Int} {sls : List (Option Slice)}
    (h : slicesProper shape sls) :
    0 ≤ dot (sliceStarts shape sls) (rowMajor shape) ∧
    0 ≤ dot (sliceCuts shape sls) (rowMajor shape) ∧
    0 ≤ dot ((sliceExtents shape sls).map (· - 1)) (rowMajor shape) := by
  induction shape generalizing sls with
  | nil => simp [sliceStarts, sliceExtents, sliceCuts, dot, rowMajor]
  | cons d ds ih =>
    obtain ⟨⟨h0, h1, h2⟩, h3⟩ := h
    obtain ⟨i1, i2, i3⟩ := ih h3
    have hp := slicesProper_prod_pos h3
    simp only [sliceStarts, sliceExtents, sliceCuts, rowMajor, dot, List.map_cons]
    refine ⟨?_, ?_, ?_⟩
    · have : 0 ≤ sliceStart (headSlice sls) * ds.prod := by positivity
      omega
    · have : 0 ≤ (d - sliceStop (headSlice sls) d) * ds.prod :=
        mul_nonneg (by omega) (by omega)
      omega
    · have : 0 ≤ (sliceStop (headSlice sls) d - sliceStart (headSlice sls) - 1) * ds.prod :=
        mul_nonneg (by omega) (by omega)
      omega

/-- A window of more than one element spans more than one offset. -/
theorem proper_window {shape : List Int} {sls : List (Option Slice)}
    (h : slicesProper shape sls) (hw : 1 < (sliceExtents shape sls).prod) :
    1 ≤ dot ((sliceExtents shape sls).map (· - 1)) (rowMajor shape) := by
  induction shape generalizing sls with
  | nil => simp [sliceExtents] at hw
  | cons d ds ih =>
    obtain ⟨⟨h0, h1, h2⟩, h3⟩ := h
    have hp := slicesProper_prod_pos h3
    obtain ⟨_, _, i3⟩ := proper_starts_nonneg h3
    simp only [sliceExtents, List.prod_cons] at hw
    simp only [sliceExtents, rowMajor, dot, List.map_cons]
    by_cases he : sliceStop (headSlice sls) d - sliceStart (headSlice sls) = 1
    · rw [he] at hw ⊢
      have := ih h3 (by simpa using hw)
      simp only [sub_self, zero_mul, zero_add]
      exact this
    · have h4 : 1 ≤ sliceStop (headSlice sls) d - sliceStart (headSlice sls) - 1 := by omega
      have : 1 ≤ (sliceStop (headSlice sls) d - sliceStart (headSlice sls) - 1) * ds.prod := by
        nlinarith
      omega

theorem inRange_nil_right {c : List Int} (h : inRange c [] = true) : c = [] := by
  cases c with
  | nil => rfl
  | cons x xs => simp [inRange] at h

/-- The parent coordinate of an in-range view coordinate: it lies in the
parent, its offset is the window start plus the view offset, and the view
offset stays inside the window. -/
theorem liftCoord_spec (shape : List Int) (sls : List (Option Slice)) (kept : Nat)
    (c : List Int) (hp : slicesProper shape sls)
    (hc : inRange c (dropOnes kept (sliceExtents shape sls)) = true) :
    inRange (liftCoord kept (sliceExtents shape sls) (sliceStarts shape sls) c) shape = true ∧
    dot (liftCoord kept (sliceExtents shape sls) (sliceStarts shape sls) c) (rowMajor shape)
      = dot (sliceStarts shape sls) (rowMajor shape)
        + dot c (dropOnesStrides kept (sliceExtents shape sls) (rowMajor shape)) ∧
    0 ≤ dot c (dropOnesStrides kept (sliceExtents shape sls) (rowMajor shape)) ∧
    dot c (dropOnesStrides kept (sliceExtents shape sls) (rowMajor shape))
      ≤ dot ((sliceExtents shape sls).map (· - 1)) (rowMajor shape) := by
  induction shape generalizing sls kept c with
  | nil =>
    simp only [sliceExtents, dropOnes] at hc
    have := inRange_nil_right hc
    subst this
    simp [sliceExtents, sliceStarts, liftCoord, inRange, dot, dropOnesStrides, rowMajor]
  | cons d ds ih =>
    obtain ⟨⟨h0, h1, h2⟩, h3⟩ := hp
    have hpos := slicesProper_prod_pos h3
    simp only [sliceExtents, sliceStarts, rowMajor] at hc ⊢
    by_cases hdrop : sliceStop (headSlice sls) d - sliceStart (headSlice sls) = 1 ∧
        kept + ((sliceExtents ds sls.tail).length + 1) > 2
    · simp only [dropOnes, hdrop, and_self, if_true] at hc
      obtain ⟨i1, i2, i3, i4⟩ := ih sls.tail kept c h3 hc
      simp only [liftCoord, dropOnesStrides, hdrop, and_self, if_true, inRange, dot,
        List.map_cons, Bool.and_eq_true, decide_eq_true_eq]
      refine ⟨⟨⟨h0, by omega⟩, i1⟩, ?_, i3, ?_⟩
      · rw [i2]; ring
      · simpa using i4
    · simp only [dropOnes, hdrop, if_false] at hc
      cases c with
      | nil => simp [inRange] at hc
      | cons c0 cs =>
        simp only [inRange, Bool.and_eq_true, decide_eq_true_eq] at hc
        obtain ⟨⟨hc0, hc1⟩, hcs⟩ := hc
        obtain ⟨i1, i2, i3, i4⟩ := ih sls.tail (kept + 1) cs h3 hcs
        simp only [liftCoord, dropOnesStrides, hdrop, if_false, inRange, dot,
          List.map_cons, Bool.and_eq_true, decide_eq_true_eq]
        refine ⟨⟨⟨by omega, by omega⟩, i1⟩, ?_, ?_, ?_⟩
        · rw [i2]; ring
        · have : 0 ≤ c0 * ds.prod := mul_nonneg hc0 (by omega)
          omega
        · have : c0 * ds.prod ≤
              (sliceStop (headSlice sls) d - sliceStart (headSlice sls) - 1) * ds.prod :=
            mul_le_mul_of_nonneg_right (by omega) (by omega)
          omega

theorem dropOnes_strides_length (kept : Nat) (ext st : List Int) (h : st.length = ext.length) :
    (dropOnesStrides kept ext st).length = (dropOnes kept ext).length := by
  induction ext generalizing kept st with
  | nil => simp [dropOnes, dropOnesStrides]
  | cons x xs ih =>
    cases st with
    | nil => simp at h
    | cons s ss =>
      simp only [List.length_cons, add_left_inj] at h
      by_cases hc : x = 1 ∧ kept + (xs.length + 1) > 2
      · simp only [dropOnes, dropOnesStrides, hc, and_self, if_true]
        exact ih kept ss h
      · simp only [dropOnes, dropOnesStrides, hc, if_false, List.length_cons]
        rw [ih (kept + 1) ss h]

theorem fixStrides_ok (sh st : List Int) (h : st.length = sh.length) :
    ∃ ap, fixStrides sh st = .ok ap ∧ ap.shape = sh ∧
      (Shape.IsVector sh = false → ap.strides = st) := by
  unfold fixStrides
  by_cases hc : Shape.IsColVec sh = true
  · have hl : sh.length = 2 := by
      unfold Shape.IsColVec at hc
      match sh, hc with
      | [_, _], _ => rfl
    have h0 : 0 < st.length := by omega
    have := getAt_of_lt st 0 h0
    simp only [Nat.cast_zero] at this
    simp only [hc, if_true, this]
    refine ⟨_, rfl, rfl, ?_⟩
    intro hv
    simp [Shape.IsVector, hc] at hv
  · by_cases hr : Shape.IsRowVec sh = true
    · simp only [hc, hr, if_true]
      refine ⟨_, rfl, rfl, ?_⟩
      intro hv
      simp [Shape.IsVector, hr] at hv
    · simp only [hc, hr]
      exact ⟨_, rfl, rfl, fun _ => rfl⟩

theorem subSlice_getAt {xs d : List Int} {a b : Int} (h : subSlice xs a b = .ok d)
    (k : Int) (hk0 : 0 ≤ k) (hk1 : k < b - a) :
    ∃ x, getAt d k = .ok x ∧ getAt xs (a + k) = .ok x := by
  obtain ⟨h0, h1, h2, h3⟩ := subSlice_length h
  unfold subSlice at h
  simp only [h0, h1, h2, and_self, if_true, Except.ok.injEq] at h
  have hkd : k.toNat < d.length := by omega
  have hkx : (a + k).toNat < xs.length := by omega
  refine ⟨d[k.toNat], by simp [getAt, hk0, hkd], ?_⟩
  have ha : 0 ≤ a + k := by omega
  simp only [getAt, ha, if_true, List.getElem?_eq_getElem hkx]
  congr 1
  subst h
  simp only [List.getElem_take, List.getElem_drop]
  congr 1
  omega

theorem Tensor.At_of_inRange (t : Tensor) (c : List Int) (hvec : t.IsVector = false)
    (hin : inRange c t.Shape = true) : t.At c = getAt t.data (dot c t.Strides) := by
  have hv0 : Shape.IsVector t.Shape = false := hvec
  have hd : t.Dims = (t.Shape.length : Int) := Shape.dims_of_not_vector hv0
  simp [Tensor.At, hd, inRange_length hin, Tensor.atOffset, Ltoi_of_not_vector _ _ hv0, hin]

/-- C2: on a contiguous row-major parent that is not a view, of rank at least 2
and not a vector, with slices `0 ≤ start_i < end_i ≤ shape_i` on every axis
(an absent slice is the full axis) whose window holds more than one element,
`Slice` succeeds; the result is marked as a view of the parent; its data is
`parent.data[nd_start .. nd_end)` with `nd_start = Σ start_i·stride_i` and
`nd_end = len(parent.data) - Σ (shape_i - end_i)·stride_i`; and when the
resulting shape is a matrix or higher, for every in-range view coordinate `c`
the element `view.data[Σ c_k·view.strides_k]` is the parent element at the
coordinate that adds `c` to the starts on the retained axes and fixes each
dropped axis at its start. -/
theorem C2_slice_is_view_of_window (t : Tensor) (slices : List (Option Gorgonia.Slice))
    (hrank : 2 ≤ t.Shape.length) (hvec : t.IsVector = false)
    (hold : t.old = none) (_hview : t.viewOf = none)
    (hstr : t.Strides = Shape.CalcStrides t.Shape)
    (hdata : len t.data = Shape.TotalSize t.Shape)
    (hlen : slices.length ≤ t.Shape.length)
    (hprop : slicesProper t.Shape slices)
    (hwin : 1 < (sliceExtents t.Shape slices).prod) :
    ∃ v, t.Slice slices = .ok v ∧ v.viewOf = some t ∧
      subSlice t.data (dot (sliceStarts t.Shape slices) t.Strides)
        (len t.data - dot (sliceCuts t.Shape slices) t.Strides) = .ok v.data ∧
      (2 ≤ v.Shape.length → v.IsVector = false →
        ∀ c, List.Forall₂ (fun x d => 0 ≤ x ∧ x < d) c v.Shape →
          ∃ x, getAt v.data (dot c v.Strides) = .ok x ∧
            t.At (liftCoord 0 (sliceExtents t.Shape slices) (sliceStarts t.Shape slices) c)
              = .ok x) := by
  have hv0 : Shape.IsVector t.Shape = false := hvec
  have hns : Shape.IsScalar t.Shape = false := by
    simp only [Shape.IsScalar, beq_eq_false_iff_ne, ne_eq]; omega
  have hcs : Shape.CalcStrides t.Shape = rowMajor t.Shape := by
    simp [Shape.CalcStrides, hns, hv0]
  have hstr1 : t.Strides = rowMajor t.Shape := by rw [hstr, hcs]
  have hos : t.oshape = t.Shape := by simp [Tensor.oshape, hold, Tensor.Shape]
  have host : t.ostrides = rowMajor t.Shape := by
    simp only [Tensor.ostrides, hold]; exact hstr1
  have hd : t.Dims = (t.Shape.length : Int) := Shape.dims_of_not_vector hv0
  have hes : t.sliceStrides = rowMajor t.Shape := by
    have hv1 : t.IsVector = false := hvec
    simp [Tensor.sliceStrides, hv1, host]
  have hwf : t.WellFormed := ⟨by rw [hos], fun _ => by rw [host, rowMajor_length]⟩
  have hlenI : (t.data.length : Int) = t.Shape.prod := hdata
  -- the window
  have hw := sliceWalk_ok t.Shape (rowMajor t.Shape) slices 0 (len t.data)
    (rowMajor_length _) (slicesProper_valid hprop)
  have hid := proper_identity hprop
  obtain ⟨n1, n2, n3⟩ := proper_starts_nonneg hprop
  have hwn := proper_window hprop hwin
  have hone : ¬ (len t.data - dot (sliceCuts t.Shape slices) (rowMajor t.Shape)
      - (0 + dot (sliceStarts t.Shape slices) (rowMajor t.Shape)) = 1) := by
    simp only [len]; omega
  have hsub : ∃ d, subSlice t.data (0 + dot (sliceStarts t.Shape slices) (rowMajor t.Shape))
      (len t.data - dot (sliceCuts t.Shape slices) (rowMajor t.Shape)) = .ok d := by
    have hc : 0 ≤ 0 + dot (sliceStarts t.Shape slices) (rowMajor t.Shape) ∧
        0 + dot (sliceStarts t.Shape slices) (rowMajor t.Shape)
          ≤ len t.data - dot (sliceCuts t.Shape slices) (rowMajor t.Shape) ∧
        len t.data - dot (sliceCuts t.Shape slices) (rowMajor t.Shape)
          ≤ (t.data.length : Int) := by
      simp only [len]; omega
    exact ⟨_, by simp only [subSlice, hc, and_self, if_true]; rfl⟩
  obtain ⟨d, hd1⟩ := hsub
  -- the access pattern
  have hel : (sliceExtents t.Shape slices).length = t.Shape.length := sliceExtents_length _ _
  have hdl := dropLoop_ok (sliceExtents t.Shape slices) [] (rowMajor t.Shape) [] t.Dims.toNat
    t.Dims (by rw [hd, hel]; simp) (by rw [hd, hel]; simp)
    (by rw [rowMajor_length, hel]) rfl
  simp only [List.length_nil, List.nil_append] at hdl
  obtain ⟨ap, hap, hapS, hapT⟩ := fixStrides_ok (dropOnes 0 (sliceExtents t.Shape slices))
    (dropOnesStrides 0 (sliceExtents t.Shape slices) (rowMajor t.Shape))
    (dropOnes_strides_length _ _ _ (by rw [rowMajor_length, hel]))
  have hslice : t.Slice slices = .ok ⟨ap, d, none, none, some t⟩ := by
    rw [Tensor.Slice_eq t slices hwf hlen, hos, hes, hw]
    simp only [sliceAP, hone, if_false, hcs, hdl, hap, hd1]
  refine ⟨_, hslice, rfl, ?_, ?_⟩
  · rw [hstr1]
    simpa using hd1
  · intro _ hvv c hc
    have hvv0 : Shape.IsVector ap.shape = false := hvv
    have hst : ap.strides = dropOnesStrides 0 (sliceExtents t.Shape slices)
        (rowMajor t.Shape) := hapT (by rw [← hapS]; exact hvv0)
    have hcin : inRange c (dropOnes 0 (sliceExtents t.Shape slices)) = true := by
      rw [← hapS]; exact (inRange_iff _ _).2 hc
    obtain ⟨l1, l2, l3, l4⟩ := liftCoord_spec t.Shape slices 0 c hprop hcin
    obtain ⟨x, hx1, hx2⟩ := subSlice_getAt hd1
      (dot c (dropOnesStrides 0 (sliceExtents t.Shape slices) (rowMajor t.Shape)))
      l3 (by simp only [len]; omega)
    refine ⟨x, ?_, ?_⟩
    · simp only [Tensor.Strides, hst]
      exact hx1
    · rw [Tensor.At_of_inRange t _ hvec l1, hstr1, l2]
      simpa using hx2

/-- C2 (witness): shape (2,3,4) over 0..23 sliced `T[1, 0:2, 1:3]`. -/
theorem C2_slice_witness :
    ∃ v, (Tensor.ofData [2, 3, 4] (iota 24)).Slice
        [some (.singleSlice 1), some (.rangedSlice 0 2), some (.rangedSlice 1 3)] = .ok v ∧
      v.viewOf = some (Tensor.ofData [2, 3, 4] (iota 24)) ∧
      subSlice (Tensor.ofData [2, 3, 4] (iota 24)).data
        (dot (sliceStarts [2, 3, 4]
          [some (.singleSlice 1), some (.rangedSlice 0 2), some (.rangedSlice 1 3)])
          (Tensor.ofData [2, 3, 4] (iota 24)).Strides)
        (len (Tensor.ofData [2, 3, 4] (iota 24)).data - dot (sliceCuts [2, 3, 4]
          [some (.singleSlice 1), some (.rangedSlice 0 2), some (.rangedSlice 1 3)])
          (Tensor.ofData [2, 3, 4] (iota 24)).Strides) = .ok v.data ∧
      (2 ≤ v.Shape.length → v.IsVector = false →
        ∀ c, List.Forall₂ (fun x d => 0 ≤ x ∧ x < d) c v.Shape →
          ∃ x, getAt v.data (dot c v.Strides) = .ok x ∧
            (Tensor.ofData [2, 3, 4] (iota 24)).At (liftCoord 0 (sliceExtents [2, 3, 4]
              [some (.singleSlice 1), some (.rangedSlice 0 2), some (.rangedSlice 1 3)])
              (sliceStarts [2, 3, 4]
              [some (.singleSlice 1), some (.rangedSlice 0 2), some (.rangedSlice 1 3)]) c)
              = .ok x) :=
  C2_slice_is_view_of_window (Tensor.ofData [2, 3, 4] (iota 24))
    [some (.singleSlice 1), some (.rangedSlice 0 2), some (.rangedSlice 1 3)]
    (by decide) (by decide) rfl rfl rfl rfl (by decide)
    (by simp [slicesProper, headSlice, sliceStart, sliceStop, Slice.Start, Slice.End,
          Tensor.ofData, Tensor.Shape])
    (by decide)

/-! ## The copy loops of `Repeat` -/

theorem copyTail_spec (dst src : List Int) (D S P : Nat)
    (hd : D + P ≤ dst.length) (hs : S + P ≤ src.length) :
    ∃ dst1, copyTail dst (D : Int) src (S : Int) = .ok dst1 ∧ dst1.length = dst.length ∧
      dst1.take (D + P) = dst.take D ++ slab src S P := by
  have hc : (0 : Int) ≤ (D : Int) ∧ (D : Int) ≤ len dst ∧ (0 : Int) ≤ (S : Int)
      ∧ (S : Int) ≤ len src := by
    simp only [len]; omega
  refine ⟨_, by simp only [copyTail, hc, and_self, if_true]; rfl, ?_, ?_⟩
  · simp only [Int.toNat_ofNat, List.length_append, List.length_take, List.length_drop]
    omega
  · simp only [Int.toNat_ofNat, slab]
    rw [List.append_assoc, List.take_append_eq_append_take]
    have h1 : (List.take D dst).length = D := by simp; omega
    rw [List.take_of_length_le (by omega), h1]
    congr 1
    rw [List.take_append_eq_append_take, List.take_take]
    have h2 : (List.take (min (dst.length - D) (src.length - S)) (List.drop S src)).length
        = min (dst.length - D) (src.length - S) := by
      simp only [List.length_take, List.length_drop]; omega
    rw [h2]
    have h3 : D + P - D - min (dst.length - D) (src.length - S) = 0 := by omega
    have h4 : min (D + P - D) (min (dst.length - D) (src.length - S)) = P := by omega
    rw [h3, h4]
    simp

/-- The innermost loop performs its `k` copies when the source run and the
destination room are there. -/
theorem repeatK_spec (src : List Int) (S P : Nat) (hP : 1 ≤ P) (hs : S + P ≤ src.length)
    (k : Nat) (dst : List Int) (D : Nat) (hd : D + k * P ≤ dst.length) :
    ∃ dst1, repeatK src (S : Int) (P : Int) (P : Int) k dst (D : Int)
        = .ok (dst1, ((D + k * P : Nat) : Int)) ∧
      dst1.length = dst.length ∧
      dst1.take (D + k * P) = dst.take D ++ (List.replicate k (slab src S P)).flatten := by
  induction k generalizing dst D with
  | zero => exact ⟨dst, by simp [repeatK], rfl, by simp⟩
  | succ k ih =>
    have e : (k + 1) * P = k * P + P := by ring
    have hd1 : D + P ≤ dst.length := by omega
    obtain ⟨dst1, hc, hl, ht⟩ := copyTail_spec dst src D S P hd1 hs
    have hg : ¬ ((S : Int) ≥ len src ∨ (D : Int) + (P : Int) > len dst) := by
      simp only [len]; omega
    obtain ⟨dst2, hr, hl2, ht2⟩ := ih dst1 (D + P) (by rw [hl]; omega)
    refine ⟨dst2, ?_, by rw [hl2, hl], ?_⟩
    · unfold repeatK
      simp only [hg, if_false, hc]
      have e1 : (D : Int) + (P : Int) = ((D + P : Nat) : Int) := by push_cast; ring
      rw [e1, hr]
      congr 3
      ring
    · have e2 : D + (k + 1) * P = D + P + k * P := by ring
      rw [e2, ht2, ht, List.replicate_succ, List.flatten_cons, List.append_assoc]

theorem expandAxis_length (src : List Int) (P : Nat) (S : Nat) (rs : List Int)
    (hs : S + rs.length * P ≤ src.length) :
    (expandAxis src P S rs).length = (rs.map Int.toNat).sum * P := by
  induction rs generalizing S with
  | nil => simp [expandAxis]
  | cons r rs ih =>
    simp only [List.length_cons] at hs
    have e : (rs.length + 1) * P = rs.length * P + P := by ring
    have h1 : (slab src S P).length = P := by
      simp only [slab, List.length_take, List.length_drop]
      omega
    simp only [expandAxis, List.length_append, List.length_flatten, List.map_replicate, h1,
      List.sum_replicate, smul_eq_mul, List.map_cons, List.sum_cons]
    rw [ih (S + P) (by omega)]
    ring

/-- The middle loop: one outer block. -/
theorem repeatJ_spec (src : List Int) (repeats : List Int) (P : Nat) (hP : 1 ≤ P)
    (n j : Nat) (hj : j + n = repeats.length) (S : Nat) (hs : S + n * P ≤ src.length)
    (dst : List Int) (D : Nat)
    (hd : D + ((repeats.drop j).map Int.toNat).sum * P ≤ dst.length) :
    ∃ dst1, repeatJ src repeats (P : Int) (P : Int) n j dst (D : Int) (S : Int)
        = .ok (dst1, ((D + ((repeats.drop j).map Int.toNat).sum * P : Nat) : Int),
               ((S + n * P : Nat) : Int)) ∧
      dst1.length = dst.length ∧
      dst1.take (D + ((repeats.drop j).map Int.toNat).sum * P)
        = dst.take D ++ expandAxis src P S (repeats.drop j) := by
  induction n generalizing j S dst D with
  | zero =>
    have : repeats.drop j = [] := List.drop_of_length_le (by omega)
    rw [this]
    exact ⟨dst, by simp [repeatJ], rfl, by simp [expandAxis]⟩
  | succ n ih =>
    have hjl : j < repeats.length := by omega
    have hdrop : repeats.drop j = repeats[j] :: repeats.drop (j + 1) :=
      List.drop_eq_getElem_cons hjl
    rw [hdrop] at hd ⊢
    simp only [List.map_cons, List.sum_cons] at hd ⊢
    have e : (n + 1) * P = n * P + P := by ring
    have e3 : ((repeats[j]).toNat + ((repeats.drop (j + 1)).map Int.toNat).sum) * P
        = (repeats[j]).toNat * P + ((repeats.drop (j + 1)).map Int.toNat).sum * P := by ring
    obtain ⟨dst1, hk, hl1, ht1⟩ := repeatK_spec src S P hP (by omega) (repeats[j]).toNat
      dst D (by omega)
    obtain ⟨dst2, hr, hl2, ht2⟩ := ih (j + 1) (by omega) (S + P) (by omega) dst1
      (D + (repeats[j]).toNat * P) (by rw [hl1]; omega)
    refine ⟨dst2, ?_, by rw [hl2, hl1], ?_⟩
    · unfold repeatJ
      simp only [getAt_of_lt repeats j hjl, hk]
      have e1 : (S : Int) + (P : Int) = ((S + P : Nat) : Int) := by push_cast; ring
      rw [e1, hr]
      congr 3
      · congr 1; ring
      · congr 1; ring
    · have e2 : D + ((repeats[j]).toNat + ((repeats.drop (j + 1)).map Int.toNat).sum) * P
          = D + (repeats[j]).toNat * P + ((repeats.drop (j + 1)).map Int.toNat).sum * P := by
        ring
      rw [e2, ht2, ht1, expandAxis, List.append_assoc]

/-- The outer loop: all outer blocks. -/
theorem repeatI_spec (src : List Int) (repeats : List Int) (P : Nat) (hP : 1 ≤ P)
    (o : Nat) (S : Nat) (hs : S + o * (repeats.length * P) ≤ src.length)
    (dst : List Int) (D : Nat)
    (hd : D + o * ((repeats.map Int.toNat).sum * P) ≤ dst.length) :
    ∃ dst1 D1 S1, repeatI src repeats repeats.length (P : Int) (P : Int) o dst (D : Int)
        (S : Int) = .ok (dst1, D1, S1) ∧
      dst1.length = dst.length ∧
      dst1.take (D + o * ((repeats.map Int.toNat).sum * P))
        = dst.take D ++ expandOuter src P repeats o S := by
  induction o generalizing S dst D with
  | zero => exact ⟨dst, (D : Int), (S : Int), by simp [repeatI], rfl, by simp [expandOuter]⟩
  | succ o ih =>
    have e : (o + 1) * (repeats.length * P) = repeats.length * P + o * (repeats.length * P) := by
      ring
    have e4 : (o + 1) * ((repeats.map Int.toNat).sum * P)
        = (repeats.map Int.toNat).sum * P + o * ((repeats.map Int.toNat).sum * P) := by ring
    have hs1 : S + repeats.length * P ≤ src.length := by omega
    have hd1 : D + (repeats.map Int.toNat).sum * P ≤ dst.length := by omega
    obtain ⟨dst1, hj, hl1, ht1⟩ := repeatJ_spec src repeats P hP repeats.length 0 (by simp) S
      hs1 dst D (by simpa using hd1)
    simp only [List.drop_zero] at hj ht1
    obtain ⟨dst2, D2, S2, hr, hl2, ht2⟩ := ih (S + repeats.length * P) (by omega) dst1
      (D + (repeats.map Int.toNat).sum * P) (by rw [hl1]; omega)
    refine ⟨dst2, D2, S2, ?_, by rw [hl2, hl1], ?_⟩
    · unfold repeatI
      simp only [hj, hr]
    · have e2 : D + (o + 1) * ((repeats.map Int.toNat).sum * P)
          = D + (repeats.map Int.toNat).sum * P + o * ((repeats.map Int.toNat).sum * P) := by
        ring
      rw [e2, ht2, ht1, expandOuter, List.append_assoc]

/-! ## Indexing the expanded buffer -/

theorem slab_length (src : List Int) (S P : Nat) (h : S + P ≤ src.length) :
    (slab src S P).length = P := by
  simp only [slab, List.length_take, List.length_drop]; omega

theorem slab_getElem? (src : List Int) (S P x : Nat) (hx : x < P) :
    (slab src S P)[x]? = src[S + x]? := by
  simp only [slab, List.getElem?_take, hx, if_true, List.getElem?_drop]

theorem replicate_flatten_getElem? (s : List Int) (P : Nat) (hs : s.length = P) (r k x : Nat)
    (hk : k < r) (hx : x < P) :
    (List.replicate r s).flatten[k * P + x]? = s[x]? := by
  induction r generalizing k with
  | zero => omega
  | succ r ih =>
    rw [List.replicate_succ, List.flatten_cons]
    cases k with
    | zero =>
      simp only [zero_mul, zero_add]
      rw [List.getElem?_append_left (by omega)]
    | succ k =>
      have e : (k + 1) * P + x = s.length + (k * P + x) := by rw [hs]; ring
      rw [e, List.getElem?_append_right (by omega)]
      simp only [add_tsub_cancel_left]
      exact ih k (by omega)

/-- The element of an expanded outer block at run `k`, position `x`: it comes
from the run `j` whose repeat counts bracket `k`. -/
theorem expandAxis_getElem? (src : List Int) (P : Nat) (S : Nat) (rs : List Int)
    (hs : S + rs.length * P ≤ src.length) (j k x : Nat) (hj : j < rs.length)
    (hlo : ((rs.take j).map Int.toNat).sum ≤ k)
    (hhi : k < ((rs.take (j + 1)).map Int.toNat).sum) (hx : x < P) :
    (expandAxis src P S rs)[k * P + x]? = src[S + j * P + x]? := by
  induction rs generalizing S j k with
  | nil => simp at hj
  | cons r rs ih =>
    simp only [List.length_cons] at hs hj
    have e : (rs.length + 1) * P = rs.length * P + P := by ring
    have hsl : (slab src S P).length = P := slab_length src S P (by omega)
    have hfl : (List.replicate r.toNat (slab src S P)).flatten.length = r.toNat * P := by
      simp [List.length_flatten, hsl]
    simp only [expandAxis]
    cases j with
    | zero =>
      simp only [List.take_zero, List.map_nil, List.sum_nil, zero_add, List.take_succ_cons,
        List.map_cons, List.sum_cons, add_zero, zero_mul] at hlo hhi ⊢
      have hlt : k * P + x < r.toNat * P := by
        have : (k + 1) * P ≤ r.toNat * P := Nat.mul_le_mul_right P (by omega)
        have e2 : (k + 1) * P = k * P + P := by ring
        omega
      rw [List.getElem?_append_left (by rw [hfl]; exact hlt),
        replicate_flatten_getElem? _ P hsl _ k x hhi hx, slab_getElem? src S P x hx]
    | succ j =>
      simp only [List.take_succ_cons, List.map_cons, List.sum_cons] at hlo hhi
      have hge : r.toNat * P ≤ k * P + x := by
        have : r.toNat * P ≤ k * P := Nat.mul_le_mul_right P (by omega)
        omega
      rw [List.getElem?_append_right (by rw [hfl]; exact hge), hfl]
      have e3 : k * P + x - r.toNat * P = (k - r.toNat) * P + x := by
        have : k * P = (k - r.toNat) * P + r.toNat * P := by
          rw [← Nat.add_mul]; congr 1; omega
        omega
      rw [e3, ih (S + P) (by omega) j (k - r.toNat) (by omega) (by omega) (by omega)]
      congr 1
      ring

theorem expandOuter_getElem? (src : List Int) (P : Nat) (rs : List Int) (O S : Nat)
    (hs : S + O * (rs.length * P) ≤ src.length) (o y : Nat) (ho : o < O)
    (hy : y < (rs.map Int.toNat).sum * P) :
    (expandOuter src P rs O S)[o * ((rs.map Int.toNat).sum * P) + y]?
      = (expandAxis src P (S + o * (rs.length * P)) rs)[y]? := by
  induction O generalizing S o with
  | zero => omega
  | succ O ih =>
    have e : (O + 1) * (rs.length * P) = rs.length * P + O * (rs.length * P) := by ring
    have hl : (expandAxis src P S rs).length = (rs.map Int.toNat).sum * P :=
      expandAxis_length src P S rs (by omega)
    simp only [expandOuter]
    cases o with
    | zero =>
      simp only [zero_mul, zero_add, add_zero]
      rw [List.getElem?_append_left (by rw [hl]; exact hy)]
    | succ o =>
      have e2 : (o + 1) * ((rs.map Int.toNat).sum * P) + y
          = (expandAxis src P S rs).length + (o * ((rs.map Int.toNat).sum * P) + y) := by
        rw [hl]; ring
      rw [e2, List.getElem?_append_right (by omega)]
      simp only [add_tsub_cancel_left]
      rw [ih (S + rs.length * P) (by omega) o (by omega)]
      congr 2
      ring

theorem expandOuter_length (src : List Int) (P : Nat) (rs : List Int) (O S : Nat)
    (hs : S + O * (rs.length * P) ≤ src.length) :
    (expandOuter src P rs O S).length = O * ((rs.map Int.toNat).sum * P) := by
  induction O generalizing S with
  | zero => simp [expandOuter]
  | succ O ih =>
    have e : (O + 1) * (rs.length * P) = rs.length * P + O * (rs.length * P) := by ring
    simp only [expandOuter, List.length_append]
    rw [expandAxis_length src P S rs (by omega), ih (S + rs.length * P) (by omega)]
    ring

/-! ## `Repeat` on a tensor that is not a vector -/

theorem repeatK_empty (S st ns : Int) (hS : 0 ≤ S) (k : Nat) (dst : List Int) (D : Int) :
    repeatK [] S st ns k dst D = .ok (dst, D) := by
  cases k with
  | zero => rfl
  | succ k =>
    unfold repeatK
    have : S ≥ len [] := by simpa [len] using hS
    simp [this]

theorem repeatJ_empty (repeats : List Int) (st ns : Int) (hst : 0 ≤ st) (n j : Nat)
    (hj : j + n ≤ repeats.length) (dst : List Int) (D S : Int) (hS : 0 ≤ S) :
    ∃ S1, 0 ≤ S1 ∧ repeatJ [] repeats st ns n j dst D S = .ok (dst, D, S1) := by
  induction n generalizing j S with
  | zero => exact ⟨S, hS, rfl⟩
  | succ n ih =>
    obtain ⟨S1, h1, h2⟩ := ih (j + 1) (by omega) (S + st) (by omega)
    refine ⟨S1, h1, ?_⟩
    unfold repeatJ
    simp only [getAt_of_lt repeats j (by omega), repeatK_empty S st ns hS, h2]

theorem repeatI_empty (repeats : List Int) (st ns : Int) (hst : 0 ≤ st) (o : Nat)
    (dst : List Int) (D S : Int) (hS : 0 ≤ S) :
    ∃ S1, repeatI [] repeats repeats.length st ns o dst D S = .ok (dst, D, S1) := by
  induction o generalizing S with
  | zero => exact ⟨S, rfl⟩
  | succ o ih =>
    obtain ⟨S1, h1, h2⟩ := repeatJ_empty repeats st ns hst repeats.length 0 (by simp) dst D S hS
    obtain ⟨S2, h3⟩ := ih S1 h1
    refine ⟨S2, ?_⟩
    unfold repeatI
    simp only [h2, h3]

theorem rowMajor_append (pre rest : List Int) :
    rowMajor (pre ++ rest) = (rowMajor pre).map (· * rest.prod) ++ rowMajor rest := by
  induction pre with
  | nil => simp [rowMajor]
  | cons a pre ih => simp [rowMajor, ih]

theorem dot_append (a b c d : List Int) (h : a.length = c.length) :
    dot (a ++ b) (c ++ d) = dot a c + dot b d := by
  induction a generalizing c with
  | nil =>
    have : c = [] := List.length_eq_zero.1 h.symm
    subst this
    cases b <;> simp [dot]
  | cons x a ih =>
    cases c with
    | nil => simp at h
    | cons y c =>
      simp only [List.length_cons, add_left_inj] at h
      simp only [List.cons_append, dot, List.append_eq, ih c h]
      ring

theorem dot_map_mul (a c : List Int) (m : Int) : dot a (c.map (· * m)) = dot a c * m := by
  induction a generalizing c with
  | nil => cases c <;> simp [dot]
  | cons x a ih =>
    cases c with
    | nil => simp [dot]
    | cons y c =>
      simp only [List.map_cons, dot, ih c]
      ring

theorem inRange_append (a b s u : List Int) (h : a.length = s.length) :
    inRange (a ++ b) (s ++ u) = (inRange a s && inRange b u) := by
  induction a generalizing s with
  | nil =>
    have : s = [] := List.length_eq_zero.1 h.symm
    subst this
    simp [inRange]
  | cons x a ih =>
    cases s with
    | nil => simp at h
    | cons y s =>
      simp only [List.length_cons, add_left_inj] at h
      simp only [List.cons_append, inRange, List.append_eq, ih s h, Bool.and_assoc]

/-- The offset of a coordinate split at an axis. -/
theorem dot_rowMajor_split (cpre cpost pre post : List Int) (c d : Int)
    (h : cpre.length = pre.length) :
    dot (cpre ++ c :: cpost) (rowMajor (pre ++ d :: post))
      = dot cpre (rowMajor pre) * (d * post.prod) + c * post.prod
        + dot cpost (rowMajor post) := by
  rw [rowMajor_append, dot_append _ _ _ _ (by simp [rowMajor_length, h]), dot_map_mul]
  simp only [rowMajor, dot, List.prod_cons]
  ring

theorem rowMajor_getAt (pre post : List Int) (d : Int) :
    getAt (rowMajor (pre ++ d :: post)) (pre.length : Int) = .ok post.prod := by
  rw [rowMajor_append]
  have h : pre.length = ((rowMajor pre).map (· * (d :: post).prod)).length := by
    simp [rowMajor_length]
  simp only [rowMajor]
  rw [h]
  exact getAt_append_length _ _ _

theorem sum_ge_length (rs : List Int) (h : ∀ r ∈ rs, 0 < r) : (rs.length : Int) ≤ rs.sum := by
  induction rs with
  | nil => simp
  | cons r rs ih =>
    have h1 := h r (List.mem_cons_self _ _)
    have h2 := ih (fun x hx => h x (List.mem_cons_of_mem _ hx))
    simp only [List.length_cons, List.sum_cons]
    push_cast
    omega

theorem sum_toNat_eq (rs : List Int) (h : ∀ r ∈ rs, 0 < r) :
    (((rs.map Int.toNat).sum : Nat) : Int) = rs.sum := by
  induction rs with
  | nil => simp
  | cons r rs ih =>
    have h1 := h r (List.mem_cons_self _ _)
    have h2 := ih (fun x hx => h x (List.mem_cons_of_mem _ hx))
    simp only [List.map_cons, List.sum_cons, Nat.cast_add, h2, Int.toNat_of_nonneg h1.le]

theorem prod_nonneg_of (s : List Int) (h : ∀ d ∈ s, 0 ≤ d) : 0 ≤ s.prod := by
  induction s with
  | nil => simp
  | cons d s ih =>
    simp only [List.prod_cons]
    exact mul_nonneg (h d (List.mem_cons_self _ _))
      (ih (fun x hx => h x (List.mem_cons_of_mem _ hx)))

/-- The tensor `NewTensor(WithShape(s...))` returns: zeros under row-major
strides. -/
theorem NewTensor_withShape (s : List Int) (hne : s ≠ []) (hp : 0 ≤ s.prod) :
    NewTensor [.WithShape s] =
      .ok { ap := { shape := s, strides := Shape.CalcStrides s, fin := true },
            data := List.replicate s.prod.toNat 0, old := none, transposeWith := none,
            viewOf := none } := by
  have h1 : ¬ (s.prod < 0) := by omega
  have hsc : Shape.IsScalar s = false := by
    cases s with
    | nil => exact absurd rfl hne
    | cons a s => simp [Shape.IsScalar]
  simp [NewTensor, ConsOpt.run, AP.new, AP.Unlock, AP.SetShape, AP.Lock, Cons.fix, hne,
    Shape.TotalSize, h1, sanityCheck, len, Int.toNat_of_nonneg hp, hsc]

theorem setAt_append_length (pre post : List Int) (d v : Int) :
    setAt (pre ++ d :: post) (pre.length : Int) v = .ok (pre ++ v :: post) := by
  rw [setAt_of_lt _ _ _ (by simp)]
  congr 1
  induction pre with
  | nil => rfl
  | cons a pre ih => simp [ih]

theorem subSlice_prefix (pre rest : List Int) :
    subSlice (pre ++ rest) 0 (pre.length : Int) = .ok pre := by
  have hc : (0 : Int) ≤ 0 ∧ (0 : Int) ≤ (pre.length : Int)
      ∧ (pre.length : Int) ≤ ((pre ++ rest).length : Int) := by
    simp only [List.length_append]; omega
  simp only [subSlice, hc, and_self, if_true]
  simp

theorem Shape.not_vector_replace (pre post : List Int) (d r : Int)
    (hrank : 2 ≤ (pre ++ d :: post).length)
    (hv : Shape.IsVector (pre ++ d :: post) = false) (hr : d = 1 ∨ r ≠ 1) :
    Shape.IsVector (pre ++ r :: post) = false := by
  cases h : Shape.IsVector (pre ++ r :: post) with
  | false => rfl
  | true =>
    exfalso
    have hv2 : ¬ (Shape.IsVector (pre ++ d :: post) = true) := by simp [hv]
    apply hv2
    rw [Shape.isVector_iff] at h ⊢
    simp only [List.length_append, List.length_cons, List.mem_append, List.mem_cons] at h hrank ⊢
    rcases h with h | ⟨h1, h2⟩
    · omega
    · right
      refine ⟨h1, ?_⟩
      rcases h2 with h2 | h2 | h2
      · exact Or.inl h2
      · rcases hr with hr | hr
        · exact Or.inr (Or.inl hr.symm)
        · exact absurd h2.symm hr
      · exact Or.inr (Or.inr h2)

/-- `Repeat` along an existing axis of a clean contiguous tensor that is not a
vector, with one positive count per index of the axis: the switch, the
broadcast, the allocation and the strides, down to the copy loops. -/
theorem Tensor.Repeat_nonvector (t : Tensor) (pre post : List Int) (d : Int)
    (repeats : List Int) (hsh : t.Shape = pre ++ d :: post) (hrank : 2 ≤ t.Shape.length)
    (hvec : t.IsVector = false) (hold : t.old = none)
    (hstr : t.Strides = Shape.CalcStrides t.Shape) (hdims : ∀ x ∈ t.Shape, 0 ≤ x)
    (hlen : (repeats.length : Int) = d) (hpos : ∀ r ∈ repeats, 0 < r) :
    t.Repeat (pre.length : Int) repeats =
      match repeatI t.data repeats repeats.length post.prod post.prod
          (if pre.prod = 0 then 1 else pre.prod).toNat
          (List.replicate (pre ++ repeats.sum :: post).prod.toNat 0) 0 0 with
      | .error e => .error e
      | .ok (dst, _, _) =>
        .ok { ap := { shape := pre ++ repeats.sum :: post,
                      strides := rowMajor (pre ++ repeats.sum :: post), fin := true },
              data := dst, old := none, transposeWith := none, viewOf := none } := by
  have hsh' : t.ap.shape = pre ++ d :: post := hsh
  have hv0 : Shape.IsVector (pre ++ d :: post) = false := by rw [← hsh]; exact hvec
  have hns : Shape.IsScalar (pre ++ d :: post) = false := by
    simp [Shape.IsScalar]
  have hax : ¬ ((pre.length : Int) = AllAxes) := by
    simp only [AllAxes]; omega
  have hsum := sum_ge_length repeats hpos
  have hR0 : 0 ≤ repeats.sum := by omega
  -- the broadcast leaves the counts as they are
  have hrep : (if repeats.length = 1 then
        (if d < 0 then (.error .goPanic : Except Err (List Int))
         else .ok (List.replicate repeats.length (repeats.getD 0 0)))
      else .ok repeats) = .ok repeats := by
    by_cases h1 : repeats.length = 1
    · obtain ⟨r0, rfl⟩ := List.length_eq_one.1 h1
      have hd1 : d = 1 := by rw [← hlen]; simp
      subst hd1
      simp
    · simp [h1]
  -- the new shape is no vector
  have hrd : d = 1 ∨ repeats.sum ≠ 1 := by
    by_cases hd1 : d = 1
    · exact Or.inl hd1
    · right
      intro hs
      have : (repeats.length : Int) ≤ 1 := by omega
      have h01 : repeats.length = 0 ∨ repeats.length = 1 := by omega
      rcases h01 with h0 | h1
      · have : repeats = [] := List.length_eq_zero.1 h0
        subst this
        simp at hs
      · rw [h1] at hlen
        exact hd1 (by omega)
  have hnv : Shape.IsVector (pre ++ repeats.sum :: post) = false :=
    Shape.not_vector_replace pre post d _ (by rw [← hsh]; exact hrank) hv0 hrd
  have hnsN : Shape.IsScalar (pre ++ repeats.sum :: post) = false := by
    simp [Shape.IsScalar]
  have hprodN : 0 ≤ (pre ++ repeats.sum :: post).prod := by
    apply prod_nonneg_of
    intro x hx
    simp only [List.mem_append, List.mem_cons] at hx
    rcases hx with hx | hx | hx
    · exact hdims x (by rw [hsh]; simp [hx])
    · omega
    · exact hdims x (by rw [hsh]; simp [hx])
  have hnew := NewTensor_withShape (pre ++ repeats.sum :: post) (by simp) hprodN
  have hcsN : Shape.CalcStrides (pre ++ repeats.sum :: post)
      = rowMajor (pre ++ repeats.sum :: post) := by
    simp [Shape.CalcStrides, hnsN, hnv]
  have hcs : Shape.CalcStrides (pre ++ d :: post) = rowMajor (pre ++ d :: post) := by
    simp [Shape.CalcStrides, hns, hv0]
  have host : t.ap.strides = rowMajor (pre ++ d :: post) := by
    have : t.ap.strides = Shape.CalcStrides t.Shape := hstr
    rw [this, hsh, hcs]
  have hlenI : len repeats = d := hlen
  have hdn : d.toNat = repeats.length := by omega
  simp only [Tensor.Repeat, Tensor.repeatPrep, hax, if_false, Tensor.IsScalar, Tensor.IsVector,
    Tensor.Shape, hsh', hns, hv0, Bool.false_eq_true, false_and, getAt_append_length, hrep,
    hlenI, ne_eq, not_true_eq_false, SumInts, setAt_append_length, hnew, subSlice_prefix,
    ProdInts, hnv, host, rowMajor_getAt, Tensor.ostrides, hcsN, hdn, hold]

/-! ## C3: `Repeat` along an axis -/

theorem take_sum_le_sum (l : List Nat) (i : Nat) : (l.take i).sum ≤ l.sum := by
  conv_rhs => rw [← List.take_append_drop i l]
  rw [List.sum_append]
  omega

theorem shape_split (s : List Int) (axis : Nat) (h : axis < s.length) :
    s = s.take axis ++ s[axis] :: s.drop (axis + 1) ∧ (s.take axis).length = axis := by
  refine ⟨?_, by simp; omega⟩
  conv_lhs => rw [← List.take_append_drop axis s, List.drop_eq_getElem_cons h]

theorem set_split (pre post : List Int) (d v : Int) :
    (pre ++ d :: post).set pre.length v = pre ++ v :: post := by
  induction pre with
  | nil => rfl
  | cons a pre ih => simp [ih]

/-- The buffer `Repeat` builds when the source holds at least one element. -/
theorem repeat_buffer (src : List Int) (pre post : List Int) (repeats : List Int)
    (hpre : 1 ≤ pre.prod) (hpost : 1 ≤ post.prod) (hpos : ∀ r ∈ repeats, 0 < r)
    (hsrc : (src.length : Int) = pre.prod * ((repeats.length : Int) * post.prod)) :
    ∃ dst1 D1 S1, repeatI src repeats repeats.length post.prod post.prod
        (if pre.prod = 0 then 1 else pre.prod).toNat
        (List.replicate (pre ++ repeats.sum :: post).prod.toNat 0) 0 0 = .ok (dst1, D1, S1) ∧
      dst1 = expandOuter src post.prod.toNat repeats pre.prod.toNat 0 ∧
      (dst1.length : Int) = pre.prod * (repeats.sum * post.prod) := by
  have hO : ((pre.prod.toNat : Nat) : Int) = pre.prod := Int.toNat_of_nonneg (by omega)
  have hP : ((post.prod.toNat : Nat) : Int) = post.prod := Int.toNat_of_nonneg (by omega)
  have hR := sum_toNat_eq repeats hpos
  have hif : (if pre.prod = 0 then 1 else pre.prod) = pre.prod := by
    have : pre.prod ≠ 0 := by omega
    simp [this]
  have hsl : src.length = pre.prod.toNat * (repeats.length * post.prod.toNat) := by
    have : (src.length : Int)
        = ((pre.prod.toNat * (repeats.length * post.prod.toNat) : Nat) : Int) := by
      push_cast; rw [hO, hP]; exact hsrc
    exact_mod_cast this
  have hdl : (List.replicate (pre ++ repeats.sum :: post).prod.toNat (0 : Int)).length
      = pre.prod.toNat * ((repeats.map Int.toNat).sum * post.prod.toNat) := by
    simp only [List.length_replicate, List.prod_append, List.prod_cons]
    have : pre.prod * (repeats.sum * post.prod)
        = ((pre.prod.toNat * ((repeats.map Int.toNat).sum * post.prod.toNat) : Nat) : Int) := by
      simp only [Nat.cast_mul, hO, hP, hR]
    rw [this, Int.toNat_ofNat]
  obtain ⟨dst1, D1, S1, h1, h2, h3⟩ := repeatI_spec src repeats post.prod.toNat (by omega)
    pre.prod.toNat 0 (by omega) (List.replicate (pre ++ repeats.sum :: post).prod.toNat 0) 0
    (by omega)
  simp only [Nat.cast_zero, zero_add, List.take_zero, List.nil_append] at h1 h3
  rw [hP] at h1
  refine ⟨dst1, D1, S1, by rw [hif]; exact h1, ?_, ?_⟩
  · rw [← h3, List.take_of_length_le (by omega)]
  · rw [h2, hdl]
    simp only [Nat.cast_mul, hO, hP, hR]

theorem prod_pos_of_prod_ne_zero (a b : Int) (ha : 0 ≤ a) (hb : 0 ≤ b) (h : a * b ≠ 0) :
    1 ≤ a ∧ 1 ≤ b := by
  have h1 : a ≠ 0 := fun h0 => h (by rw [h0]; simp)
  have h2 : b ≠ 0 := fun h0 => h (by rw [h0]; simp)
  omega

/-- C3: on a contiguous tensor of rank at least 2 that is not a vector and has
no pending thunk, for an axis `0 ≤ axis < rank` and strictly positive repeats,
one per index of that axis, `Repeat(axis, repeats)` returns no error and a new
tensor whose shape is the source shape with `shape[axis]` replaced by the sum
of the repeats, and whose element at coordinate `(c_0, .., k, .., c_n-1)` is
the source element at `(c_0, .., j, .., c_n-1)`, where `j` is the index with
`repeats[0]+..+repeats[j-1] ≤ k < repeats[0]+..+repeats[j]`. `Repeat` only
reads its receiver. -/
theorem C3_repeat_along_axis (t : Tensor) (axis : Nat) (repeats : List Int)
    (hrank : 2 ≤ t.Shape.length) (hvec : t.IsVector = false) (hold : t.old = none)
    (hstr : t.Strides = Shape.CalcStrides t.Shape)
    (hdata : len t.data = Shape.TotalSize t.Shape) (hdims : ∀ x ∈ t.Shape, 0 ≤ x)
    (haxis : axis < t.Shape.length) (hlen : (repeats.length : Int) = t.Shape.getD axis 0)
    (hpos : ∀ r ∈ repeats, 0 < r) :
    ∃ r, t.Repeat (axis : Int) repeats = .ok r ∧
      r.Shape = t.Shape.set axis repeats.sum ∧
      ∀ (cpre cpost : List Int) (j : Nat) (k : Int), cpre.length = axis →
        List.Forall₂ (fun x d => 0 ≤ x ∧ x < d) (cpre ++ (j : Int) :: cpost) t.Shape →
        (repeats.take j).sum ≤ k → k < (repeats.take (j + 1)).sum →
        ∃ x, r.At (cpre ++ k :: cpost) = .ok x ∧ t.At (cpre ++ (j : Int) :: cpost) = .ok x := by
  obtain ⟨hsplit, hprel⟩ := shape_split t.Shape axis haxis
  generalize hpre : t.Shape.take axis = pre at hsplit hprel
  generalize hpost : t.Shape.drop (axis + 1) = post at hsplit
  generalize hdd : t.Shape[axis] = d at hsplit
  have hlen' : (repeats.length : Int) = d := by
    rw [hlen, ← hdd]
    simp [List.getD_eq_getElem?_getD, haxis]
  have hv0 : Shape.IsVector (pre ++ d :: post) = false := by rw [← hsplit]; exact hvec
  have hns : Shape.IsScalar (pre ++ d :: post) = false := by simp [Shape.IsScalar]
  have hcs : Shape.CalcStrides (pre ++ d :: post) = rowMajor (pre ++ d :: post) := by
    simp [Shape.CalcStrides, hns, hv0]
  have hstr1 : t.Strides = rowMajor (pre ++ d :: post) := by rw [hstr, hsplit, hcs]
  have hR := Tensor.Repeat_nonvector t pre post d repeats hsplit hrank hvec hold hstr hdims
    hlen' hpos
  rw [hprel] at hR
  have hpre0 : 0 ≤ pre.prod := prod_nonneg_of pre (fun x hx => hdims x (by
    rw [hsplit]; simp [hx]))
  have hpost0 : 0 ≤ post.prod := prod_nonneg_of post (fun x hx => hdims x (by
    rw [hsplit]; simp [hx]))
  have hd0 : 0 ≤ d := by omega
  have hshapeset : t.Shape.set axis repeats.sum = pre ++ repeats.sum :: post := by
    rw [hsplit, ← hprel]; exact set_split pre post d _
  have hprodS : t.Shape.prod = pre.prod * (d * post.prod) := by
    rw [hsplit]; simp [List.prod_append, List.prod_cons]
  have hlenD : (t.data.length : Int) = pre.prod * (d * post.prod) := by
    rw [← hprodS]; exact hdata
  by_cases hz : t.Shape.prod = 0
  · -- the source is empty: nothing is copied and no coordinate is in range
    have hsrc : t.data = [] := List.length_eq_zero.1 (by
      have : (t.data.length : Int) = 0 := by rw [hlenD, ← hprodS, hz]
      exact_mod_cast this)
    obtain ⟨S1, h1⟩ := repeatI_empty repeats post.prod post.prod hpost0
      (if pre.prod = 0 then 1 else pre.prod).toNat
      (List.replicate (pre ++ repeats.sum :: post).prod.toNat 0) 0 0 (le_refl 0)
    rw [hsrc, h1] at hR
    refine ⟨_, hR, by rw [hshapeset]; rfl, ?_⟩
    intro cpre cpost j k _ hin _ _
    exfalso
    obtain ⟨b0, b1⟩ := dot_rowMajor_bounds _ _ ((inRange_iff _ _).2 hin)
    omega
  · obtain ⟨hpre1, hrest⟩ := prod_pos_of_prod_ne_zero pre.prod (d * post.prod) hpre0
      (mul_nonneg hd0 hpost0) (by rw [← hprodS]; exact hz)
    obtain ⟨hd1, hpost1⟩ := prod_pos_of_prod_ne_zero d post.prod hd0 hpost0 (by omega)
    obtain ⟨dst1, D1, S1, hloop, hdst, hdlen⟩ := repeat_buffer t.data pre post repeats hpre1
      hpost1 hpos (by rw [hlenD, hlen'])
    rw [hloop] at hR
    refine ⟨_, hR, by rw [hshapeset]; rfl, ?_⟩
    intro cpre cpost j k hcl hin hlo hhi
    have hcl' : cpre.length = pre.length := by rw [hcl, hprel]
    -- the coordinates
    have hinS : inRange (cpre ++ (j : Int) :: cpost) (pre ++ d :: post) = true := by
      rw [← hsplit]; exact (inRange_iff _ _).2 hin
    have hparts := hinS
    rw [inRange_append _ _ _ _ hcl'] at hparts
    simp only [inRange, Bool.and_eq_true, decide_eq_true_eq] at hparts
    obtain ⟨hin1, ⟨_, hjd⟩, hin3⟩ := hparts
    obtain ⟨o0, o1⟩ := dot_rowMajor_bounds cpre pre hin1
    obtain ⟨x0, x1⟩ := dot_rowMajor_bounds cpost post hin3
    have hjl : j < repeats.length := by omega
    -- the counts as natural numbers
    have hposT : ∀ i, ∀ r ∈ repeats.take i, 0 < r := fun i r hr =>
      hpos r (List.mem_of_mem_take hr)
    have hloN := sum_toNat_eq (repeats.take j) (hposT j)
    have hhiN := sum_toNat_eq (repeats.take (j + 1)) (hposT (j + 1))
    have hRN := sum_toNat_eq repeats hpos
    have hk0 : 0 ≤ k := by
      have := sum_ge_length (repeats.take j) (hposT j)
      omega
    have hle : ((repeats.take (j + 1)).map Int.toNat).sum ≤ (repeats.map Int.toNat).sum := by
      rw [List.map_take]; exact take_sum_le_sum _ _
    have hkR : k < repeats.sum := by
      have : (((repeats.take (j + 1)).map Int.toNat).sum : Int)
          ≤ ((repeats.map Int.toNat).sum : Int) := by exact_mod_cast hle
      omega
    have hinR : inRange (cpre ++ k :: cpost) (pre ++ repeats.sum :: post) = true := by
      rw [inRange_append _ _ _ _ hcl']
      simp [inRange, hin1, hk0, hkR, hin3]
    have hnvR : Shape.IsVector (pre ++ repeats.sum :: post) = false := by
      apply Shape.not_vector_replace pre post d _ (by rw [← hsplit]; exact hrank) hv0
      by_cases hd' : d = 1
      · exact Or.inl hd'
      · right
        have := sum_ge_length repeats hpos
        omega
    -- the two offsets
    set o := dot cpre (rowMajor pre) with ho
    set x := dot cpost (rowMajor post) with hx
    have hoffS : dot (cpre ++ (j : Int) :: cpost) (rowMajor (pre ++ d :: post))
        = ((0 + o.toNat * (repeats.length * post.prod.toNat) + j * post.prod.toNat + x.toNat
            : Nat) : Int) := by
      rw [dot_rowMajor_split _ _ _ _ _ _ hcl']
      push_cast
      rw [Int.toNat_of_nonneg o0, Int.toNat_of_nonneg x0, Int.toNat_of_nonneg hpost0, hlen']
      ring
    have hoffR : dot (cpre ++ k :: cpost) (rowMajor (pre ++ repeats.sum :: post))
        = ((o.toNat * ((repeats.map Int.toNat).sum * post.prod.toNat)
            + (k.toNat * post.prod.toNat + x.toNat) : Nat) : Int) := by
      rw [dot_rowMajor_split _ _ _ _ _ _ hcl']
      simp only [Nat.cast_add, Nat.cast_mul, hRN, Int.toNat_of_nonneg o0,
        Int.toNat_of_nonneg x0, Int.toNat_of_nonneg hpost0, Int.toNat_of_nonneg hk0]
      ring
    -- the element of the expanded buffer
    have hxP : x.toNat < post.prod.toNat := by omega
    have hoO : o.toNat < pre.prod.toNat := by omega
    have hkN1 : ((repeats.take j).map Int.toNat).sum ≤ k.toNat := by
      have : (((repeats.take j).map Int.toNat).sum : Int) ≤ k := by rw [hloN]; exact hlo
      omega
    have hkN2 : k.toNat < ((repeats.take (j + 1)).map Int.toNat).sum := by
      have : k < (((repeats.take (j + 1)).map Int.toNat).sum : Int) := by rw [hhiN]; exact hhi
      omega
    have hsl : t.data.length = pre.prod.toNat * (repeats.length * post.prod.toNat) := by
      have : (t.data.length : Int)
          = ((pre.prod.toNat * (repeats.length * post.prod.toNat) : Nat) : Int) := by
        simp only [Nat.cast_mul, Int.toNat_of_nonneg hpre0, Int.toNat_of_nonneg hpost0, hlenD,
          hlen']
      exact_mod_cast this
    have hyy : k.toNat * post.prod.toNat + x.toNat
        < (repeats.map Int.toNat).sum * post.prod.toNat := by
      have h1 : (k.toNat + 1) * post.prod.toNat
          ≤ (repeats.map Int.toNat).sum * post.prod.toNat :=
        Nat.mul_le_mul_right _ (by omega)
      have e : (k.toNat + 1) * post.prod.toNat = k.toNat * post.prod.toNat + post.prod.toNat := by
        ring
      omega
    have hblock : o.toNat * (repeats.length * post.prod.toNat)
        + repeats.length * post.prod.toNat ≤ t.data.length := by
      have h1 : (o.toNat + 1) * (repeats.length * post.prod.toNat)
          ≤ pre.prod.toNat * (repeats.length * post.prod.toNat) :=
        Nat.mul_le_mul_right _ (by omega)
      have e : (o.toNat + 1) * (repeats.length * post.prod.toNat)
          = o.toNat * (repeats.length * post.prod.toNat) + repeats.length * post.prod.toNat := by
        ring
      omega
    have hget : dst1[o.toNat * ((repeats.map Int.toNat).sum * post.prod.toNat)
          + (k.toNat * post.prod.toNat + x.toNat)]?
        = t.data[0 + o.toNat * (repeats.length * post.prod.toNat) + j * post.prod.toNat
          + x.toNat]? := by
      rw [hdst, expandOuter_getElem? t.data _ repeats _ 0 (by omega) _ _ hoO hyy,
        expandAxis_getElem? t.data _ _ repeats (by omega) j k.toNat x.toNat hjl hkN1 hkN2 hxP]
    -- the source element exists
    obtain ⟨_, bS1⟩ := dot_rowMajor_bounds _ _ hinS
    rw [hoffS] at bS1
    have hidx : 0 + o.toNat * (repeats.length * post.prod.toNat) + j * post.prod.toNat
        + x.toNat < t.data.length := by
      have : ((0 + o.toNat * (repeats.length * post.prod.toNat) + j * post.prod.toNat
          + x.toNat : Nat) : Int) < (t.data.length : Int) := by
        rw [hlenD]
        simpa [List.prod_append, List.prod_cons] using bS1
      exact_mod_cast this
    refine ⟨t.data[0 + o.toNat * (repeats.length * post.prod.toNat) + j * post.prod.toNat
        + x.toNat], ?_, ?_⟩
    · rw [Tensor.At_of_inRange
        ⟨⟨pre ++ repeats.sum :: post, rowMajor (pre ++ repeats.sum :: post), true⟩, dst1, none,
          none, none⟩ _ hnvR hinR]
      simp only [Tensor.Strides]
      rw [hoffR, getAt_eq_ok]
      refine ⟨Int.ofNat_nonneg _, ?_⟩
      rw [Int.toNat_ofNat, hget, List.getElem?_eq_getElem hidx]
    · have hinT : inRange (cpre ++ (j : Int) :: cpost) t.Shape = true := (inRange_iff _ _).2 hin
      rw [Tensor.At_of_inRange t _ hvec hinT, hstr1, hoffS, getAt_of_lt _ _ hidx]

/-- C3 (witness): the matrix [[1,2],[3,4]] with axis 1 and repeats (2,1) gives
shape (2,3), and its element (1,1) is the source element (1,0). -/
theorem C3_repeat_witness :
    ∃ r, (Tensor.ofData [2, 2] [1, 2, 3, 4]).Repeat ((1 : Nat) : Int) [2, 1] = .ok r ∧
      r.Shape = [2, 3] ∧
      ∃ x, r.At [1, 1] = .ok x ∧ (Tensor.ofData [2, 2] [1, 2, 3, 4]).At [1, 0] = .ok x := by
  obtain ⟨r, h1, h2, h3⟩ := C3_repeat_along_axis (Tensor.ofData [2, 2] [1, 2, 3, 4]) 1 [2, 1]
    (by decide) (by decide) rfl rfl rfl
    (by intro x hx; simp [Tensor.ofData, Tensor.Shape] at hx; omega)
    (by decide) (by decide)
    (by intro x hx; simp at hx; omega)
  exact ⟨r, h1, h2, h3 [1] [] 0 1 rfl ((inRange_iff _ _).1 (by decide)) (by decide) (by decide)⟩

/-! ## C11: the strides of a view -/

theorem dropOnesStrides_of_le_two (k : Nat) (xs st : List Int) (h : k + xs.length ≤ 2)
    (hl : st.length = xs.length) : dropOnesStrides k xs st = st := by
  induction xs generalizing k st with
  | nil =>
    have : st = [] := List.length_eq_zero.1 (by simpa using hl)
    subst this
    simp [dropOnesStrides]
  | cons x xs ih =>
    cases st with
    | nil => simp at hl
    | cons s ss =>
      simp only [List.length_cons] at h hl
      have hc : ¬ (x = 1 ∧ k + (xs.length + 1) > 2) := by omega
      simp only [dropOnesStrides, hc, if_false]
      rw [ih (k + 1) ss (by omega) (by omega)]

theorem Shape.calcStrides_of_not_vector {s : Shape} (h : Shape.IsVector s = false) :
    Shape.CalcStrides s = rowMajor s := by
  unfold Shape.CalcStrides
  by_cases hs : Shape.IsScalar s = true
  · have : s = [] := List.length_eq_zero.1 (by simpa [Shape.IsScalar] using hs)
    subst this
    rfl
  · simp [hs, h]

/-- The access pattern of the view a successful `Slice` returns outside the
scalar branch: the extents and `CalcStrides` of the parent's saved shape, run
through the drop loop and the fix-up. -/
theorem Tensor.Slice_ap (t : Tensor) (slices : List (Option Gorgonia.Slice)) (v : Tensor)
    (hwf : t.WellFormed) (h : t.Slice slices = .ok v) (hns : v.IsScalar = false) :
    ∃ sh st, dropLoop t.Dims.toNat 0 t.Dims (sliceExtents t.oshape slices)
        (Shape.CalcStrides t.oshape) = .ok (sh, st) ∧ fixStrides sh st = .ok v.ap := by
  have hlen : slices.length ≤ t.Shape.length := by
    by_contra hc
    simp [Tensor.Slice, not_le.1 hc] at h
  rw [Tensor.Slice_eq t slices hwf hlen] at h
  cases hw : sliceWalk t.oshape t.sliceStrides slices 0 (len t.data) with
  | error e => simp [hw] at h
  | ok r =>
    obtain ⟨a, b, ext⟩ := r
    have hext := sliceWalk_extents hw
    simp only [hw] at h
    cases hap : sliceAP t.Dims a b ext (Shape.CalcStrides t.oshape) with
    | error e => simp [hap] at h
    | ok ap =>
      cases hs : subSlice t.data a b with
      | error e => simp [hap, hs] at h
      | ok d =>
        simp only [hap, hs, Except.ok.injEq] at h
        have hva : v.ap = ap := by rw [← h]
        have hone : ¬ (b - a = 1) := by
          intro h1
          simp only [sliceAP, h1, if_true, Except.ok.injEq] at hap
          rw [Tensor.IsScalar, hva, ← hap] at hns
          simp [AP.new, AP.SetShape, AP.Lock, Shape.IsScalar] at hns
        simp only [sliceAP, hone, if_false] at hap
        rw [← hext]
        cases hdr : dropLoop t.Dims.toNat 0 t.Dims ext (Shape.CalcStrides t.oshape) with
        | error e => simp [hdr] at hap
        | ok r2 =>
          obtain ⟨sh1, st1⟩ := r2
          simp only [hdr] at hap
          exact ⟨sh1, st1, rfl, by rw [hva]; exact hap⟩

/-- C11 (counterexample): slicing `T[:, 0:2]` of the 3x4 matrix over 0..11
succeeds with a view of shape (3,2) that is not a scalar; no axis is dropped,
and the view's strides are (4,1), the row-major strides of the parent's shape,
not the row-major strides (2,1) of the new shape. -/
theorem C11_counterexample :
    ∃ t v, NewTensor [.WithShape [3, 4], .WithBacking (iota 12)] = .ok t ∧
      t.Slice [none, some (.rangedSlice 0 2)] = .ok v ∧ v.IsScalar = false ∧
      v.Shape = [3, 2] ∧
      sliceExtents t.oshape [none, some (.rangedSlice 0 2)] = [3, 2] ∧
      v.Strides = [4, 1] ∧
      Shape.CalcStrides (sliceExtents t.oshape [none, some (.rangedSlice 0 2)]) = [2, 1] ∧
      v.Strides ≠ Shape.CalcStrides (sliceExtents t.oshape [none, some (.rangedSlice 0 2)]) :=
  ⟨_, _, rfl, rfl, rfl, rfl, rfl, rfl, rfl, by decide⟩

/-- C11 (as amended): for every successful `Slice` on a well-formed tensor
whose result is not a scalar, the view's strides are taken from the parent:
the strides that enter the loop dropping the size-1 axes are
`calc_strides(oshape)`, the row-major strides of the parent's (saved) shape,
next to the sliced extents as the shape, and the view's access pattern is what
the drop loop and the vector fix-up make of the two. When neither the parent
(current and saved shape) nor the view is a vector, the view's strides are the
parent's row-major strides on the axes that are kept, and for a parent of rank
at most 2 they are the parent's row-major strides unchanged. -/
theorem C11_slice_strides_from_parent (t : Tensor) (slices : List (Option Gorgonia.Slice))
    (v : Tensor) (hwf : t.WellFormed) (h : t.Slice slices = .ok v)
    (hns : v.IsScalar = false) :
    (∃ sh st, dropLoop t.Dims.toNat 0 t.Dims (sliceExtents t.oshape slices)
        (Shape.CalcStrides t.oshape) = .ok (sh, st) ∧ fixStrides sh st = .ok v.ap) ∧
    (t.IsVector = false → Shape.IsVector t.oshape = false → v.IsVector = false →
      v.Strides = dropOnesStrides 0 (sliceExtents t.oshape slices) (rowMajor t.oshape) ∧
      (t.Shape.length ≤ 2 → v.Strides = rowMajor t.oshape)) := by
  obtain ⟨sh, st, hdr, hfix⟩ := Tensor.Slice_ap t slices v hwf h hns
  refine ⟨⟨sh, st, hdr, hfix⟩, ?_⟩
  intro hvec hovec hvv
  have hv0 : Shape.IsVector t.Shape = false := hvec
  have hd : t.Dims = (t.Shape.length : Int) := Shape.dims_of_not_vector hv0
  have hel : (sliceExtents t.oshape slices).length = t.Shape.length := by
    rw [sliceExtents_length, hwf.1]
  have hcs := Shape.calcStrides_of_not_vector hovec
  have hrl : (rowMajor t.oshape).length = (sliceExtents t.oshape slices).length := by
    rw [rowMajor_length, hel, hwf.1]
  have hdl := dropLoop_ok (sliceExtents t.oshape slices) [] (rowMajor t.oshape) [] t.Dims.toNat
    t.Dims (by rw [hd, hel]; simp) (by rw [hd, hel]; simp) hrl rfl
  simp only [List.length_nil, List.nil_append] at hdl
  rw [hcs, hdl] at hdr
  simp only [Except.ok.injEq, Prod.mk.injEq] at hdr
  obtain ⟨ap, hap, hapS, hapT⟩ := fixStrides_ok sh st (by
    rw [← hdr.1, ← hdr.2]; exact dropOnes_strides_length _ _ _ hrl)
  rw [hfix] at hap
  simp only [Except.ok.injEq] at hap
  have hvs : Shape.IsVector sh = false := by
    rw [← hapS, ← hap]; exact hvv
  have hst : v.Strides = dropOnesStrides 0 (sliceExtents t.oshape slices) (rowMajor t.oshape) := by
    rw [Tensor.Strides, hap, hapT hvs, ← hdr.2]
  refine ⟨hst, ?_⟩
  intro h2
  rw [hst, dropOnesStrides_of_le_two 0 _ _ (by omega) hrl]

/-- C11 (witness): `T[1, 0:2, 1:3]` of shape (2,3,4) over 0..23 has the
strides (4,1) of the parent on the two axes that are kept. -/
theorem C11_slice_strides_witness :
    (⟨NewAP [2, 2] [4, 1], [13, 14, 15, 16, 17, 18], none, none,
        some (Tensor.ofData [2, 3, 4] (iota 24))⟩ : Tensor).Strides =
      dropOnesStrides 0 (sliceExtents (Tensor.ofData [2, 3, 4] (iota 24)).oshape
        [some (.singleSlice 1), some (.rangedSlice 0 2), some (.rangedSlice 1 3)])
        (rowMajor (Tensor.ofData [2, 3, 4] (iota 24)).oshape) ∧
    dropOnesStrides 0 (sliceExtents [2, 3, 4]
        [some (.singleSlice 1), some (.rangedSlice 0 2), some (.rangedSlice 1 3)])
        (rowMajor [2, 3, 4]) = [4, 1] :=
  ⟨((C11_slice_strides_from_parent (Tensor.ofData [2, 3, 4] (iota 24))
      [some (.singleSlice 1), some (.rangedSlice 0 2), some (.rangedSlice 1 3)]
      ⟨NewAP [2, 2] [4, 1], [13, 14, 15, 16, 17, 18], none, none,
        some (Tensor.ofData [2, 3, 4] (iota 24))⟩
      ⟨rfl, fun _ => rfl⟩ rfl rfl).2 (by decide) (by decide) (by decide)).1,
   by decide⟩

/-! ## The failures of `Repeat` -/

theorem subSlice_error {xs : List Int} {a b : Int} {e : Err}
    (h : subSlice xs a b = .error e) : e = .goPanic := by
  unfold subSlice at h
  split at h <;> simp at h
  exact h.symm

theorem copyTail_error {dst src : List Int} {D S : Int} {e : Err}
    (h : copyTail dst D src S = .error e) : e = .goPanic := by
  unfold copyTail at h
  split at h <;> simp at h
  exact h.symm

theorem repeatK_error {src : List Int} {S st ns : Int} {k : Nat} {dst : List Int} {D : Int}
    {e : Err} (h : repeatK src S st ns k dst D = .error e) : e = .goPanic := by
  induction k generalizing dst D with
  | zero => simp [repeatK] at h
  | succ k ih =>
    unfold repeatK at h
    split at h
    · simp at h
    · split at h
      · simp only [Except.error.injEq] at h
        rw [← h]; exact copyTail_error ‹_›
      · exact ih h

theorem repeatJ_error {src repeats : List Int} {st ns : Int} {n j : Nat} {dst : List Int}
    {D S : Int} {e : Err} (h : repeatJ src repeats st ns n j dst D S = .error e) :
    e = .goPanic := by
  induction n generalizing j dst D S with
  | zero => simp [repeatJ] at h
  | succ n ih =>
    unfold repeatJ at h
    split at h
    · simp only [Except.error.injEq] at h
      rw [← h]; exact getAt_error ‹_›
    · split at h
      · simp only [Except.error.injEq] at h
        rw [← h]; exact repeatK_error ‹_›
      · exact ih h

theorem repeatI_error {src repeats : List Int} {size : Nat} {st ns : Int} {o : Nat}
    {dst : List Int} {D S : Int} {e : Err}
    (h : repeatI src repeats size st ns o dst D S = .error e) : e = .goPanic := by
  induction o generalizing dst D S with
  | zero => simp [repeatI] at h
  | succ o ih =>
    unfold repeatI at h
    split at h
    · simp only [Except.error.injEq] at h
      rw [← h]; exact repeatJ_error ‹_›
    · exact ih h

theorem Cons.fix_error {c : Cons} {e : Err} (h : c.fix = .error e) : e = .goPanic := by
  unfold Cons.fix at h
  simp only at h
  split at h
  · simp at h
  · split at h
    · split at h <;> simp at h
      exact h.symm
    · simp at h

theorem NewTensor_error {opts : List ConsOpt} {e : Err} (h : NewTensor opts = .error e) :
    e = .goPanic := by
  unfold NewTensor at h
  simp only at h
  split at h
  · simp only [Except.error.injEq] at h
    rw [← h]; exact Cons.fix_error ‹_›
  · split at h <;> simp at h
    exact h.symm

theorem Tensor.repeatPrep_error {t : Tensor} {axis : Int} {e : Err}
    (h : t.repeatPrep axis = .error e) : e = .goPanic := by
  unfold Tensor.repeatPrep at h
  split at h
  · simp at h
  · split at h
    · split at h <;> simp at h
    · split at h
      · simp at h
      · split at h
        · simp only [Except.error.injEq] at h
          rw [← h]; exact getAt_error ‹_›
        · simp at h

/-- Every failure of `Repeat` is a panic or a returned ShapeMismatch. -/
theorem Tensor.Repeat_error_kind {t : Tensor} {axis : Int} {repeats : List Int} {e : Err}
    (h : t.Repeat axis repeats = .error e) : e = .goPanic ∨ e = .shapeMismatch := by
  unfold Tensor.Repeat at h
  split at h
  · simp only [Except.error.injEq] at h
    rw [← h]; exact Or.inl (Tensor.repeatPrep_error ‹_›)
  · simp only at h
    split at h
    · rename_i e1 he1
      simp only [Except.error.injEq] at h
      rw [← h]
      left
      split at he1
      · split at he1 <;> simp at he1
        exact he1.symm
      · simp at he1
    · split at h
      · simp at h
        exact Or.inr h.symm
      · split at h
        · simp only [Except.error.injEq] at h
          rw [← h]; exact Or.inl (setAt_error ‹_›)
        · split at h
          · simp only [Except.error.injEq] at h
            rw [← h]; exact Or.inl (NewTensor_error ‹_›)
          · split at h
            · split at h
              · simp only [Except.error.injEq] at h
                rw [← h]; exact Or.inl (repeatI_error ‹_›)
              · simp at h
            · simp at h
              exact Or.inl h.symm

theorem Shape.vanilla_iff (s : Shape) :
    (Shape.IsVector s = true ∧ (!Shape.IsRowVec s) = true ∧ (!Shape.IsColVec s) = true)
      ↔ s.length = 1 := by
  unfold Shape.IsVector Shape.IsRowVec Shape.IsColVec
  match s with
  | [] => simp
  | [a] => simp
  | [a, b] =>
    simp only [List.length_cons, List.length_nil]
    by_cases ha : a = 1 <;> by_cases hb : b = 1 <;> simp [ha, hb]
  | a :: b :: c :: r => simp

/-- The first `switch` of `Repeat` succeeds on a scalar and on an existing
axis, with the size of the chosen axis. -/
theorem Tensor.repeatPrep_size (t : Tensor) (axis : Int)
    (hax : t.IsScalar = true ∨ t.axisExists axis) (hnn : ∀ d ∈ t.Shape, 0 ≤ d) :
    (∃ sh ax, t.repeatPrep axis = .ok (t.axisSize axis, sh, ax)) ∧ 0 ≤ t.axisSize axis := by
  unfold Tensor.repeatPrep Tensor.axisSize
  by_cases h1 : axis = AllAxes
  · simp only [h1, if_true]
    exact ⟨⟨_, _, rfl⟩, prod_nonneg_of _ hnn⟩
  · simp only [h1, if_false]
    by_cases h2 : t.IsScalar = true
    · simp only [h2, if_true]
      refine ⟨?_, by omega⟩
      by_cases h3 : axis = 1
      · simp [h3]
      · simp [h3]
    · simp only [h2, if_false]
      have hex : (0 ≤ axis ∧ axis < (t.Shape.length : Int)) ∨ (t.Shape.length = 1 ∧ axis = 1) := by
        rcases hax with h | h
        · exact absurd h h2
        · rcases h with h | h
          · exact absurd h h1
          · exact h
      have hv := Shape.vanilla_iff t.Shape
      by_cases h3 : t.Shape.length = 1 ∧ axis = 1
      · have hc : (t.IsVector = true ∧ (!t.IsRowVec) = true ∧ (!t.IsColVec) = true ∧ axis = 1) :=
          ⟨(hv.2 h3.1).1, (hv.2 h3.1).2.1, (hv.2 h3.1).2.2, h3.2⟩
        simp only [hc, h3, and_self, if_true]
        exact ⟨⟨_, _, rfl⟩, by omega⟩
      · have hc : ¬ (t.IsVector = true ∧ (!t.IsRowVec) = true ∧ (!t.IsColVec) = true ∧ axis = 1) := by
          intro hc
          exact h3 ⟨hv.1 ⟨hc.1, hc.2.1, hc.2.2.1⟩, hc.2.2.2⟩
        simp only [hc, h3, if_false]
        have hr : 0 ≤ axis ∧ axis < (t.Shape.length : Int) := by
          rcases hex with h | h
          · exact h
          · exact absurd h h3
        have hlt : axis.toNat < t.Shape.length := by omega
        have hg := getAt_of_lt t.Shape axis.toNat hlt
        rw [Int.toNat_of_nonneg hr.1] at hg
        simp only [hg]
        have hd : t.Shape.getD axis.toNat 0 = t.Shape[axis.toNat] := by
          simp [List.getD, List.getElem?_eq_getElem hlt]
        rw [hd]
        exact ⟨⟨_, _, rfl⟩, hnn _ (List.getElem_mem _)⟩

/-- The first `switch` of `Repeat` panics on an axis that does not exist. -/
theorem Tensor.repeatPrep_badAxis (t : Tensor) (axis : Int) (hs : t.IsScalar = false)
    (hbad : axis < -1 ∨ ((t.Shape.length : Int) ≤ axis ∧ ¬ (t.Shape.length = 1 ∧ axis = 1))) :
    t.repeatPrep axis = .error .goPanic := by
  unfold Tensor.repeatPrep
  have h1 : ¬ (axis = AllAxes) := by
    simp only [AllAxes]
    intro h
    rcases hbad with hb | hb
    · omega
    · omega
  have hv := Shape.vanilla_iff t.Shape
  have hc : ¬ (t.IsVector = true ∧ (!t.IsRowVec) = true ∧ (!t.IsColVec) = true ∧ axis = 1) := by
    intro hc
    have hl := hv.1 ⟨hc.1, hc.2.1, hc.2.2.1⟩
    rcases hbad with hb | hb
    · omega
    · exact hb.2 ⟨hl, hc.2.2.2⟩
  simp only [h1, hs, hc, if_false, Bool.false_eq_true]
  have hg : getAt t.Shape axis = .error .goPanic := by
    rcases hbad with hb | hb
    · exact getAt_neg _ _ (by omega)
    · have h0 : 0 ≤ axis := by omega
      have := getAt_of_le t.Shape axis.toNat (by omega)
      rwa [Int.toNat_of_nonneg h0] at this
  simp only [hg]

/-- The repeats after the broadcast of a single value to the size of the
axis. -/
theorem broadcast_eq (repeats : List Int) (size : Int) (h0 : 0 ≤ size) :
    (if repeats.length = 1 then
        (if size < 0 then (.error .goPanic : Except Err (List Int))
         else .ok (List.replicate size.toNat (repeats.getD 0 0)))
      else .ok repeats)
    = .ok (if repeats.length = 1 then List.replicate size.toNat (repeats.getD 0 0)
           else repeats) := by
  have : ¬ size < 0 := by omega
  by_cases h1 : repeats.length = 1 <;> simp [h1, this]

/-- After the first `switch`, `Repeat` returns a ShapeMismatch exactly when the
number of repeats is neither 1 nor the size. -/
theorem Tensor.Repeat_shapeMismatch_iff (t : Tensor) (axis : Int) (repeats : List Int)
    (size : Int) (sh : List Int) (ax : Int)
    (hp : t.repeatPrep axis = .ok (size, sh, ax)) (h0 : 0 ≤ size) :
    t.Repeat axis repeats = .error .shapeMismatch ↔
      (repeats.length ≠ 1 ∧ (repeats.length : Int) ≠ size) := by
  have hb := broadcast_eq repeats size h0
  constructor
  · intro h
    by_contra hc
    have hlen : len (if repeats.length = 1 then List.replicate size.toNat (repeats.getD 0 0)
           else repeats) = size := by
      by_cases h1 : repeats.length = 1
      · simp [h1, len, Int.toNat_of_nonneg h0]
      · simp only [h1, if_false, len]
        by_contra h2
        exact hc ⟨h1, h2⟩
    unfold Tensor.Repeat at h
    simp only [hp, hb, hlen, ne_eq, not_true_eq_false, if_false] at h
    split at h
    · simp only [Except.error.injEq] at h
      have := setAt_error ‹_›
      rw [h] at this; cases this
    · split at h
      · simp only [Except.error.injEq] at h
        have := NewTensor_error ‹_›
        rw [h] at this; cases this
      · split at h
        · split at h
          · simp only [Except.error.injEq] at h
            have := repeatI_error ‹_›
            rw [h] at this; cases this
          · simp at h
        · simp at h
  · intro ⟨h1, h2⟩
    unfold Tensor.Repeat
    simp only [hp, hb, h1, if_false, len, ne_eq, h2, not_false_eq_true, if_true]

/-- A single repeat value is broadcast to one value per index of the axis. -/
theorem Tensor.Repeat_broadcast (t : Tensor) (axis : Int) (r : Int)
    (size : Int) (sh : List Int) (ax : Int)
    (hp : t.repeatPrep axis = .ok (size, sh, ax)) (h0 : 0 ≤ size) :
    t.Repeat axis [r] = t.Repeat axis (List.replicate size.toNat r) := by
  have hb1 := broadcast_eq [r] size h0
  have hb2 := broadcast_eq (List.replicate size.toNat r) size h0
  have e : (if (List.replicate size.toNat r).length = 1 then
      List.replicate size.toNat ((List.replicate size.toNat r).getD 0 0)
      else List.replicate size.toNat r) = List.replicate size.toNat r := by
    by_cases h1 : (List.replicate size.toNat r).length = 1
    · simp only [h1, if_true]
      simp only [List.length_replicate] at h1
      simp [h1]
    · simp only [h1, if_false]
  rw [e] at hb2
  simp only [List.length_singleton, if_true, List.getD_cons_zero] at hb1
  unfold Tensor.Repeat
  simp only [hp, hb1, hb2]
  simp only [List.length_singleton, if_true, List.getD_cons_zero] at hb1 ⊢
  simp only [hb1]

/-! ## C12: the failures of `Repeat` -/

/-- `Repeat` on an axis of negative size: a single repeat panics in the
broadcast, any other number of repeats differs from the size. -/
theorem Tensor.Repeat_negative_size (t : Tensor) (axis : Int) (repeats : List Int)
    (size : Int) (sh : List Int) (ax : Int)
    (hp : t.repeatPrep axis = .ok (size, sh, ax)) (h0 : size < 0) :
    t.Repeat axis repeats = .error .shapeMismatch ↔
      (repeats.length ≠ 1 ∧ (repeats.length : Int) ≠ size) := by
  unfold Tensor.Repeat
  by_cases h1 : repeats.length = 1
  · simp [hp, h1, h0]
  · have h2 : ¬ ((repeats.length : Int) = size) := by omega
    simp [hp, h1, len, h2]

/-- The first `switch` of `Repeat` succeeds on a scalar and on an existing
axis, whatever the sizes are. -/
theorem Tensor.repeatPrep_ok (t : Tensor) (axis : Int)
    (hax : t.IsScalar = true ∨ t.axisExists axis) :
    ∃ sh ax, t.repeatPrep axis = .ok (t.axisSize axis, sh, ax) := by
  unfold Tensor.repeatPrep Tensor.axisSize
  by_cases h1 : axis = AllAxes
  · simp only [h1, if_true]
    exact ⟨_, _, rfl⟩
  · simp only [h1, if_false]
    by_cases h2 : t.IsScalar = true
    · simp only [h2, if_true]
      by_cases h3 : axis = 1
      · simp [h3]
      · simp [h3]
    · simp only [h2, if_false]
      have hex : (0 ≤ axis ∧ axis < (t.Shape.length : Int)) ∨ (t.Shape.length = 1 ∧ axis = 1) := by
        rcases hax with h | h
        · exact absurd h h2
        · rcases h with h | h
          · exact absurd h h1
          · exact h
      have hv := Shape.vanilla_iff t.Shape
      by_cases h3 : t.Shape.length = 1 ∧ axis = 1
      · have hc : (t.IsVector = true ∧ (!t.IsRowVec) = true ∧ (!t.IsColVec) = true ∧ axis = 1) :=
          ⟨(hv.2 h3.1).1, (hv.2 h3.1).2.1, (hv.2 h3.1).2.2, h3.2⟩
        simp only [hc, h3, and_self, if_true]
        exact ⟨_, _, rfl⟩
      · have hc : ¬ (t.IsVector = true ∧ (!t.IsRowVec) = true ∧ (!t.IsColVec) = true ∧ axis = 1) := by
          intro hc
          exact h3 ⟨hv.1 ⟨hc.1, hc.2.1, hc.2.2.1⟩, hc.2.2.2⟩
        simp only [hc, h3, if_false]
        have hr : 0 ≤ axis ∧ axis < (t.Shape.length : Int) := by
          rcases hex with h | h
          · exact h
          · exact absurd h h3
        have hlt : axis.toNat < t.Shape.length := by omega
        have hg := getAt_of_lt t.Shape axis.toNat hlt
        rw [Int.toNat_of_nonneg hr.1] at hg
        simp only [hg]
        have hd : t.Shape.getD axis.toNat 0 = t.Shape[axis.toNat] := by
          simp [List.getD, List.getElem?_eq_getElem hlt]
        rw [hd]
        exact ⟨_, _, rfl⟩

/-- C12 (counterexample): the scalar 5 repeated with axis 2 and the single
repeat 3 panics, although the tensor is a scalar and the number of repeats is 1;
the vector `[1,2]` of shape (2) repeated along its axis 0 with the single
repeat -1 panics, although the axis exists and the number of repeats is 1; and
on the tensor of shape (-2,-3) over 0..5, which `NewTensor` accepts, the single
repeat 5 along axis 0 panics, which is not what no repeat at all gives. -/
theorem C12_counterexample :
    (∃ s v, NewTensor [.AsScalar 5] = .ok s ∧ s.IsScalar = true ∧
      s.Repeat 2 [3] = .error .goPanic ∧
      NewTensor [.WithBacking [1, 2]] = .ok v ∧ v.IsScalar = false ∧ v.Shape = [2] ∧
      v.axisExists 0 ∧ v.Repeat 0 [-1] = .error .goPanic) ∧
    (∃ w, NewTensor [.WithShape [-2, -3], .WithBacking (iota 6)] = .ok w ∧
      w.axisExists 0 ∧ w.axisSize 0 = -2 ∧ w.Repeat 0 [5] = .error .goPanic ∧
      w.Repeat 0 (List.replicate (w.axisSize 0).toNat 5) = .error .shapeMismatch) :=
  ⟨⟨_, _, rfl, rfl, rfl, rfl, rfl, rfl, Or.inr (Or.inl ⟨by decide, by decide⟩), rfl⟩,
   ⟨_, rfl, Or.inr (Or.inl ⟨by decide, by decide⟩), rfl, rfl, rfl⟩⟩

/-- C12 (as amended): `Repeat` fails in two ways only, a panic or a returned
ShapeMismatch. On a tensor that is not a scalar it panics when the axis is not
`AllAxes` and names no axis: `axis < -1`, or `axis ≥` the number of shape
entries other than axis 1 of a rank-1 vector; on a scalar it panics when the
axis is none of -1, 0 and 1 and one repeat is given. For a scalar, `AllAxes` or
an existing axis, it returns a ShapeMismatch error, and no tensor, exactly when
the number of repeats is neither 1 nor the size of the chosen axis (the total
size for `AllAxes`, 1 for a scalar and for axis 1 of a rank-1 vector); and on a
tensor whose shape holds no negative size a single repeat value `r` gives what
`r` given once per index of the axis gives. These are not all the panics:
repeats that make the new shape negative panic as well. -/
theorem C12_repeat_failures (t : Tensor) (axis : Int) (repeats : List Int) :
    (∀ e, t.Repeat axis repeats = .error e → e = .goPanic ∨ e = .shapeMismatch) ∧
    (t.IsScalar = false → axis ≠ AllAxes →
      (axis < -1 ∨ ((t.Shape.length : Int) ≤ axis ∧ ¬ (t.Shape.length = 1 ∧ axis = 1))) →
      t.Repeat axis repeats = .error .goPanic) ∧
    (t.IsScalar = true → axis ≠ AllAxes → axis ≠ 0 → axis ≠ 1 →
      ∀ r, t.Repeat axis [r] = .error .goPanic) ∧
    ((t.IsScalar = true ∨ t.axisExists axis) →
      (t.Repeat axis repeats = .error .shapeMismatch ↔
        (repeats.length ≠ 1 ∧ (repeats.length : Int) ≠ t.axisSize axis)) ∧
      ((∀ d ∈ t.Shape, 0 ≤ d) →
        ∀ r, t.Repeat axis [r] = t.Repeat axis (List.replicate (t.axisSize axis).toNat r))) := by
  refine ⟨fun e h => Tensor.Repeat_error_kind h, ?_, ?_, ?_⟩
  · intro hs _ hbad
    have hp := Tensor.repeatPrep_badAxis t axis hs hbad
    unfold Tensor.Repeat
    simp only [hp]
  · intro hs ha h0 h1 r
    have hp : t.repeatPrep axis = .ok (1, [0], axis) := by
      simp [Tensor.repeatPrep, ha, hs, h1]
    have hset : setAt [0] axis (SumInts [r]) = .error .goPanic := by
      unfold setAt
      have : ¬ (0 ≤ axis ∧ axis.toNat < ([0] : List Int).length) := by
        simp only [List.length_singleton, Nat.lt_one_iff]
        omega
      simp only [this, if_false]
    unfold Tensor.Repeat
    simp [hp, len, hset]
  · intro hax
    obtain ⟨sh, ax, hp⟩ := Tensor.repeatPrep_ok t axis hax
    constructor
    · rcases lt_or_le (t.axisSize axis) 0 with h0 | h0
      · exact Tensor.Repeat_negative_size t axis repeats _ sh ax hp h0
      · exact Tensor.Repeat_shapeMismatch_iff t axis repeats _ sh ax hp h0
    · intro hnn r
      obtain ⟨_, h0⟩ := Tensor.repeatPrep_size t axis hax hnn
      exact Tensor.Repeat_broadcast t axis r _ sh ax hp h0

/-- C12 (witness): shape (2,1) with axis 2 panics; shape (2,3) with axis 3
panics; shape (2,3,2) with axis 0 and three repeats returns a ShapeMismatch. -/
theorem C12_repeat_failures_witness :
    (Tensor.ofData [2, 1] [1, 2]).Repeat 2 [3] = .error .goPanic ∧
    (Tensor.ofData [2, 3] [1, 2, 3, 4, 5, 6]).Repeat 3 [3] = .error .goPanic ∧
    (Tensor.ofData [2, 3, 2] (iota 12)).Repeat 0 [1, 2, 1] = .error .shapeMismatch :=
  ⟨(C12_repeat_failures (Tensor.ofData [2, 1] [1, 2]) 2 [3]).2.1
      rfl (by decide) (Or.inr ⟨by decide, by decide⟩),
   (C12_repeat_failures (Tensor.ofData [2, 3] [1, 2, 3, 4, 5, 6]) 3 [3]).2.1
      rfl (by decide) (Or.inr ⟨by decide, by decide⟩),
   ((C12_repeat_failures (Tensor.ofData [2, 3, 2] (iota 12)) 0 [1, 2, 1]).2.2.2
      (Or.inr (Or.inr (Or.inl ⟨by decide, by decide⟩)))).1.2 ⟨by decide, by decide⟩⟩

/-! ## `Repeat` with runs of one element -/

theorem replicate_singleton_flatten (k : Nat) (x : Int) :
    (List.replicate k [x]).flatten = List.replicate k x := by
  induction k with
  | zero => rfl
  | succ k ih => simp [List.replicate_succ, ih]

theorem expandAxis_one (src : List Int) (S : Nat) (rs : List Int)
    (h : S + rs.length ≤ src.length) :
    expandAxis src 1 S rs = repeatEach (src.drop S) rs := by
  induction rs generalizing S with
  | nil => simp [expandAxis, repeatEach]
  | cons r rs ih =>
    simp only [List.length_cons] at h
    have hS : S < src.length := by omega
    have hd : src.drop S = src[S] :: src.drop (S + 1) := List.drop_eq_getElem_cons hS
    have hs : slab src S 1 = [src[S]] := by
      rw [slab, hd]; rfl
    rw [expandAxis, hs, replicate_singleton_flatten, ih (S + 1) (by omega), hd]
    simp only [repeatEach, List.zipWith_cons_cons, List.flatten_cons]

/-- The copy loops with stride 1 and one outer block write each element of the
source its count times, in order. -/
theorem repeat_flat (src repeats : List Int) (hlen : repeats.length = src.length)
    (hpos : ∀ r ∈ repeats, 0 < r) :
    ∃ D S, repeatI src repeats repeats.length 1 1 1 (List.replicate repeats.sum.toNat 0) 0 0
      = .ok (repeatEach src repeats, D, S) := by
  have hsum := sum_toNat_eq repeats hpos
  have hsn : (repeats.map Int.toNat).sum = repeats.sum.toNat := by omega
  obtain ⟨dst1, D1, S1, hr, hl, ht⟩ := repeatI_spec src repeats 1 (le_refl 1) 1 0
    (by omega) (List.replicate repeats.sum.toNat 0) 0 (by simp [hsn])
  simp only [Nat.cast_one, Nat.cast_zero] at hr
  refine ⟨D1, S1, ?_⟩
  rw [hr]
  have hl1 : dst1.length = (repeats.map Int.toNat).sum := by
    rw [hl, List.length_replicate, hsn]
  have e : dst1 = repeatEach src repeats := by
    have h1 : dst1.take (0 + 1 * ((repeats.map Int.toNat).sum * 1)) = dst1 :=
      List.take_of_length_le (by omega)
    rw [h1] at ht
    rw [ht]
    simp only [List.take_zero, List.nil_append, expandOuter, List.append_nil]
    rw [expandAxis_one src 0 repeats (by omega)]
    simp
  rw [e]

theorem broadcast_same (repeats : List Int) (size : Int) (h : (repeats.length : Int) = size) :
    (if repeats.length = 1 then List.replicate size.toNat (repeats.getD 0 0) else repeats)
      = repeats := by
  by_cases h1 : repeats.length = 1
  · obtain ⟨r0, rfl⟩ := List.length_eq_one.1 h1
    have : size = 1 := by rw [← h]; simp
    subst this
    simp
  · simp [h1]

/-- `Repeat(AllAxes, repeats)` with one positive count per element of the
buffer. -/
theorem Tensor.Repeat_allAxes (t : Tensor) (repeats : List Int)
    (hdata : len t.data = t.Size) (hlen : repeats.length = t.data.length)
    (hpos : ∀ r ∈ repeats, 1 ≤ r) :
    t.Repeat AllAxes repeats =
      .ok { ap := { shape := [repeats.sum], strides := [1], fin := true },
            data := repeatEach t.data repeats, old := none, transposeWith := none,
            viewOf := none } := by
  have hpos' : ∀ r ∈ repeats, 0 < r := fun r hr => by have := hpos r hr; omega
  have hsz : Shape.TotalSize t.ap.shape = (repeats.length : Int) := by
    have : len t.data = Shape.TotalSize t.ap.shape := hdata
    rw [← this, hlen]; rfl
  have h0 : (0 : Int) ≤ (repeats.length : Int) := by omega
  have hb := broadcast_eq repeats (repeats.length : Int) h0
  rw [broadcast_same repeats _ rfl] at hb
  simp only [Int.toNat_ofNat] at hb
  have hsum := sum_ge_length repeats hpos'
  have hR0 : 0 ≤ repeats.sum := by omega
  have hnew := NewTensor_withShape [repeats.sum] (by simp) (by simpa using hR0)
  have hv : Shape.IsVector [repeats.sum] = true := by simp [Shape.IsVector]
  have hcs : Shape.CalcStrides [repeats.sum] = [1] := by
    simp [Shape.CalcStrides, Shape.IsScalar, hv]
  have hsub : subSlice t.ap.shape 0 0 = .ok [] := by simp [subSlice]
  obtain ⟨D, S, hflat⟩ := repeat_flat t.data repeats hlen hpos'
  have hout : (if t.IsScalar = true then (.ok 1 : Except Err Int)
      else .ok (if ProdInts [] = 0 then 1 else ProdInts [])) = .ok 1 := by
    by_cases hs : t.IsScalar = true <;> simp [hs, ProdInts]
  have hset : setAt [(repeats.length : Int)] 0 repeats.sum = .ok [repeats.sum] := by
    simp [setAt]
  simp only [List.prod_singleton] at hnew
  unfold Tensor.Repeat
  simp only [Tensor.repeatPrep, if_true, Tensor.Shape, hsz, hb, len, ne_eq, not_true_eq_false,
    if_false, SumInts, hset, hnew, hsub, hv, hout, Int.toNat_ofNat, Int.toNat_one, hflat]
  rw [hcs]

/-! ## C13: `Repeat` over all axes -/

theorem repeatEach_ones (d : List Int) : repeatEach d (List.replicate d.length 1) = d := by
  induction d with
  | nil => rfl
  | cons x d ih =>
    simp only [repeatEach] at ih
    simp only [repeatEach, List.length_cons, List.replicate_succ, List.zipWith_cons_cons,
      List.flatten_cons, Int.toNat_one, List.replicate_zero, ih]
    rfl

/-- C13: on a tensor whose buffer `d` holds exactly the elements of its shape
(`n = len(d)` equals the total size; thunk or not), `Repeat(AllAxes, repeats)`
with `n` repeats, each at least 1, returns a rank-1 tensor of shape
`(r_0 + .. + r_n-1)` whose data is `d[0]` repeated `r_0` times, then `d[1]`
repeated `r_1` times, and so on in buffer order; a single repeat `r ≥ 1` is
broadcast to all `n` positions; and `Repeat(AllAxes, 1)` is the flattening,
shape `(n)` with data equal to `d`. -/
theorem C13_repeat_all_axes (t : Tensor) (hdata : len t.data = t.Size) :
    (∀ repeats : List Int, repeats.length = t.data.length → (∀ r ∈ repeats, 1 ≤ r) →
      ∃ v, t.Repeat AllAxes repeats = .ok v ∧ v.Shape = [repeats.sum] ∧
        v.data = repeatEach t.data repeats) ∧
    (∀ r : Int, 1 ≤ r →
      ∃ v, t.Repeat AllAxes [r] = .ok v ∧ v.Shape = [(t.data.length : Int) * r] ∧
        v.data = repeatEach t.data (List.replicate t.data.length r)) ∧
    (∃ v, t.Repeat AllAxes [1] = .ok v ∧ v.Shape = [(t.data.length : Int)] ∧
        v.data = t.data) := by
  have hp : t.repeatPrep AllAxes = .ok ((t.data.length : Int), [Shape.TotalSize t.Shape], 0) := by
    have : Shape.TotalSize t.Shape = (t.data.length : Int) := hdata.symm
    simp [Tensor.repeatPrep, this]
  have hbc : ∀ r : Int, 1 ≤ r →
      ∃ v, t.Repeat AllAxes [r] = .ok v ∧ v.Shape = [(t.data.length : Int) * r] ∧
        v.data = repeatEach t.data (List.replicate t.data.length r) := by
    intro r hr
    have hb := Tensor.Repeat_broadcast t AllAxes r _ _ _ hp (by omega)
    simp only [Int.toNat_ofNat] at hb
    have ha := Tensor.Repeat_allAxes t (List.replicate t.data.length r) hdata (by simp)
      (fun x hx => by rw [List.eq_of_mem_replicate hx]; exact hr)
    rw [hb, ha]
    refine ⟨_, rfl, ?_, rfl⟩
    simp [Tensor.Shape, List.sum_replicate]
  refine ⟨?_, hbc, ?_⟩
  · intro repeats hlen hpos
    exact ⟨_, Tensor.Repeat_allAxes t repeats hdata hlen hpos, rfl, rfl⟩
  · obtain ⟨v, h1, h2, h3⟩ := hbc 1 (le_refl 1)
    refine ⟨v, h1, ?_, ?_⟩
    · rw [h2]; simp
    · rw [h3, repeatEach_ones]

/-- C13 (witness): `[[1,2],[3,4]]` with repeats (1,2,1,1) gives shape (5) and
data `[1,2,2,3,4]`; the shapes (2,1), (1,2) and (2) over `[1,2]` with repeat 3
all give shape (6) and data `[1,1,1,2,2,2]`. -/
theorem C13_repeat_all_axes_witness :
    (∃ v, (Tensor.ofData [2, 2] [1, 2, 3, 4]).Repeat AllAxes [1, 2, 1, 1] = .ok v ∧
      v.Shape = [5] ∧ v.data = [1, 2, 2, 3, 4]) ∧
    (∃ v, (Tensor.ofData [2, 1] [1, 2]).Repeat AllAxes [3] = .ok v ∧
      v.Shape = [6] ∧ v.data = [1, 1, 1, 2, 2, 2]) ∧
    (∃ v, (Tensor.ofData [1, 2] [1, 2]).Repeat AllAxes [3] = .ok v ∧
      v.Shape = [6] ∧ v.data = [1, 1, 1, 2, 2, 2]) ∧
    (∃ v, (Tensor.ofData [2] [1, 2]).Repeat AllAxes [3] = .ok v ∧
      v.Shape = [6] ∧ v.data = [1, 1, 1, 2, 2, 2]) :=
  ⟨(C13_repeat_all_axes (Tensor.ofData [2, 2] [1, 2, 3, 4]) rfl).1 [1, 2, 1, 1] rfl
      (by decide),
   (C13_repeat_all_axes (Tensor.ofData [2, 1] [1, 2]) rfl).2.1 3 (by decide),
   (C13_repeat_all_axes (Tensor.ofData [1, 2] [1, 2]) rfl).2.1 3 (by decide),
   (C13_repeat_all_axes (Tensor.ofData [2] [1, 2]) rfl).2.1 3 (by decide)⟩

/-! ## C14: `Repeat` on a scalar -/

/-- C14: for a scalar tensor holding `v` and every `n ≥ 1`, `Repeat(0, n)`
returns without error a tensor of shape `(n)` whose data is `n` copies of `v`,
and `Repeat(1, n)` returns a tensor of shape `(1, n)` with the same data; the
result is a new tensor (of another shape than the source, and not a view).
`Repeat` only reads its receiver, which stays the scalar holding `v`. -/
theorem C14_repeat_scalar (t : Tensor) (v n : Int) (hs : t.IsScalar = true)
    (hd : t.data = [v]) (hn : 1 ≤ n) :
    (∃ r0, t.Repeat 0 [n] = .ok r0 ∧ r0.Shape = [n] ∧ r0.data = List.replicate n.toNat v ∧
      r0.IsView = false ∧ r0.Shape ≠ t.Shape) ∧
    (∃ r1, t.Repeat 1 [n] = .ok r1 ∧ r1.Shape = [1, n] ∧ r1.data = List.replicate n.toNat v ∧
      r1.IsView = false ∧ r1.Shape ≠ t.Shape) := by
  have hsh : t.Shape = [] := by
    have : Shape.IsScalar t.ap.shape = true := hs
    exact List.length_eq_zero.1 (by simpa [Shape.IsScalar] using this)
  have hn0 : 0 ≤ n := by omega
  have hnew0 := NewTensor_withShape [n] (by simp) (by simpa using hn0)
  have hnew1 := NewTensor_withShape [1, n] (by simp) (by simpa using hn0)
  simp only [List.prod_cons, List.prod_nil, mul_one, one_mul] at hnew0 hnew1
  obtain ⟨D, S, hflat⟩ := repeat_flat [v] [n] rfl (by simpa using hn)
  simp only [List.sum_cons, List.sum_nil, add_zero, List.length_singleton, repeatEach,
    List.zipWith_cons_cons, List.zipWith_nil_right, List.flatten_cons, List.flatten_nil,
    List.append_nil] at hflat
  have hv0 : Shape.IsVector [n] = true := by simp [Shape.IsVector]
  have hv1 : Shape.IsVector [1, n] = true := by simp [Shape.IsVector, Shape.IsRowVec]
  have ha0 : ¬ ((0 : Int) = AllAxes) := by decide
  have ha1 : ¬ ((1 : Int) = AllAxes) := by decide
  have hset0 : setAt [0] 0 n = .ok [n] := by simp [setAt]
  have hset1 : setAt [1, 0] 1 n = .ok [1, n] := by simp [setAt]
  constructor
  · refine ⟨⟨⟨[n], Shape.CalcStrides [n], true⟩, List.replicate n.toNat v, none, none, none⟩,
      ?_, rfl, rfl, rfl, ?_⟩
    · unfold Tensor.Repeat
      simp only [Tensor.repeatPrep, ha0, if_false, hs, if_true, zero_ne_one, List.length_singleton,
        Int.toNat_one, List.replicate_one, List.getD_cons_zero, len, Nat.cast_one, ne_eq,
        not_true_eq_false, SumInts, List.sum_cons, List.sum_nil, add_zero, hset0, hnew0, hv0, hd,
        hflat, show ¬ ((1 : Int) < 0) by decide]
    · rw [hsh]; simp [Tensor.Shape]
  · refine ⟨⟨⟨[1, n], Shape.CalcStrides [1, n], true⟩, List.replicate n.toNat v, none, none,
      none⟩, ?_, rfl, rfl, rfl, ?_⟩
    · unfold Tensor.Repeat
      simp only [Tensor.repeatPrep, ha1, if_false, hs, if_true, List.length_singleton,
        Int.toNat_one, List.replicate_one, List.getD_cons_zero, len, Nat.cast_one, ne_eq,
        not_true_eq_false, SumInts, List.sum_cons, List.sum_nil, add_zero, hset1, hnew1, hv1, hd,
        hflat, show ¬ ((1 : Int) < 0) by decide]
    · rw [hsh]; simp [Tensor.Shape]

/-- C14 (witness): the scalar 3 with `Repeat(0,3)`, `Repeat(1,3)` and
`Repeat(0,5)`. -/
theorem C14_repeat_scalar_witness :
    (∃ r0, (Tensor.ofData [] [3]).Repeat 0 [3] = .ok r0 ∧ r0.Shape = [3] ∧
      r0.data = [3, 3, 3] ∧ r0.IsView = false ∧ r0.Shape ≠ (Tensor.ofData [] [3]).Shape) ∧
    (∃ r1, (Tensor.ofData [] [3]).Repeat 1 [3] = .ok r1 ∧ r1.Shape = [1, 3] ∧
      r1.data = [3, 3, 3] ∧ r1.IsView = false ∧ r1.Shape ≠ (Tensor.ofData [] [3]).Shape) ∧
    (∃ r0, (Tensor.ofData [] [3]).Repeat 0 [5] = .ok r0 ∧ r0.Shape = [5] ∧
      r0.data = [3, 3, 3, 3, 3] ∧ r0.IsView = false ∧
      r0.Shape ≠ (Tensor.ofData [] [3]).Shape) :=
  ⟨(C14_repeat_scalar (Tensor.ofData [] [3]) 3 3 rfl rfl (by decide)).1,
   (C14_repeat_scalar (Tensor.ofData [] [3]) 3 3 rfl rfl (by decide)).2,
   (C14_repeat_scalar (Tensor.ofData [] [3]) 3 5 rfl rfl (by decide)).1⟩

/-! ## C15: `Reshape` -/

/-- C15 (counterexample): the 2x3 matrix over 0..5 is neither a view nor a
scalar; `Reshape(4,2)`, whose product 8 differs from the size 6, returns a
ShapeMismatch, and the tensor is then of shape (4,2) with strides (2,1), not
(2,3) with strides (3,1) as before the call. `Reshape()` with no dims, whose
product 1 differs from 6 as well, returns no error. -/
theorem C15_counterexample :
    ∃ t, NewTensor [.WithShape [2, 3], .WithBacking [0, 1, 2, 3, 4, 5]] = .ok t ∧
      t.IsView = false ∧ t.IsScalar = false ∧ t.Shape = [2, 3] ∧ t.Strides = [3, 1] ∧
      ([4, 2] : List Int).prod ≠ t.Size ∧
      (t.Reshape [4, 2]).2 = .error .shapeMismatch ∧
      (t.Reshape [4, 2]).1.Shape = [4, 2] ∧ (t.Reshape [4, 2]).1.Strides = [2, 1] ∧
      (t.Reshape [4, 2]).1.Shape ≠ t.Shape ∧ (t.Reshape [4, 2]).1.Strides ≠ t.Strides ∧
      ([] : List Int).prod ≠ t.Size ∧ (t.Reshape []).2 = .ok () :=
  ⟨_, rfl, rfl, rfl, rfl, rfl, by decide, rfl, rfl, rfl, by decide, by decide, by decide, rfl⟩

/-- C15 (as amended): for every tensor that is not a view and whose buffer
holds exactly its size, and every dims: `Reshape(dims)` leaves the data buffer
untouched and installs dims as the shape, with the strides of dims, whatever it
returns; if the product of dims equals the tensor's size it returns no error
and the total size is the same as before; if the product differs and dims is
not empty it returns a ShapeMismatch error (the new shape stays installed);
with no dims it returns no error. -/
theorem C15_reshape (t : Tensor) (dims : List Int) (hview : t.IsView = false)
    (hdata : len t.data = t.Size) :
    (t.Reshape dims).1.data = t.data ∧ (t.Reshape dims).1.Shape = dims ∧
    (t.Reshape dims).1.Strides = Shape.CalcStrides dims ∧
    (dims.prod = t.Size → (t.Reshape dims).2 = .ok () ∧ (t.Reshape dims).1.Size = t.Size) ∧
    (dims.prod ≠ t.Size → dims ≠ [] → (t.Reshape dims).2 = .error .shapeMismatch) ∧
    (dims = [] → (t.Reshape dims).2 = .ok ()) := by
  have hv : t.viewOf.isSome = false := hview
  have hsan : (t.Reshape dims).2 =
      if len t.data ≠ dims.prod ∧ (!Shape.IsScalar dims) = true then .error .shapeMismatch
      else .ok () := by
    simp [Tensor.Reshape, Tensor.sanity, sanityCheck, AP.Unlock, AP.SetShape, AP.Lock,
      Tensor.IsView, hv, Shape.TotalSize]
  refine ⟨rfl, ?_, ?_, ?_, ?_, ?_⟩
  · simp [Tensor.Reshape, Tensor.Shape, AP.Unlock, AP.SetShape, AP.Lock]
  · simp [Tensor.Reshape, Tensor.Strides, AP.Unlock, AP.SetShape, AP.Lock]
  · intro hp
    constructor
    · rw [hsan, hdata, hp]; simp
    · rw [← hp]
      simp [Tensor.Reshape, Tensor.Size, AP.Unlock, AP.SetShape, AP.Lock, Shape.TotalSize]
  · intro hp hne
    have hsc : Shape.IsScalar dims = false := by
      cases dims with
      | nil => exact absurd rfl hne
      | cons a s => simp [Shape.IsScalar]
    rw [hsan, hdata]
    have : ¬ (t.Size = dims.prod) := fun h => hp h.symm
    simp [this, hsc]
  · intro he
    rw [hsan, he]
    simp [Shape.IsScalar]

/-- C15 (witness): the 2x3 matrix over 0..5 reshaped to (3,2), and to (4,2). -/
theorem C15_reshape_witness :
    ((Tensor.ofData [2, 3] [0, 1, 2, 3, 4, 5]).Reshape [3, 2]).2 = .ok () ∧
    ((Tensor.ofData [2, 3] [0, 1, 2, 3, 4, 5]).Reshape [3, 2]).1.data = [0, 1, 2, 3, 4, 5] ∧
    ((Tensor.ofData [2, 3] [0, 1, 2, 3, 4, 5]).Reshape [3, 2]).1.Shape = [3, 2] ∧
    ((Tensor.ofData [2, 3] [0, 1, 2, 3, 4, 5]).Reshape [4, 2]).2 = .error .shapeMismatch :=
  ⟨((C15_reshape (Tensor.ofData [2, 3] [0, 1, 2, 3, 4, 5]) [3, 2] rfl rfl).2.2.2.1
      (by decide)).1,
   rfl, rfl,
   (C15_reshape (Tensor.ofData [2, 3] [0, 1, 2, 3, 4, 5]) [4, 2] rfl rfl).2.2.2.2.1
      (by decide) (by decide)⟩

/-! ## Construction -/

/-- What a successful `NewTensor` returns: the fixed construction state, which
passed the sanity check. -/
theorem NewTensor_ok {opts : List ConsOpt} {t : Tensor} (h : NewTensor opts = .ok t) :
    ∃ c1 : Cons, Cons.fix (opts.foldl (fun (c : Cons) (o : ConsOpt) => o.run c)
        ({ ap := AP.new, data := none } : Cons)) = .ok c1 ∧
      sanityCheck c1.ap c1.data false = .ok () ∧
      t = { ap := c1.ap, data := c1.data.getD [], old := none, transposeWith := none,
            viewOf := none } := by
  unfold NewTensor at h
  simp only at h
  split at h
  · simp at h
  · rename_i c1 hc1
    split at h
    · simp at h
    · rename_i u hu
      simp only [Except.ok.injEq] at h
      exact ⟨c1, hc1, hu, h.symm⟩

theorem NewTensor_shape_backing (dims b : List Int) (hne : dims ≠ []) :
    NewTensor [.WithShape dims, .WithBacking b] =
      (if len b = dims.prod then .ok (Tensor.ofData dims b) else .error .goPanic) ∧
    NewTensor [.WithBacking b, .WithShape dims] =
      (if len b = dims.prod then .ok (Tensor.ofData dims b) else .error .goPanic) := by
  have hsc : Shape.IsScalar dims = false := by
    cases dims with
    | nil => exact absurd rfl hne
    | cons a s => simp [Shape.IsScalar]
  by_cases hl : len b = dims.prod
  · simp [NewTensor, ConsOpt.run, AP.new, AP.Unlock, AP.SetShape, AP.Lock, Cons.fix, hne,
      Shape.TotalSize, sanityCheck, hsc, hl, Tensor.ofData]
  · simp [NewTensor, ConsOpt.run, AP.new, AP.Unlock, AP.SetShape, AP.Lock, Cons.fix, hne,
      Shape.TotalSize, sanityCheck, hsc, hl, Tensor.ofData]

/-! ## C16: construction from a shape and a backing buffer -/

/-- C16: for non-empty dims and a backing buffer `b`,
`NewTensor(WithShape(dims), WithBacking(b))` (in either order of the options)
returns a tensor with shape dims, the row-major strides `calc_strides(dims)`,
data `b` and a locked access pattern when `len(b)` equals the product of dims;
when it does not, the sanity check reports a ShapeMismatch and `NewTensor`
panics. Consequently every tensor returned by `NewTensor` that is not a scalar
satisfies `len(data) =` total size of its shape. -/
theorem C16_newTensor_checks_backing (dims b : List Int) (hne : dims ≠ []) :
    (len b = dims.prod →
      ∃ t, NewTensor [.WithShape dims, .WithBacking b] = .ok t ∧ t.Shape = dims ∧
        t.Strides = Shape.CalcStrides dims ∧
        (Shape.IsVector dims = false → t.Strides = rowMajor dims) ∧
        t.data = b ∧ t.ap.fin = true) ∧
    (len b ≠ dims.prod →
      NewTensor [.WithShape dims, .WithBacking b] = .error .goPanic ∧
      sanityCheck (NewAP dims (Shape.CalcStrides dims)) (some b) false
        = .error .shapeMismatch) ∧
    NewTensor [.WithBacking b, .WithShape dims] = NewTensor [.WithShape dims, .WithBacking b] ∧
    (∀ opts t, NewTensor opts = .ok t → t.IsScalar = false → len t.data = t.Size) := by
  obtain ⟨h1, h2⟩ := NewTensor_shape_backing dims b hne
  have hsc : Shape.IsScalar dims = false := by
    cases dims with
    | nil => exact absurd rfl hne
    | cons a s => simp [Shape.IsScalar]
  refine ⟨?_, ?_, by rw [h1, h2], ?_⟩
  · intro hl
    refine ⟨Tensor.ofData dims b, by rw [h1]; simp [hl], rfl, rfl, ?_, rfl, rfl⟩
    intro hv
    exact Shape.calcStrides_of_not_vector hv
  · intro hl
    refine ⟨by rw [h1]; simp [hl], ?_⟩
    simp [sanityCheck, NewAP, hne, Shape.TotalSize, hl, hsc]
  · intro opts t h hns
    obtain ⟨c1, _, hs, ht⟩ := NewTensor_ok h
    have hns1 : Shape.IsScalar c1.ap.shape = false := by
      rw [ht] at hns; exact hns
    rw [ht]
    simp only [Tensor.Size]
    by_contra hx
    unfold sanityCheck at hs
    split at hs
    · simp at hs
    · simp [hx, hns1] at hs

/-- C16 (witness): shape (2,3) over six elements is built, over five elements
`NewTensor` panics. -/
theorem C16_newTensor_checks_backing_witness :
    (∃ t, NewTensor [.WithShape [2, 3], .WithBacking [1, 2, 3, 4, 5, 6]] = .ok t ∧
      t.Shape = [2, 3] ∧ t.Strides = Shape.CalcStrides [2, 3] ∧
      (Shape.IsVector [2, 3] = false → t.Strides = rowMajor [2, 3]) ∧
      t.data = [1, 2, 3, 4, 5, 6] ∧ t.ap.fin = true) ∧
    NewTensor [.WithShape [2, 3], .WithBacking [1, 2, 3, 4, 5]] = .error .goPanic :=
  ⟨(C16_newTensor_checks_backing [2, 3] [1, 2, 3, 4, 5, 6] (by decide)).1 (by decide),
   ((C16_newTensor_checks_backing [2, 3] [1, 2, 3, 4, 5] (by decide)).2.1 (by decide)).1⟩

/-! ## C17: what `NewTensor` fills in -/

/-- The access pattern of a tensor that `NewTensor` returns is locked. -/
theorem NewTensor_locked {opts : List ConsOpt} {t : Tensor} (h : NewTensor opts = .ok t) :
    t.ap.fin = true := by
  obtain ⟨c1, hf, hs, ht⟩ := NewTensor_ok h
  rw [ht]
  simp only
  generalize List.foldl (fun (c : Cons) (o : ConsOpt) => o.run c)
    ({ ap := AP.new, data := none } : Cons) opts = c at hf
  unfold Cons.fix at hf
  simp only at hf
  split at hf
  · rename_i hn
    simp only [Except.ok.injEq] at hf
    subst hf
    exfalso
    split at hn
    · rename_i hsh
      split at hn
      · rename_i hd
        simp [sanityCheck, hsh, hd] at hs
      · split at hn <;> simp at hn
    · simp at hn
  · split at hf
    · split at hf
      · simp at hf
      · simp only [Except.ok.injEq] at hf
        rw [← hf]; rfl
    · simp only [Except.ok.injEq] at hf
      rw [← hf]; rfl

/-- C17 (counterexample): `NewTensor(WithShape())`, with no dims, panics: the
shape is as absent as the buffer, `fix` returns at once and the sanity check
reports an empty tensor; no tensor with an empty shape and one zero is
returned. `NewTensor(WithShape(-1))` panics as well, in `make`. -/
theorem C17_counterexample :
    NewTensor [.WithShape []] = .error .goPanic ∧
    (ConsOpt.run (.WithShape []) { ap := AP.new, data := none }).ap.shape = [] ∧
    Cons.fix (ConsOpt.run (.WithShape []) { ap := AP.new, data := none })
      = .ok { ap := ⟨[], [], true⟩, data := none } ∧
    sanityCheck ⟨[], [], true⟩ none false = .error .emptyTensor ∧
    NewTensor [.WithShape [-1]] = .error .goPanic :=
  ⟨rfl, rfl, rfl, rfl, rfl⟩

/-- C17 (as amended): with only `WithBacking(b)`, `NewTensor` returns a scalar
(empty shape) when `len(b) = 1` and otherwise a rank-1 tensor of shape
`(len(b))` with strides `[1]`, in both cases with data `b`; with only
`WithShape(dims)`, for at least one dim and a product of the dims that is not
negative, it returns a tensor of shape dims whose buffer is exactly
product-of-dims zeros; and the access pattern of every tensor that `NewTensor`
returns is locked. -/
theorem C17_newTensor_fills_in (b dims : List Int) :
    (len b = 1 → ∃ t, NewTensor [.WithBacking b] = .ok t ∧ t.Shape = [] ∧
      t.IsScalar = true ∧ t.data = b ∧ t.ap.fin = true) ∧
    (len b ≠ 1 → ∃ t, NewTensor [.WithBacking b] = .ok t ∧ t.Shape = [len b] ∧
      t.Strides = [1] ∧ t.data = b ∧ t.ap.fin = true) ∧
    (dims ≠ [] → 0 ≤ dims.prod →
      ∃ t, NewTensor [.WithShape dims] = .ok t ∧ t.Shape = dims ∧
        t.data = List.replicate dims.prod.toNat 0 ∧ len t.data = dims.prod ∧
        t.ap.fin = true) ∧
    (∀ opts t, NewTensor opts = .ok t → t.ap.fin = true) := by
  refine ⟨?_, ?_, ?_, fun opts t h => NewTensor_locked h⟩
  · intro h1
    refine ⟨⟨⟨[], [], true⟩, b, none, none, none⟩, ?_, rfl, rfl, rfl, rfl⟩
    simp [NewTensor, ConsOpt.run, AP.new, AP.SetShape, AP.Lock, Cons.fix, h1, sanityCheck,
      Shape.CalcStrides, Shape.IsScalar]
  · intro h1
    refine ⟨⟨⟨[len b], [1], true⟩, b, none, none, none⟩, ?_, rfl, rfl, rfl, rfl⟩
    simp [NewTensor, ConsOpt.run, AP.new, AP.SetShape, AP.Lock, Cons.fix, h1, sanityCheck,
      Shape.CalcStrides, Shape.IsScalar, Shape.IsVector, Shape.TotalSize]
  · intro hne hp
    refine ⟨_, NewTensor_withShape dims hne hp, rfl, rfl, ?_, rfl⟩
    simp [len, Int.toNat_of_nonneg hp]

/-- C17 (witness): `WithBacking([7])` gives a scalar, `WithBacking([1,2,3])` the
vector of shape (3), `WithShape(2,3)` six zeros. -/
theorem C17_newTensor_fills_in_witness :
    (∃ t, NewTensor [.WithBacking [7]] = .ok t ∧ t.Shape = [] ∧
      t.IsScalar = true ∧ t.data = [7] ∧ t.ap.fin = true) ∧
    (∃ t, NewTensor [.WithBacking [1, 2, 3]] = .ok t ∧ t.Shape = [3] ∧
      t.Strides = [1] ∧ t.data = [1, 2, 3] ∧ t.ap.fin = true) ∧
    (∃ t, NewTensor [.WithShape [2, 3]] = .ok t ∧ t.Shape = [2, 3] ∧
      t.data = [0, 0, 0, 0, 0, 0] ∧ len t.data = 6 ∧ t.ap.fin = true) :=
  ⟨(C17_newTensor_fills_in [7] [2, 3]).1 (by decide),
   (C17_newTensor_fills_in [1, 2, 3] [2, 3]).2.1 (by decide),
   (C17_newTensor_fills_in [7] [2, 3]).2.2.1 (by decide) (by decide)⟩

/-! ## Equality, cloning and copying -/

theorem goCopy_of_length_eq (dst src : List Int) (h : dst.length = src.length) :
    goCopy dst src = src := by
  simp [goCopy, h]

/-- The comparison of `float32` elements is symmetric. -/
theorem f32Ne_comm (a b : Int) : f32Ne a b = f32Ne b a := by
  unfold f32Ne
  have e : (f32Bits a = f32Bits b) = (f32Bits b = f32Bits a) := propext eq_comm
  simp only [e]
  cases f32IsNaN a <;> cases f32IsNaN b <;> cases f32IsZero a <;> cases f32IsZero b <;> rfl

/-- An element is unequal to itself exactly when it is a NaN. -/
theorem f32Ne_self (a : Int) : f32Ne a a = f32IsNaN a := by
  unfold f32Ne
  cases f32IsNaN a <;> cases f32IsZero a <;> simp

/-- No pair of elements at the same index is unequal. -/
theorem all_not_zipWith_iff (xs ys : List Int) :
    (List.zipWith f32Ne xs ys).all (fun c => !c) = true ↔
      ∀ (i : Nat) (x y : Int), xs[i]? = some x → ys[i]? = some y → f32Ne x y = false := by
  induction xs generalizing ys with
  | nil => simp
  | cons x xs ih =>
    cases ys with
    | nil => simp
    | cons y ys =>
      simp only [List.zipWith_cons_cons, List.all_cons, Bool.and_eq_true, Bool.not_eq_true', ih]
      constructor
      · rintro ⟨h0, h1⟩ i a b ha hb
        cases i with
        | zero =>
          simp only [List.getElem?_cons_zero, Option.some.injEq] at ha hb
          rw [← ha, ← hb]; exact h0
        | succ i =>
          simp only [List.getElem?_cons_succ] at ha hb
          exact h1 i a b ha hb
      · intro h
        exact ⟨h 0 x y (by simp) (by simp), fun i a b ha hb => h (i + 1) a b (by simpa using ha)
          (by simpa using hb)⟩

theorem all_not_zipWith_self (xs : List Int) (h : ∀ x ∈ xs, f32IsNaN x = false) :
    (List.zipWith f32Ne xs xs).all (fun c => !c) = true := by
  rw [all_not_zipWith_iff]
  intro i x y hx hy
  rw [hx] at hy
  simp only [Option.some.injEq] at hy
  subst hy
  rw [f32Ne_self]
  obtain ⟨hi, hx'⟩ := List.getElem?_eq_some_iff.1 hx
  exact h x (hx' ▸ List.getElem_mem hi)

theorem eqLoop_spec (od : List Int) (i : Nat) (vs : List Int) (h : i + vs.length ≤ od.length) :
    eqLoop od i vs = .ok ((List.zipWith f32Ne (od.drop i) vs).all (fun c => !c)) := by
  induction vs generalizing i with
  | nil => simp [eqLoop]
  | cons v vs ih =>
    simp only [List.length_cons] at h
    have hi : i < od.length := by omega
    have hd : od.drop i = od[i] :: od.drop (i + 1) := List.drop_eq_getElem_cons hi
    unfold eqLoop
    simp only [getAt_of_lt od i hi]
    rw [hd]
    by_cases hv : f32Ne od[i] v = true
    · simp only [hv, if_true, List.zipWith_cons_cons, List.all_cons, Bool.not_true,
        Bool.false_and]
    · have hv' : f32Ne od[i] v = false := by simpa using hv
      simp only [hv', Bool.false_eq_true, if_false, List.zipWith_cons_cons, List.all_cons,
        Bool.not_false, Bool.true_and]
      exact ih (i + 1) (by omega)

/-- The value `Eq` returns: true on the receiver itself, and otherwise whether
the buffers have one length, no pair of elements is unequal and the shapes are
equal. -/
theorem Tensor.Eq_eq (a b : Tensor) (same : Bool) :
    a.Eq b same = .ok (same || (decide (b.data.length = a.data.length) &&
      (List.zipWith f32Ne b.data a.data).all (fun c => !c) && decide (a.Shape = b.Shape))) := by
  unfold Tensor.Eq
  by_cases hs : same = true
  · simp [hs]
  · have hs' : same = false := by simpa using hs
    simp only [hs', Bool.false_eq_true, if_false, Bool.false_or]
    by_cases hl : len b.data = len a.data
    · have hl' : b.data.length = a.data.length := by simpa [len] using hl
      have he := eqLoop_spec b.data 0 a.data (by omega)
      simp only [List.drop_zero] at he
      simp only [hl, ne_eq, not_true_eq_false, if_false, he, hl', decide_True, Bool.true_and]
      cases hz : (List.zipWith f32Ne b.data a.data).all (fun c => !c)
      · simp
      · by_cases hsh : a.Shape = b.Shape <;> simp [hsh, Shape.Eq]
    · have hl' : ¬ (b.data.length = a.data.length) := fun h => hl (by simp [len, h])
      simp [hl, hl']

/-! ## Buffers in memory -/

theorem getD_set_of_ne (l : List (List Int)) (i j : Nat) (x : List Int) (hne : i ≠ j) :
    (l.set i x).getD j [] = l.getD j [] := by
  simp [List.getD_eq_getElem?_getD, List.getElem?_set_ne hne]

theorem getD_set_self (l : List (List Int)) (i : Nat) (x : List Int) (hi : i < l.length) :
    (l.set i x).getD i [] = x := by
  simp [List.getD_eq_getElem?_getD, List.getElem?_set_self, hi]

theorem getD_append_of_lt (l l2 : List (List Int)) (i : Nat) (hi : i < l.length) :
    (l ++ l2).getD i [] = l.getD i [] := by
  simp [List.getD_eq_getElem?_getD, List.getElem?_append_left hi]

theorem getD_append_length (l : List (List Int)) (x : List Int) :
    (l ++ [x]).getD l.length [] = x := by
  simp [List.getD_eq_getElem?_getD]

/-- A slice value that lies in the memory has as many elements as its length
says. -/
theorem Heap.read_length (h : Heap) (b : Buf) (hb : h.holds b) : (h.read b).length = b.len := by
  have := hb.2
  simp only [Heap.read, List.length_take, List.length_drop]
  omega

/-- What `Clone` leaves in memory: the receiver's buffer as it was, and a buffer
in a new array that holds the same elements. -/
theorem Tensor.CloneIn_spec (t : Tensor) (h : Heap) (tb : Buf) (hb : h.holds tb)
    (hd : h.read tb = t.data) :
    (t.CloneIn h tb).2.2 = ⟨h.arrays.length, 0, tb.len⟩ ∧
    (t.CloneIn h tb).1.arrays = h.arrays ++ [t.data] := by
  have hlen : t.data.length = tb.len := by rw [← hd]; exact Heap.read_length h tb hb
  have hr : (h.make tb.len).1.read tb = t.data := by
    rw [← hd]
    simp only [Heap.read, Heap.make, getD_append_of_lt _ _ _ hb.1]
  refine ⟨rfl, ?_⟩
  simp only [Tensor.CloneIn, Heap.copy, hr]
  simp only [Heap.make, getD_append_length, Nat.min_self, List.take_zero, List.nil_append,
    Nat.zero_add, List.drop_replicate, Nat.sub_self, List.replicate_zero, List.append_nil]
  rw [← hlen, List.take_length]
  have : h.arrays.length = h.arrays.length + 0 := rfl
  rw [List.set_append_right _ _ (le_refl _)]
  simp

/-! ## C18: `Clone` -/

/-- C18 (counterexample): the vector built over the two `float32` elements NaN
(bit pattern `0x7FC00000`) and 1.0 is cloned with the same shape and the same
element sequence, yet `t.Clone().Eq(t)` is false: the loop of `Eq` compares the
NaN of the clone with the NaN of `t`, and `!=` holds between them. -/
theorem C18_counterexample :
    ∃ t, NewTensor [.WithBacking [2143289344, 1065353216]] = .ok t ∧
      f32IsNaN 2143289344 = true ∧ t.Clone.Shape = t.Shape ∧ t.Clone.data = t.data ∧
      t.Clone.Eq t false = .ok false :=
  ⟨_, rfl, rfl, rfl, rfl, rfl⟩

/-- C18 (as amended): for every tensor `t` (view or not, with or without a
pending thunk), `t.Clone()` has the same shape, the same strides, the same
saved shape and strides and the same element sequence as `t`; when no element
of `t` is a NaN, `t.Clone().Eq(t)` is true; `IsView()` is false on the clone,
which has no parent and a locked access pattern. With the buffer of `t` placed
in a memory of backing arrays, `Clone` leaves that buffer as it is and puts the
clone's buffer into a new array: a write to any element of the clone changes
that element of the clone and leaves the elements of `t` unchanged. -/
theorem C18_clone_equals_source (t : Tensor) :
    t.Clone.Shape = t.Shape ∧ t.Clone.Strides = t.Strides ∧
    t.Clone.oshape = t.oshape ∧ t.Clone.ostrides = t.ostrides ∧
    t.Clone.data = t.data ∧
    ((∀ x ∈ t.data, f32IsNaN x = false) → t.Clone.Eq t false = .ok true) ∧
    t.Clone.IsView = false ∧ t.Clone.viewOf = none ∧ t.Clone.ap.fin = true ∧
    (∀ (h : Heap) (tb : Buf), h.holds tb → h.read tb = t.data →
      (t.CloneIn h tb).2.1 = t.Clone ∧ (t.CloneIn h tb).2.2.arr ≠ tb.arr ∧
      (t.CloneIn h tb).1.read tb = t.data ∧
      (t.CloneIn h tb).1.read (t.CloneIn h tb).2.2 = t.data ∧
      ∀ (i : Nat) (v : Int), i < t.data.length →
        ∃ h1, (t.CloneIn h tb).1.store (t.CloneIn h tb).2.2 i v = .ok h1 ∧
          h1.read (t.CloneIn h tb).2.2 = t.data.set i v ∧ h1.read tb = t.data) := by
  have hd : t.Clone.data = t.data := goCopy_of_length_eq _ _ (by simp)
  have hs : t.Clone.Shape = t.Shape := rfl
  refine ⟨hs, rfl, ?_, ?_, hd, ?_, rfl, rfl, rfl, ?_⟩
  · cases h : t.old <;> simp [Tensor.oshape, Tensor.Clone, h, AP.Clone, AP.Lock]
  · cases h : t.old <;> simp [Tensor.ostrides, Tensor.Clone, h, AP.Clone, AP.Lock]
  · intro hn
    rw [Tensor.Eq_eq, hd, hs, all_not_zipWith_self _ hn]
    simp
  · intro h tb hb hr
    obtain ⟨e1, e2⟩ := Tensor.CloneIn_spec t h tb hb hr
    have hlen : t.data.length = tb.len := by rw [← hr]; exact Heap.read_length h tb hb
    have hne : h.arrays.length ≠ tb.arr := by have := hb.1; omega
    have r1 : (t.CloneIn h tb).1.read tb = t.data := by
      rw [← hr]
      simp only [Heap.read, e2, getD_append_of_lt _ _ _ hb.1]
    have r2 : (t.CloneIn h tb).1.read (t.CloneIn h tb).2.2 = t.data := by
      rw [e1]
      simp only [Heap.read, e2, getD_append_length, List.drop_zero, ← hlen, List.take_length]
    refine ⟨?_, ?_, r1, r2, ?_⟩
    · have : (t.CloneIn h tb).2.1.data = t.Clone.data := by
        rw [hd, ← r2]; rfl
      cases t with
      | mk ap data old tw vo =>
        simp only [Tensor.CloneIn, Tensor.Clone] at this ⊢
        rw [this]
    · rw [e1]; exact hne
    · intro i v hi
      rw [e1]
      have hst : (t.CloneIn h tb).1.store ⟨h.arrays.length, 0, tb.len⟩ i v
          = .ok ⟨(h.arrays ++ [t.data]).set h.arrays.length (t.data.set i v)⟩ := by
        have hi2 : i < tb.len := by omega
        simp only [Heap.store, hi2, if_true, e2, getD_append_length, Nat.zero_add]
      refine ⟨_, hst, ?_, ?_⟩
      · simp only [Heap.read, List.drop_zero]
        rw [getD_set_self _ _ _ (by simp)]
        rw [← hlen]
        exact List.take_of_length_le (by simp)
      · rw [← hr]
        simp only [Heap.read]
        rw [getD_set_of_ne _ _ _ _ hne, getD_append_of_lt _ _ _ hb.1]

/-- C18 (witness): the 2x2 tensor over the `float32` elements 1.0, 2.0, 3.0 and
4.0, its buffer being the second array of the memory. -/
theorem C18_clone_witness :
    (Tensor.ofData [2, 2] [1065353216, 1073741824, 1077936128, 1082130432]).Clone.Eq
        (Tensor.ofData [2, 2] [1065353216, 1073741824, 1077936128, 1082130432]) false
      = .ok true ∧
    ∃ h1, ((Tensor.ofData [2, 2] [1065353216, 1073741824, 1077936128, 1082130432]).CloneIn
          ⟨[[7], [1065353216, 1073741824, 1077936128, 1082130432]]⟩ ⟨1, 0, 4⟩).1.store
        ((Tensor.ofData [2, 2] [1065353216, 1073741824, 1077936128, 1082130432]).CloneIn
          ⟨[[7], [1065353216, 1073741824, 1077936128, 1082130432]]⟩ ⟨1, 0, 4⟩).2.2 2 0
        = .ok h1 ∧
      h1.read ((Tensor.ofData [2, 2] [1065353216, 1073741824, 1077936128,
          1082130432]).CloneIn
          ⟨[[7], [1065353216, 1073741824, 1077936128, 1082130432]]⟩ ⟨1, 0, 4⟩).2.2
        = [1065353216, 1073741824, 0, 1082130432] ∧
      h1.read ⟨1, 0, 4⟩ = [1065353216, 1073741824, 1077936128, 1082130432] :=
  ⟨(C18_clone_equals_source
      (Tensor.ofData [2, 2] [1065353216, 1073741824, 1077936128, 1082130432])).2.2.2.2.2.1
      (by decide),
   ((C18_clone_equals_source
      (Tensor.ofData [2, 2] [1065353216, 1073741824, 1077936128, 1082130432])).2.2.2.2.2.2.2.2.2
      ⟨[[7], [1065353216, 1073741824, 1077936128, 1082130432]]⟩ ⟨1, 0, 4⟩
      ⟨by decide, by decide⟩ rfl).2.2.2.2 2 0 (by decide)⟩

/-! ## C19: `Eq` -/

/-- C19 (counterexample): two tensors built over the one `float32` element NaN
(bit pattern `0x7FC00000`) have buffers of the same length holding the same
element, and the same shape. `a.Eq(a)` is true although the element is unequal
to itself under `!=`, and `a.Eq(b)` is false although `b` holds what `a`
holds. -/
theorem C19_counterexample :
    ∃ a b, NewTensor [.WithBacking [2143289344]] = .ok a ∧
      NewTensor [.WithBacking [2143289344]] = .ok b ∧
      f32IsNaN 2143289344 = true ∧ a.data = [2143289344] ∧
      f32Ne 2143289344 2143289344 = true ∧ a.Eq a true = .ok true ∧
      a.data.length = b.data.length ∧ a.data = b.data ∧ a.Shape = b.Shape ∧
      a.Eq b false = .ok false :=
  ⟨_, _, rfl, rfl, rfl, rfl, rfl, rfl, rfl, rfl, rfl, rfl⟩

/-- C19 (as amended): for every two tensors `a` and `b` of the `float32` element
type (`same` telling whether `b` is `a` itself), `a.Eq(b)` returns. For `b`
another tensor than `a` it is true exactly when the buffers have the same
length, no two elements at the same index are unequal under the `!=` of
`float32` (under which a NaN is unequal to itself and the two zeros are equal),
and the shapes are equal axis by axis; so a tensor without a NaN equals every
other tensor that holds the same elements in the same shape. `a.Eq(a)` is true
for every `a`, and `Eq` is symmetric. -/
theorem C19_eq_compares_data_and_shape (a b : Tensor) (same : Bool) :
    (∃ r, a.Eq b same = .ok r) ∧
    (a.Eq b false = .ok true ↔
      a.data.length = b.data.length ∧
      (∀ (i : Nat) (x y : Int), b.data[i]? = some x → a.data[i]? = some y →
        f32Ne x y = false) ∧
      a.Shape = b.Shape) ∧
    ((∀ x ∈ a.data, f32IsNaN x = false) → b.data = a.data → b.Shape = a.Shape →
      a.Eq b false = .ok true) ∧
    a.Eq a true = .ok true ∧
    a.Eq b same = b.Eq a same := by
  refine ⟨⟨_, Tensor.Eq_eq a b same⟩, ?_, ?_, ?_, ?_⟩
  · rw [Tensor.Eq_eq]
    simp only [Bool.false_or, Except.ok.injEq, Bool.and_eq_true, decide_eq_true_eq,
      all_not_zipWith_iff]
    constructor
    · rintro ⟨⟨h1, h2⟩, h3⟩
      exact ⟨h1.symm, h2, h3⟩
    · rintro ⟨h1, h2, h3⟩
      exact ⟨⟨h1.symm, h2⟩, h3⟩
  · intro hn hd hsh
    rw [Tensor.Eq_eq, hd, hsh, all_not_zipWith_self _ hn]
    simp
  · rw [Tensor.Eq_eq]; simp
  · rw [Tensor.Eq_eq, Tensor.Eq_eq]
    have e1 : (b.data.length = a.data.length) = (a.data.length = b.data.length) :=
      propext eq_comm
    have e2 : (a.Shape = b.Shape) = (b.Shape = a.Shape) := propext eq_comm
    have e3 : List.zipWith f32Ne b.data a.data = List.zipWith f32Ne a.data b.data := by
      rw [List.zipWith_comm]
      congr 1
      funext x y
      exact f32Ne_comm y x
    simp only [e1, e2, e3]

/-- C19 (witness): the vector over 1.0, 2.0 of shape (2) and the row vector over
the same elements of shape (1,2) are not equal; two tensors over 1.0, 2.0 of
shape (2) are. -/
theorem C19_eq_witness :
    (Tensor.ofData [2] [1065353216, 1073741824]).Eq
        (Tensor.ofData [1, 2] [1065353216, 1073741824]) false = .ok false ∧
    (Tensor.ofData [2] [1065353216, 1073741824]).Eq
        (Tensor.ofData [2] [1065353216, 1073741824]) false = .ok true :=
  ⟨rfl, (C19_eq_compares_data_and_shape (Tensor.ofData [2] [1065353216, 1073741824])
      (Tensor.ofData [2] [1065353216, 1073741824]) false).2.2.1 (by decide) rfl rfl⟩

/-! ## C20: `CopyTo` -/

/-- A copy to a destination that does not overlap the source leaves the source
as it is. -/
theorem copyOverlap_apart (xs : List Int) (shift : Option Int) (k : Nat)
    (h : ∀ d, shift = some d → (xs.length : Int) ≤ d ∨ d + (k : Int) ≤ 0) :
    copyOverlap xs shift k = xs := by
  cases shift with
  | none => rfl
  | some d =>
    have hd := h d rfl
    apply List.ext_getElem
    · simp [copyOverlap]
    · intro n h1 h2
      have hn : n < xs.length := by simpa [copyOverlap] using h1
      have hc : ¬ (d ≤ (n : Int) ∧ (n : Int) < d + (k : Int)) := by omega
      simp [copyOverlap, hc, List.getD_eq_getElem?_getD, List.getElem?_eq_getElem hn]

/-- C20 (counterexample): the scalar 7 and the tensor
`NewTensor(AsScalar(5), WithBacking([1,2,3]))` are distinct, not views and both
of size 1; after `CopyTo` the buffer of the second is `[7,2,3]`, which is not
the buffer `[7]` of the first. The tensors built over `b[0:3]` and `b[1:4]` of
`b = [1,2,3,4]` are distinct, not views and both of size 3; `CopyTo` from the
first to the second writes `b[1:4]`, after which the first holds `[1,1,2]`, not
`[1,2,3]`. -/
theorem C20_counterexample :
    (∃ s o r, NewTensor [.AsScalar 7] = .ok s ∧
      NewTensor [.AsScalar 5, .WithBacking [1, 2, 3]] = .ok o ∧
      s.IsView = false ∧ o.IsView = false ∧ s.Size = 1 ∧ o.Size = 1 ∧
      s.CopyTo o false none = .ok r ∧ r.2.data = [7, 2, 3] ∧ s.data = [7] ∧
      r.2.data ≠ s.data) ∧
    (∃ t o r, NewTensor [.WithBacking [1, 2, 3]] = .ok t ∧
      NewTensor [.WithBacking [2, 3, 4]] = .ok o ∧
      t.IsView = false ∧ o.IsView = false ∧ t.Size = 3 ∧ o.Size = 3 ∧
      t.CopyTo o false (some 1) = .ok r ∧ r.2.data = [1, 2, 3] ∧
      r.1.data = [1, 1, 2] ∧ r.1.data ≠ t.data) :=
  ⟨⟨_, _, _, rfl, rfl, rfl, rfl, rfl, rfl, rfl, rfl, rfl, by decide⟩,
   ⟨_, _, _, rfl, rfl, rfl, rfl, rfl, rfl, rfl, rfl, rfl, by decide⟩⟩

/-- C20 (as amended): for two distinct tensors `t` and `other` that are not
views, with equal `Size()`, whose buffers hold the same number of elements and
have no element in common (they lie in different backing arrays, or in one
array without overlapping), `t.CopyTo(other)` returns no error; afterwards
`other.data` equals `t.data` element by element, `t` is what it was, and the
access pattern of `other` (shape, strides) is what it was, whatever the two
shapes are. -/
theorem C20_copyTo_copies_data (t other : Tensor) (shift : Option Int)
    (ht : t.viewOf = none) (ho : other.viewOf = none) (hsize : other.Size = t.Size)
    (hlen : other.data.length = t.data.length)
    (hapart : ∀ d, shift = some d →
      (t.data.length : Int) ≤ d ∨ d + (other.data.length : Int) ≤ 0) :
    ∃ t1 o1, t.CopyTo other false shift = .ok (t1, o1) ∧ o1.data = t.data ∧
      (∀ i : Nat, o1.data[i]? = t.data[i]?) ∧ t1 = t ∧
      o1.Shape = other.Shape ∧ o1.Strides = other.Strides ∧ o1.ap = other.ap ∧
      o1.viewOf = none := by
  have hg := goCopy_of_length_eq other.data t.data hlen
  have hk : min other.data.length t.data.length = other.data.length := by omega
  have hc := copyOverlap_apart t.data shift (min other.data.length t.data.length)
    (by rw [hk]; exact hapart)
  refine ⟨t, { other with data := goCopy other.data t.data }, ?_, hg, ?_, rfl, rfl, rfl, rfl,
    ho⟩
  · cases t with
    | mk ap data old tw vo =>
      simp only at ht hc
      subst ht
      simp only [Tensor.CopyTo, Bool.false_eq_true, if_false, hsize, ne_eq, not_true_eq_false,
        ho, Option.isNone_none, and_self, if_true, hc]
  · intro i
    show (goCopy other.data t.data)[i]? = t.data[i]?
    rw [hg]

/-- C20 (witness): shape (2) over `[1,2]` copied into the zero tensor of shape
(1,2), in another backing array. -/
theorem C20_copyTo_witness :
    ∃ t1 o1, (Tensor.ofData [2] [1, 2]).CopyTo (Tensor.ofData [1, 2] [0, 0]) false none
        = .ok (t1, o1) ∧
      o1.data = [1, 2] ∧ (∀ i : Nat, o1.data[i]? = (Tensor.ofData [2] [1, 2]).data[i]?) ∧
      t1 = Tensor.ofData [2] [1, 2] ∧
      o1.Shape = [1, 2] ∧ o1.Strides = (Tensor.ofData [1, 2] [0, 0]).Strides ∧
      o1.ap = (Tensor.ofData [1, 2] [0, 0]).ap ∧ o1.viewOf = none :=
  C20_copyTo_copies_data (Tensor.ofData [2] [1, 2]) (Tensor.ofData [1, 2] [0, 0]) none
    rfl rfl rfl rfl (fun _ h => by cases h)

/-! ## C21: the failures of `CopyTo` -/

/-- C21: `t.CopyTo(other)` returns no error and leaves both tensors as they are
when `other` is `t` itself. Otherwise it fails exactly when the sizes differ or
one of the two tensors is a view: with a SizeMismatch exactly when `t.Size()`
differs from `other.Size()`, and with NotYetImplemented exactly when the sizes
are equal and `t` or `other` is a view; and when it succeeds, only data is
replaced: that of `other` by the copy, and no other field of either tensor. A
failing call hands back no new state: neither tensor is written. All of this
holds however the two buffers lie in memory. -/
theorem C21_copyTo_failures (t other : Tensor) (shift : Option Int) :
    t.CopyTo other true shift = .ok (t, other) ∧
    (t.CopyTo other false shift = .error .sizeMismatch ↔ other.Size ≠ t.Size) ∧
    (t.CopyTo other false shift = .error .notYetImplemented ↔
      other.Size = t.Size ∧ (t.IsView = true ∨ other.IsView = true)) ∧
    ((∃ e, t.CopyTo other false shift = .error e) ↔
      other.Size ≠ t.Size ∨ t.IsView = true ∨ other.IsView = true) ∧
    (∀ r, t.CopyTo other false shift = .ok r →
      r.2.ap = other.ap ∧ r.2.old = other.old ∧ r.2.transposeWith = other.transposeWith ∧
      r.2.data = goCopy other.data t.data ∧
      r.1.ap = t.ap ∧ r.1.old = t.old ∧ r.1.transposeWith = t.transposeWith ∧
      r.1.viewOf = t.viewOf ∧ r.2.viewOf = other.viewOf) := by
  have hsome : ∀ (o : Option Tensor), o.isNone = true ↔ ¬ (o.isSome = true) := by
    intro o; cases o <;> simp
  refine ⟨by simp [Tensor.CopyTo], ?_, ?_, ?_, ?_⟩
  · unfold Tensor.CopyTo
    by_cases hs : other.Size = t.Size
    · by_cases hv : t.viewOf.isNone = true ∧ other.viewOf.isNone = true
      · simp [hs, hv]
      · simp only [Bool.false_eq_true, if_false, hs, ne_eq, not_true_eq_false, hv]
        simp
    · simp [hs]
  · unfold Tensor.CopyTo Tensor.IsView
    by_cases hs : other.Size = t.Size
    · by_cases hv1 : t.viewOf.isSome = true <;> by_cases hv2 : other.viewOf.isSome = true <;>
        simp [hs, hsome, hv1, hv2]
    · simp [hs]
  · unfold Tensor.CopyTo Tensor.IsView
    by_cases hs : other.Size = t.Size
    · by_cases hv1 : t.viewOf.isSome = true <;> by_cases hv2 : other.viewOf.isSome = true <;>
        simp [hs, hsome, hv1, hv2]
    · simp [hs]
  · intro r h
    unfold Tensor.CopyTo at h
    simp only [Bool.false_eq_true, if_false] at h
    split at h
    · simp at h
    · split at h
      · simp only [Except.ok.injEq] at h
        rw [← h]
        exact ⟨rfl, rfl, rfl, rfl, rfl, rfl, rfl, rfl, rfl⟩
      · simp at h

/-- C21 (witness): a 3x3 tensor copied into a 2x2 one fails with a
SizeMismatch; a 2x2 tensor copied into the 2x2 view `T[0:2,0:2]` of a 3x3
tensor fails with NotYetImplemented; a tensor copied to itself succeeds. -/
theorem C21_copyTo_failures_witness :
    (Tensor.ofData [3, 3] (List.replicate 9 0)).CopyTo
        (Tensor.ofData [2, 2] (List.replicate 4 0)) false none = .error .sizeMismatch ∧
    (∃ v, (Tensor.ofData [3, 3] (List.replicate 9 0)).Slice
        [some (.rangedSlice 0 2), some (.rangedSlice 0 2)] = .ok v ∧ v.Shape = [2, 2] ∧
      (Tensor.ofData [2, 2] (List.replicate 4 0)).CopyTo v false none
        = .error .notYetImplemented) ∧
    (Tensor.ofData [3, 3] (List.replicate 9 0)).CopyTo
        (Tensor.ofData [3, 3] (List.replicate 9 0)) true (some 0)
      = .ok (Tensor.ofData [3, 3] (List.replicate 9 0),
          Tensor.ofData [3, 3] (List.replicate 9 0)) :=
  ⟨(C21_copyTo_failures (Tensor.ofData [3, 3] (List.replicate 9 0))
      (Tensor.ofData [2, 2] (List.replicate 4 0)) none).2.1.2 (by decide),
   ⟨⟨NewAP [2, 2] [3, 1], [0, 0, 0, 0, 0], none, none,
      some (Tensor.ofData [3, 3] (List.replicate 9 0))⟩, rfl, rfl,
    (C21_copyTo_failures (Tensor.ofData [2, 2] (List.replicate 4 0))
      ⟨NewAP [2, 2] [3, 1], [0, 0, 0, 0, 0], none, none,
        some (Tensor.ofData [3, 3] (List.replicate 9 0))⟩ none).2.2.1.2
      ⟨rfl, Or.inr rfl⟩⟩,
   (C21_copyTo_failures (Tensor.ofData [3, 3] (List.replicate 9 0))
      (Tensor.ofData [3, 3] (List.replicate 9 0)) (some 0)).1⟩

/-! ## C26: the order of the construction options -/

/-- C26 (counterexample): `NewTensor(WithShape(2,3), AsScalar(5))` returns the
scalar 5, `NewTensor(AsScalar(5), WithShape(2,3))` panics; and
`NewTensor(WithBacking([1,2,3]), AsScalar(5))` returns a scalar with data `[5]`,
`NewTensor(AsScalar(5), WithBacking([1,2,3]))` one with data `[1,2,3]`. -/
theorem C26_counterexample :
    (∃ t, NewTensor [.WithShape [2, 3], .AsScalar 5] = .ok t ∧ t.Shape = [] ∧ t.data = [5]) ∧
    NewTensor [.AsScalar 5, .WithShape [2, 3]] = .error .goPanic ∧
    (∃ t, NewTensor [.WithBacking [1, 2, 3], .AsScalar 5] = .ok t ∧ t.data = [5]) ∧
    (∃ t, NewTensor [.AsScalar 5, .WithBacking [1, 2, 3]] = .ok t ∧ t.data = [1, 2, 3]) :=
  ⟨⟨_, rfl, rfl, rfl⟩, rfl, ⟨_, rfl, rfl⟩, ⟨_, rfl, rfl⟩⟩

/-- C26 (as amended): `WithShape(dims)` and `WithBacking(buf)` may be given in
either order: `NewTensor` behaves identically for both, panicking for both or
returning the same tensor. The options are run one after the other, so where
two options set the same field the later one wins: `AsScalar(v)` given last
always yields the scalar holding `v`, whatever option comes before it, and of
two options of the same kind the second decides. -/
theorem C26_shape_and_backing_commute (dims buf : List Int) :
    NewTensor [.WithShape dims, .WithBacking buf]
      = NewTensor [.WithBacking buf, .WithShape dims] ∧
    (∀ (a : ConsOpt) (v : Int),
      NewTensor [a, .AsScalar v] = .ok (Tensor.ofData [] [v])) ∧
    (∀ d1 : List Int, NewTensor [.WithShape d1, .WithShape dims] = NewTensor [.WithShape dims]) ∧
    (∀ b1 : List Int, NewTensor [.WithBacking b1, .WithBacking buf]
      = NewTensor [.WithBacking buf]) := by
  refine ⟨rfl, ?_, ?_, ?_⟩
  · intro a v
    cases a <;> rfl
  · intro d1
    simp [NewTensor, ConsOpt.run, AP.Unlock, AP.SetShape, AP.Lock]
  · intro b1
    rfl

/-! ## C24: the two fields of a thunk -/

theorem Tensor.T_thunkPaired {fuel : Nat} {t t1 : Tensor} {axes : List Int}
    (hp : t.thunkPaired) (h : t.T fuel axes = .ok t1) : t1.thunkPaired := by
  unfold Tensor.T at h
  split at h
  · split at h
    · simp only [Except.ok.injEq] at h
      rw [← h]; exact hp
    · simp at h
  · split at h
    · split at h
      · simp only [Except.ok.injEq] at h
        rw [← h]; rfl
      · split at h
        · simp at h
        · simp only [Except.ok.injEq] at h
          rw [← h]; rfl
        · split at h
          · simp at h
          · simp only [Except.ok.injEq] at h
            rw [← h]; rfl
    · simp only [Except.ok.injEq] at h
      rw [← h]; rfl

theorem Tensor.Transpose_thunkPaired {fuel : Nat} {t t1 : Tensor}
    (hp : t.thunkPaired) (h : t.Transpose fuel = .ok t1) : t1.thunkPaired := by
  unfold Tensor.Transpose at h
  split at h
  · simp only [Except.ok.injEq] at h
    rw [← h]; exact hp
  · split at h
    · simp only [Except.ok.injEq] at h
      rw [← h]; exact hp
    · simp only at h
      split at h
      · simp only [Except.ok.injEq] at h
        rw [← h]; rfl
      · split at h
        · simp at h
        · split at h
          · simp at h
          · simp only [Except.ok.injEq] at h
            rw [← h]; rfl

theorem Tensor.Slice_thunkPaired {t v : Tensor} {slices : List (Option Gorgonia.Slice)}
    (h : t.Slice slices = .ok v) : v.thunkPaired := by
  unfold Tensor.Slice at h
  split at h
  · simp at h
  · simp only at h
    split at h
    · simp at h
    · split at h
      · simp at h
      · split at h
        · simp at h
        · simp only [Except.ok.injEq] at h
          rw [← h]; rfl

theorem NewTensor_thunkPaired {opts : List ConsOpt} {t : Tensor} (h : NewTensor opts = .ok t) :
    t.thunkPaired := by
  obtain ⟨c1, _, _, ht⟩ := NewTensor_ok h
  rw [ht]; rfl

theorem Tensor.Repeat_thunkPaired {t v : Tensor} {axis : Int} {repeats : List Int}
    (h : t.Repeat axis repeats = .ok v) : v.thunkPaired := by
  unfold Tensor.Repeat at h
  split at h
  · simp at h
  · simp only at h
    split at h
    · simp at h
    · split at h
      · simp at h
      · split at h
        · simp at h
        · split at h
          · simp at h
          · rename_i retVal hnew
            have hr := NewTensor_thunkPaired hnew
            split at h
            · split at h
              · simp at h
              · simp only [Except.ok.injEq] at h
                rw [← h]; exact hr
            · simp at h

theorem Tensor.Apply_thunkPaired {t : Tensor} {fn : Int → Int} {safe incr : Bool}
    {reuse : Option Tensor} {it : Nat → Int × Option Err} {fuel : Nat} {r : ApplyResult}
    (hp : t.thunkPaired) (hr : ∀ x, reuse = some x → x.thunkPaired)
    (h : t.Apply fn safe incr reuse it fuel = .ok r) :
    r.recv.thunkPaired ∧ (∀ x, r.retVal = some x → x.thunkPaired) ∧
      (∀ x, r.reuse = some x → x.thunkPaired) := by
  cases reuse with
  | none =>
    cases safe <;> simp only [Tensor.Apply, Option.isSome_none, Bool.false_eq_true, false_and,
      if_false, Bool.not_false, Bool.not_true, if_true] at h <;> (repeat' split at h) <;>
    first
      | (simp at h; done)
      | (simp only [Except.ok.injEq] at h
         subst h
         refine ⟨hp, ?_, ?_⟩ <;> intro x hx <;> first
           | (simp at hx; done)
           | (simp only [Option.some.injEq] at hx
              subst hx
              first | exact hp | exact NewTensor_thunkPaired ‹_›))
  | some r0 =>
    have hr0 : r0.thunkPaired := hr r0 rfl
    simp only [Tensor.Apply] at h
    (repeat' split at h) <;>
    first
      | (simp at h; done)
      | (simp only [Except.ok.injEq] at h
         subst h
         refine ⟨hp, ?_, ?_⟩ <;> intro x hx <;> first
           | (simp at hx; done)
           | (simp only [Option.some.injEq] at hx
              subst hx
              first | exact hp | exact hr0))

/-- C24: the 2x3 tensor over 0..5 built by `NewTensor` pairs its two thunk
fields, and so does it after `T()`; the `Clone()` of the thunked tensor has
`old` set and `transposeWith` unset. Every other call keeps the pairing: what
`NewTensor`, `Slice` and `Repeat` return is paired, and `T`, `Transpose`,
`Reshape`, `CopyTo` and `Apply` leave paired tensors paired (receiver, returned
tensor, and the tensor written to). -/
theorem C24_clone_drops_transposeWith (fuel : Nat) :
    (∃ t t1, NewTensor [.WithShape [2, 3], .WithBacking [0, 1, 2, 3, 4, 5]] = .ok t ∧
      t.T fuel [] = .ok t1 ∧ t.thunkPaired ∧ t1.thunkPaired ∧
      t1.old.isSome = true ∧ t1.transposeWith = some [1, 0] ∧
      t1.Clone.old.isSome = true ∧ t1.Clone.transposeWith = none ∧
      ¬ t1.Clone.thunkPaired) ∧
    (∀ opts t, NewTensor opts = .ok t → t.thunkPaired) ∧
    (∀ (t t1 : Tensor) axes, t.thunkPaired → t.T fuel axes = .ok t1 → t1.thunkPaired) ∧
    (∀ t t1 : Tensor, t.thunkPaired → t.Transpose fuel = .ok t1 → t1.thunkPaired) ∧
    (∀ (t : Tensor) dims, t.thunkPaired → (t.Reshape dims).1.thunkPaired) ∧
    (∀ (t v : Tensor) slices, t.Slice slices = .ok v → v.thunkPaired) ∧
    (∀ (t v : Tensor) axis repeats, t.Repeat axis repeats = .ok v → v.thunkPaired) ∧
    (∀ (t other : Tensor) (r : Tensor × Tensor) same shift,
      t.CopyTo other same shift = .ok r →
      (other.thunkPaired → r.2.thunkPaired) ∧ (t.thunkPaired → r.1.thunkPaired)) ∧
    (∀ (t : Tensor) fn safe incr reuse it r, t.thunkPaired →
      (∀ x, reuse = some x → x.thunkPaired) → t.Apply fn safe incr reuse it fuel = .ok r →
      r.recv.thunkPaired ∧ (∀ x, r.retVal = some x → x.thunkPaired) ∧
        (∀ x, r.reuse = some x → x.thunkPaired)) := by
  refine ⟨⟨_, _, rfl, rfl, rfl, rfl, rfl, rfl, rfl, rfl,
      fun h => by have h2 : (true : Bool) = false := h; cases h2⟩,
    fun _ _ h => NewTensor_thunkPaired h, fun _ _ _ hp h => Tensor.T_thunkPaired hp h,
    fun _ _ hp h => Tensor.Transpose_thunkPaired hp h, fun _ _ hp => hp,
    fun _ _ _ h => Tensor.Slice_thunkPaired h, fun _ _ _ _ h => Tensor.Repeat_thunkPaired h,
    ?_, fun _ _ _ _ _ _ _ hp hr h => Tensor.Apply_thunkPaired hp hr h⟩
  intro t other r same shift h
  unfold Tensor.CopyTo at h
  split at h
  · simp only [Except.ok.injEq] at h
    rw [← h]; exact ⟨fun hp => hp, fun hp => hp⟩
  · split at h
    · simp at h
    · split at h
      · simp only [Except.ok.injEq] at h
        rw [← h]; exact ⟨fun hp => hp, fun hp => hp⟩
      · simp at h

/-! ## C25: transposing a row or column vector -/

theorem vector_T (fuel : Nat) (a b : Int) (hv : Shape.IsVector [b, a] = true)
    (fin : Bool) (data : List Int) (old : Option AP) (tw : Option (List Int))
    (vo : Option Tensor) :
    (⟨⟨[a, b], [1], fin⟩, data, old, tw, vo⟩ : Tensor).T fuel [] =
      match old with
      | some o => .ok ⟨o, data, none, none, vo⟩
      | none => .ok ⟨⟨[b, a], [1], true⟩, data, some ⟨[a, b], [1], fin⟩, some [1, 0], vo⟩ := by
  have hT : (⟨[a, b], [1], fin⟩ : AP).T [] = .ok (⟨[b, a], [1], true⟩, [1, 0]) := by
    rfl
  have hv2 : Shape.IsVector [a, b] = true := by
    rw [Shape.isVector_iff] at hv ⊢
    rcases hv with h | ⟨_, h⟩
    · simp at h
    · right
      refine ⟨rfl, ?_⟩
      simp only [List.mem_cons, List.mem_singleton, List.not_mem_nil, or_false] at h ⊢
      tauto
  unfold Tensor.T
  simp only [hT]
  cases old with
  | none => rfl
  | some o => simp [Tensor.IsVector, hv2]

/-- C25 (counterexample): the view `T[:, 2]` of the 3x4 matrix over 0..11 is a
column vector of shape (3,1) with no pending thunk, and its strides are `[4]`.
`T()` swaps the shape to (1,3) and keeps the strides `[4]`, not `[1]`; a
following `Transpose()` replaces them by `[1]`. -/
theorem C25_counterexample :
    ∃ t v v1 v3, NewTensor [.WithShape [3, 4], .WithBacking (iota 12)] = .ok t ∧
      t.Slice [none, some (.singleSlice 2)] = .ok v ∧ v.Shape = [3, 1] ∧
      v.old = none ∧ v.transposeWith = none ∧ v.Strides = [4] ∧
      v.T 0 [] = .ok v1 ∧ v1.Shape = [1, 3] ∧ v1.Strides = [4] ∧ v1.Strides ≠ [1] ∧
      v1.Transpose 0 = .ok v3 ∧ v3.Shape = [1, 3] ∧ v3.Strides = [1] :=
  ⟨_, _, _, _, rfl, rfl, rfl, rfl, rfl, rfl, rfl, rfl, rfl, by decide, rfl, rfl, rfl⟩

/-- C25 (as amended): for a column vector of shape `(n,1)` or a row vector of
shape `(1,n)` with `n ≥ 2`, strides `[1]` and no pending thunk, `T()` swaps the
two shape entries, keeps the strides `[1]` and the data, and saves the access
pattern it replaces; a second `T()` gives back the tensor as it was (shape,
strides, no `old`, no `transposeWith`); and `T()` followed by `Transpose()`
leaves the shape swapped, the strides `[1]`, the data unchanged, and `old` and
`transposeWith` cleared. -/
theorem C25_vector_transpose (fuel : Nat) (t : Tensor) (n : Int) (_hn : 2 ≤ n)
    (hsh : t.Shape = [n, 1] ∨ t.Shape = [1, n]) (hst : t.Strides = [1])
    (hold : t.old = none) (htw : t.transposeWith = none) :
    ∃ t1, t.T fuel [] = .ok t1 ∧ t1.Shape = t.Shape.reverse ∧ t1.Strides = [1] ∧
      t1.data = t.data ∧ t1.old = some t.ap ∧ t1.transposeWith = some [1, 0] ∧
      (∃ t2, t1.T fuel [] = .ok t2 ∧ t2.Shape = t.Shape ∧ t2.Strides = t.Strides ∧
        t2.data = t.data ∧ t2.old = none ∧ t2.transposeWith = none) ∧
      (∃ t3, t1.Transpose fuel = .ok t3 ∧ t3.Shape = t.Shape.reverse ∧ t3.Strides = [1] ∧
        t3.data = t.data ∧ t3.old = none ∧ t3.transposeWith = none) := by
  obtain ⟨⟨shape, strides, fin⟩, data, old, tw, vo⟩ := t
  simp only [Tensor.Shape, Tensor.Strides] at hsh hst hold htw
  subst hst hold htw
  have key : ∀ a b : Int, Shape.IsVector [b, a] = true → shape = [a, b] →
      ∃ t1, (⟨⟨shape, [1], fin⟩, data, none, none, vo⟩ : Tensor).T fuel [] = .ok t1 ∧
        t1.Shape = shape.reverse ∧ t1.Strides = [1] ∧ t1.data = data ∧
        t1.old = some ⟨shape, [1], fin⟩ ∧ t1.transposeWith = some [1, 0] ∧
        (∃ t2, t1.T fuel [] = .ok t2 ∧ t2.Shape = shape ∧ t2.Strides = [1] ∧
          t2.data = data ∧ t2.old = none ∧ t2.transposeWith = none) ∧
        (∃ t3, t1.Transpose fuel = .ok t3 ∧ t3.Shape = shape.reverse ∧ t3.Strides = [1] ∧
          t3.data = data ∧ t3.old = none ∧ t3.transposeWith = none) := by
    intro a b hv hs
    subst hs
    have hv2 : Shape.IsVector [a, b] = true := by
      rw [Shape.isVector_iff] at hv ⊢
      rcases hv with h | ⟨_, h⟩
      · simp at h
      · right
        refine ⟨rfl, ?_⟩
        simp only [List.mem_cons, List.mem_singleton, List.not_mem_nil, or_false] at h ⊢
        tauto
    have h1 := vector_T fuel a b hv fin data none none vo
    have h2 := vector_T fuel b a hv2 true data (some ⟨[a, b], [1], fin⟩) (some [1, 0]) vo
    simp only at h1 h2
    refine ⟨_, h1, rfl, rfl, rfl, rfl, rfl, ⟨_, h2, rfl, rfl, rfl, rfl, rfl⟩, ?_⟩
    have hcs : Shape.CalcStrides [b, a] = [1] := by
      simp [Shape.CalcStrides, Shape.IsScalar, hv]
    refine ⟨⟨⟨[b, a], [1], true⟩, data, none, none, vo⟩, ?_, rfl, rfl, rfl, rfl, rfl⟩
    simp [Tensor.Transpose, Tensor.IsScalar, Shape.IsScalar, Tensor.IsVector, hv,
      Tensor.setShape, AP.Unlock, AP.SetShape, AP.Lock, Tensor.Shape, hcs]
  rcases hsh with h | h
  · exact key n 1 (by simp [Shape.IsVector, Shape.IsRowVec]) h
  · exact key 1 n (by simp [Shape.IsVector, Shape.IsRowVec, Shape.IsColVec]) h

/-- C25 (witness): the column vector of shape (4,1) over `[1,2,3,4]`. -/
theorem C25_vector_transpose_witness :
    ∃ t1, (Tensor.ofData [4, 1] [1, 2, 3, 4]).T 0 [] = .ok t1 ∧ t1.Shape = [1, 4] ∧
      t1.Strides = [1] ∧ t1.data = [1, 2, 3, 4] ∧
      t1.old = some (Tensor.ofData [4, 1] [1, 2, 3, 4]).ap ∧ t1.transposeWith = some [1, 0] ∧
      (∃ t2, t1.T 0 [] = .ok t2 ∧ t2.Shape = [4, 1] ∧
        t2.Strides = (Tensor.ofData [4, 1] [1, 2, 3, 4]).Strides ∧
        t2.data = [1, 2, 3, 4] ∧ t2.old = none ∧ t2.transposeWith = none) ∧
      (∃ t3, t1.Transpose 0 = .ok t3 ∧ t3.Shape = [1, 4] ∧ t3.Strides = [1] ∧
        t3.data = [1, 2, 3, 4] ∧ t3.old = none ∧ t3.transposeWith = none) :=
  C25_vector_transpose 0 (Tensor.ofData [4, 1] [1, 2, 3, 4]) 4 (by decide) (Or.inl rfl) rfl
    rfl rfl

/-! ## A second `T` on a pending thunk -/

theorem Tensor.isReversedLoop_ne (os ts : List Int) (hl : ts.length = os.length)
    (hne : ts ≠ os) : Tensor.isReversedLoop os ts = .ok false := by
  induction os generalizing ts with
  | nil =>
    have : ts = [] := List.length_eq_zero.1 (by simpa using hl)
    exact absurd this hne
  | cons s os ih =>
    cases ts with
    | nil => simp at hl
    | cons x xs =>
      simp only [List.length_cons, add_left_inj] at hl
      unfold Tensor.isReversedLoop
      by_cases hx : x = s
      · subst hx
        simp only [ne_eq, not_true_eq_false, if_false]
        exact ih xs hl (fun h => hne (by rw [h]))
      · simp [hx]

/-- What `Transpose` leaves of a pending thunk on a tensor that is not a
scalar: the logical shape with its freshly computed strides, no thunk, and the
same parent. -/
theorem Tensor.Transpose_ap {fuel : Nat} {t t2 : Tensor} {o : AP} (hold : t.old = some o)
    (hs : t.IsScalar = false) (h : t.Transpose fuel = .ok t2) :
    t2.ap = ⟨t.Shape, Shape.CalcStrides t.Shape, true⟩ ∧ t2.old = none ∧
      t2.transposeWith = none ∧ t2.viewOf = t.viewOf := by
  unfold Tensor.Transpose at h
  simp only [hold, hs, Bool.false_eq_true, if_false] at h
  split at h
  · simp only [Except.ok.injEq] at h
    rw [← h]
    exact ⟨rfl, rfl, rfl, rfl⟩
  · split at h
    · simp at h
    · split at h
      · simp at h
      · simp only [Except.ok.injEq] at h
        rw [← h]
        exact ⟨rfl, rfl, rfl, rfl⟩

/-- A second `T` whose transformed shape differs from the saved one
materialises the pending thunk and then installs the new one. -/
theorem Tensor.T_materialise (fuel : Nat) (t : Tensor) (axes : List Int) (tr o : AP)
    (a1 : List Int) (h : t.ap.T axes = .ok (tr, a1)) (hold : t.old = some o)
    (hvec : t.IsVector = false) (hl : tr.shape.length = o.shape.length)
    (hne : tr.shape ≠ o.shape) :
    (∀ e, t.Transpose fuel = .error e → t.T fuel axes = .error e) ∧
    (∀ t1, t.Transpose fuel = .ok t1 →
      t.T fuel axes
        = .ok { t1 with old := some t1.ap, transposeWith := some a1, ap := tr }) := by
  have hr := Tensor.isReversedLoop_ne o.shape tr.shape hl hne
  constructor
  · intro e he
    unfold Tensor.T
    rw [h]
    simp only [hold, hvec, Bool.false_eq_true, if_false, Tensor.oshape, hr, he]
  · intro t1 he
    unfold Tensor.T
    rw [h]
    simp only [hold, hvec, Bool.false_eq_true, if_false, Tensor.oshape, hr, he]

/-! ## A second `T` that does not cancel the first -/

/-- On a tensor that is not a vector and has no pending thunk, after `T(p)` for
a valid non-identity `p`, a call `T(q)` with a valid non-identity `q` whose
transformed shape differs from the saved shape runs `Transpose()` first: it
fails exactly as `Transpose()` alone fails, and when `Transpose()` returns,
`T(q)` returns with that buffer, the doubly permuted shape, `old` holding the
materialised shape with its row-major strides, and `transposeWith` equal to
`q`. -/
theorem Tensor.T_twice (fuel : Nat) (t : Tensor) (p q : List Int)
    (hvec : t.IsVector = false) (hold : t.old = none)
    (hp : p.Perm (iota t.Shape.length)) (hpid : p ≠ iota t.Shape.length)
    (hq : q.Perm (iota t.Shape.length)) (hqid : q ≠ iota t.Shape.length)
    (hdiff : permuteList q (permuteList p t.Shape) ≠ t.Shape) :
    ∃ t1, t.T fuel p = .ok t1 ∧ t1.data = t.data ∧ t1.old = some t.ap ∧
      t1.transposeWith = some p ∧ t1.ap.shape = permuteList p t.ap.shape ∧
      (∀ e, t1.Transpose fuel = .error e → t1.T fuel q = .error e) ∧
      (∀ t2, t1.Transpose fuel = .ok t2 →
        ∃ t3, t1.T fuel q = .ok t3 ∧ t3.data = t2.data ∧
          t3.Shape = permuteList q (permuteList p t.Shape) ∧
          t3.old = some ⟨permuteList p t.Shape, rowMajor (permuteList p t.Shape), true⟩ ∧
          t3.transposeWith = some q) := by
  have hl : p.length = t.ap.shape.length := by simpa [iota_length] using hp.length_eq
  have hlq : q.length = t.ap.shape.length := by simpa [iota_length] using hq.length_eq
  have hpne : p ≠ [] := by
    intro h; subst h
    apply hpid
    have : t.Shape.length = 0 := by simpa [Tensor.Shape] using hl.symm
    rw [this]; rfl
  have hqne : q ≠ [] := by
    intro h; subst h
    apply hqid
    have : t.Shape.length = 0 := by simpa [Tensor.Shape] using hlq.symm
    rw [this]; rfl
  have hnp : normAxes t.ap.shape.length p = p := normAxes_of_ne_nil _ hpne
  have e1 := AP.T_of_perm t.ap p (by rw [hnp]; exact hp)
  have hpid' : ¬ (p = iota t.ap.shape.length) := hpid
  simp only [hnp, hpid', if_false] at e1
  have hnq : normAxes (permuteList p t.ap.shape).length q = q := normAxes_of_ne_nil _ hqne
  have e2 := AP.T_of_perm
    { shape := permuteList p t.ap.shape,
      strides := if t.ap.strides.length = t.ap.shape.length then permuteList p t.ap.strides
        else t.ap.strides,
      fin := true } q (by rw [hnq]; simpa [permuteList_length, hl] using hq)
  have hqid' : ¬ (q = iota (permuteList p t.ap.shape).length) := by
    rw [permuteList_length, hl]; exact hqid
  simp only [hnq, hqid', if_false] at e2
  have hv1 : Shape.IsVector (permuteList p t.ap.shape) = false := by
    have := Shape.isVector_permuteList (p := p) (s := t.ap.shape) hp
    rw [this]; exact hvec
  have hs1 : Shape.IsScalar (permuteList p t.ap.shape) = false := by
    cases hpp : p with
    | nil => exact absurd hpp hpne
    | cons a r => simp [Shape.IsScalar, permuteList]
  refine ⟨_, Tensor.T_install fuel t p _ _ e1 hold, rfl, rfl, rfl, rfl, ?_⟩
  obtain ⟨m1, m2⟩ := Tensor.T_materialise fuel
    { ap := { shape := permuteList p t.ap.shape,
              strides := if t.ap.strides.length = t.ap.shape.length then
                  permuteList p t.ap.strides
                else t.ap.strides,
              fin := true },
      data := t.data, old := some t.ap, transposeWith := some p, viewOf := t.viewOf }
    q _ t.ap _ e2 rfl hv1 (by simp [permuteList_length, hlq]) hdiff
  refine ⟨m1, ?_⟩
  intro t2 h2
  obtain ⟨a1, a2, a3, a4⟩ := Tensor.Transpose_ap
    (t := ⟨⟨permuteList p t.ap.shape, _, true⟩, t.data, some t.ap, some p, t.viewOf⟩)
    (o := t.ap) rfl hs1 h2
  refine ⟨_, m2 t2 h2, rfl, rfl, ?_, rfl⟩
  simp only [a1, Tensor.Shape, Shape.calcStrides_of_not_vector hv1]

/-! ## C28: a second `T` taken for the reverse of the first -/

/-- C28: on the cube of shape (2,2,2) over 0..7, `T(1,0,2)` followed by
`T(0,2,1)` gives a transformed shape equal to the saved shape, so the saved
access pattern is restored and the thunk cleared, although `(0,2,1)` is not the
inverse of `(1,0,2)`: the original element at coordinate (0,0,1) is 1, the two
transpositions map that coordinate to (0,1,0), and the tensor after the two
calls holds 2 there. -/
theorem C28_shape_test_restores_wrong_layout (fuel : Nat) :
    ∃ t t1 t2, NewTensor [.WithShape [2, 2, 2], .WithBacking (iota 8)] = .ok t ∧
      t.T fuel [1, 0, 2] = .ok t1 ∧ t1.T fuel [0, 2, 1] = .ok t2 ∧
      t1.oshape = [2, 2, 2] ∧ permuteList [0, 2, 1] t1.Shape = t1.oshape ∧
      invPerm [1, 0, 2] = [1, 0, 2] ∧
      t2.Shape = [2, 2, 2] ∧ t2.Strides = [4, 2, 1] ∧ t2.old = none ∧
      t2.transposeWith = none ∧ t2.data = t.data ∧
      t.At [0, 0, 1] = .ok 1 ∧
      permuteList [0, 2, 1] (permuteList [1, 0, 2] [0, 0, 1]) = [0, 1, 0] ∧
      t2.At [0, 1, 0] = .ok 2 :=
  ⟨_, _, _, rfl, rfl, rfl, rfl, rfl, rfl, rfl, rfl, rfl, rfl, rfl, rfl, rfl, rfl⟩

/-! ## C30: the strides installed by a second `T` after materialisation -/

/-- C30: on shape (2,3,4) over 0..23, `T(2,0,1)` followed by `T(1,0,2)`
materialises the first transposition and installs an access pattern of shape
(2,4,3) with the strides (12,1,4), which were computed from the thunked access
pattern before the buffer was permuted; the strides consistent with the
materialised buffer are `permute(q, calc_strides(permute(p, shape)))`, that is
(3,6,1). The original element at coordinate (0,1,0) is 4, the two
transpositions map that coordinate to (0,0,1), and `At(0,0,1)` returns 16. -/
theorem C30_second_T_installs_stale_strides :
    ∃ t t1 t3, NewTensor [.WithShape [2, 3, 4], .WithBacking (iota 24)] = .ok t ∧
      t.T 100 [2, 0, 1] = .ok t1 ∧ t1.T 100 [1, 0, 2] = .ok t3 ∧
      t3.Shape = [2, 4, 3] ∧ t3.old = some ⟨[4, 2, 3], [6, 3, 1], true⟩ ∧
      t3.Strides = [12, 1, 4] ∧
      permuteList [1, 0, 2] (Shape.CalcStrides (permuteList [2, 0, 1] [2, 3, 4])) = [3, 6, 1] ∧
      t.At [0, 1, 0] = .ok 4 ∧
      permuteList [1, 0, 2] (permuteList [2, 0, 1] [0, 1, 0]) = [0, 0, 1] ∧
      t3.At [0, 0, 1] = .ok 16 :=
  ⟨_, _, _, rfl, rfl, rfl, rfl, rfl, rfl, rfl, rfl, rfl, rfl⟩

/-! ## The loops of `Apply` -/

theorem set_append_cons (pre post : List Int) (x v : Int) :
    (pre ++ x :: post).set pre.length v = pre ++ v :: post := by
  induction pre with
  | nil => rfl
  | cons a pre ih => simp [ih]

theorem applyLoop_spec (fn : Int → Int) (incr : Bool) (vs pre cur post : List Int)
    (h : cur.length = vs.length) :
    applyLoop fn incr pre.length vs (pre ++ cur ++ post) =
      .ok (pre ++ List.zipWith (fun x v => if incr then wrapInt (x + fn v) else fn v) cur vs
        ++ post) := by
  induction vs generalizing pre cur with
  | nil =>
    have : cur = [] := List.length_eq_zero.1 (by simpa using h)
    subst this
    simp [applyLoop]
  | cons v vs ih =>
    cases cur with
    | nil => simp at h
    | cons x cur =>
      simp only [List.length_cons, add_left_inj] at h
      have hlt : pre.length < (pre ++ x :: cur ++ post).length := by simp
      have hg : getAt (pre ++ x :: cur ++ post) (pre.length : Int) = .ok x := by
        rw [getAt_of_lt _ _ hlt]
        congr 1
        simp only [List.append_assoc, List.cons_append]
        rw [List.getElem_append_right (le_refl _)]
        simp
      have hs : ∀ w, setAt (pre ++ x :: cur ++ post) (pre.length : Int) w
          = .ok ((pre ++ [w]) ++ cur ++ post) := by
        intro w
        rw [setAt_of_lt _ _ _ hlt]
        have := set_append_cons pre (cur ++ post) x w
        simp only [List.append_assoc, List.cons_append, List.nil_append] at this ⊢
        rw [this]
      have hl : (pre ++ [if incr then wrapInt (x + fn v) else fn v]).length = pre.length + 1 := by
        simp
      have := ih (pre ++ [if incr then wrapInt (x + fn v) else fn v]) cur h
      rw [hl] at this
      unfold applyLoop
      cases incr
      · simp only [Bool.false_eq_true, if_false, hs] at this ⊢
        rw [this]
        simp
      · simp only [if_true, hg, hs] at this ⊢
        rw [this]
        simp

/-- The loop over a view leaves through its `return` in the first round when
the first call of the iterator reports no error, before any write. -/
theorem applyViewLoop_returns (fn : Int → Int) (incr : Bool) (it : Nat → Int × Option Err)
    (fuel k : Nat) (next : Int) (res : List Int) :
    applyViewLoop fn incr it (fuel + 1) k next none res = .ok (true, res, none) := by
  simp [applyViewLoop, isNoOp]

/-- The loop over a view is not entered when the first call of the iterator
reports an error. -/
theorem applyViewLoop_skipped (fn : Int → Int) (incr : Bool) (it : Nat → Int × Option Err)
    (fuel k : Nat) (next : Int) (e : Err) (res : List Int) :
    applyViewLoop fn incr it (fuel + 1) k next (some e) res = .ok (false, res, some e) := by
  simp [applyViewLoop]

/-! ## C22: `Apply` on a tensor that is not a view -/

theorem zipWith_replicate_map (fn : Int → Int) (vs : List Int) :
    List.zipWith (fun (_ : Int) v => fn v) (List.replicate vs.length 0) vs = vs.map fn := by
  induction vs with
  | nil => rfl
  | cons v vs ih => simp [List.replicate_succ, ih]

theorem zipWith_self_map (fn : Int → Int) (vs : List Int) :
    List.zipWith (fun (_ : Int) v => fn v) vs vs = vs.map fn := by
  induction vs with
  | nil => rfl
  | cons v vs ih => simp [ih]

theorem NewTensor_backing_shape (s res : List Int) (h : s ≠ [] → len res = s.prod) :
    ∃ n, NewTensor [.WithBacking res, .WithShape s] = .ok n ∧ n.Shape = s ∧ n.data = res ∧
      n.viewOf = none := by
  by_cases hs : s = []
  · subst hs
    refine ⟨⟨⟨[], [], true⟩, res, none, none, none⟩, ?_, rfl, rfl, rfl⟩
    by_cases h1 : len res = 1 <;>
      simp [NewTensor, ConsOpt.run, AP.new, AP.Unlock, AP.SetShape, AP.Lock, Cons.fix,
        sanityCheck, Shape.CalcStrides, Shape.IsScalar, h1]
  · refine ⟨Tensor.ofData s res, ?_, rfl, rfl, rfl⟩
    rw [(NewTensor_shape_backing s res hs).2]
    simp [h hs]

theorem applyLoop_whole (fn : Int → Int) (incr : Bool) (vs res : List Int)
    (h : res.length = vs.length) :
    applyLoop fn incr 0 vs res =
      .ok (List.zipWith (fun x v => if incr then wrapInt (x + fn v) else fn v) res vs) := by
  have := applyLoop_spec fn incr vs [] res [] h
  simpa using this

/-- C22 (counterexample): the tensor `NewTensor(AsScalar(5), WithBacking([1,2,3]))`
is not a view and has size 1; with incr and the reuse tensor over `[10]`, whose
buffer has that size, `Apply` panics: the loop runs over the three elements of
the data and indexes the reuse buffer at 1. With the scalar 1 and the reuse
tensor over the largest `int`, `R.data[0]` becomes the smallest `int`, not its
previous value plus `fn(t.data[0])`. The 2x3 matrix over 0..5 after
`Reshape(4,2)`, which returns an error and leaves the shape (4,2), is not a view;
`Apply` with the default options panics on it, in `NewTensor`. -/
theorem C22_counterexample :
    (∃ t R, NewTensor [.AsScalar 5, .WithBacking [1, 2, 3]] = .ok t ∧
      NewTensor [.WithBacking [10]] = .ok R ∧ t.IsView = false ∧ t.Size = 1 ∧
      len R.data = t.Size ∧
      t.Apply (fun x => x) true true (some R) (fun _ => (0, none)) 0 = .error .goPanic) ∧
    (∃ t R r, NewTensor [.AsScalar 1] = .ok t ∧
      NewTensor [.WithBacking [9223372036854775807]] = .ok R ∧ t.IsView = false ∧
      len R.data = t.Size ∧
      t.Apply (fun x => x) true true (some R) (fun _ => (0, none)) 0
        = .ok ⟨some r, none, t, some r⟩ ∧
      r.data = [-9223372036854775808] ∧
      r.data ≠ List.zipWith (fun x v => x + v) R.data t.data) ∧
    (∃ m, NewTensor [.WithShape [2, 3], .WithBacking (iota 6)] = .ok m ∧
      (m.Reshape [4, 2]).2 = .error .shapeMismatch ∧ (m.Reshape [4, 2]).1.IsView = false ∧
      (m.Reshape [4, 2]).1.Shape = [4, 2] ∧
      (m.Reshape [4, 2]).1.Apply (fun x => x) true false none (fun _ => (0, none)) 0
        = .error .goPanic) :=
  ⟨⟨_, _, rfl, rfl, rfl, rfl, rfl, rfl⟩, ⟨_, _, _, rfl, rfl, rfl, rfl, rfl, rfl, by decide⟩,
   ⟨_, rfl, rfl, rfl, rfl, rfl⟩⟩

/-- C22 (as amended): for a tensor `t` that is not a view and every function
`fn`: when `t` is a scalar or its buffer holds exactly its size, `Apply(fn)`
with the default options (safe, no incr, no reuse) returns no error and a new
tensor with the shape of `t` whose `data[i]` is `fn(t.data[i])` for every `i`,
and `t` is as it was; with the unsafe option the same values are written into
the buffer of `t` and `t` itself is returned; with incr and a reuse tensor `R`,
when the buffers of `R` and of `t` both hold the size of `t` (and have no
element in common), `R` is returned with the shape of `t` and `R.data[i]` is the
sum of its previous value and `fn(t.data[i])` in Go `int` arithmetic, which
wraps at 64 bits. -/
theorem C22_apply_on_owner (t : Tensor) (fn : Int → Int) (it : Nat → Int × Option Err)
    (fuel : Nat) (hview : t.viewOf = none) :
    ((t.IsScalar = false → len t.data = t.Size) →
      ∃ n, t.Apply fn true false none it fuel = .ok ⟨some n, none, t, none⟩ ∧
        n.Shape = t.Shape ∧ n.data = t.data.map fn ∧ n.viewOf = none) ∧
    t.Apply fn false false none it fuel
      = .ok ⟨some { t with data := t.data.map fn }, none, { t with data := t.data.map fn },
          none⟩ ∧
    (∀ (R : Tensor) (safe : Bool), len R.data = t.Size → len t.data = t.Size →
      ∃ r2, t.Apply fn safe true (some R) it fuel = .ok ⟨some r2, none, t, some r2⟩ ∧
        r2.data = List.zipWith (fun x v => wrapInt (x + fn v)) R.data t.data ∧
        r2.Shape = t.Shape) := by
  have hvn : t.viewOf.isNone = true := by rw [hview]; rfl
  refine ⟨?_, ?_, ?_⟩
  · intro hdata
    have hl := applyLoop_whole fn false t.data (List.replicate t.data.length 0) (by simp)
    simp only [Bool.false_eq_true, if_false, zipWith_replicate_map] at hl
    obtain ⟨n, hn, h1, h2, h3⟩ := NewTensor_backing_shape t.Shape (t.data.map fn) (by
      intro hne
      have hs : t.IsScalar = false := by
        cases hsh : t.ap.shape with
        | nil => exact absurd hsh hne
        | cons a r => simp [Tensor.IsScalar, Shape.IsScalar, hsh]
      have : len t.data = t.Shape.prod := hdata hs
      simpa [len] using this)
    refine ⟨n, ?_, h1, h2, h3⟩
    simp [Tensor.Apply, hvn, hl, hn]
  · have hl := applyLoop_whole fn false t.data t.data rfl
    simp only [Bool.false_eq_true, if_false, zipWith_self_map] at hl
    simp [Tensor.Apply, hvn, hl]
  · intro R safe hR hdata
    have hlen : R.data.length = t.data.length := by
      have : len R.data = len t.data := by rw [hR, hdata]
      simpa [len] using this
    have hl := applyLoop_whole fn true t.data R.data hlen
    simp only [if_true] at hl
    have hzl : len (List.zipWith (fun x v => wrapInt (x + fn v)) R.data t.data)
        = t.Shape.prod := by
      have : len t.data = t.Shape.prod := hdata
      simp only [len, List.length_zipWith, hlen, min_self] at this ⊢
      exact this
    have hsan : (({ R with data := List.zipWith (fun x v => wrapInt (x + fn v)) R.data t.data } :
        Tensor).Reshape t.Shape).2 = .ok () := by
      simp [Tensor.Reshape, Tensor.sanity, sanityCheck, AP.Unlock, AP.SetShape, AP.Lock,
        Shape.TotalSize, hzl]
    refine ⟨(({ R with data := List.zipWith (fun x v => wrapInt (x + fn v)) R.data t.data } :
        Tensor).Reshape t.Shape).1, ?_, rfl, ?_⟩
    · have hne : ¬ (len R.data ≠ t.Size) := by simp [hR]
      simp only [Tensor.Apply, Option.isSome_some, true_and, hne, if_false, hvn, if_true, hl,
        Bool.false_eq_true, hsan]
    · simp [Tensor.Reshape, Tensor.Shape, AP.Unlock, AP.SetShape, AP.Lock]

/-- C22 (witness): the 2x2 tensor over `[1,2,3,4]` with `fn = (· + 10)`, and
with incr and the reuse tensor over `[1,1,1,1]`. -/
theorem C22_apply_on_owner_witness :
    (∃ n, (Tensor.ofData [2, 2] [1, 2, 3, 4]).Apply (· + 10) true false none
        (fun _ => (0, some .noOp)) 0
        = .ok ⟨some n, none, Tensor.ofData [2, 2] [1, 2, 3, 4], none⟩ ∧
      n.Shape = [2, 2] ∧ n.data = [11, 12, 13, 14] ∧ n.viewOf = none) ∧
    (∃ r2, (Tensor.ofData [2, 2] [1, 2, 3, 4]).Apply (· + 10) true true
        (some (Tensor.ofData [4] [1, 1, 1, 1])) (fun _ => (0, some .noOp)) 0
        = .ok ⟨some r2, none, Tensor.ofData [2, 2] [1, 2, 3, 4], some r2⟩ ∧
      r2.data = List.zipWith (fun x v => wrapInt (x + (v + 10))) [1, 1, 1, 1] [1, 2, 3, 4] ∧
      r2.Shape = [2, 2]) :=
  ⟨(C22_apply_on_owner (Tensor.ofData [2, 2] [1, 2, 3, 4]) (· + 10)
      (fun _ => (0, some .noOp)) 0 rfl).1 (fun _ => rfl),
   (C22_apply_on_owner (Tensor.ofData [2, 2] [1, 2, 3, 4]) (· + 10)
      (fun _ => (0, some .noOp)) 0 rfl).2.2 (Tensor.ofData [4] [1, 1, 1, 1]) true rfl rfl⟩

/-! ## C23: `Apply` on a view -/

/-- On a view, without a reuse tensor, `Apply` returns a nil tensor and a nil
error and writes nothing as soon as the first call of the iterator reports no
error: the body of the loop is entered with a nil error, on which the test for
a NoOp fails, and returns. -/
theorem Tensor.Apply_view_returns (v : Tensor) (fn : Int → Int) (safe incr : Bool)
    (it : Nat → Int × Option Err) (fuel : Nat) (hview : v.viewOf.isSome = true)
    (hfirst : (it 0).2 = none) :
    v.Apply fn safe incr none it (fuel + 1) = .ok ⟨none, none, v, none⟩ := by
  have hvn : ¬ (v.viewOf.isNone = true) := by
    cases h : v.viewOf <;> simp [h] at hview ⊢
  cases v with
  | mk ap data old tw vo =>
    cases safe <;>
      simp [Tensor.Apply, hvn, hfirst, applyViewLoop_returns]

/-- C23: the view `T[:, 0:1]` of the 2x2 tensor over `[1,2,3,4]` has shape
(2,1) and shares the buffer `[1,2,3]`, of which it addresses the offsets 0 and
2. Whatever the function, the options `safe` and `incr`, and whatever the
iterator yields after a first offset, `Apply` returns a nil tensor and a nil
error, and the view (shape, buffer) is as it was: the function is applied to no
element. -/
theorem C23_apply_on_view_applies_nothing (fn : Int → Int) (safe incr : Bool) (off0 : Int)
    (rest : Nat → Int × Option Err) (fuel : Nat) :
    ∃ t v, NewTensor [.WithShape [2, 2], .WithBacking [1, 2, 3, 4]] = .ok t ∧
      t.Slice [none, some (.rangedSlice 0 1)] = .ok v ∧
      v.IsView = true ∧ v.Shape = [2, 1] ∧ v.data = [1, 2, 3] ∧
      v.atOffset [0, 0] = .ok 0 ∧ v.atOffset [1, 0] = .ok 2 ∧
      v.Apply fn safe incr none
          (fun k => match k with
            | 0 => (off0, none)
            | k + 1 => rest k) (fuel + 1)
        = .ok ⟨none, none, v, none⟩ :=
  ⟨_, _, rfl, rfl, rfl, rfl, rfl, rfl, rfl,
    Tensor.Apply_view_returns _ fn safe incr _ fuel rfl rfl⟩

/-! ## Offsets and coordinates of a row-major layout -/

theorem itolAux_length (i : Int) (ss : List Int) : (itolAux i ss).length = ss.length := by
  induction ss generalizing i with
  | nil => rfl
  | cons s ss ih => simp [itolAux, ih]

/-- The coordinate of an offset below the size lies in the shape, and its
offset is the one it came from. -/
theorem itolAux_inRange (s : Shape) (hpos : ∀ d ∈ s, 0 ≤ d) (i : Int) (h0 : 0 ≤ i)
    (hi : i < s.prod) :
    inRange (itolAux i (rowMajor s)) s = true ∧ dot (itolAux i (rowMajor s)) (rowMajor s) = i := by
  induction s generalizing i with
  | nil =>
    simp only [List.prod_nil] at hi
    have : i = 0 := by omega
    subst this
    simp [itolAux, rowMajor, inRange, dot]
  | cons d ds ih =>
    have hd : 0 ≤ d := hpos d (List.mem_cons_self _ _)
    have hds : ∀ x ∈ ds, 0 ≤ x := fun x hx => hpos x (List.mem_cons_of_mem _ hx)
    have hP0 : 0 ≤ ds.prod := prod_nonneg_of ds hds
    simp only [List.prod_cons] at hi
    have hP : 0 < ds.prod := by
      rcases hP0.lt_or_eq with h | h
      · exact h
      · rw [← h] at hi; simp at hi; omega
    have hq0 : 0 ≤ i / ds.prod := Int.ediv_nonneg h0 hP0
    have hq1 : i / ds.prod < d := Int.ediv_lt_of_lt_mul hP hi
    have hr0 : 0 ≤ i % ds.prod := Int.emod_nonneg _ (ne_of_gt hP)
    have hr1 : i % ds.prod < ds.prod := Int.emod_lt_of_pos _ hP
    obtain ⟨h1, h2⟩ := ih hds (i % ds.prod) hr0 hr1
    constructor
    · simp only [rowMajor, itolAux, inRange, hq0, hq1, h1, decide_True, Bool.and_self]
    · simp only [rowMajor, itolAux, dot, h2]
      exact Int.ediv_add_emod' i ds.prod

theorem getD_eq_of_getAt {xs : List Int} {a : Int} (h0 : 0 ≤ a) (h1 : a.toNat < xs.length) :
    getAt xs a = .ok (xs.getD a.toNat 0) := by
  have := getAt_of_lt xs a.toNat h1
  rw [Int.toNat_of_nonneg h0] at this
  rw [this]
  simp [List.getD, List.getElem?_eq_getElem h1]

/-- The loop of `transposeIndex` adds up the permuted coordinate against the
strides. -/
theorem transposeIndexLoop_eq (oc pat ss : List Int) (acc : Int)
    (hpat : ∀ a ∈ pat, 0 ≤ a ∧ a.toNat < oc.length) (hl : pat.length ≤ ss.length) :
    transposeIndexLoop oc pat ss acc = .ok (acc + dot (permuteList pat oc) ss) := by
  induction pat generalizing ss acc with
  | nil => simp [transposeIndexLoop, permuteList, dot]
  | cons a pat ih =>
    cases ss with
    | nil => simp at hl
    | cons s ss =>
      simp only [List.length_cons, add_le_add_iff_right] at hl
      obtain ⟨ha0, ha1⟩ := hpat a (List.mem_cons_self _ _)
      unfold transposeIndexLoop
      simp only [getD_eq_of_getAt ha0 ha1]
      rw [ih ss _ (fun x hx => hpat x (List.mem_cons_of_mem _ hx)) hl]
      simp only [permuteList, List.map_cons, dot]
      congr 1
      ring

theorem prod_permuteList {p s : List Int} (hp : p.Perm (iota s.length)) :
    (permuteList p s).prod = s.prod := (permuteList_perm hp).prod_eq

theorem itolAux_zero (ss : List Int) : itolAux 0 ss = List.replicate ss.length 0 := by
  induction ss with
  | nil => rfl
  | cons s ss ih => simp [itolAux, ih, List.replicate_succ]

theorem permuteList_replicate_zero (p : List Int) (n : Nat) :
    permuteList p (List.replicate n 0) = List.replicate p.length 0 := by
  induction p with
  | nil => rfl
  | cons a p ih =>
    simp only [permuteList, List.map_cons, List.length_cons, List.replicate_succ] at ih ⊢
    rw [ih]
    congr 1
    by_cases h : a.toNat < n
    · simp [List.getD, List.getElem?_replicate, h]
    · simp [List.getD, List.getElem?_replicate, h]

theorem dot_replicate_zero (n : Nat) (ss : List Int) : dot (List.replicate n 0) ss = 0 := by
  induction n generalizing ss with
  | zero => simp [dot]
  | succ n ih =>
    cases ss with
    | nil => simp [List.replicate_succ, dot]
    | cons s ss => simp [List.replicate_succ, dot, ih]

theorem dot_pred_rowMajor (s : List Int) :
    dot (s.map (· - 1)) (rowMajor s) = s.prod - 1 := by
  induction s with
  | nil => simp [dot, rowMajor]
  | cons d ds ih =>
    simp only [List.map_cons, rowMajor, dot, ih, List.prod_cons]
    ring

theorem pos_of_prod_pos (s : List Int) (hpos : ∀ d ∈ s, 0 ≤ d) (h : 0 < s.prod) :
    ∀ d ∈ s, 1 ≤ d := by
  induction s with
  | nil => simp
  | cons a s ih =>
    have ha : 0 ≤ a := hpos a (List.mem_cons_self _ _)
    have hs : ∀ x ∈ s, 0 ≤ x := fun x hx => hpos x (List.mem_cons_of_mem _ hx)
    have hP := prod_nonneg_of s hs
    simp only [List.prod_cons] at h
    have ha1 : 0 < a := by
      rcases ha.lt_or_eq with h1 | h1
      · exact h1
      · rw [← h1] at h; simp at h
    have hP1 : 0 < s.prod := by
      rcases hP.lt_or_eq with h1 | h1
      · exact h1
      · rw [← h1] at h; simp at h
    intro d hd
    rcases List.mem_cons.1 hd with rfl | hd
    · omega
    · exact ih hs hP1 d hd

theorem inRange_pred (s : List Int) (h : ∀ d ∈ s, 1 ≤ d) : inRange (s.map (· - 1)) s = true := by
  induction s with
  | nil => rfl
  | cons a s ih =>
    have ha := h a (List.mem_cons_self _ _)
    simp only [List.map_cons, inRange, Bool.and_eq_true, decide_eq_true_eq]
    exact ⟨⟨by omega, by omega⟩, ih (fun x hx => h x (List.mem_cons_of_mem _ hx))⟩

theorem permuteList_map_pred (p xs : List Int) (hp : ∀ a ∈ p, 0 ≤ a ∧ a.toNat < xs.length) :
    permuteList p (xs.map (· - 1)) = (permuteList p xs).map (· - 1) := by
  induction p with
  | nil => rfl
  | cons a p ih =>
    obtain ⟨_, h1⟩ := hp a (List.mem_cons_self _ _)
    simp only [permuteList, List.map_cons, List.map_map] at ih ⊢
    rw [ih (fun x hx => hp x (List.mem_cons_of_mem _ hx))]
    congr 1
    simp [List.getD, List.getElem?_eq_getElem h1]

/-! ## C29: `transposeIndex` -/

/-- On a thunked tensor whose saved layout is row-major and not a vector, the
optimised `transposeIndex` and the conceptual formulation both give the offset
of the permuted coordinate in the row-major layout of the permuted shape. -/
theorem Tensor.transposeIndex_eq (t : Tensor) (o : AP) (axes : List Int)
    (hold : t.old = some o) (hstr : o.strides = rowMajor o.shape)
    (hvec : Shape.IsVector o.shape = false) (hpos : ∀ d ∈ o.shape, 0 ≤ d)
    (hp : axes.Perm (iota o.shape.length)) (i : Int) (h0 : 0 ≤ i) (hi : i < o.shape.prod) :
    t.transposeIndex i axes (Shape.CalcStrides (permuteList axes o.shape))
      = .ok (dot (permuteList axes (itolAux i (rowMajor o.shape)))
          (rowMajor (permuteList axes o.shape))) ∧
    conceptualIndex o.shape o.strides axes (permuteList axes o.shape)
        (Shape.CalcStrides (permuteList axes o.shape)) i
      = .ok (dot (permuteList axes (itolAux i (rowMajor o.shape)))
          (rowMajor (permuteList axes o.shape))) := by
  have hl : axes.length = o.shape.length := by simpa [iota_length] using hp.length_eq
  have hv1 : Shape.IsVector (permuteList axes o.shape) = false := by
    rw [Shape.isVector_permuteList hp]; exact hvec
  have hcs := Shape.calcStrides_of_not_vector hv1
  have hit : Itol i o.shape (rowMajor o.shape) = .ok (itolAux i (rowMajor o.shape)) := by
    have : ¬ (i ≥ Shape.TotalSize o.shape) := by simp only [Shape.TotalSize]; omega
    simp [Itol, this]
  have hcl : (itolAux i (rowMajor o.shape)).length = o.shape.length := by
    rw [itolAux_length, rowMajor_length]
  obtain ⟨hin, _⟩ := itolAux_inRange o.shape hpos i h0 hi
  constructor
  · unfold Tensor.transposeIndex
    simp only [Tensor.oshape, Tensor.ostrides, hold, hstr, hit, hcs]
    rw [transposeIndexLoop_eq _ _ _ _ _ (by rw [rowMajor_length, permuteList_length])]
    · simp
    · intro a ha
      obtain ⟨a0, a1⟩ := Perm.mem_range hp ha
      rw [hcl]
      exact ⟨a0, by omega⟩
  · unfold conceptualIndex
    have hperm : isPermutation axes (itolAux i (rowMajor o.shape)).length = true := by
      rw [hcl]; exact (isPermutation_iff_perm _ _).2 hp
    have hin2 : inRange (permuteList axes (itolAux i (rowMajor o.shape)))
        (permuteList axes o.shape) = true := by
      rw [inRange_permuteList hp hcl rfl]; exact hin
    simp only [hstr, hit, Permute, hperm, if_true, Ltoi_of_not_vector _ _ hv1, hin2, hcs]

/-- The offset map of a transposition between two row-major layouts is a
bijection of `0..size-1` that fixes 0 and `size-1`. -/
theorem transposeDest_bijection (s : Shape) (p : List Int) (hpos : ∀ d ∈ s, 0 ≤ d)
    (hp : p.Perm (iota s.length)) :
    (∀ i, 0 ≤ i → i < s.prod →
      0 ≤ dot (permuteList p (itolAux i (rowMajor s))) (rowMajor (permuteList p s)) ∧
      dot (permuteList p (itolAux i (rowMajor s))) (rowMajor (permuteList p s)) < s.prod) ∧
    (∀ i j, 0 ≤ i → i < s.prod → 0 ≤ j → j < s.prod →
      dot (permuteList p (itolAux i (rowMajor s))) (rowMajor (permuteList p s))
        = dot (permuteList p (itolAux j (rowMajor s))) (rowMajor (permuteList p s)) → i = j) ∧
    (∀ d, 0 ≤ d → d < s.prod → ∃ i, 0 ≤ i ∧ i < s.prod ∧
      dot (permuteList p (itolAux i (rowMajor s))) (rowMajor (permuteList p s)) = d) ∧
    (0 < s.prod →
      dot (permuteList p (itolAux 0 (rowMajor s))) (rowMajor (permuteList p s)) = 0 ∧
      dot (permuteList p (itolAux (s.prod - 1) (rowMajor s))) (rowMajor (permuteList p s))
        = s.prod - 1) := by
  have hl : p.length = s.length := by simpa [iota_length] using hp.length_eq
  have hprod : (permuteList p s).prod = s.prod := prod_permuteList hp
  have hnl : (permuteList p s).length = s.length := by rw [permuteList_length, hl]
  have hposN : ∀ d ∈ permuteList p s, 0 ≤ d := fun d hd =>
    hpos d ((permuteList_perm hp).mem_iff.1 hd)
  have hcl : ∀ i, (itolAux i (rowMajor s)).length = s.length := fun i => by
    rw [itolAux_length, rowMajor_length]
  have hinP : ∀ i, 0 ≤ i → i < s.prod →
      inRange (permuteList p (itolAux i (rowMajor s))) (permuteList p s) = true := by
    intro i h0 hi
    rw [inRange_permuteList hp (hcl i) rfl]
    exact (itolAux_inRange s hpos i h0 hi).1
  refine ⟨?_, ?_, ?_, ?_⟩
  · intro i h0 hi
    have := dot_rowMajor_bounds _ _ (hinP i h0 hi)
    rw [hprod] at this
    exact this
  · intro i j hi0 hi1 hj0 hj1 h
    have e1 := itolAux_dot_rowMajor _ _ (hinP i hi0 hi1)
    have e2 := itolAux_dot_rowMajor _ _ (hinP j hj0 hj1)
    rw [h, e2] at e1
    have e3 := congrArg (permuteList (invPerm p)) e1
    rw [permuteList_invPerm hp _ (hcl j), permuteList_invPerm hp _ (hcl i)] at e3
    have := (itolAux_inRange s hpos i hi0 hi1).2
    rw [← e3, (itolAux_inRange s hpos j hj0 hj1).2] at this
    exact this.symm
  · intro d hd0 hd1
    obtain ⟨c1, c2⟩ := itolAux_inRange (permuteList p s) hposN d hd0 (by rw [hprod]; exact hd1)
    have hcl' : (itolAux d (rowMajor (permuteList p s))).length = s.length := by
      rw [itolAux_length, rowMajor_length, hnl]
    have hinv := invPerm_perm hp
    have hin : inRange (permuteList (invPerm p) (itolAux d (rowMajor (permuteList p s)))) s
        = true := by
      have := inRange_permuteList hinv hcl' hnl
      rw [permuteList_invPerm hp s rfl] at this
      rw [this]; exact c1
    obtain ⟨b0, b1⟩ := dot_rowMajor_bounds _ _ hin
    refine ⟨_, b0, b1, ?_⟩
    rw [itolAux_dot_rowMajor _ _ hin, permuteList_invPerm_right hp _ hcl']
    exact c2
  · intro hsz
    constructor
    · rw [itolAux_zero, permuteList_replicate_zero, dot_replicate_zero]
    · have h1 := pos_of_prod_pos s hpos hsz
      have hin := inRange_pred s h1
      have e := itolAux_dot_rowMajor _ _ hin
      rw [dot_pred_rowMajor] at e
      rw [e, permuteList_map_pred p s (fun a ha => by
        obtain ⟨a0, a1⟩ := Perm.mem_range hp ha
        exact ⟨a0, by omega⟩), dot_pred_rowMajor, hprod]

/-- C29 (counterexample): the column vector of shape (4,1) over `[1,2,3,4]`
after `T()` is thunked, its saved shape (4,1) has rank 2 and its saved strides
`[1]` are those of that shape; with the axes (1,0) and the strides of the new
shape (1,4), the optimised `transposeIndex(1, ..)` panics (the coordinate has
one entry and is indexed at 1) and the conceptual formulation fails in
`permute`: neither returns an offset. On the tensor of shape (-2,-3) over 0..5,
which `NewTensor` accepts, after `T()` the optimised `transposeIndex(1, ..)`
returns -2 while the conceptual formulation fails in `ltoi`. -/
theorem C29_counterexample :
    (∃ t t1, NewTensor [.WithShape [4, 1], .WithBacking [1, 2, 3, 4]] = .ok t ∧
      t.T 0 [] = .ok t1 ∧ t1.old = some ⟨[4, 1], [1], true⟩ ∧
      t1.transposeWith = some [1, 0] ∧ t1.oshape.length = 2 ∧
      t1.ostrides = Shape.CalcStrides t1.oshape ∧
      isPermutation [1, 0] 2 = true ∧ t1.Shape = permuteList [1, 0] t1.oshape ∧
      (1 : Int) < Shape.TotalSize t1.oshape ∧
      t1.transposeIndex 1 [1, 0] (Shape.CalcStrides t1.Shape) = .error .goPanic ∧
      conceptualIndex t1.oshape t1.ostrides [1, 0] t1.Shape (Shape.CalcStrides t1.Shape) 1
        = .error .invalidAxes) ∧
    (∃ w w1, NewTensor [.WithShape [-2, -3], .WithBacking (iota 6)] = .ok w ∧
      w.T 0 [] = .ok w1 ∧ w1.oshape = [-2, -3] ∧
      w1.ostrides = rowMajor w1.oshape ∧ (1 : Int) < Shape.TotalSize w1.oshape ∧
      w1.transposeIndex 1 [1, 0] (Shape.CalcStrides w1.Shape) = .ok (-2) ∧
      conceptualIndex w1.oshape w1.ostrides [1, 0] w1.Shape (Shape.CalcStrides w1.Shape) 1
        = .error .indexError) :=
  ⟨⟨_, _, rfl, rfl, rfl, rfl, rfl, rfl, rfl, rfl, by decide, rfl, rfl⟩,
   ⟨_, _, rfl, rfl, rfl, rfl, by decide, rfl, rfl⟩⟩

/-- C29 (as amended): for a thunked tensor whose saved access pattern is
row-major and not a vector (one stride per axis, no negative size), a valid
permutation `axes`, `new shape = permute(axes, old shape)` and
`exp_strides = calc_strides(new shape)`: for every `0 ≤ i < size` the optimised
`transposeIndex(i, axes, exp_strides)` returns the offset that the conceptual
`ltoi(new shape, exp_strides, permute(axes, itol(i, old shape, old strides)))`
returns, and that offset lies in `0..size-1`; the map `i ↦ transposeIndex(i)` is
injective and surjective on `0..size-1`, and it fixes 0 and `size-1`. -/
theorem C29_transposeIndex_is_conceptual (t : Tensor) (o : AP) (axes : List Int)
    (hold : t.old = some o) (hstr : o.strides = rowMajor o.shape)
    (hvec : Shape.IsVector o.shape = false) (hpos : ∀ d ∈ o.shape, 0 ≤ d)
    (hp : axes.Perm (iota o.shape.length)) :
    (∀ i, 0 ≤ i → i < Shape.TotalSize o.shape →
      ∃ d, t.transposeIndex i axes (Shape.CalcStrides (permuteList axes o.shape)) = .ok d ∧
        conceptualIndex o.shape o.strides axes (permuteList axes o.shape)
          (Shape.CalcStrides (permuteList axes o.shape)) i = .ok d ∧
        0 ≤ d ∧ d < Shape.TotalSize o.shape) ∧
    (∀ i j, 0 ≤ i → i < Shape.TotalSize o.shape → 0 ≤ j → j < Shape.TotalSize o.shape →
      t.transposeIndex i axes (Shape.CalcStrides (permuteList axes o.shape))
        = t.transposeIndex j axes (Shape.CalcStrides (permuteList axes o.shape)) → i = j) ∧
    (∀ d, 0 ≤ d → d < Shape.TotalSize o.shape →
      ∃ i, 0 ≤ i ∧ i < Shape.TotalSize o.shape ∧
        t.transposeIndex i axes (Shape.CalcStrides (permuteList axes o.shape)) = .ok d) ∧
    (0 < Shape.TotalSize o.shape →
      t.transposeIndex 0 axes (Shape.CalcStrides (permuteList axes o.shape)) = .ok 0 ∧
      t.transposeIndex (Shape.TotalSize o.shape - 1) axes
        (Shape.CalcStrides (permuteList axes o.shape)) = .ok (Shape.TotalSize o.shape - 1)) := by
  have heq := Tensor.transposeIndex_eq t o axes hold hstr hvec hpos hp
  obtain ⟨b1, b2, b3, b4⟩ := transposeDest_bijection o.shape axes hpos hp
  simp only [Shape.TotalSize]
  refine ⟨?_, ?_, ?_, ?_⟩
  · intro i h0 hi
    exact ⟨_, (heq i h0 hi).1, (heq i h0 hi).2, b1 i h0 hi⟩
  · intro i j hi0 hi1 hj0 hj1 h
    rw [(heq i hi0 hi1).1, (heq j hj0 hj1).1] at h
    exact b2 i j hi0 hi1 hj0 hj1 (Except.ok.inj h)
  · intro d hd0 hd1
    obtain ⟨i, i0, i1, hi⟩ := b3 d hd0 hd1
    exact ⟨i, i0, i1, by rw [(heq i i0 i1).1, hi]⟩
  · intro hsz
    obtain ⟨f0, f1⟩ := b4 hsz
    exact ⟨by rw [(heq 0 (le_refl 0) hsz).1, f0],
      by rw [(heq _ (by omega) (by omega)).1, f1]⟩

/-- C29 (witness): shape (2,2), axes (1,0), strides (2,1): the indices 0, 1,
2, 3 map to 0, 2, 1, 3. -/
theorem C29_transposeIndex_witness :
    ((⟨⟨[2, 2], [1, 2], true⟩, [0, 1, 2, 3], some ⟨[2, 2], [2, 1], true⟩, some [1, 0],
        none⟩ : Tensor).transposeIndex 0 [1, 0] [2, 1] = .ok 0 ∧
     (⟨⟨[2, 2], [1, 2], true⟩, [0, 1, 2, 3], some ⟨[2, 2], [2, 1], true⟩, some [1, 0],
        none⟩ : Tensor).transposeIndex 3 [1, 0] [2, 1] = .ok 3) ∧
    (⟨⟨[2, 2], [1, 2], true⟩, [0, 1, 2, 3], some ⟨[2, 2], [2, 1], true⟩, some [1, 0],
        none⟩ : Tensor).transposeIndex 1 [1, 0] [2, 1] = .ok 2 ∧
    (⟨⟨[2, 2], [1, 2], true⟩, [0, 1, 2, 3], some ⟨[2, 2], [2, 1], true⟩, some [1, 0],
        none⟩ : Tensor).transposeIndex 2 [1, 0] [2, 1] = .ok 1 :=
  ⟨(C29_transposeIndex_is_conceptual
      ⟨⟨[2, 2], [1, 2], true⟩, [0, 1, 2, 3], some ⟨[2, 2], [2, 1], true⟩, some [1, 0], none⟩
      ⟨[2, 2], [2, 1], true⟩ [1, 0] rfl rfl (by decide) (by decide)
      ((isPermutation_iff_perm _ _).1 (by decide))).2.2.2 (by decide),
   rfl, rfl⟩

/-! ## The bitmap of `Transpose` -/

theorem bit64_of_lt (j : Nat) (hj : j < 64) : bit64 (j : Int) = 2 ^ j := by
  have h : (0 : Int) ≤ (j : Int) ∧ (j : Int) < 64 := ⟨by omega, by omega⟩
  simp [bit64, h]

/-- The test of the bitmap at an index below 64 reads the bit of that index. -/
theorem isSet_eq_testBit (track j : Nat) (hj : j < 64) :
    isSet track (j : Int) = track.testBit j := by
  unfold isSet
  rw [bit64_of_lt j hj, Nat.and_two_pow]
  cases h : track.testBit j
  · simp
  · simp [Nat.pos_pow_of_pos]

theorem testBit_or_bit64 (track i j : Nat) (hi : i < 64) :
    (track ||| bit64 (i : Int)).testBit j = (track.testBit j || decide (i = j)) := by
  rw [bit64_of_lt i hi, Nat.testBit_or, Nat.testBit_two_pow]

theorem trackFull_eq (n : Nat) (hn : n ≤ 64) : trackFull (n : Int) = 2 ^ n - 1 := by
  unfold trackFull
  rcases Nat.lt_or_ge n 64 with h | h
  · rw [bit64_of_lt n h]
    have h1 : 2 ^ n < 2 ^ 64 := Nat.pow_lt_pow_right (by decide) h
    have h2 : 0 < 2 ^ n := Nat.pos_pow_of_pos n (by decide)
    have e : 2 ^ n + 2 ^ 64 - 1 = (2 ^ n - 1) + 2 ^ 64 := by omega
    rw [e, Nat.add_mod_right, Nat.mod_eq_of_lt (by omega)]
  · have e : n = 64 := by omega
    subst e
    rfl

theorem trackInit_eq (n : Nat) (h2 : 2 ≤ n) (hn : n ≤ 64) :
    trackInit (n : Int) = 2 ^ (n - 1) + 1 := by
  unfold trackInit
  have e : ((n : Int) - 1) = ((n - 1 : Nat) : Int) := by omega
  rw [e, bit64_of_lt (n - 1) (by omega)]
  have h1 : 2 ^ (n - 1) ≤ 2 ^ 63 := Nat.pow_le_pow_right (by decide) (by omega)
  rw [Nat.mod_eq_of_lt (by omega), Nat.add_comm]

theorem trackInit_testBit (n j : Nat) (h3 : 3 ≤ n) (hj : j < n) :
    (2 ^ (n - 1) + 1).testBit j = (decide (j = 0) || decide (j = n - 1)) := by
  rcases Nat.lt_or_ge j (n - 1) with h | h
  · rw [Nat.testBit_two_pow_add_gt h]
    have hne : ¬ (j = n - 1) := by omega
    by_cases h0 : j = 0
    · subst h0; simp
    · have : Nat.testBit 1 j = false := by
        cases hb : Nat.testBit 1 j
        · rfl
        · exact absurd (Nat.testBit_one_eq_true_iff_self_eq_zero.1 hb) h0
      simp [this, h0, hne]
  · have e : j = n - 1 := by omega
    subst e
    rw [Nat.testBit_two_pow_add_eq]
    have h0 : ¬ (n - 1 = 0) := by omega
    have : Nat.testBit 1 (n - 1) = false := by
      cases hb : Nat.testBit 1 (n - 1)
      · rfl
      · exact absurd (Nat.testBit_one_eq_true_iff_self_eq_zero.1 hb) h0
    simp [this]

theorem trackInit_lt (n : Nat) (h2 : 2 ≤ n) : 2 ^ (n - 1) + 1 < 2 ^ n := by
  have e : n = (n - 1) + 1 := by omega
  have h1 : 2 ≤ 2 ^ (n - 1) := by
    calc 2 = 2 ^ 1 := rfl
      _ ≤ 2 ^ (n - 1) := Nat.pow_le_pow_right (by decide) (by omega)
  rw [e, Nat.pow_succ]
  simp only [Nat.add_sub_cancel]
  omega

/-- A bitmap below `2^n` that is not full has an unset bit below `n`. -/
theorem exists_unset (track n : Nat) (hlt : track < 2 ^ n) (hne : track ≠ 2 ^ n - 1) :
    ∃ j, j < n ∧ track.testBit j = false := by
  by_contra hc
  apply hne
  apply Nat.eq_of_testBit_eq
  intro i
  rw [Nat.testBit_two_pow_sub_one]
  rcases Nat.lt_or_ge i n with h | h
  · have : track.testBit i = true := by
      cases hb : track.testBit i
      · exact absurd ⟨i, h, hb⟩ hc
      · rfl
    simp [this, h]
  · have h1 : track < 2 ^ i := Nat.lt_of_lt_of_le hlt (Nat.pow_le_pow_right (by decide) h)
    have : ¬ (i < n) := by omega
    simp [Nat.testBit_lt_two_pow h1, this]

/-- The inner loop stops at the first unset bit at or after its start. -/
theorem advanceLoop_spec (track : Nat) (m k j : Nat) (hkj : k ≤ j) (hjm : j < k + m)
    (hj : j < 64) (hu : track.testBit j = false) :
    ∃ j0 : Nat, advanceLoop track m (k : Int) = (j0 : Int) ∧ k ≤ j0 ∧ j0 ≤ j ∧
      track.testBit j0 = false ∧ ∀ x, k ≤ x → x < j0 → track.testBit x = true := by
  induction m generalizing k with
  | zero => omega
  | succ m ih =>
    unfold advanceLoop
    rw [isSet_eq_testBit track k (by omega)]
    cases hb : track.testBit k
    · exact ⟨k, by simp, le_refl _, hkj, hb, fun x h1 h2 => by omega⟩
    · have hne : k ≠ j := by
        intro e; subst e; rw [hb] at hu; cases hu
      obtain ⟨j0, e, h1, h2, h3, h4⟩ := ih (k + 1) (by omega) (by omega)
      refine ⟨j0, ?_, by omega, h2, h3, ?_⟩
      · simp only [if_true]
        have : ((k : Int) + 1) = ((k + 1 : Nat) : Int) := by omega
        rw [this]; exact e
      · intro x hx1 hx2
        rcases Nat.eq_or_lt_of_le hx1 with h | h
        · subst h; exact hb
        · exact h4 x (by omega) hx2

/-- Setting an unset bit below `n` lowers the number of unset bits below `n`. -/
theorem unsetCount_lt (track n i : Nat) (hi : i < n) (h64 : i < 64)
    (hu : track.testBit i = false) :
    unsetCount (track ||| bit64 (i : Int)) n < unsetCount track n := by
  unfold unsetCount
  apply Finset.card_lt_card
  rw [Finset.ssubset_iff_of_subset]
  · refine ⟨i, ?_, ?_⟩
    · simp [hi, hu]
    · have := testBit_or_bit64 track i i h64
      simp only [decide_True, Bool.or_true] at this
      simp only [Finset.mem_filter, Finset.mem_range, this, Bool.true_eq_false, and_false,
        not_false_eq_true]
  · intro x hx
    simp only [Finset.mem_filter, Finset.mem_range, testBit_or_bit64 track i x h64,
      Bool.or_eq_false_iff] at hx ⊢
    exact ⟨hx.1, hx.2.1⟩

theorem unsetCount_le (track n : Nat) : unsetCount track n ≤ n := by
  unfold unsetCount
  calc _ ≤ (Finset.range n).card := Finset.card_filter_le _ _
    _ = n := Finset.card_range n

/-! ## The cycle-following loop of `Transpose` returns -/

/-- The invariant after the loop has closed a cycle and moved to the first
unset index. -/
theorem CycleInv.close {n : Nat} {f : Nat → Nat} {track k s : Nat} {C R : Nat → Prop}
    (hf_inj : ∀ a b, a < n → b < n → f a = f b → a = b)
    (inv : CycleInv n f track k s C R) (hb : track.testBit k = true) (j0 : Nat)
    (hj0 : j0 < n) (hu : track.testBit j0 = false)
    (hall : ∀ x, s ≤ x → x < j0 → track.testBit x = true) :
    CycleInv n f track j0 j0 (fun j => C j ∨ R j) (fun _ => False) := by
  have hRk : R k := by
    rcases (inv.bits k inv.k_lt).1 hb with h | h
    · exact absurd h inv.k_out
    · exact h
  have hks : k = s := inv.r_tip hRk
  obtain ⟨hRs, l, hRl, hfl⟩ := inv.r_start ⟨k, hRk⟩
  have hnot : ¬ (C j0 ∨ R j0) := by
    intro h
    have := (inv.bits j0 hj0).2 h
    rw [hu] at this; cases this
  refine ⟨inv.lt_pow, hj0, hj0, ?_, ?_, ?_, hnot, hnot, ?_, ?_, fun _ => rfl, ?_, ?_, ?_, ?_⟩
  · intro j hj
    rw [inv.bits j hj]
    simp
  · rintro j (h | h)
    · exact ⟨(inv.c_fwd j h).1, Or.inl (inv.c_fwd j h).2⟩
    · refine ⟨inv.r_lt j h, Or.inr ?_⟩
      rcases inv.r_fwd j h with h1 | h1
      · exact h1
      · rw [h1, hks]; exact hRs
  · rintro j hj (h | h)
    · exact Or.inl (inv.c_bwd j hj h)
    · right
      by_cases hfs : f j = s
      · have : l = j := hf_inj l j (inv.r_lt l hRl) hj (by rw [hfl, hks, hfs])
        rw [← this]; exact hRl
      · obtain ⟨y, hRy, hfy⟩ := inv.r_pred (f j) h hfs
        have : y = j := hf_inj y j (inv.r_lt y hRy) hj hfy
        rw [← this]; exact hRy
  · intro j hj
    rcases Nat.lt_or_ge j s with h | h
    · exact Or.inl (inv.below j h)
    · exact (inv.bits j (by omega)).1 (hall j h hj)
  · intro j h; exact absurd h id
  · rintro ⟨j, h⟩; exact absurd h id
  · intro x h; exact absurd h id
  · intro h; exact absurd h id
  · intro x h; exact absurd h id

/-- The invariant after the loop has visited an unset index and moved on to its
destination. -/
theorem CycleInv.visit {n : Nat} {f : Nat → Nat} {track k s : Nat} {C R : Nat → Prop}
    (hn : n ≤ 64) (hf_lt : ∀ k, k < n → f k < n)
    (hf_inj : ∀ a b, a < n → b < n → f a = f b → a = b)
    (inv : CycleInv n f track k s C R) (hb : track.testBit k = false) :
    CycleInv n f (track ||| bit64 (k : Int)) (f k) s C (fun j => R j ∨ j = k) := by
  have hk := inv.k_lt
  have hk64 : k < 64 := by omega
  have hnRk : ¬ R k := by
    intro h
    have := (inv.bits k hk).2 (Or.inr h)
    rw [hb] at this; cases this
  refine ⟨?_, hf_lt k hk, inv.s_lt, ?_, inv.c_fwd, inv.c_bwd, inv.s_out, ?_, inv.below, ?_, ?_,
    ?_, ?_, ?_, ?_⟩
  · rw [bit64_of_lt k hk64]
    exact Nat.or_lt_two_pow inv.lt_pow (Nat.pow_lt_pow_right (by decide) hk)
  · intro j hj
    rw [testBit_or_bit64 track k j hk64, Bool.or_eq_true, inv.bits j hj, decide_eq_true_eq]
    constructor
    · rintro ((h | h) | h)
      · exact Or.inl h
      · exact Or.inr (Or.inl h)
      · exact Or.inr (Or.inr h.symm)
    · rintro (h | h | h)
      · exact Or.inl (Or.inl h)
      · exact Or.inl (Or.inr h)
      · exact Or.inr h.symm
  · intro h
    exact inv.k_out (inv.c_bwd k hk h)
  · rintro j (h | h)
    · exact inv.r_lt j h
    · rw [h]; exact hk
  · intro h
    exact absurd (Or.inr rfl) (h k)
  · intro _
    constructor
    · by_cases hR : ∃ j, R j
      · exact Or.inl (inv.r_start hR).1
      · have : k = s := inv.r_empty (fun j hj => hR ⟨j, hj⟩)
        exact Or.inr this.symm
    · exact ⟨k, Or.inr rfl, rfl⟩
  · rintro x (h | h) hxs
    · obtain ⟨y, hy, hfy⟩ := inv.r_pred x h hxs
      exact ⟨y, Or.inl hy, hfy⟩
    · subst h
      by_cases hR : ∃ j, R j
      · obtain ⟨_, l, hl, hfl⟩ := inv.r_start hR
        exact ⟨l, Or.inl hl, hfl⟩
      · exact absurd (inv.r_empty (fun j hj => hR ⟨j, hj⟩)) hxs
  · rintro (h | h)
    · by_contra hne
      obtain ⟨y, hy, hfy⟩ := inv.r_pred (f k) h hne
      have : y = k := hf_inj y k (inv.r_lt y hy) hk hfy
      rw [this] at hy
      exact hnRk hy
    · by_cases hR : ∃ j, R j
      · obtain ⟨_, l, hl, hfl⟩ := inv.r_start hR
        have : l = k := hf_inj l k (inv.r_lt l hl) hk (by rw [hfl, h])
        rw [this] at hl
        exact absurd hl hnRk
      · rw [h]; exact inv.r_empty (fun j hj => hR ⟨j, hj⟩)
  · rintro x (h | h)
    · rcases inv.r_fwd x h with h1 | h1
      · exact Or.inl (Or.inl h1)
      · exact Or.inl (Or.inr h1)
    · subst h
      exact Or.inr rfl

/-- From a state that satisfies the invariant, the loop of `Transpose` returns
once the fuel exceeds twice the number of unset bits plus one, with the index in
range and the buffer at its length. -/
theorem Tensor.transposeLoop_total (t : Tensor) (axes es : List Int) (n : Nat) (hn : n ≤ 64)
    (f : Nat → Nat) (hf_lt : ∀ k, k < n → f k < n)
    (hf_inj : ∀ a b, a < n → b < n → f a = f b → a = b)
    (hidx : ∀ k, k < n → t.transposeIndex (k : Int) axes es = .ok ((f k : Nat) : Int))
    (fuel : Nat) :
    ∀ (track : Nat) (saved : Int) (k : Nat) (data : List Int) (s : Nat) (C R : Nat → Prop),
      CycleInv n f track k s C R → data.length = n →
      2 * unsetCount track n + (if track.testBit k = true then 1 else 0) < fuel →
      ∃ (sv : Int) (i : Nat) (d : List Int),
        t.transposeLoop axes es (n : Int) fuel track saved (k : Int) data = .ok (sv, (i : Int), d)
          ∧ i < n ∧ d.length = n := by
  induction fuel with
  | zero => intro track saved k data s C R _ _ h; omega
  | succ fuel ih =>
    intro track saved k data s C R inv hlen hm
    have hk := inv.k_lt
    have hk64 : k < 64 := by omega
    unfold Tensor.transposeLoop
    by_cases hfull : track = trackFull (n : Int)
    · exact ⟨saved, k, data, by simp [hfull], hk, hlen⟩
    · simp only [hfull, if_false, hidx k hk, isSet_eq_testBit track k hk64,
        isSet_eq_testBit track (f k) (by have := hf_lt k hk; omega)]
      have hkl : k < data.length := by omega
      cases hb : track.testBit k
      · simp only [Bool.false_and, Bool.false_eq_true, if_false, getAt_of_lt data k hkl,
          setAt_of_lt data k saved hkl]
        have inv2 := CycleInv.visit hn hf_lt hf_inj inv hb
        have hlt := unsetCount_lt track n k hk hk64 hb
        refine ih _ _ _ _ s C _ inv2 (by simp [hlen]) ?_
        simp only [hb, Bool.false_eq_true, if_false] at hm
        split <;> omega
      · have hRk : R k := by
          rcases (inv.bits k hk).1 hb with h | h
          · exact absurd h inv.k_out
          · exact h
        have hks : k = s := inv.r_tip hRk
        have hfk : track.testBit (f k) = true := by
          apply (inv.bits (f k) (hf_lt k hk)).2
          right
          rcases inv.r_fwd k hRk with h | h
          · exact h
          · rw [h]; exact hRk
        rw [trackFull_eq n hn] at hfull
        obtain ⟨j, hjn, hju⟩ := exists_unset track n inv.lt_pow hfull
        have hsj : k ≤ j := by
          by_contra hc
          have hC := inv.below j (by omega)
          have := (inv.bits j hjn).2 (Or.inl hC)
          rw [hju] at this; cases this
        obtain ⟨j0, e0, h1, h2, h3, h4⟩ :=
          advanceLoop_spec track 65 k j hsj (by omega) (by omega) hju
        have hj0 : j0 < n := by omega
        have hnge : ¬ ((j0 : Int) ≥ len (data.set k saved)) := by
          simp only [len, List.length_set, hlen]; omega
        simp only [hfk, Bool.and_self, if_true, setAt_of_lt data k saved hkl, advance, e0, hnge,
          if_false]
        have inv2 := CycleInv.close hf_inj inv hb j0 hj0 h3
          (fun x hx1 hx2 => h4 x (by omega) hx2)
        refine ih _ _ _ _ j0 _ _ inv2 (by simp [hlen]) ?_
        simp only [hb, if_true] at hm
        simp only [h3, Bool.false_eq_true, if_false]
        omega

/-- The state in which `Transpose` enters its loop satisfies the invariant: the
bits 0 and `n - 1` are set, both indices are fixed by the map, and the loop
stands at index 1. -/
theorem CycleInv.init {n : Nat} {f : Nat → Nat} (h3 : 3 ≤ n) (hf_inj : ∀ a b, a < n → b < n → f a = f b → a = b)
    (hf0 : f 0 = 0) (hfl : f (n - 1) = n - 1) :
    CycleInv n f (2 ^ (n - 1) + 1) 1 1 (fun j => j = 0 ∨ j = n - 1) (fun _ => False) := by
  refine ⟨trackInit_lt n (by omega), by omega, by omega, ?_, ?_, ?_, by omega, by omega, ?_, ?_,
    fun _ => rfl, ?_, ?_, ?_, ?_⟩
  · intro j hj
    rw [trackInit_testBit n j h3 hj]
    simp
  · rintro j (h | h)
    · subst h; exact ⟨by omega, Or.inl hf0⟩
    · subst h; exact ⟨by omega, Or.inr hfl⟩
  · rintro j hj (h | h)
    · exact Or.inl (hf_inj j 0 hj (by omega) (by rw [h, hf0]))
    · exact Or.inr (hf_inj j (n - 1) hj (by omega) (by rw [h, hfl]))
  · intro j hj
    exact Or.inl (by omega)
  · intro j h; exact absurd h id
  · rintro ⟨j, h⟩; exact absurd h id
  · intro x h; exact absurd h id
  · intro h; exact absurd h id
  · intro x h; exact absurd h id

/-- `Transpose` returns on a thunked tensor whose saved layout is row-major and
not a vector, whose buffer holds its size, between 2 and 64 elements, as soon as
the fuel is 130 or more: the loop runs at most twice the size plus one times and
never indexes outside the buffer. -/
theorem Tensor.Transpose_total (t : Tensor) (o : AP) (axes : List Int) (n : Nat)
    (hold : t.old = some o) (htw : t.transposeWith = some axes)
    (hsh : t.ap.shape = permuteList axes o.shape) (hstr : o.strides = rowMajor o.shape)
    (hvec : Shape.IsVector o.shape = false) (hpos : ∀ d ∈ o.shape, 0 ≤ d)
    (hp : axes.Perm (iota o.shape.length)) (hsize : o.shape.prod = (n : Int))
    (hdata : t.data.length = n) (h2 : 2 ≤ n) (h64 : n ≤ 64) (fuel : Nat)
    (hfuel : 130 ≤ fuel) :
    ∃ t2, t.Transpose fuel = .ok t2 := by
  have hv1 : Shape.IsVector (permuteList axes o.shape) = false := by
    rw [Shape.isVector_permuteList hp]; exact hvec
  have hprod : (permuteList axes o.shape).prod = (n : Int) := by
    rw [prod_permuteList hp]; exact hsize
  have hsc : Shape.IsScalar (permuteList axes o.shape) = false := by
    cases hq : permuteList axes o.shape with
    | nil =>
      rw [hq] at hprod
      simp only [List.prod_nil] at hprod
      omega
    | cons a r => simp [Shape.IsScalar]
  obtain ⟨b1, b2, _, b4⟩ := transposeDest_bijection o.shape axes hpos hp
  have heq := Tensor.transposeIndex_eq t o axes hold hstr hvec hpos hp
  rw [hsize] at b1 b2 b4 heq
  have hidx : ∀ k : Nat, k < n →
      t.transposeIndex (k : Int) axes (Shape.CalcStrides (permuteList axes o.shape)) = .ok
        (((dot (permuteList axes (itolAux (k : Int) (rowMajor o.shape)))
          (rowMajor (permuteList axes o.shape))).toNat : Nat) : Int) := by
    intro k hk
    rw [(heq (k : Int) (by omega) (by omega)).1,
      Int.toNat_of_nonneg (b1 (k : Int) (by omega) (by omega)).1]
  have hf_lt : ∀ k : Nat, k < n →
      (dot (permuteList axes (itolAux (k : Int) (rowMajor o.shape)))
        (rowMajor (permuteList axes o.shape))).toNat < n := by
    intro k hk
    have := b1 (k : Int) (by omega) (by omega)
    omega
  have hf_inj : ∀ a b : Nat, a < n → b < n →
      (dot (permuteList axes (itolAux (a : Int) (rowMajor o.shape)))
        (rowMajor (permuteList axes o.shape))).toNat =
      (dot (permuteList axes (itolAux (b : Int) (rowMajor o.shape)))
        (rowMajor (permuteList axes o.shape))).toNat → a = b := by
    intro a b ha hb h
    have h1 := b1 (a : Int) (by omega) (by omega)
    have h2' := b1 (b : Int) (by omega) (by omega)
    have := b2 (a : Int) (b : Int) (by omega) (by omega) (by omega) (by omega) (by omega)
    omega
  have hloop : ∃ (sv : Int) (i : Nat) (d : List Int),
      t.transposeLoop axes (Shape.CalcStrides (permuteList axes o.shape)) (n : Int) fuel
        (trackInit (n : Int)) 0 1 t.data = .ok (sv, (i : Int), d) ∧ i < n ∧ d.length = n := by
    rcases Nat.lt_or_ge n 3 with h | h
    · have e : n = 2 := by omega
      subst e
      obtain ⟨fuel', rfl⟩ : ∃ m, fuel = m + 1 := ⟨fuel - 1, by omega⟩
      refine ⟨0, 1, t.data, ?_, by omega, hdata⟩
      unfold Tensor.transposeLoop
      have : trackInit (2 : Int) = trackFull (2 : Int) := by decide
      simp [this]
    · obtain ⟨f0, fl⟩ := b4 (by omega)
      have inv := CycleInv.init (f := fun k : Nat =>
          (dot (permuteList axes (itolAux (k : Int) (rowMajor o.shape)))
            (rowMajor (permuteList axes o.shape))).toNat) h hf_inj
          (by simp only [Nat.cast_zero, f0]; rfl)
          (by
            have e : ((n - 1 : Nat) : Int) = (n : Int) - 1 := by omega
            simp only [e, fl]
            omega)
      have hm : 2 * unsetCount (2 ^ (n - 1) + 1) n +
          (if (2 ^ (n - 1) + 1).testBit 1 = true then 1 else 0) < fuel := by
        have := unsetCount_le (2 ^ (n - 1) + 1) n
        split <;> omega
      have := Tensor.transposeLoop_total t axes _ n h64 _ hf_lt hf_inj hidx fuel
        (2 ^ (n - 1) + 1) 0 1 t.data 1 _ _ inv hdata hm
      rw [trackInit_eq n h2 h64]
      simpa using this
  obtain ⟨sv, i, d, hl, hi, hd⟩ := hloop
  have hset : setAt d (i : Int) sv = .ok (d.set i sv) := setAt_of_lt d i sv (by omega)
  unfold Tensor.Transpose
  simp only [hold, Tensor.IsScalar, Tensor.IsVector, Tensor.Shape, Tensor.Size, Shape.TotalSize,
    hsh, hsc, hv1, Bool.false_eq_true, if_false, htw, Option.getD_some, hprod, hl, hset]
  exact ⟨_, rfl⟩

/-! ## C27: a second `T` that does not cancel the first -/

/-- C27 (counterexample): the tensor of shape (0,2,3) built by `NewTensor` is
not a vector and has size 0; after `T(2,0,1)` its shape is (3,0,2), and the
shape (0,3,2) that `T(1,0,2)` would install differs from the saved shape
(0,2,3). `T(1,0,2)` then calls `Transpose()`, which panics at its first
`transposeIndex(1, ..)`: nothing is materialised and no thunk is installed. The
view `T[:, :, 0:2]` of the tensor of shape (2,3,4) over 0..23 has the shape
(2,3,2), size 12 and the parent's strides (12,4,1) over a window of 22
elements; after `T(2,0,1)`, the call `T(1,0,2)`, whose shape (2,2,3) differs
from the saved one, panics in `Transpose()` as well. -/
theorem C27_counterexample :
    (∃ t t1, NewTensor [.WithShape [0, 2, 3]] = .ok t ∧ t.IsVector = false ∧ t.Size = 0 ∧
      t.Size ≤ 64 ∧ t.T 0 [2, 0, 1] = .ok t1 ∧ t1.Shape = [3, 0, 2] ∧
      t1.oshape = [0, 2, 3] ∧ permuteList [1, 0, 2] t1.Shape = [0, 3, 2] ∧
      permuteList [1, 0, 2] t1.Shape ≠ t1.oshape ∧
      ∀ fuel, t1.Transpose (fuel + 1) = .error .goPanic ∧
        t1.T (fuel + 1) [1, 0, 2] = .error .goPanic) ∧
    (∃ c v v1, NewTensor [.WithShape [2, 3, 4], .WithBacking (iota 24)] = .ok c ∧
      c.Slice [none, none, some (.rangedSlice 0 2)] = .ok v ∧ v.IsVector = false ∧
      v.Shape = [2, 3, 2] ∧ v.Strides = [12, 4, 1] ∧ v.Size = 12 ∧ v.data.length = 22 ∧
      v.T 0 [2, 0, 1] = .ok v1 ∧ permuteList [1, 0, 2] v1.Shape = [2, 2, 3] ∧
      permuteList [1, 0, 2] v1.Shape ≠ v1.oshape ∧
      v1.Transpose 130 = .error .goPanic ∧ v1.T 130 [1, 0, 2] = .error .goPanic) :=
  ⟨⟨_, _, rfl, rfl, rfl, by decide, rfl, rfl, rfl, rfl, by decide, fun _ => ⟨rfl, rfl⟩⟩,
   ⟨_, _, _, rfl, rfl, rfl, rfl, rfl, rfl, rfl, rfl, rfl, by decide, rfl, rfl⟩⟩

/-- C27 (as amended): on a contiguous row-major tensor that is not a vector, has
no pending thunk and no negative size, whose buffer holds exactly its size,
between 2 and 64 elements: after `T(p)` for a valid non-identity `p`, a call
`T(q)` with a valid non-identity `q` whose transformed shape differs from the
saved shape returns (the loop of `Transpose` ends within 130 rounds), and the
pending transpose is materialised before the new thunk is installed: the data
is the buffer that `T(p); Transpose()` alone produces, which returns as well,
the shape is `permute(q, permute(p, shape))`, `old` holds the materialised shape
`permute(p, shape)` with its row-major strides, and `transposeWith` equals
`q`. -/
theorem C27_T_materialises_pending (fuel : Nat) (t : Tensor) (p q : List Int)
    (hvec : t.IsVector = false) (hold : t.old = none)
    (hstr : t.Strides = rowMajor t.Shape) (hpos : ∀ d ∈ t.Shape, 0 ≤ d)
    (hdata : len t.data = t.Size) (h2 : 2 ≤ t.Size) (h64 : t.Size ≤ 64)
    (hp : p.Perm (iota t.Shape.length)) (hpid : p ≠ iota t.Shape.length)
    (hq : q.Perm (iota t.Shape.length)) (hqid : q ≠ iota t.Shape.length)
    (hdiff : permuteList q (permuteList p t.Shape) ≠ t.Shape) (hfuel : 130 ≤ fuel) :
    ∃ t1 t2 t3, t.T fuel p = .ok t1 ∧ t1.data = t.data ∧ t1.old = some t.ap ∧
      t1.Transpose fuel = .ok t2 ∧ t1.T fuel q = .ok t3 ∧ t3.data = t2.data ∧
      t3.Shape = permuteList q (permuteList p t.Shape) ∧
      t3.old = some ⟨permuteList p t.Shape, rowMajor (permuteList p t.Shape), true⟩ ∧
      t3.transposeWith = some q := by
  obtain ⟨t1, h1, hd1, ho1, htw1, hsh1, _, hm⟩ :=
    Tensor.T_twice fuel t p q hvec hold hp hpid hq hqid hdiff
  have hsz : t.ap.shape.prod = ((t.Size.toNat : Nat) : Int) := by
    rw [Int.toNat_of_nonneg (by omega)]; rfl
  have hlen : t1.data.length = t.Size.toNat := by
    rw [hd1]
    have : (t.data.length : Int) = t.Size := hdata
    omega
  obtain ⟨t2, ht2⟩ := Tensor.Transpose_total t1 t.ap p t.Size.toNat ho1 htw1 hsh1 hstr hvec hpos
    hp hsz hlen (by omega) (by omega) fuel hfuel
  obtain ⟨t3, h3, r1, r2, r3, r4⟩ := hm t2 ht2
  exact ⟨t1, t2, t3, h1, hd1, ho1, ht2, h3, r1, r2, r3, r4⟩

/-- C27 (witness): shape (2,3,4) over 0..23 with `p = (2,0,1)` and
`q = (1,0,2)`: both calls return, the data is the (2,0,1)-transposed buffer,
the shape is (2,4,3), `old` holds (4,2,3) with strides (6,3,1). -/
theorem C27_T_materialises_pending_witness :
    (∃ t1 t2 t3, (Tensor.ofData [2, 3, 4] (iota 24)).T 130 [2, 0, 1] = .ok t1 ∧
      t1.data = (Tensor.ofData [2, 3, 4] (iota 24)).data ∧
      t1.old = some (Tensor.ofData [2, 3, 4] (iota 24)).ap ∧
      t1.Transpose 130 = .ok t2 ∧ t1.T 130 [1, 0, 2] = .ok t3 ∧ t3.data = t2.data ∧
      t3.Shape = permuteList [1, 0, 2]
        (permuteList [2, 0, 1] (Tensor.ofData [2, 3, 4] (iota 24)).Shape) ∧
      t3.old = some ⟨permuteList [2, 0, 1] (Tensor.ofData [2, 3, 4] (iota 24)).Shape,
        rowMajor (permuteList [2, 0, 1] (Tensor.ofData [2, 3, 4] (iota 24)).Shape), true⟩ ∧
      t3.transposeWith = some [1, 0, 2]) ∧
    (∃ t1 t3, (Tensor.ofData [2, 3, 4] (iota 24)).T 130 [2, 0, 1] = .ok t1 ∧
      t1.T 130 [1, 0, 2] = .ok t3 ∧
      t3.data = [0, 4, 8, 12, 16, 20, 1, 5, 9, 13, 17, 21, 2, 6, 10, 14, 18, 22, 3, 7, 11,
        15, 19, 23] ∧
      t3.Shape = [2, 4, 3] ∧ t3.old = some ⟨[4, 2, 3], [6, 3, 1], true⟩) :=
  ⟨C27_T_materialises_pending 130 (Tensor.ofData [2, 3, 4] (iota 24)) [2, 0, 1] [1, 0, 2]
      (by decide) rfl rfl (by decide) rfl (by decide) (by decide)
      ((isPermutation_iff_perm _ _).1 (by decide)) (by decide)
      ((isPermutation_iff_perm _ _).1 (by decide)) (by decide) (by decide) (by decide),
    ⟨_, _, rfl, rfl, rfl, rfl, rfl⟩⟩

/-! ## C31: windows of slices that pass the validation of `Slice` -/

/-- C31: slices that pass the validation of `Slice` (`start ≥ 0` and
`end ≤ size` on every axis, `sliceBounds` returns no error) whose window is not
inside the buffer. On the contiguous 3x4 tensor over 0..11, which is not a
view, `T[0:0, 0:1]` gives the extents (0,1) and the window `nd_start = 0`,
`nd_end = -3`, and taking `data[0:-3]` panics. On the contiguous vector of
shape (4) over 0..3, `T[3:1]` gives the extent -2 and the window `nd_start = 3`,
`nd_end = 1`, and taking `data[3:1]` panics. On the 3x4 tensor, `T[0:2, 3:0]`
gives the extents (2,-3) and the window `[3, 4)` of one element, and a scalar
view on `[3]` is returned although no axis has extent 1. -/
theorem C31_slice_validation_admits_unsafe_windows :
    ∃ m v, NewTensor [.WithShape [3, 4], .WithBacking (iota 12)] = .ok m ∧
      NewTensor [.WithShape [4], .WithBacking (iota 4)] = .ok v ∧
      m.IsView = false ∧ v.IsView = false ∧
      m.Strides = [4, 1] ∧ v.Strides = [1] ∧ len m.data = 12 ∧ len v.data = 4 ∧
      sliceBounds (some (.rangedSlice 0 0)) 3 = .ok (0, 0) ∧
      sliceBounds (some (.rangedSlice 0 1)) 4 = .ok (0, 1) ∧
      m.sliceLoop [some (.rangedSlice 0 0), some (.rangedSlice 0 1)] 2 2 2 0 0 12 [3, 4]
        = .ok (0, -3, [0, 1]) ∧
      m.Slice [some (.rangedSlice 0 0), some (.rangedSlice 0 1)] = .error .goPanic ∧
      sliceBounds (some (.rangedSlice 3 1)) 4 = .ok (3, 1) ∧
      v.sliceLoop [some (.rangedSlice 3 1)] 1 1 1 0 0 4 [4] = .ok (3, 1, [-2]) ∧
      v.Slice [some (.rangedSlice 3 1)] = .error .goPanic ∧
      sliceBounds (some (.rangedSlice 0 2)) 3 = .ok (0, 2) ∧
      sliceBounds (some (.rangedSlice 3 0)) 4 = .ok (3, 0) ∧
      m.sliceLoop [some (.rangedSlice 0 2), some (.rangedSlice 3 0)] 2 2 2 0 0 12 [3, 4]
        = .ok (3, 4, [2, -3]) ∧
      ∃ s, m.Slice [some (.rangedSlice 0 2), some (.rangedSlice 3 0)] = .ok s ∧
        s.IsScalar = true ∧ s.data = [3] :=
  ⟨_, _, rfl, rfl, rfl, rfl, rfl, rfl, rfl, rfl, rfl, rfl, rfl, rfl, rfl, rfl, rfl, rfl, rfl,
    rfl, _, rfl, rfl, rfl⟩

/-! ## C32: `Repeat` with a count of 0 -/

/-- C32: on the contiguous 2x2 matrix `[[1,2],[3,4]]`, `Repeat(0, 0, 1)` returns
a tensor of shape (1,2) whose data is `[2,3]`: the new shape is a row vector, so
the source advances by the stride 1 of the special case for vectors, not by the
row length 2, and the copy starts at offset 1. The slab with the positive count
is the second row, `[3,4]`. With the counts (1,0) the data is `[1,2]`; with the
counts (0,2), where the new shape (2,2) is not a vector, the data is
`[3,4,3,4]`; along axis 1 with the counts (0,1) the result has shape (2,1) and
data `[2,4]`. -/
theorem C32_repeat_zero_count_row_vector_result :
    ∃ t r, NewTensor [.WithShape [2, 2], .WithBacking [1, 2, 3, 4]] = .ok t ∧
      t.IsView = false ∧ t.Strides = [2, 1] ∧
      t.Repeat 0 [0, 1] = .ok r ∧ r.Shape = [1, 2] ∧ r.data = [2, 3] ∧
      Shape.IsVector [1, 2] = true ∧
      slab t.data 2 2 = [3, 4] ∧ expandAxis t.data 2 0 [0, 1] = [3, 4] ∧
      (∃ r1, t.Repeat 0 [1, 0] = .ok r1 ∧ r1.Shape = [1, 2] ∧ r1.data = [1, 2]) ∧
      (∃ r2, t.Repeat 0 [0, 2] = .ok r2 ∧ r2.Shape = [2, 2] ∧ r2.data = [3, 4, 3, 4]) ∧
      (∃ r3, t.Repeat 1 [0, 1] = .ok r3 ∧ r3.Shape = [2, 1] ∧ r3.data = [2, 4]) :=
  ⟨_, _, rfl, rfl, rfl, rfl, rfl, rfl, rfl, rfl, rfl, ⟨_, rfl, rfl, rfl⟩, ⟨_, rfl, rfl, rfl⟩,
    ⟨_, rfl, rfl, rfl⟩⟩


end Gorgonia
